import Mathlib

/-!
# miniGoogle: on-disk index writer, readers and query processor

A shallow embedding of `hw3/WriteIndex.cc`, `hw3/HashTableReader.cc`,
`hw3/DocIDTableReader.cc`, `hw3/FileIndexReader.cc` and `hw3/QueryProcessor.cc`.

Conventions.
* A byte is a natural number; a file is a list of bytes together with a cursor.
* C integers are `Int` / `Nat` values reduced explicitly to their width
  (`toInt16`, `toInt32`, `toUInt32`, `toUInt64`).
* A function that aborts the process (`Verify333`) returns `none`.
* The writer's functions return the C `int` (`kFailedWrite = -1` on failure)
  together with the file state they leave behind.
-/

namespace hw3

/-! ## Machine integers -/

/-- Conversion to `uint32_t` / `unsigned`. -/
@[irreducible] def toUInt32 (x : Int) : Nat := (x % 4294967296).toNat

/-- Conversion to `uint64_t` / `size_t`. -/
@[irreducible] def toUInt64 (x : Int) : Nat := (x % 18446744073709551616).toNat

/-- Conversion to `int16_t` (two's complement): the low 16 bits, read as signed. -/
@[irreducible] def toInt16 (x : Int) : Int :=
  let u := (x % 65536).toNat
  if u < 32768 then (u : Int) else -((65536 - u : Nat) : Int)

/-- Conversion to `int32_t` / `int` (two's complement): the low 32 bits, read as
signed. -/
@[irreducible] def toInt32 (x : Int) : Int :=
  let u := toUInt32 x
  if u < 2147483648 then (u : Int) else -((4294967296 - u : Nat) : Int)

/-! ## Files -/

/-- A `FILE *`: the bytes of the underlying file and the stream cursor. -/
structure FILE where
  bytes : List Nat
  pos : Nat
deriving DecidableEq, Repr

/-- Bytes of a file after `bs` is stored at offset `off`; a gap between the old end
of file and `off` reads as zero bytes, and storing nothing leaves the file as it is. -/
def pwrite (bytes : List Nat) (off : Nat) (bs : List Nat) : List Nat :=
  if bs.isEmpty then bytes
  else
    bytes.take off ++ List.replicate (off - bytes.length) 0 ++ bs ++ bytes.drop (off + bs.length)

/-- `fseek(f, off, SEEK_SET)` on a healthy stream: fails only when `off`, taken as a
`long`, is negative. -/
def fseek (f : FILE) (off : Nat) : Option FILE :=
  if off < 9223372036854775808 then some { f with pos := off } else none

/-- `fread` of `n` bytes at the cursor; `none` is a short read. -/
def fread (f : FILE) (n : Nat) : Option (List Nat × FILE) :=
  if f.pos + n ≤ f.bytes.length then
    some ((f.bytes.drop f.pos).take n, { f with pos := f.pos + n })
  else none

/-- What a completed `fwrite` of `bs` at the cursor does to the stream. -/
def FILE.write (f : FILE) (bs : List Nat) : FILE :=
  { bytes := pwrite f.bytes f.pos bs, pos := f.pos + bs.length }

/-- The storage device under the writer: which requests it serves.  A device that
refuses a request models an I/O error (disk full, quota, bad sector). -/
structure Device where
  openOk : Bool
  seekOk : Nat → Bool
  writeOk : Nat → Nat → Bool

/-- A device that serves every request. -/
def Device.reliable : Device := ⟨true, fun _ => true, fun _ _ => true⟩

/-- The writer's `fseek(f, off, SEEK_SET)`. -/
def Device.fseek (dev : Device) (f : FILE) (off : Nat) : Option FILE :=
  if dev.seekOk off then hw3.fseek f off else none

/-- The writer's `fwrite(bs, 1, bs.length, f)`: `none` when fewer items than asked were
written.  A request for zero items writes nothing and succeeds. -/
def Device.fwrite (dev : Device) (f : FILE) (bs : List Nat) : Option FILE :=
  if bs.isEmpty then some f
  else if dev.writeOk f.pos bs.length then some (f.write bs) else none

/-! ## Layout and byte-order codec -/

/-- Modelled from the spec: `LayoutStructs.h` is not among the sources; every
multi-byte field is stored in network (big-endian) order.  A 16-bit field. -/
def be16 (x : Nat) : List Nat := [x / 256 % 256, x % 256]

/-- Modelled from the spec: a 32-bit field in network order. -/
def be32 (x : Nat) : List Nat :=
  [x / 16777216 % 256, x / 65536 % 256, x / 256 % 256, x % 256]

/-- Modelled from the spec: a 64-bit field in network order. -/
def be64 (x : Nat) : List Nat :=
  be32 (x / 4294967296 % 4294967296) ++ be32 (x % 4294967296)

/-- Modelled from the spec: the value of a field stored in network order. -/
def fromBE (bs : List Nat) : Nat := bs.foldl (fun a b => a * 256 + b) 0

/-- Modelled from the spec: `sizeof(IndexFileHeader)`,
`{magic: u32, checksum: u32, doctableBytes: u32, indexBytes: u32}`. -/
def sizeofIndexFileHeader : Nat := 16

/-- Modelled from the spec: `sizeof(BucketListHeader)`, `{numBuckets: u32}`. -/
def sizeofBucketListHeader : Nat := 4

/-- Modelled from the spec: `sizeof(BucketRecord)`, `{chainLen: i32, chainOffset: u64}`. -/
def sizeofBucketRecord : Nat := 12

/-- Modelled from the spec: `sizeof(ElementPositionRecord)`, `{elemOffset: u64}`. -/
def sizeofElementPositionRecord : Nat := 8

/-- Modelled from the spec: `sizeof(DoctableElementHeader)`, `{docID: u64, nameLen: i16}`. -/
def sizeofDoctableElementHeader : Nat := 10

/-- Modelled from the spec: `sizeof(WordPostingsHeader)`,
`{wordLen: i16, nestedRegionLen: i32}`. -/
def sizeofWordPostingsHeader : Nat := 6

/-- Modelled from the spec: `sizeof(DocIDElementHeader)`, `{docID: u64, numPositions: i32}`. -/
def sizeofDocIDElementHeader : Nat := 12

/-- Modelled from the spec: `sizeof(DocIDElementPosition)`, `{position: u32}`. -/
def sizeofDocIDElementPosition : Nat := 4

/-- The file header in host format. -/
structure IndexFileHeader where
  magic_number : Nat
  checksum : Nat
  doctable_bytes : Nat
  index_bytes : Nat
deriving DecidableEq, Repr

/-- `IndexFileHeader(magic, checksum, doctable_bytes, index_bytes)` followed by
`ToDiskFormat()`: the sixteen bytes that reach the file. -/
def IndexFileHeader.ToDiskFormat (magic checksum : Nat) (doctable_bytes index_bytes : Int) :
    List Nat :=
  be32 (toUInt32 magic) ++ be32 (toUInt32 checksum) ++
    be32 (toUInt32 doctable_bytes) ++ be32 (toUInt32 index_bytes)

/-- Sixteen bytes read from a file followed by `ToHostFormat()`. -/
def IndexFileHeader.ToHostFormat (bs : List Nat) : IndexFileHeader :=
  { magic_number := fromBE (bs.take 4)
    checksum := fromBE ((bs.drop 4).take 4)
    doctable_bytes := fromBE ((bs.drop 8).take 4)
    index_bytes := fromBE ((bs.drop 12).take 4) }

/-- `BucketListHeader(num_buckets)` in disk format. -/
def BucketListHeader.ToDiskFormat (num_buckets : Int) : List Nat := be32 (toUInt32 num_buckets)

/-- `BucketRecord(chain_num_elements, position)` in disk format. -/
def BucketRecord.ToDiskFormat (chain_num_elements : Int) (position : Nat) : List Nat :=
  be32 (toUInt32 chain_num_elements) ++ be64 position

/-- A bucket record in host format. -/
structure BucketRecord where
  chain_num_elements : Int
  position : Nat
deriving DecidableEq, Repr

/-- Twelve bytes read from a file followed by `ToHostFormat()`. -/
def BucketRecord.ToHostFormat (bs : List Nat) : BucketRecord :=
  { chain_num_elements := toInt32 (fromBE (bs.take 4))
    position := fromBE ((bs.drop 4).take 8) }

/-- `ElementPositionRecord(position)` in disk format. -/
def ElementPositionRecord.ToDiskFormat (position : Nat) : List Nat := be64 position

/-- `DoctableElementHeader(doc_id, file_name_bytes)` in disk format. -/
def DoctableElementHeader.ToDiskFormat (doc_id : Nat) (file_name_bytes : Int) : List Nat :=
  be64 doc_id ++ be16 (file_name_bytes % 65536).toNat

/-- `WordPostingsHeader(word_bytes, postings_bytes)` in disk format. -/
def WordPostingsHeader.ToDiskFormat (word_bytes postings_bytes : Int) : List Nat :=
  be16 (word_bytes % 65536).toNat ++ be32 (toUInt32 postings_bytes)

/-- `DocIDElementHeader(doc_id, num_positions)` in disk format. -/
def DocIDElementHeader.ToDiskFormat (doc_id : Nat) (num_positions : Int) : List Nat :=
  be64 doc_id ++ be32 (toUInt32 num_positions)

/-- A docID element header in host format. -/
structure DocIDElementHeader where
  doc_id : Nat
  num_positions : Int
deriving DecidableEq, Repr

/-- Twelve bytes read from a file followed by `ToHostFormat()`. -/
def DocIDElementHeader.ToHostFormat (bs : List Nat) : DocIDElementHeader :=
  { doc_id := fromBE (bs.take 8)
    num_positions := toInt32 (fromBE ((bs.drop 8).take 4)) }

/-- `DocIDElementPosition(position)` in disk format. -/
def DocIDElementPosition.ToDiskFormat (position : Nat) : List Nat := be32 position

/-! ## In-memory tables (`libhw1`, `hw2`) -/

/-- `HTKeyValue_t`: a 64-bit key and a value. -/
structure HTKeyValue_t (V : Type) where
  key : Nat
  value : V
deriving DecidableEq, Repr

/-- `HashTable` as the writer sees it through `HashTable_priv.h`: the array of bucket
chains.  `num_buckets` is the length of the array. -/
structure HashTable (V : Type) where
  buckets : List (List (HTKeyValue_t V))
deriving DecidableEq, Repr

/-- The `int num_buckets` field of a hash table. -/
def HashTable.num_buckets {V : Type} (ht : HashTable V) : Int := toInt32 ht.buckets.length

/-- `LinkedList_NumElements`: the `int` element count of a list. -/
def LinkedList_NumElements {A : Type} (li : List A) : Int := toInt32 li.length

/-- `WordPostings`: a word and its docID -> positions table.  A C string is the list
of its bytes before the terminator. -/
structure WordPostings where
  word : List Nat
  postings : HashTable (List Nat)
deriving DecidableEq, Repr

/-- `MemIndex`: the word-hash -> `WordPostings` table. -/
abbrev MemIndex := HashTable WordPostings

/-- `struct doctable_st` of `hw2/DocTable.c`. -/
structure DocTable where
  id_to_name : HashTable (List Nat)
  name_to_id : HashTable Nat
  max_id : Nat
deriving DecidableEq, Repr

/-- `DT_GetIDToNameTable`. -/
def DT_GetIDToNameTable (table : DocTable) : HashTable (List Nat) := table.id_to_name

/-! ## Checksum -/

/-- Modelled from the spec: class `CRC32` of `Utils.h` is not among the sources; the
checksum is the 32-bit cyclic redundancy check (reflected polynomial `0xEDB88320`).
One shift of the CRC register. -/
def CRC32.shift (s : Nat) : Nat :=
  if s % 2 = 1 then (s / 2) ^^^ 3988292384 else s / 2

/-- Modelled from the spec: the initial state of a `CRC32` object. -/
def CRC32.init : Nat := 4294967295

/-- Modelled from the spec: `CRC32::FoldByteIntoCRC`; the argument is a `uint8_t`. -/
def CRC32.FoldByteIntoCRC (s : Nat) (byte : Nat) : Nat :=
  CRC32.shift (CRC32.shift (CRC32.shift (CRC32.shift (CRC32.shift (CRC32.shift
    (CRC32.shift (CRC32.shift (s ^^^ (byte % 256)))))))))

/-- Modelled from the spec: `CRC32::GetFinalCRC`. -/
def CRC32.GetFinalCRC (s : Nat) : Nat := s ^^^ 4294967295

/-! ## `WriteIndex.cc` -/

/-- `kFailedWrite`. -/
def kFailedWrite : Int := -1

/-- `WriteElementFn`: writes one key/value at an offset, returns the byte count or
`kFailedWrite`. -/
abbrev WriteElementFn (V : Type) := FILE → Nat → HTKeyValue_t V → Int × FILE

/-- `WriteHTBucketRecord`. -/
def WriteHTBucketRecord (dev : Device) (f : FILE) (offset : Nat) (num_elts : Int)
    (bucket_offset : Nat) : Int × FILE :=
  match dev.fseek f offset with
  | none => (kFailedWrite, f)
  | some f1 =>
    match dev.fwrite f1 (BucketRecord.ToDiskFormat num_elts bucket_offset) with
    | none => (kFailedWrite, f1)
    | some f2 => (sizeofBucketRecord, f2)

/-- The element loop of `WriteHTBucket`, from the state at the top of an iteration to
the function's return. -/
def WriteHTBucket_loop {V : Type} (dev : Device) (fn : WriteElementFn V) (offset : Nat) :
    List (HTKeyValue_t V) → FILE → Nat → Nat → Int × FILE
  | [], f, _, element_pos => (toInt32 ((element_pos : Int) - offset), f)
  | kv :: rest, f, record_pos, element_pos =>
    match dev.fseek f record_pos with
    | none => (kFailedWrite, f)
    | some f1 =>
      match dev.fwrite f1 (ElementPositionRecord.ToDiskFormat element_pos) with
      | none => (kFailedWrite, f1)
      | some f2 =>
        let r := fn f2 element_pos kv
        if r.1 = kFailedWrite then (kFailedWrite, r.2)
        else WriteHTBucket_loop dev fn offset rest r.2
          (toUInt64 (record_pos + sizeofElementPositionRecord))
          (toUInt64 (element_pos + r.1))

/-- `WriteHTBucket`. -/
def WriteHTBucket {V : Type} (dev : Device) (f : FILE) (offset : Nat)
    (li : List (HTKeyValue_t V)) (fn : WriteElementFn V) : Int × FILE :=
  let num_elts := LinkedList_NumElements li
  if num_elts = 0 then (0, f)
  else
    WriteHTBucket_loop dev fn offset (li.take num_elts.toNat) f offset
      (toUInt64 (offset + sizeofElementPositionRecord * num_elts))

/-- The bucket loop of `WriteHashTable`, from the state at the top of an iteration to
the function's return. -/
def WriteHashTable_loop {V : Type} (dev : Device) (fn : WriteElementFn V) (offset : Nat) :
    List (List (HTKeyValue_t V)) → FILE → Nat → Nat → Int × FILE
  | [], f, _, bucket_pos => (toInt32 ((bucket_pos : Int) - offset), f)
  | li :: rest, f, record_pos, bucket_pos =>
    let num_elts := LinkedList_NumElements li
    let r1 := WriteHTBucketRecord dev f record_pos num_elts bucket_pos
    if r1.1 = kFailedWrite then (kFailedWrite, r1.2)
    else
      let r2 := if num_elts > 0 then WriteHTBucket dev r1.2 bucket_pos li fn else (0, r1.2)
      if r2.1 = kFailedWrite then (kFailedWrite, r2.2)
      else WriteHashTable_loop dev fn offset rest r2.2
        (toUInt64 (record_pos + sizeofBucketRecord))
        (toUInt64 (bucket_pos + r2.1))

/-- `WriteHashTable`. -/
def WriteHashTable {V : Type} (dev : Device) (f : FILE) (offset : Nat) (ht : HashTable V)
    (fn : WriteElementFn V) : Int × FILE :=
  match dev.fseek f offset with
  | none => (kFailedWrite, f)
  | some f1 =>
    match dev.fwrite f1 (BucketListHeader.ToDiskFormat ht.num_buckets) with
    | none => (kFailedWrite, f1)
    | some f2 =>
      WriteHashTable_loop dev fn offset (ht.buckets.take ht.num_buckets.toNat) f2
        (toUInt64 (offset + sizeofBucketListHeader))
        (toUInt64 (offset + sizeofBucketListHeader + ht.num_buckets * sizeofBucketRecord))

/-- `fwrite(s, sizeof(char), n, f) != static_cast<size_t>(n)` for a C string `s` and a
16-bit count `n`: a negative `n` asks for more bytes than any buffer holds and the
comparison fails. -/
def fwriteString (dev : Device) (f : FILE) (s : List Nat) (n : Int) : Option FILE :=
  if n < 0 then none else dev.fwrite f (s.take n.toNat)

/-- `WriteDocidToDocnameFn`. -/
def WriteDocidToDocnameFn (dev : Device) : WriteElementFn (List Nat) := fun f offset kv =>
  let file_name := kv.value
  let file_name_bytes := toInt16 file_name.length
  match dev.fseek f offset with
  | none => (kFailedWrite, f)
  | some f1 =>
    match dev.fwrite f1 (DoctableElementHeader.ToDiskFormat kv.key file_name_bytes) with
    | none => (kFailedWrite, f1)
    | some f2 =>
      match fwriteString dev f2 file_name file_name_bytes with
      | none => (kFailedWrite, f2)
      | some f3 => (toInt32 (sizeofDoctableElementHeader + file_name_bytes), f3)

/-- The position loop of `WriteDocIDToPositionListFn`, from the top of an iteration
to the function's return. -/
def WriteDocIDToPositionListFn_loop (dev : Device) (num_positions : Int) :
    List Nat → FILE → Int × FILE
  | [], f => (toInt32 (sizeofDocIDElementHeader + num_positions * sizeofDocIDElementPosition), f)
  | payload :: rest, f =>
    let pos := payload % 4294967296
    match dev.fwrite f (DocIDElementPosition.ToDiskFormat pos) with
    | none => (kFailedWrite, f)
    | some f1 => WriteDocIDToPositionListFn_loop dev num_positions rest f1

/-- `WriteDocIDToPositionListFn`. -/
def WriteDocIDToPositionListFn (dev : Device) : WriteElementFn (List Nat) := fun f offset kv =>
  let doc_id := kv.key
  let positions := kv.value
  let num_positions := LinkedList_NumElements positions
  match dev.fseek f offset with
  | none => (kFailedWrite, f)
  | some f1 =>
    match dev.fwrite f1 (DocIDElementHeader.ToDiskFormat doc_id num_positions) with
    | none => (kFailedWrite, f1)
    | some f2 =>
      WriteDocIDToPositionListFn_loop dev num_positions (positions.take num_positions.toNat) f2

/-- `WriteWordToPostingsFn`. -/
def WriteWordToPostingsFn (dev : Device) : WriteElementFn WordPostings := fun f offset kv =>
  let wp := kv.value
  let word_bytes := toInt16 wp.word.length
  let r := WriteHashTable dev f (toUInt64 (offset + sizeofWordPostingsHeader + word_bytes))
    wp.postings (WriteDocIDToPositionListFn dev)
  if r.1 = kFailedWrite then (kFailedWrite, r.2)
  else
    match dev.fseek r.2 offset with
    | none => (kFailedWrite, r.2)
    | some f1 =>
      match dev.fwrite f1 (WordPostingsHeader.ToDiskFormat word_bytes r.1) with
      | none => (kFailedWrite, f1)
      | some f2 =>
        match fwriteString dev f2 wp.word word_bytes with
        | none => (kFailedWrite, f2)
        | some f3 => (toInt32 (sizeofWordPostingsHeader + word_bytes + r.1), f3)

/-- `WriteDocTable`. -/
def WriteDocTable (dev : Device) (f : FILE) (dt : DocTable) (offset : Nat) : Int × FILE :=
  WriteHashTable dev f offset (DT_GetIDToNameTable dt) (WriteDocidToDocnameFn dev)

/-- `WriteMemIndex`. -/
def WriteMemIndex (dev : Device) (f : FILE) (mi : MemIndex) (offset : Nat) : Int × FILE :=
  WriteHashTable dev f offset mi (WriteWordToPostingsFn dev)

/-- The checksum loop of `WriteHeader`: read `n` bytes one at a time from the cursor and
fold each into the CRC; `none` when a read comes back short. -/
def WriteHeader_loop : Nat → FILE → Nat → Option (Nat × FILE)
  | 0, f, crc => some (crc, f)
  | n + 1, f, crc =>
    match fread f 1 with
    | none => none
    | some (buf, f1) => WriteHeader_loop n f1 (CRC32.FoldByteIntoCRC crc (buf.headD 0))

/-- `WriteHeader`. -/
def WriteHeader (kMagicNumber : Nat) (dev : Device) (f : FILE)
    (doctable_bytes memidx_bytes : Int) : Int × FILE :=
  let dt_start := sizeofIndexFileHeader
  let total_bytes := toUInt64 (toInt32 (doctable_bytes + memidx_bytes))
  match dev.fseek f dt_start with
  | none => (kFailedWrite, f)
  | some f1 =>
    match WriteHeader_loop total_bytes f1 CRC32.init with
    | none => (kFailedWrite, f1)
    | some (crc, f2) =>
      match dev.fseek f2 0 with
      | none => (kFailedWrite, f2)
      | some f3 =>
        match dev.fwrite f3 (IndexFileHeader.ToDiskFormat kMagicNumber (CRC32.GetFinalCRC crc)
            doctable_bytes memidx_bytes) with
        | none => (kFailedWrite, f3)
        | some f4 => (sizeofIndexFileHeader, f4)

/-- `WriteIndex`: the returned `int` and the content of `file_name` afterwards
(`none`: no such file).  `old` is what `file_name` held before the call. -/
def WriteIndex (kMagicNumber : Nat) (dev : Device) (mi : MemIndex) (dt : DocTable)
    (old : Option (List Nat)) : Int × Option (List Nat) :=
  if dev.openOk = false then (kFailedWrite, old)
  else
    let f : FILE := ⟨[], 0⟩
    let cur_pos := sizeofIndexFileHeader
    let r1 := WriteDocTable dev f dt cur_pos
    if r1.1 = kFailedWrite then (kFailedWrite, none)
    else
      let cur_pos := toUInt64 (cur_pos + r1.1)
      let r2 := WriteMemIndex dev r1.2 mi cur_pos
      if r2.1 = kFailedWrite then (kFailedWrite, none)
      else
        let cur_pos := toUInt64 (cur_pos + r2.1)
        let r3 := WriteHeader kMagicNumber dev r2.2 r1.1 r2.1
        if r3.1 = kFailedWrite then (kFailedWrite, none)
        else (toInt32 cur_pos, some r3.2.bytes)

/-! ## `HashTableReader.cc` -/

/-- `HashTableReader`: the stream, the region's offset and the bucket count read from
the region's `BucketListHeader`.  `DocIDTableReader`, `DocTableReader` and
`IndexTableReader` are subclasses without further fields. -/
structure HashTableReader where
  file_ : FILE
  offset_ : Nat
  header_ : Nat
deriving DecidableEq, Repr

/-- `HashTableReader::HashTableReader`. -/
def HashTableReader.construct (f : FILE) (offset : Nat) : Option HashTableReader :=
  match fseek f offset with
  | none => none
  | some f1 =>
    match fread f1 sizeofBucketListHeader with
    | none => none
    | some (buf, f2) => some { file_ := f2, offset_ := offset, header_ := fromBE buf }

/-- The loop of `LookupElementPositions`: `n` iterations left, `i` the loop counter. -/
def LookupElementPositions_loop (position : Nat) :
    Nat → Nat → FILE → List Nat → Option (List Nat × FILE)
  | 0, _, f, ret_val => some (ret_val, f)
  | n + 1, i, f, ret_val =>
    let pos_offset := toUInt64 (position + i * sizeofElementPositionRecord)
    match fseek f pos_offset with
    | none => none
    | some f1 =>
      match fread f1 sizeofElementPositionRecord with
      | none => none
      | some (buf, f2) =>
        LookupElementPositions_loop position n (i + 1) f2 (ret_val ++ [fromBE buf])

/-- The locals `bucket_num` and `bucket_rec_offset` of `LookupElementPositions`. -/
def HashTableReader.bucket_rec_offset (r : HashTableReader) (hash_key : Nat) : Nat :=
  let bucket_num := toInt32 ((hash_key % r.header_ : Nat) : Int)
  toUInt64 (r.offset_ + sizeofBucketListHeader + sizeofBucketRecord * bucket_num)

/-- `HashTableReader::LookupElementPositions`.  A zero bucket count makes `%` trap. -/
def HashTableReader.LookupElementPositions (r : HashTableReader) (hash_key : Nat) :
    Option (List Nat × HashTableReader) :=
  if r.header_ = 0 then none
  else
    match fseek r.file_ (r.bucket_rec_offset hash_key) with
    | none => none
    | some f1 =>
      match fread f1 sizeofBucketRecord with
      | none => none
      | some (buf, f2) =>
        let bucket_rec := BucketRecord.ToHostFormat buf
        match LookupElementPositions_loop bucket_rec.position
            bucket_rec.chain_num_elements.toNat 0 f2 [] with
        | none => none
        | some (ret_val, f3) => some (ret_val, { r with file_ := f3 })

/-! ## `DocIDTableReader.cc` -/

/-- The position loop of `LookupDocID`: `n` positions left to read at the cursor. -/
def LookupDocID_positions : Nat → FILE → List Nat → Option (List Nat × FILE)
  | 0, f, ret_val => some (ret_val, f)
  | n + 1, f, ret_val =>
    match fread f sizeofDocIDElementPosition with
    | none => none
    | some (buf, f1) => LookupDocID_positions n f1 (ret_val ++ [fromBE buf])

/-- The element loop of `LookupDocID`. -/
def LookupDocID_loop (doc_id : Nat) :
    List Nat → FILE → List Nat → Option (Bool × List Nat × FILE)
  | [], f, ret_val => some (false, ret_val, f)
  | curr :: rest, f, ret_val =>
    match fseek f curr with
    | none => none
    | some f1 =>
      match fread f1 sizeofDocIDElementHeader with
      | none => none
      | some (buf, f2) =>
        let curr_header := DocIDElementHeader.ToHostFormat buf
        if curr_header.doc_id = doc_id then
          match LookupDocID_positions curr_header.num_positions.toNat f2 ret_val with
          | none => none
          | some (ret_val1, f3) => some (true, ret_val1, f3)
        else LookupDocID_loop doc_id rest f2 ret_val

/-- `DocIDTableReader::LookupDocID`: the returned `bool`, the list `*ret_val` after
the call and the reader after the call. -/
def DocIDTableReader.LookupDocID (r : HashTableReader) (doc_id : Nat) (ret_val : List Nat) :
    Option (Bool × List Nat × HashTableReader) :=
  match r.LookupElementPositions doc_id with
  | none => none
  | some (elements, r1) =>
    if elements.isEmpty then some (false, ret_val, r1)
    else
      match LookupDocID_loop doc_id elements r1.file_ ret_val with
      | none => none
      | some (found, ret_val1, f1) => some (found, ret_val1, { r1 with file_ := f1 })

/-- The chain loop of `GetDocIDList`: `n` iterations left, `j` the loop counter. -/
def GetDocIDList_chain (position : Nat) :
    Nat → Nat → FILE → List DocIDElementHeader → Option (List DocIDElementHeader × FILE)
  | 0, _, f, doc_id_list => some (doc_id_list, f)
  | n + 1, j, f, doc_id_list =>
    match fseek f (toUInt64 (position + j * sizeofElementPositionRecord)) with
    | none => none
    | some f1 =>
      match fread f1 sizeofElementPositionRecord with
      | none => none
      | some (buf, f2) =>
        match fseek f2 (fromBE buf) with
        | none => none
        | some f3 =>
          match fread f3 sizeofDocIDElementHeader with
          | none => none
          | some (buf1, f4) =>
            GetDocIDList_chain position n (j + 1) f4
              (doc_id_list ++ [DocIDElementHeader.ToHostFormat buf1])

/-- The bucket loop of `GetDocIDList`: `n` iterations left, `i` the loop counter. -/
def GetDocIDList_loop (offset_ : Nat) :
    Nat → Nat → FILE → List DocIDElementHeader → Option (List DocIDElementHeader × FILE)
  | 0, _, f, doc_id_list => some (doc_id_list, f)
  | n + 1, i, f, doc_id_list =>
    let bucket_rec_offset := toUInt64 (offset_ + sizeofBucketListHeader + i * sizeofBucketRecord)
    match fseek f bucket_rec_offset with
    | none => none
    | some f1 =>
      match fread f1 sizeofBucketRecord with
      | none => none
      | some (buf, f2) =>
        let bucket_rec := BucketRecord.ToHostFormat buf
        match GetDocIDList_chain bucket_rec.position bucket_rec.chain_num_elements.toNat 0 f2
            doc_id_list with
        | none => none
        | some (doc_id_list1, f3) => GetDocIDList_loop offset_ n (i + 1) f3 doc_id_list1

/-- `DocIDTableReader::GetDocIDList`. -/
def DocIDTableReader.GetDocIDList (r : HashTableReader) :
    Option (List DocIDElementHeader × HashTableReader) :=
  match GetDocIDList_loop r.offset_ r.header_ 0 r.file_ [] with
  | none => none
  | some (doc_id_list, f1) => some (doc_id_list, { r with file_ := f1 })

/-! ## Readers absent from the sources -/

/-- Modelled from the spec: `FileDup` of `Utils.h`; the duplicate reads the same file
through a cursor of its own. -/
def FileDup (f : FILE) : FILE := { bytes := f.bytes, pos := f.pos }

/-- Modelled from the spec: the candidate loop of `IndexTableReader::LookupWord`
("for each candidate offset read the word-postings element, compare the stored word
bytes against the query word, and on match construct a PostingsReader positioned at
the nested region's offset"). -/
def LookupWord_loop (word : List Nat) :
    List Nat → FILE → Option (Option HashTableReader × FILE)
  | [], f => some (none, f)
  | curr :: rest, f =>
    match fseek f curr with
    | none => none
    | some f1 =>
      match fread f1 sizeofWordPostingsHeader with
      | none => none
      | some (buf, f2) =>
        let word_bytes := toInt16 (fromBE (buf.take 2))
        match fread f2 word_bytes.toNat with
        | none => none
        | some (stored, f3) =>
          if stored = word then
            match HashTableReader.construct (FileDup f3)
                (toUInt64 (curr + sizeofWordPostingsHeader + word_bytes)) with
            | none => none
            | some ditr => some (some ditr, f3)
          else LookupWord_loop word rest f3

/-- Modelled from the spec: `IndexTableReader::LookupWord` (`IndexTableReader.cc` is
not among the sources): hash the word with the writer's hash function, consult the
generic reader, then walk the candidates.  `none` inside is the null pointer. -/
def IndexTableReader.LookupWord (FNVHash64 : List Nat → Nat) (r : HashTableReader)
    (word : List Nat) : Option (Option HashTableReader × HashTableReader) :=
  match r.LookupElementPositions (FNVHash64 word) with
  | none => none
  | some (elements, r1) =>
    match LookupWord_loop word elements r1.file_ with
    | none => none
    | some (res, f1) => some (res, { r1 with file_ := f1 })

/-- Modelled from the spec: the candidate loop of `DocTableReader::LookupDocID` ("for
each candidate offset reads the document element and compares stored docID for
equality"). -/
def DocTable_LookupDocID_loop (doc_id : Nat) :
    List Nat → FILE → Option (Option (List Nat) × FILE)
  | [], f => some (none, f)
  | curr :: rest, f =>
    match fseek f curr with
    | none => none
    | some f1 =>
      match fread f1 sizeofDoctableElementHeader with
      | none => none
      | some (buf, f2) =>
        if fromBE (buf.take 8) = doc_id then
          match fread f2 (toInt16 (fromBE ((buf.drop 8).take 2))).toNat with
          | none => none
          | some (name, f3) => some (some name, f3)
        else DocTable_LookupDocID_loop doc_id rest f2

/-- Modelled from the spec: `DocTableReader::LookupDocID` (`DocTableReader.cc` is not
among the sources).  `some name` inside is `true` with `*ret_str = name`. -/
def DocTableReader.LookupDocID (r : HashTableReader) (doc_id : Nat) :
    Option (Option (List Nat) × HashTableReader) :=
  match r.LookupElementPositions doc_id with
  | none => none
  | some (elements, r1) =>
    match DocTable_LookupDocID_loop doc_id elements r1.file_ with
    | none => none
    | some (res, f1) => some (res, { r1 with file_ := f1 })

/-! ## `FileIndexReader.cc` -/

/-- `FileIndexReader`: the open stream and the header in host format. -/
structure FileIndexReader where
  file_ : FILE
  header_ : IndexFileHeader
deriving DecidableEq, Repr

/-- `kBufSize` of the checksum loop. -/
def kBufSize : Int := 512

/-- The checksum loop of `FileIndexReader::FileIndexReader`.  Every iteration consumes at least one byte,
so `left_to_read` iterations are enough; the first argument counts them down. -/
def FileIndexReader_loop : Nat → Int → FILE → Nat → Option (Nat × FILE)
  | 0, left_to_read, f, crc => if left_to_read > 0 then none else some (crc, f)
  | n + 1, left_to_read, f, crc =>
    if left_to_read > 0 then
      let to_read := min kBufSize left_to_read
      match fread f to_read.toNat with
      | none => none
      | some (buf, f1) =>
        FileIndexReader_loop n (left_to_read - to_read) f1
          (buf.foldl CRC32.FoldByteIntoCRC crc)
    else some (crc, f)

/-- `FileIndexReader::FileIndexReader`; `file` is what `file_name` holds (`none`: it
cannot be opened). -/
def FileIndexReader.construct (kMagicNumber : Nat) (file : Option (List Nat))
    (validate : Bool) : Option FileIndexReader :=
  match file with
  | none => none
  | some bytes =>
    match fread ⟨bytes, 0⟩ sizeofIndexFileHeader with
    | none => none
    | some (buf, f1) =>
      let header_ := IndexFileHeader.ToHostFormat buf
      if header_.magic_number ≠ kMagicNumber then none
      else if bytes.length ≠
          toUInt32 (sizeofIndexFileHeader + header_.doctable_bytes + header_.index_bytes) then none
      else if validate then
        let left_to_read := toInt32 (header_.doctable_bytes + header_.index_bytes)
        match FileIndexReader_loop left_to_read.toNat left_to_read f1 CRC32.init with
        | none => none
        | some (crc, f2) =>
          if CRC32.GetFinalCRC crc = header_.checksum then
            some { file_ := f2, header_ := header_ }
          else none
      else some { file_ := f1, header_ := header_ }

/-- `FileIndexReader::NewDocTableReader`. -/
def FileIndexReader.NewDocTableReader (fir : FileIndexReader) : Option HashTableReader :=
  HashTableReader.construct (FileDup fir.file_) sizeofIndexFileHeader

/-- `FileIndexReader::NewIndexTableReader`. -/
def FileIndexReader.NewIndexTableReader (fir : FileIndexReader) : Option HashTableReader :=
  HashTableReader.construct (FileDup fir.file_)
    (toUInt64 (sizeofIndexFileHeader + fir.header_.doctable_bytes))

/-! ## `QueryProcessor.cc` -/

/-- `QueryProcessor::QueryResult`. -/
structure QueryResult where
  document_name : List Nat
  rank : Int
deriving DecidableEq, Repr

/-- `std::string::operator<`: lexicographic on the bytes. -/
def stringLt : List Nat → List Nat → Bool
  | [], [] => false
  | [], _ :: _ => true
  | _ :: _, [] => false
  | a :: as, b :: bs => decide (a < b) || (decide (a = b) && stringLt as bs)

/-- Modelled from the spec: `QueryResult::operator<` (`QueryProcessor.h` is not among
the sources), "the natural ordering of (name, rank) ascending". -/
def QueryResult.lt (a b : QueryResult) : Bool :=
  stringLt a.document_name b.document_name ||
    (decide (a.document_name = b.document_name) && decide (a.rank < b.rank))

/-- Where `std::sort` puts one more element in a sorted range. -/
def sort_insert (x : QueryResult) : List QueryResult → List QueryResult
  | [] => [x]
  | y :: ys => if QueryResult.lt y x then y :: sort_insert x ys else x :: y :: ys

/-- `std::sort(first, last)` with `operator<`.  The order is total, so the sorted
arrangement does not depend on the algorithm. -/
def sort (l : List QueryResult) : List QueryResult := l.foldr sort_insert []

/-- `QueryProcessor`: `dtr_array_[i]` and `itr_array_[i]`, paired. -/
structure QueryProcessor where
  readers : List (HashTableReader × HashTableReader)
deriving DecidableEq, Repr

/-- The loop of `QueryProcessor::QueryProcessor` over the index list. -/
def QueryProcessor_loop (kMagicNumber : Nat) (validate : Bool) :
    List (Option (List Nat)) → Option (List (HashTableReader × HashTableReader))
  | [] => some []
  | file :: rest =>
    match FileIndexReader.construct kMagicNumber file validate with
    | none => none
    | some fir =>
      match fir.NewDocTableReader, fir.NewIndexTableReader with
      | some dtr, some itr =>
        match QueryProcessor_loop kMagicNumber validate rest with
        | none => none
        | some rs => some ((dtr, itr) :: rs)
      | _, _ => none

/-- `QueryProcessor::QueryProcessor`; `index_list` holds what each named file holds. -/
def QueryProcessor.construct (kMagicNumber : Nat) (index_list : List (Option (List Nat)))
    (validate : Bool) : Option QueryProcessor :=
  if index_list.length = 0 then none
  else
    match QueryProcessor_loop kMagicNumber validate index_list with
    | none => none
    | some rs => some { readers := rs }

/-- The inner loop of the intersection step of `ProcessQuery`: scan `next` for the
docID of `x`; on the first hit push the entry with the summed counts and break. -/
def intersect_inner (x : DocIDElementHeader) :
    List DocIDElementHeader → List DocIDElementHeader → List DocIDElementHeader
  | [], intersection => intersection
  | y :: ys, intersection =>
    if x.doc_id = y.doc_id then
      intersection ++ [{ doc_id := x.doc_id
                         num_positions := toInt32 (x.num_positions + y.num_positions) }]
    else intersect_inner x ys intersection

/-- The outer loop of the intersection step of `ProcessQuery`, over `result`. -/
def intersect_outer (next : List DocIDElementHeader) :
    List DocIDElementHeader → List DocIDElementHeader → List DocIDElementHeader
  | [], intersection => intersection
  | x :: xs, intersection => intersect_outer next xs (intersect_inner x next intersection)

/-- The intersection step of `ProcessQuery`: the new `result`. -/
def intersect (result next : List DocIDElementHeader) : List DocIDElementHeader :=
  intersect_outer next result []

/-- The loop of `ProcessQuery` over `query[1..]`. -/
def ProcessQuery_terms (FNVHash64 : List Nat → Nat) :
    List (List Nat) → HashTableReader → List DocIDElementHeader →
      Option (List DocIDElementHeader × HashTableReader)
  | [], itr, result => some (result, itr)
  | w :: rest, itr, result =>
    match IndexTableReader.LookupWord FNVHash64 itr w with
    | none => none
    | some (none, itr1) => some ([], itr1)
    | some (some ditrj, itr1) =>
      match DocIDTableReader.GetDocIDList ditrj with
      | none => none
      | some (next, _) => ProcessQuery_terms FNVHash64 rest itr1 (intersect result next)

/-- The last loop of `ProcessQuery`'s body: docIDs to names. -/
def ProcessQuery_names :
    List DocIDElementHeader → HashTableReader → List QueryResult →
      Option (List QueryResult × HashTableReader)
  | [], dtr, final_result => some (final_result, dtr)
  | entry :: rest, dtr, final_result =>
    match DocTableReader.LookupDocID dtr entry.doc_id with
    | none => none
    | some (none, dtr1) => ProcessQuery_names rest dtr1 final_result
    | some (some docname, dtr1) =>
      ProcessQuery_names rest dtr1 (final_result ++ [⟨docname, entry.num_positions⟩])

/-- The body of `ProcessQuery`'s loop over the index files, for one file: what it
appends to `final_result` and the two readers afterwards. -/
def ProcessQuery_file (FNVHash64 : List Nat → Nat) (query0 : List Nat)
    (query_rest : List (List Nat)) (dtr itr : HashTableReader) (final_result : List QueryResult) :
    Option (List QueryResult × HashTableReader × HashTableReader) :=
  match IndexTableReader.LookupWord FNVHash64 itr query0 with
  | none => none
  | some (none, itr1) => some (final_result, dtr, itr1)
  | some (some ditr, itr1) =>
    match DocIDTableReader.GetDocIDList ditr with
    | none => none
    | some (result, _) =>
      match ProcessQuery_terms FNVHash64 query_rest itr1 result with
      | none => none
      | some (result1, itr2) =>
        match ProcessQuery_names result1 dtr final_result with
        | none => none
        | some (final_result1, dtr1) => some (final_result1, dtr1, itr2)

/-- The loop of `ProcessQuery` over the index files. -/
def ProcessQuery_loop (FNVHash64 : List Nat → Nat) (query0 : List Nat)
    (query_rest : List (List Nat)) :
    List (HashTableReader × HashTableReader) → List QueryResult →
      Option (List QueryResult × List (HashTableReader × HashTableReader))
  | [], final_result => some (final_result, [])
  | (dtr, itr) :: rest, final_result =>
    match ProcessQuery_file FNVHash64 query0 query_rest dtr itr final_result with
    | none => none
    | some (final_result1, dtr1, itr1) =>
      match ProcessQuery_loop FNVHash64 query0 query_rest rest final_result1 with
      | none => none
      | some (final_result2, rest1) => some (final_result2, (dtr1, itr1) :: rest1)

/-- `QueryProcessor::ProcessQuery`: the returned vector and the processor afterwards
(its readers' cursors have moved). -/
def QueryProcessor.ProcessQuery (FNVHash64 : List Nat → Nat) (qp : QueryProcessor)
    (query : List (List Nat)) : Option (List QueryResult × QueryProcessor) :=
  match query with
  | [] => none
  | query0 :: query_rest =>
    match ProcessQuery_loop FNVHash64 query0 query_rest qp.readers [] with
    | none => none
    | some (final_result, readers1) => some (sort final_result, { readers := readers1 })

/-! ## The byte layout of a written region

What the writer is proved to store (see `WriteHashTable_bytes` and `WriteIndex_bytes`
below).  `sz` is the encoded size of an element and `enc off kv` the bytes of the
element `kv` when it is stored at offset `off`. -/

/-- Sum of the encoded sizes of the elements of a chain. -/
def chainSize {V : Type} (sz : HTKeyValue_t V → Nat) (li : List (HTKeyValue_t V)) : Nat :=
  (li.map sz).sum

/-- Bytes taken by a bucket: one element-position record per element, then the
elements. -/
def bucketSize {V : Type} (sz : HTKeyValue_t V → Nat) (li : List (HTKeyValue_t V)) : Nat :=
  sizeofElementPositionRecord * li.length + chainSize sz li

/-- Sum of the sizes of a list of buckets. -/
def bucketsSize {V : Type} (sz : HTKeyValue_t V → Nat) (bs : List (List (HTKeyValue_t V))) :
    Nat :=
  (bs.map (bucketSize sz)).sum

/-- Bytes taken by a region: header, bucket records, buckets. -/
def tableSize {V : Type} (sz : HTKeyValue_t V → Nat) (ht : HashTable V) : Nat :=
  sizeofBucketListHeader + sizeofBucketRecord * ht.buckets.length + bucketsSize sz ht.buckets

/-- The element-position records of a chain whose first element lies at `p`. -/
def chainRecords {V : Type} (sz : HTKeyValue_t V → Nat) :
    List (HTKeyValue_t V) → Nat → List Nat
  | [], _ => []
  | kv :: rest, p => ElementPositionRecord.ToDiskFormat p ++ chainRecords sz rest (p + sz kv)

/-- The elements of a chain whose first element lies at `p`. -/
def chainElements {V : Type} (enc : Nat → HTKeyValue_t V → List Nat)
    (sz : HTKeyValue_t V → Nat) : List (HTKeyValue_t V) → Nat → List Nat
  | [], _ => []
  | kv :: rest, p => enc p kv ++ chainElements enc sz rest (p + sz kv)

/-- The bytes of a bucket stored at `off`. -/
def bucketBytes {V : Type} (enc : Nat → HTKeyValue_t V → List Nat)
    (sz : HTKeyValue_t V → Nat) (off : Nat) (li : List (HTKeyValue_t V)) : List Nat :=
  chainRecords sz li (off + sizeofElementPositionRecord * li.length) ++
    chainElements enc sz li (off + sizeofElementPositionRecord * li.length)

/-- The bucket records of buckets whose first one lies at `p`. -/
def tableRecords {V : Type} (sz : HTKeyValue_t V → Nat) :
    List (List (HTKeyValue_t V)) → Nat → List Nat
  | [], _ => []
  | li :: rest, p =>
    BucketRecord.ToDiskFormat li.length p ++ tableRecords sz rest (p + bucketSize sz li)

/-- The buckets, the first one lying at `p`. -/
def tableBuckets {V : Type} (enc : Nat → HTKeyValue_t V → List Nat)
    (sz : HTKeyValue_t V → Nat) : List (List (HTKeyValue_t V)) → Nat → List Nat
  | [], _ => []
  | li :: rest, p => bucketBytes enc sz p li ++ tableBuckets enc sz rest (p + bucketSize sz li)

/-- The bytes of a region stored at `offset`. -/
def tableBytes {V : Type} (enc : Nat → HTKeyValue_t V → List Nat)
    (sz : HTKeyValue_t V → Nat) (offset : Nat) (ht : HashTable V) : List Nat :=
  BucketListHeader.ToDiskFormat ht.buckets.length ++
    tableRecords sz ht.buckets
      (offset + sizeofBucketListHeader + sizeofBucketRecord * ht.buckets.length) ++
    tableBuckets enc sz ht.buckets
      (offset + sizeofBucketListHeader + sizeofBucketRecord * ht.buckets.length)

/-- The positions of a posting, each reduced to 32 bits. -/
def positionsBytes : List Nat → List Nat
  | [] => []
  | p :: ps => DocIDElementPosition.ToDiskFormat (p % 4294967296) ++ positionsBytes ps

/-- The bytes of a docID -> positions element. -/
def postingBytes (kv : HTKeyValue_t (List Nat)) : List Nat :=
  DocIDElementHeader.ToDiskFormat kv.key kv.value.length ++ positionsBytes kv.value

/-- The size of a docID -> positions element. -/
def postingSize (kv : HTKeyValue_t (List Nat)) : Nat :=
  sizeofDocIDElementHeader + sizeofDocIDElementPosition * kv.value.length

/-- The bytes of a docID -> name element. -/
def docBytes (kv : HTKeyValue_t (List Nat)) : List Nat :=
  DoctableElementHeader.ToDiskFormat kv.key (toInt16 kv.value.length) ++
    kv.value.take (toInt16 kv.value.length).toNat

/-- The size of a docID -> name element. -/
def docSize (kv : HTKeyValue_t (List Nat)) : Nat :=
  sizeofDoctableElementHeader + (toInt16 kv.value.length).toNat

/-- The size of a word -> postings element. -/
def wordSize (kv : HTKeyValue_t WordPostings) : Nat :=
  sizeofWordPostingsHeader + (toInt16 kv.value.word.length).toNat +
    tableSize postingSize kv.value.postings

/-- The bytes of a word -> postings element stored at `off`. -/
def wordBytes (off : Nat) (kv : HTKeyValue_t WordPostings) : List Nat :=
  WordPostingsHeader.ToDiskFormat (toInt16 kv.value.word.length)
      (tableSize postingSize kv.value.postings) ++
    kv.value.word.take (toInt16 kv.value.word.length).toNat ++
    tableBytes (fun _ => postingBytes) postingSize
      (off + sizeofWordPostingsHeader + (toInt16 kv.value.word.length).toNat) kv.value.postings

/-- The size of the index file of a document table and an index. -/
def indexFileSize (mi : MemIndex) (dt : DocTable) : Nat :=
  sizeofIndexFileHeader + tableSize docSize dt.id_to_name + tableSize wordSize mi

/-- The body of the index file: the document-table region, then the index region. -/
def indexFileBody (mi : MemIndex) (dt : DocTable) : List Nat :=
  tableBytes (fun _ => docBytes) docSize sizeofIndexFileHeader dt.id_to_name ++
    tableBytes wordBytes wordSize (sizeofIndexFileHeader + tableSize docSize dt.id_to_name) mi

/-- The bytes of the index file. -/
def indexFileBytes (kMagicNumber : Nat) (mi : MemIndex) (dt : DocTable) : List Nat :=
  IndexFileHeader.ToDiskFormat kMagicNumber
      (CRC32.GetFinalCRC ((indexFileBody mi dt).foldl CRC32.FoldByteIntoCRC CRC32.init))
      (tableSize docSize dt.id_to_name) (tableSize wordSize mi) ++
    indexFileBody mi dt

/-- What an element writer has to do for the region writer to be right: on success
it returns the element's size and stores the element's bytes at the offset. -/
def WritesElements {V : Type} (fn : WriteElementFn V) (enc : Nat → HTKeyValue_t V → List Nat)
    (sz : HTKeyValue_t V → Nat) : Prop :=
  (∀ off kv, (enc off kv).length = sz kv) ∧
  ∀ f off kv, off + sz kv < 2147483648 → (fn f off kv).1 ≠ kFailedWrite →
    (fn f off kv).1 = sz kv ∧ (fn f off kv).2.bytes = pwrite f.bytes off (enc off kv)

/-! ## Files that hold a region -/

/-- The file `bytes` holds the bytes `l` at offset `off`. -/
def Holds (bytes : List Nat) (off : Nat) (l : List Nat) : Prop :=
  off + l.length ≤ bytes.length ∧ (bytes.drop off).take l.length = l

/-- A well-formed serialized region: the file holds, at `offset`, the region of a
table with at least one bucket, and the region ends below 2 GiB. -/
def RegionAt {V : Type} (bytes : List Nat) (offset : Nat)
    (enc : Nat → HTKeyValue_t V → List Nat) (sz : HTKeyValue_t V → Nat) (ht : HashTable V) :
    Prop :=
  Holds bytes offset (tableBytes enc sz offset ht) ∧ 0 < ht.buckets.length ∧
    offset + tableSize sz ht < 2147483648 ∧ ∀ off kv, (enc off kv).length = sz kv

/-- Where bucket `i` of a region at `offset` lies. -/
def bucketPosition {V : Type} (sz : HTKeyValue_t V → Nat) (offset : Nat) (ht : HashTable V)
    (i : Nat) : Nat :=
  offset + sizeofBucketListHeader + sizeofBucketRecord * ht.buckets.length +
    bucketsSize sz (ht.buckets.take i)

/-- Where the elements of a chain lie when the first one lies at `p`. -/
def elementPositions {V : Type} (sz : HTKeyValue_t V → Nat) :
    List (HTKeyValue_t V) → Nat → List Nat
  | [], _ => []
  | kv :: rest, p => p :: elementPositions sz rest (p + sz kv)

/-- Where the elements of bucket `i` of a region at `offset` lie. -/
def bucketElementPositions {V : Type} (sz : HTKeyValue_t V → Nat) (offset : Nat)
    (ht : HashTable V) (i : Nat) : List Nat :=
  elementPositions sz (ht.buckets.getD i [])
    (bucketPosition sz offset ht i + sizeofElementPositionRecord * (ht.buckets.getD i []).length)

/-! ## Sample inputs -/

/-- A docID -> positions table with two buckets: docID 2 in bucket 0 and docID 1 in
bucket 1. -/
def samplePostings : HashTable (List Nat) :=
  ⟨[[⟨2, [1]⟩], [⟨1, [0, 13]⟩]]⟩

/-- A table whose three buckets are all empty. -/
def sampleEmptyTable : HashTable (List Nat) := ⟨[[], [], []]⟩

/-- Modelled from the spec: `FNVHash64` of `libhw1` (not among the sources), the
64-bit FNV-1a hash of a byte string; the word hash of the sample index. -/
def sampleHash (w : List Nat) : Nat :=
  w.foldl (fun h b => ((h ^^^ b) * 1099511628211) % 18446744073709551616) 14695981039346656037

/-- The magic number of the sample index files, `0xCAFEF00D`. -/
def sampleMagic : Nat := 3405705229

/-- The word "apple". -/
def wordApple : List Nat := [97, 112, 112, 108, 101]

/-- The word "banana". -/
def wordBanana : List Nat := [98, 97, 110, 97, 110, 97]

/-- The word "cherry". -/
def wordCherry : List Nat := [99, 104, 101, 114, 114, 121]

/-- The document table of the corpus A = "apple banana apple", B = "banana cherry":
document "A" has docID 1 and document "B" has docID 2; two buckets. -/
def sampleDocTable : DocTable :=
  { id_to_name := ⟨[[⟨2, [66]⟩], [⟨1, [65]⟩]]⟩
    name_to_id := ⟨[[⟨sampleHash [65], 1⟩], [⟨sampleHash [66], 2⟩]]⟩
    max_id := 2 }

/-- The inverted index of the same corpus, two buckets per table, every key in bucket
`key % 2`: "banana" and "cherry" share bucket 0, "apple" is in bucket 1. -/
def sampleMemIndex : MemIndex :=
  ⟨[[⟨sampleHash wordBanana, ⟨wordBanana, ⟨[[⟨2, [0]⟩], [⟨1, [6]⟩]]⟩⟩⟩,
     ⟨sampleHash wordCherry, ⟨wordCherry, ⟨[[⟨2, [7]⟩], []]⟩⟩⟩],
    [⟨sampleHash wordApple, ⟨wordApple, ⟨[[], [⟨1, [0, 13]⟩]]⟩⟩⟩]]⟩

/-- The sample index file. -/
def sampleIndexFile : Option (List Nat) :=
  (WriteIndex sampleMagic Device.reliable sampleMemIndex sampleDocTable none).2

/-- A device that is full after 40 bytes: every write that starts at offset 40 or
later is refused. -/
def sampleFullDevice : Device := ⟨true, fun _ => true, fun pos _ => decide (pos < 40)⟩

/-- A sixteen-byte file: the sample magic number, checksum 0, and both length fields
`0x80000000`. -/
def sampleWrappedFile : List Nat :=
  be32 sampleMagic ++ be32 0 ++ be32 2147483648 ++ be32 2147483648

/-- The bytes below offset `lo` are the same in `b1` as in `b` (a byte past the end of
a file reads as the zero a later gap would hold). -/
def Untouched (lo : Nat) (b b1 : List Nat) : Prop := ∀ i, i < lo → b1.getD i 0 = b.getD i 0

/-- An element writer leaves the bytes below the offset it is given alone, also when
it fails, for the elements that satisfy `ok`. -/
def FramesElements {V : Type} (fn : WriteElementFn V) (sz : HTKeyValue_t V → Nat)
    (ok : HTKeyValue_t V → Prop) : Prop :=
  ∀ lo f off kv, ok kv → lo ≤ off → off + sz kv < 2147483648 →
    Untouched lo f.bytes (fn f off kv).2.bytes

/-- Where the element at chain index `j` of bucket `i` of a region at `offset` lies. -/
def elementPosition {V : Type} (sz : HTKeyValue_t V → Nat) (offset : Nat) (ht : HashTable V)
    (i j : Nat) : Nat :=
  bucketPosition sz offset ht i +
    sizeofElementPositionRecord * (ht.buckets.getD i []).length +
    chainSize sz ((ht.buckets.getD i []).take j)

/-- Where the nested postings region of a word element stored at `p` lies: after the
element's header and the stored word bytes. -/
def postingsOffset (p : Nat) (kv : HTKeyValue_t WordPostings) : Nat :=
  p + sizeofWordPostingsHeader + (toInt16 kv.value.word.length).toNat

/-- A docID -> count map filled from a posting list by `m[doc_id] = count`, entry after
entry. -/
def countMap (next : List DocIDElementHeader) : Nat → Option Int :=
  next.foldl (fun m y d => if d = y.doc_id then some y.num_positions else m d) (fun _ => none)

/-- The hashed intersection the specification describes: the entries of the running
result whose docID is a key of the next list's map, in the running result's order,
each with rank = its running rank + the next list's count for that docID. -/
def hashedIntersect (result next : List DocIDElementHeader) : List DocIDElementHeader :=
  result.filterMap fun x =>
    (countMap next x.doc_id).map fun c =>
      { doc_id := x.doc_id, num_positions := x.num_positions + c }

/-! ## `hw2/FileParser.c` -/

/-- `isalpha` in the C locale, on an `unsigned char`. -/
def isalpha (c : Nat) : Bool := (decide (65 ≤ c) && decide (c ≤ 90)) || (decide (97 ≤ c) && decide (c ≤ 122))

/-- `tolower` in the C locale, on an `unsigned char`. -/
def tolower (c : Nat) : Nat := if 65 ≤ c ∧ c ≤ 90 then c + 32 else c

/-- The `DocPositionOffset_t` that `AddWordPosition` receives for the byte offset
`word_start - content`, which `InsertContent` casts to `int`. -/
def wordPosition (offset : Nat) : Nat := toUInt32 (toInt32 offset)

/-- The loop of `InsertContent` together with the edge case after it: the calls
`AddWordPosition(tab, word, pos)` it makes, in order.  `pos` is `cur_ptr - content`,
`word_start` the offset of the current word's first character and `word` the
lower-cased characters of the buffer from `word_start` up to `cur_ptr`. -/
def InsertContent_loop : List Nat → Nat → Bool → Nat → List Nat → List (List Nat × Nat)
  | [], _, in_word, word_start, word =>
    if in_word then [(word, wordPosition word_start)] else []
  | c :: rest, pos, in_word, word_start, word =>
    if isalpha c then
      if !in_word then InsertContent_loop rest (pos + 1) true pos [tolower c]
      else InsertContent_loop rest (pos + 1) true word_start (word ++ [tolower c])
    else
      if in_word then
        (word, wordPosition word_start) :: InsertContent_loop rest (pos + 1) false word_start []
      else InsertContent_loop rest (pos + 1) false word_start word

/-- `InsertContent` on a string without NUL bytes: the words and positions it hands
to `AddWordPosition`, in order. -/
def InsertContent (content : List Nat) : List (List Nat × Nat) :=
  InsertContent_loop content 0 false 0 []

/-- Offset `p` of `content` is the first character of a maximal run of alphabetic
characters. -/
def isRunStart (content : List Nat) (p : Nat) : Bool :=
  isalpha (content.getD p 0) && (decide (p = 0) || !isalpha (content.getD (p - 1) 0))

/-- The word of the run that starts at offset `p` and its position, as the
specification of the tokenizer describes them: the maximal run of alphabetic
characters from `p` on, in lower case, and the offset `p`. -/
def runAt (content : List Nat) (p : Nat) : List Nat × Nat :=
  (((content.drop p).takeWhile isalpha).map tolower, p)

/-! ## `hw4/HttpUtils.cc` -/

/-- Conversion to `int8_t`: reduction modulo `2^8` into `[-128, 128)`. -/
def toInt8 (x : Int) : Int :=
  let u := (x % 256).toNat
  if u < 128 then (u : Int) else -((256 - u : Nat) : Int)

/-- `toupper` in the C locale. -/
def toupper (c : Nat) : Nat := if 97 ≤ c ∧ c ≤ 122 then c - 32 else c

/-- The test `('0' <= c && c <= '9') || ('A' <= c && c <= 'F')` of `URIDecode`. -/
def isUpperHex (c : Nat) : Bool :=
  (decide (48 ≤ c) && decide (c ≤ 57)) || (decide (65 ≤ c) && decide (c ≤ 70))

/-- The `int8_t code` that `URIDecode` computes from the two upper-cased hex digits:
`code = 16 * digit(c2)` followed by `code += digit(c3)`, each stored into an
`int8_t`. -/
def URIDecode_code (c2 c3 : Nat) : Int :=
  let code : Int := toInt8 (if 65 ≤ c2 then 16 * (10 + ((c2 : Int) - 65)) else 16 * ((c2 : Int) - 48))
  toInt8 (if 65 ≤ c3 then code + (10 + ((c3 : Int) - 65)) else code + ((c3 : Int) - 48))

/-- One iteration of the loop of `URIDecode` at the character `c1`, with `c2` and
`c3` the upper-cased next two characters (a space beyond the end of the string):
`next` is the decoding of the rest of the string from the following character and
`skip` the decoding from three characters on (`pos += 2`). -/
def URIDecode_step (c1 c2 c3 : Nat) (next skip : List Nat) : List Nat :=
  if c1 = 43 then 32 :: next
  else if c1 ≠ 37 then c1 :: next
  else if !isUpperHex c2 then c1 :: next
  else if !isUpperHex c3 then c1 :: next
  else
    let code := URIDecode_code c2 c3
    if code < 32 ∨ code > 127 then c1 :: next
    else code.toNat :: skip

/-- `URIDecode` of `HttpUtils.cc`, on the bytes of the string. -/
def URIDecode : List Nat → List Nat
  | [] => []
  | [c1] => URIDecode_step c1 32 32 [] []
  | [c1, x] => URIDecode_step c1 (toupper x) 32 (URIDecode [x]) []
  | c1 :: x :: y :: rest =>
    URIDecode_step c1 (toupper x) (toupper y) (URIDecode (x :: y :: rest)) (URIDecode rest)

/-- The value of a hexadecimal digit in either case, as the specification reads
`%XY`; `none` for any other character. -/
def hexDigit (c : Nat) : Option Nat :=
  if 48 ≤ c ∧ c ≤ 57 then some (c - 48)
  else if 65 ≤ c ∧ c ≤ 70 then some (c - 55)
  else if 97 ≤ c ∧ c ≤ 102 then some (c - 87)
  else none

/-- The value `hex(XY)` of two characters, when both are hexadecimal digits. -/
def hexPair (x y : Nat) : Option Nat :=
  match hexDigit x, hexDigit y with
  | some a, some b => some (16 * a + b)
  | _, _ => none

/-- The two characters after a `%`, if the string has them. -/
def hexToken : List Nat → Option Nat
  | x :: y :: _ => hexPair x y
  | _ => none

/-- `boost::algorithm::replace_all(input, search, format)` for a search string of a
single character, as each of the five calls in `EscapeHtml` has it: every
occurrence of the character is replaced by `format`, left to right, and the
replacement text is not searched again. -/
def replace_all (input : List Nat) (search : Nat) (format : List Nat) : List Nat :=
  input.flatMap fun c => if c = search then format else [c]

/-- `EscapeHtml` of `HttpUtils.cc`. -/
def EscapeHtml (s : List Nat) : List Nat :=
  let ret := s
  let ret := replace_all ret 38 [38, 97, 109, 112, 59]
  let ret := replace_all ret 60 [38, 108, 116, 59]
  let ret := replace_all ret 62 [38, 103, 116, 59]
  let ret := replace_all ret 34 [38, 113, 117, 111, 116, 59]
  let ret := replace_all ret 39 [38, 97, 112, 111, 115, 59]
  ret

/-- The five entities of the specification, without their leading `&`, each with
the character it stands for. -/
def htmlEntities : List (List Nat × Nat) :=
  [([97, 109, 112, 59], 38), ([108, 116, 59], 60), ([103, 116, 59], 62),
   ([113, 117, 111, 116, 59], 34), ([97, 112, 111, 115, 59], 39)]

/-- The entity, without its leading `&`, that `rest` begins with, if any: the
character it stands for and the entity's length. -/
def stripEntity (rest : List Nat) : Option (Nat × Nat) :=
  htmlEntities.findSome? fun e => if e.1.isPrefixOf rest then some (e.2, e.1.length) else none

/-- Replacing the five entities by their characters, left to right, as the
specification words the inverse of `EscapeHtml`. -/
def unescapeHtml : List Nat → List Nat
  | [] => []
  | c :: rest =>
    if c = 38 then
      match stripEntity rest with
      | some (x, k) => x :: unescapeHtml (rest.drop k)
      | none => c :: unescapeHtml rest
    else c :: unescapeHtml rest
termination_by s => s.length
decreasing_by
  all_goals simp only [List.length_cons, List.length_drop]
  all_goals omega

/-! ## `hw1/LinkedList.c`

Nodes live in a heap addressed by natural numbers: `malloc` returns the next unused
address, `free` empties the cell, and reading or writing through `NULL` or through
a freed pointer has no result (`none`), as a failed `Verify333` has none. -/

/-- A `LinkedListNode`: the payload and the two links (`none` is `NULL`). -/
structure LinkedListNode where
  payload : Nat
  next : Option Nat
  prev : Option Nat
deriving DecidableEq

/-- The `LinkedList` record. -/
structure LinkedList where
  num_elements : Int
  head : Option Nat
  tail : Option Nat
deriving DecidableEq

/-- The heap of nodes together with the list record the functions are called on. -/
structure Heap where
  nodes : List (Option LinkedListNode)
  list : LinkedList
deriving DecidableEq

/-- The node behind a pointer; `none` when the address is not allocated. -/
def nodeAt (nodes : List (Option LinkedListNode)) (a : Nat) : Option LinkedListNode :=
  nodes.getD a none

/-- `LinkedList_Allocate`: an empty record; the nodes of the heap are left alone. -/
def LinkedList_Allocate (nodes : List (Option LinkedListNode)) : Heap :=
  ⟨nodes, ⟨0, none, none⟩⟩

/-- `LinkedList_Push`. -/
def LinkedList_Push (s : Heap) (payload : Nat) : Option Heap :=
  let ln := s.nodes.length
  if s.list.num_elements = 0 then
    if s.list.head ≠ none then none
    else if s.list.tail ≠ none then none
    else
      some ⟨s.nodes ++ [some ⟨payload, none, none⟩],
        ⟨toInt32 (s.list.num_elements + 1), some ln, some ln⟩⟩
  else
    match s.list.head with
    | none => none
    | some h =>
      match nodeAt s.nodes h with
      | none => none
      | some hn =>
        some ⟨s.nodes.set h (some { hn with prev := some ln }) ++ [some ⟨payload, some h, none⟩],
          ⟨toInt32 (s.list.num_elements + 1), some ln, s.list.tail⟩⟩

/-- `LinkedList_Pop`: `(none, s)` when it returns `false`, and the payload stored
through `payload_ptr` with the new heap when it returns `true`. -/
def LinkedList_Pop (s : Heap) : Option (Option Nat × Heap) :=
  if s.list.num_elements = 0 then some (none, s)
  else
    match s.list.head with
    | none => none
    | some remove =>
      match nodeAt s.nodes remove with
      | none => none
      | some rn =>
        if s.list.num_elements = 1 then
          some (some rn.payload,
            ⟨s.nodes.set remove none, ⟨toInt32 (s.list.num_elements - 1), none, none⟩⟩)
        else
          match rn.next with
          | none => none
          | some h =>
            match nodeAt s.nodes h with
            | none => none
            | some hn =>
              some (some rn.payload,
                ⟨(s.nodes.set h (some { hn with prev := none })).set remove none,
                  ⟨toInt32 (s.list.num_elements - 1), some h, s.list.tail⟩⟩)

/-- `LinkedList_Append`. -/
def LinkedList_Append (s : Heap) (payload : Nat) : Option Heap :=
  let ln := s.nodes.length
  if s.list.num_elements = 0 then
    some ⟨s.nodes ++ [some ⟨payload, none, none⟩],
      ⟨toInt32 (s.list.num_elements + 1), some ln, some ln⟩⟩
  else
    match s.list.tail with
    | none => none
    | some t =>
      match nodeAt s.nodes t with
      | none => none
      | some tn =>
        some ⟨s.nodes.set t (some { tn with next := some ln }) ++ [some ⟨payload, none, some t⟩],
          ⟨toInt32 (s.list.num_elements + 1), s.list.head, some ln⟩⟩

/-- `LLSlice`, with the result convention of `LinkedList_Pop`. -/
def LLSlice (s : Heap) : Option (Option Nat × Heap) :=
  if s.list.num_elements = 0 then some (none, s)
  else
    match s.list.tail with
    | none => none
    | some remove =>
      match nodeAt s.nodes remove with
      | none => none
      | some rn =>
        if s.list.num_elements = 1 then
          some (some rn.payload,
            ⟨s.nodes.set remove none, ⟨toInt32 (s.list.num_elements - 1), none, none⟩⟩)
        else
          match rn.prev with
          | none => none
          | some t =>
            match nodeAt s.nodes t with
            | none => none
            | some tn =>
              some (some rn.payload,
                ⟨(s.nodes.set t (some { tn with next := none })).set remove none,
                  ⟨toInt32 (s.list.num_elements - 1), s.list.head, some t⟩⟩)

/-- `LLIterator_Remove` on the iterator whose `node` field is `node`: the returned
flag, the iterator's new `node` field and the new heap. -/
def LLIterator_Remove (s : Heap) (node : Option Nat) : Option (Bool × Option Nat × Heap) :=
  match node with
  | none => none
  | some myNode =>
    match nodeAt s.nodes myNode with
    | none => none
    | some mn =>
      let myNext := mn.next
      let myPrev := mn.prev
      if s.list.num_elements = 1 then
        some (false, none,
          ⟨s.nodes.set myNode none, ⟨toInt32 (s.list.num_elements - 1), none, none⟩⟩)
      else if s.list.head = some myNode then
        match myNext with
        | none => none
        | some nx =>
          match nodeAt s.nodes nx with
          | none => none
          | some nn =>
            some (true, myNext,
              ⟨(s.nodes.set nx (some { nn with prev := none })).set myNode none,
                ⟨toInt32 (s.list.num_elements - 1), myNext, s.list.tail⟩⟩)
      else if s.list.tail = some myNode then
        match myPrev with
        | none => none
        | some pv =>
          match nodeAt s.nodes pv with
          | none => none
          | some pn =>
            some (true, myPrev,
              ⟨(s.nodes.set pv (some { pn with next := none })).set myNode none,
                ⟨toInt32 (s.list.num_elements - 1), s.list.head, myPrev⟩⟩)
      else
        match myNext with
        | none => none
        | some nx =>
          match nodeAt s.nodes nx with
          | none => none
          | some nn =>
            let nodes1 := s.nodes.set nx (some { nn with prev := myPrev })
            match myPrev with
            | none => none
            | some pv =>
              match nodeAt nodes1 pv with
              | none => none
              | some pn =>
                some (true, myNext,
                  ⟨(nodes1.set pv (some { pn with next := myNext })).set myNode none,
                    ⟨toInt32 (s.list.num_elements - 1), s.list.head, s.list.tail⟩⟩)

/-- The inner `while (curnode->next != NULL)` loop of `LinkedList_Sort`, from
`curnode` on: the heap after the pass and the `swapped` flag. The loop is bounded by
`fuel`; `none` when the bound is reached or a pointer cannot be followed. -/
def LinkedList_Sort_pass (comparator_function : Nat → Nat → Int) (ascending : Bool) :
    Nat → List (Option LinkedListNode) → Nat → Bool → Option (List (Option LinkedListNode) × Bool)
  | 0, _, _, _ => none
  | fuel + 1, nodes, curnode, swapped =>
    match nodeAt nodes curnode with
    | none => none
    | some cn =>
      match cn.next with
      | none => some (nodes, swapped)
      | some nx =>
        match nodeAt nodes nx with
        | none => none
        | some nn =>
          let compare_result := comparator_function cn.payload nn.payload
          let compare_result := if ascending then toInt32 (compare_result * -1) else compare_result
          if compare_result < 0 then
            let nodes := nodes.set curnode (some { cn with payload := nn.payload })
            match nodeAt nodes nx with
            | none => none
            | some nn1 =>
              let nodes := nodes.set nx (some { nn1 with payload := cn.payload })
              LinkedList_Sort_pass comparator_function ascending fuel nodes nx true
          else
            LinkedList_Sort_pass comparator_function ascending fuel nodes nx swapped

/-- The `do ... while (swapped)` loop of `LinkedList_Sort`, bounded by `fuel`
passes, each pass bounded by `steps` nodes. -/
def LinkedList_Sort_loop (comparator_function : Nat → Nat → Int) (ascending : Bool)
    (steps : Nat) (head : Nat) : Nat → List (Option LinkedListNode) →
    Option (List (Option LinkedListNode))
  | 0, _ => none
  | fuel + 1, nodes =>
    match LinkedList_Sort_pass comparator_function ascending steps nodes head false with
    | none => none
    | some (nodes, swapped) =>
      if swapped then LinkedList_Sort_loop comparator_function ascending steps head fuel nodes
      else some nodes

/-- `LinkedList_Sort`, its two loops bounded by `fuel`. -/
def LinkedList_Sort (s : Heap) (ascending : Bool) (comparator_function : Nat → Nat → Int)
    (fuel : Nat) : Option Heap :=
  if s.list.num_elements < 2 then some s
  else
    match s.list.head with
    | none => none
    | some head =>
      match LinkedList_Sort_loop comparator_function ascending fuel head fuel s.nodes with
      | none => none
      | some nodes => some ⟨nodes, s.list⟩

/-- The addresses met from `start` on by following `next` until `NULL`; `none`
when `fuel` nodes do not reach `NULL` or a pointer cannot be followed. -/
def forward (nodes : List (Option LinkedListNode)) : Nat → Option Nat → Option (List Nat)
  | _, none => some []
  | 0, some _ => none
  | fuel + 1, some a =>
    match nodeAt nodes a with
    | none => none
    | some n => (forward nodes fuel n.next).map (a :: ·)

/-- The addresses met from `start` on by following `prev` until `NULL`. -/
def backward (nodes : List (Option LinkedListNode)) : Nat → Option Nat → Option (List Nat)
  | _, none => some []
  | 0, some _ => none
  | fuel + 1, some a =>
    match nodeAt nodes a with
    | none => none
    | some n => (backward nodes fuel n.prev).map (a :: ·)

/-- The payload stored at an address (`0` when nothing is allocated there). -/
def payloadAt (nodes : List (Option LinkedListNode)) (a : Nat) : Nat :=
  match nodeAt nodes a with
  | none => 0
  | some n => n.payload

/-- The nodes of the list, from `head` on, `num_elements` of them at most. -/
def LinkedList_nodes (s : Heap) : List Nat :=
  (forward s.nodes s.list.num_elements.toNat s.list.head).getD []

/-- The payload sequence of the list, from `head` on. -/
def LinkedList_payloads (s : Heap) : List Nat :=
  (LinkedList_nodes s).map (payloadAt s.nodes)

/-- The `prev` link of the node at `head`, `none` for the empty list. -/
def headPrev (s : Heap) : Option Nat :=
  match s.list.head with
  | none => none
  | some h =>
    match nodeAt s.nodes h with
    | none => none
    | some n => n.prev

/-- The `next` link of the node at `tail`, `none` for the empty list. -/
def tailNext (s : Heap) : Option Nat :=
  match s.list.tail with
  | none => none
  | some t =>
    match nodeAt s.nodes t with
    | none => none
    | some n => n.next

/-- The structural invariant of a list: walking `next` from `head` reaches `NULL`
after exactly `num_elements` nodes, `head` and `tail` are `NULL` exactly when
`num_elements` is 0, `head` has no predecessor and `tail` no successor, and walking
`prev` from `tail` meets the same nodes in reverse order. -/
def Invariant (s : Heap) : Prop :=
  ∃ f : List Nat,
    forward s.nodes s.list.num_elements.toNat s.list.head = some f ∧
    s.list.num_elements = f.length ∧
    (s.list.head = none ↔ s.list.num_elements = 0) ∧
    (s.list.tail = none ↔ s.list.num_elements = 0) ∧
    headPrev s = none ∧
    tailNext s = none ∧
    backward s.nodes s.list.num_elements.toNat s.list.tail = some f.reverse

/-- A sample heap: the list of payloads 30, 10, 20 in nodes 0, 1, 2. -/
def sampleList : Heap :=
  ⟨[some ⟨30, some 1, none⟩, some ⟨10, some 2, some 0⟩, some ⟨20, none, some 1⟩],
    ⟨3, some 0, some 2⟩⟩

/-- A sample comparator: -1, 0 or 1 as the first payload is below, equal to or above
the second. -/
def sampleComparator (a b : Nat) : Int := if a < b then -1 else if a = b then 0 else 1

/-- The test of `LinkedList_Sort` on two neighbouring payloads: `compare_result < 0`
after the sign change for `ascending`. -/
def sortSwaps (comparator_function : Nat → Nat → Int) (ascending : Bool) (a b : Nat) : Bool :=
  decide ((if ascending then toInt32 (comparator_function a b * -1)
    else comparator_function a b) < 0)

/-- One pass of `LinkedList_Sort` on the payload sequence `cur :: rest`: the payload
carried by the current node, the payloads after it and the `swapped` flag. -/
def bubblePass (sw : Nat → Nat → Bool) : Nat → List Nat → Bool → List Nat × Bool
  | cur, [], swapped => ([cur], swapped)
  | cur, b :: rest, swapped =>
    if sw cur b then ((b :: (bubblePass sw cur rest true).1), (bubblePass sw cur rest true).2)
    else ((cur :: (bubblePass sw b rest swapped).1), (bubblePass sw b rest swapped).2)

/-- The number of pairs of a sequence, the first before the second, that the sort
would swap if they were neighbours. -/
def inversions (sw : Nat → Nat → Bool) : List Nat → Nat
  | [] => 0
  | a :: l => l.countP (sw a) + inversions sw l

/-- The address a segment of cells begins with, `nxt` when it is empty. -/
def firstAddr (cells : List (Nat × Nat)) (nxt : Option Nat) : Option Nat :=
  match cells with
  | [] => nxt
  | c :: _ => some c.1

/-- The address a segment of cells ends with, `prev` when it is empty. -/
def lastAddr (cells : List (Nat × Nat)) (prev : Option Nat) : Option Nat :=
  match cells.getLast? with
  | none => prev
  | some c => some c.1

/-- The heap holds the cells `(address, payload)` as a doubly linked segment, entered
from `prev` and left to `nxt`. -/
def Seg (nodes : List (Option LinkedListNode)) :
    Option Nat → List (Nat × Nat) → Option Nat → Prop
  | _, [], _ => True
  | prev, c :: rest, nxt =>
    nodeAt nodes c.1 = some ⟨c.2, firstAddr rest nxt, prev⟩ ∧ Seg nodes (some c.1) rest nxt

/-- The list record and the heap represent the cells `(address, payload)`, in order. -/
def Represents (s : Heap) (cells : List (Nat × Nat)) : Prop :=
  Seg s.nodes none cells none ∧ (cells.map Prod.fst).Nodup ∧
    s.list.num_elements = cells.length ∧
    s.list.head = firstAddr cells none ∧ s.list.tail = lastAddr cells none

/-! ## `libhw1/HashTable.c` (not among the sources) -/

/-- Modelled from the spec: `HashTable_Allocate`, a table of `num_buckets` empty
chains. -/
def HashTable_Allocate {V : Type} (num_buckets : Nat) : HashTable V :=
  ⟨List.replicate num_buckets []⟩

/-- Modelled from the spec: `HashTable_NumElements`, the `int` number of entries of
the table. -/
def HashTable_NumElements {V : Type} (ht : HashTable V) : Int :=
  toInt32 ht.buckets.flatten.length

/-- Modelled from the spec: `HashTable_Find`. The bucket is the key modulo the
bucket count and its chain is searched for an entry with an equal key. -/
def HashTable_Find {V : Type} (ht : HashTable V) (key : Nat) : Option (HTKeyValue_t V) :=
  (ht.buckets.getD (key % ht.buckets.length) []).find? fun kv => kv.key == key

/-- Modelled from the spec: the chain of a bucket after an entry with the key of
`newkv`, the first one, has been replaced by `newkv`. -/
def HashTable_replace {V : Type} (newkv : HTKeyValue_t V) :
    List (HTKeyValue_t V) → List (HTKeyValue_t V)
  | [] => []
  | kv :: chain => if kv.key == newkv.key then newkv :: chain
    else kv :: HashTable_replace newkv chain

/-- Modelled from the spec: `HashTable_Insert`. An entry with an equal key is
replaced and handed back (the function returns `true`); otherwise the new entry
joins the chain of its bucket (the function returns `false`).  The growth of the
bucket array is not modelled. -/
def HashTable_Insert {V : Type} (ht : HashTable V) (newkv : HTKeyValue_t V) :
    Option (HTKeyValue_t V) × HashTable V :=
  let i := newkv.key % ht.buckets.length
  let chain := ht.buckets.getD i []
  match chain.find? fun kv => kv.key == newkv.key with
  | some oldkv => (some oldkv, ⟨ht.buckets.set i (HashTable_replace newkv chain)⟩)
  | none => (none, ⟨ht.buckets.set i (chain ++ [newkv])⟩)

/-! ## `hw2/DocTable.c` -/

/-- The distinct names of a sequence in the order of their first occurrence, after
the names `seen`. -/
def distinctNames : List (List Nat) → List (List Nat) → List (List Nat)
  | seen, [] => seen
  | seen, n :: rest => distinctNames (if n ∈ seen then seen else seen ++ [n]) rest

/-! ## `hw2/FileParser.c`: the word table -/

/-- `WordPositions`: a word and the list of its positions in the document. -/
structure WordPositions where
  word : List Nat
  positions : List Nat
deriving DecidableEq, Repr

/-- `AddWordPosition`; no result when `Verify333(strcmp(wp->word, word) == 0)`
fails.  The position appended through the pointer stored in the table is written
as a replacement of the entry. -/
def AddWordPosition (FNVHash64 : List Nat → Nat) (tab : HashTable WordPositions)
    (word : List Nat) (pos : Nat) : Option (HashTable WordPositions) :=
  let hash_key := FNVHash64 word
  match HashTable_Find tab hash_key with
  | some kv =>
    if kv.value.word ≠ word then none
    else some (HashTable_Insert tab ⟨hash_key, ⟨kv.value.word, kv.value.positions ++ [pos]⟩⟩).2
  | none => some (HashTable_Insert tab ⟨hash_key, ⟨word, [pos]⟩⟩).2

/-- The calls of `AddWordPosition` that `InsertContent` makes, run in order on the
table. -/
def AddWordPosition_all (FNVHash64 : List Nat → Nat) :
    HashTable WordPositions → List (List Nat × Nat) → Option (HashTable WordPositions)
  | tab, [] => some tab
  | tab, wp :: rest =>
    match AddWordPosition FNVHash64 tab wp.1 wp.2 with
    | none => none
    | some tab1 => AddWordPosition_all FNVHash64 tab1 rest

/-- `ParseIntoWordPositionsTable` on the bytes of the C string `file_contents`:
no result when a `Verify333` fails, `some none` for `NULL`. -/
def ParseIntoWordPositionsTable (FNVHash64 : List Nat → Nat) (file_contents : List Nat) :
    Option (Option (HashTable WordPositions)) :=
  let file_len := toInt32 file_contents.length
  if file_len = 0 then some none
  else if (file_contents.take file_len.toNat).any fun c => c == 0 || decide (c > 127) then
    some none
  else
    match AddWordPosition_all FNVHash64 (HashTable_Allocate 2) (InsertContent file_contents) with
    | none => none
    | some tab => if HashTable_NumElements tab = 0 then some none else some (some tab)

/-- The document "apple banana apple". -/
def sampleDocument : List Nat :=
  [97, 112, 112, 108, 101, 32, 98, 97, 110, 97, 110, 97, 32, 97, 112, 112, 108, 101]

/-- The reader with its stream cursor at the start of the file. -/
def HashTableReader.rewind (r : HashTableReader) : HashTableReader :=
  { r with file_ := { r.file_ with pos := 0 } }

/-- The posting list of a term in an index file, as `ProcessQuery` obtains it:
`LookupWord` followed by `GetDocIDList`.  `some none`: the word table does not hold
the term; `none`: a reader stops on a failed `Verify333`. -/
def termPostings (FNVHash64 : List Nat → Nat) (itr : HashTableReader) (word : List Nat) :
    Option (Option (List DocIDElementHeader)) :=
  match IndexTableReader.LookupWord FNVHash64 itr word with
  | none => none
  | some (none, _) => some none
  | some (some ditr, _) =>
    match DocIDTableReader.GetDocIDList ditr with
    | none => none
    | some (l, _) => some (some l)

/-- The name a docID resolves to through the `DocTableReader` of an index file.
`some none`: the docID does not resolve; `none`: the reader stops on a failed
`Verify333`. -/
def docName (dtr : HashTableReader) (doc_id : Nat) : Option (Option (List Nat)) :=
  match DocTableReader.LookupDocID dtr doc_id with
  | none => none
  | some (res, _) => some res

/-- The running result of a file after the terms `query[1..]`, from the posting
lists of the terms. -/
def termsResult (FNVHash64 : List Nat → Nat) (itr : HashTableReader) :
    List (List Nat) → List DocIDElementHeader → Option (List DocIDElementHeader)
  | [], result => some result
  | w :: rest, result =>
    match termPostings FNVHash64 itr w with
    | none => none
    | some none => some []
    | some (some next) => termsResult FNVHash64 itr rest (intersect result next)

/-- The result a surviving entry yields: its resolved name with its rank, if its
docID resolves. -/
def resolveEntry (dtr : HashTableReader) (entry : DocIDElementHeader) : Option QueryResult :=
  match docName dtr entry.doc_id with
  | some (some docname) => some ⟨docname, entry.num_positions⟩
  | _ => none

/-- The docIDs that survive all terms of a query in one index file (`some []` when
a term is absent). -/
def survivors (FNVHash64 : List Nat → Nat) (itr : HashTableReader) (query0 : List Nat)
    (query_rest : List (List Nat)) : Option (List DocIDElementHeader) :=
  match termPostings FNVHash64 itr query0 with
  | none => none
  | some none => some []
  | some (some result) => termsResult FNVHash64 itr query_rest result

/-- The (name, rank) results of one index file for a query. -/
def fileResults (FNVHash64 : List Nat → Nat) (dtr itr : HashTableReader) (query0 : List Nat)
    (query_rest : List (List Nat)) : Option (List QueryResult) :=
  match survivors FNVHash64 itr query0 query_rest with
  | none => none
  | some result =>
    if ∀ entry ∈ result, docName dtr entry.doc_id ≠ none then
      some (result.filterMap (resolveEntry dtr))
    else none

/-- The pool of the results of all index files, in the order of the files. -/
def poolResults (FNVHash64 : List Nat → Nat) (query0 : List Nat) (query_rest : List (List Nat)) :
    List (HashTableReader × HashTableReader) → Option (List QueryResult)
  | [] => some []
  | (dtr, itr) :: rest =>
    match fileResults FNVHash64 dtr itr query0 query_rest with
    | none => none
    | some l =>
      match poolResults FNVHash64 query0 query_rest rest with
      | none => none
      | some pool => some (l ++ pool)

/-- The document "banana cherry". -/
def sampleDocumentB : List Nat :=
  [98, 97, 110, 97, 110, 97, 32, 99, 104, 101, 114, 114, 121]

/-- Modelled from the spec: the positions the in-memory index holds for a word in a
document (`MemIndex.c` is not among the sources): the word's entry is found by the
hash of the word, the document's entry in its postings table by the docID. -/
def MemIndex_positions (FNVHash64 : List Nat → Nat) (index : MemIndex) (word : List Nat)
    (doc_id : Nat) : List Nat :=
  match HashTable_Find index (FNVHash64 word) with
  | none => []
  | some kv =>
    match HashTable_Find kv.value.postings doc_id with
    | none => []
    | some e => e.value

/-- The positions of a word among the calls `InsertContent` makes for a document. -/
def wordPositions (content : List Nat) (word : List Nat) : List Nat :=
  ((InsertContent content).filter fun wp => wp.1 = word).map Prod.snd

/-- The query processor opened on the sample index file, without validation (no reader
at all if the file could not be opened). -/
def sampleQueryProcessor : QueryProcessor :=
  (QueryProcessor.construct sampleMagic
    [some (indexFileBytes sampleMagic sampleMemIndex sampleDocTable)] false).getD ⟨[]⟩

/-- The position count a posting list stores for a docID: that of the first entry
with the docID, `0` when there is none. -/
def postingCount (l : List DocIDElementHeader) (doc_id : Nat) : Int :=
  match l.find? fun y => decide (doc_id = y.doc_id) with
  | some y => y.num_positions
  | none => 0

/-- The rank of a docID after the posting lists `ls` of the later terms, from the
count `start` of the first term: each count is added in `int` arithmetic. -/
def rankAfter (doc_id : Nat) (start : Int) (ls : List (List DocIDElementHeader)) : Int :=
  ls.foldl (fun acc l => toInt32 (acc + postingCount l doc_id)) start

/-- The (DocTableReader, IndexTableReader) pair `sampleQueryProcessor` holds for its
one index file. -/
def sampleReaders : HashTableReader × HashTableReader :=
  sampleQueryProcessor.readers.getD 0 (⟨⟨[], 0⟩, 0, 0⟩, ⟨⟨[], 0⟩, 0, 0⟩)

/-- The query processor opened on two index files, both holding the sample index,
without validation. -/
def sampleQueryProcessor2 : QueryProcessor :=
  (QueryProcessor.construct sampleMagic
    [some (indexFileBytes sampleMagic sampleMemIndex sampleDocTable),
      some (indexFileBytes sampleMagic sampleMemIndex sampleDocTable)] false).getD ⟨[]⟩

/-- The names of a sequence that are the first of their hash, in order, after the
names `seen`: a name is left out when an earlier name has its hash. -/
def firstNames (FNVHash64 : List Nat → Nat) : List (List Nat) → List (List Nat) →
    List (List Nat)
  | seen, [] => seen
  | seen, n :: rest =>
    firstNames FNVHash64 (if FNVHash64 n ∈ seen.map FNVHash64 then seen else seen ++ [n]) rest

/-- A word of 65537 letters "a": its length cast to `int16_t` is 1. -/
def longWord : List Nat := List.replicate 65537 97

/-- A word of 65424 letters "a": its length cast to `int16_t` is -112. -/
def longWordNeg : List Nat := List.replicate 65424 97

/-- A postings table of two buckets: docID 1 with the position 0. -/
def longWordPostings : HashTable (List Nat) := ⟨[[], [⟨1, [0]⟩]]⟩

/-- The index of document A (docID 1) when its text starts with the word `word`: one
bucket, which holds the word with its hash as the key, found at position 0 of
document 1. -/
def longWordIndex (word : List Nat) : MemIndex :=
  ⟨[[⟨sampleHash word, ⟨word, longWordPostings⟩⟩]]⟩

/-- The `IndexTableReader` that `FileIndexReader` gives for the file `WriteIndex`
writes for the index of the 65537-letter word and the sample document table (a
reader of an empty file if that file could not be opened). -/
def longWordReader : HashTableReader :=
  ((FileIndexReader.construct sampleMagic
      (WriteIndex sampleMagic Device.reliable (longWordIndex [97]) sampleDocTable none).2
      false).bind FileIndexReader.NewIndexTableReader).getD ⟨⟨[], 0⟩, 0, 0⟩

/-- The iterations of a loop whose body either returns from the function (`none`) or
hands a state to the next iteration: the state at the top of the iteration that
follows the iterations for the given elements, `none` when one of them returns. -/
def loopState {A S : Type} (next : A → S → Option S) : List A → S → Option S
  | [], s => some s
  | a :: rest, s =>
    match next a s with
    | none => none
    | some s1 => loopState next rest s1

/-- The body of the element loop of `WriteHTBucket` for the element `kv`, from the
state at the top of the iteration (the file, `record_pos`, `element_pos`): the state
at the top of the next iteration, `none` when the seek, the write of the
element-position record or the element writer fails and the function returns
`kFailedWrite`. -/
def WriteHTBucket_next {V : Type} (dev : Device) (fn : WriteElementFn V) (kv : HTKeyValue_t V)
    (s : FILE × Nat × Nat) : Option (FILE × Nat × Nat) :=
  match dev.fseek s.1 s.2.1 with
  | none => none
  | some f1 =>
    match dev.fwrite f1 (ElementPositionRecord.ToDiskFormat s.2.2) with
    | none => none
    | some f2 =>
      let r := fn f2 s.2.2 kv
      if r.1 = kFailedWrite then none
      else some (r.2, toUInt64 (s.2.1 + sizeofElementPositionRecord), toUInt64 (s.2.2 + r.1))

/-- The body of the bucket loop of `WriteHashTable` for the bucket `li`, from the
state at the top of the iteration (the file, `record_pos`, `bucket_pos`): the state at
the top of the next iteration, `none` when `WriteHTBucketRecord` or `WriteHTBucket`
fails and the function returns `kFailedWrite`. -/
def WriteHashTable_next {V : Type} (dev : Device) (fn : WriteElementFn V)
    (li : List (HTKeyValue_t V)) (s : FILE × Nat × Nat) : Option (FILE × Nat × Nat) :=
  let num_elts := LinkedList_NumElements li
  let r1 := WriteHTBucketRecord dev s.1 s.2.1 num_elts s.2.2
  if r1.1 = kFailedWrite then none
  else
    let r2 := if num_elts > 0 then WriteHTBucket dev r1.2 s.2.2 li fn else (0, r1.2)
    if r2.1 = kFailedWrite then none
    else some (r2.2, toUInt64 (s.2.1 + sizeofBucketRecord), toUInt64 (s.2.2 + r2.1))

/-- The body of the position loop of `WriteDocIDToPositionListFn`: the file after the
write of one position, `none` when the write fails. -/
def WriteDocIDToPositionListFn_next (dev : Device) (payload : Nat) (f : FILE) : Option FILE :=
  dev.fwrite f (DocIDElementPosition.ToDiskFormat (payload % 4294967296))

/-! # Proofs -/

theorem list_ext_getD {l1 l2 : List Nat} (hl : l1.length = l2.length)
    (h : ∀ i, l1.getD i 0 = l2.getD i 0) : l1 = l2 := by
  apply List.ext_getElem hl
  intro i h1 h2
  have := h i
  simp only [List.getD_eq_getElem?_getD, List.getElem?_eq_getElem h1,
    List.getElem?_eq_getElem h2, Option.getD_some] at this
  exact this

theorem pwrite_nil (b : List Nat) (off : Nat) : pwrite b off [] = b := by
  simp [pwrite]

theorem pwrite_length (b : List Nat) (off : Nat) (bs : List Nat) (h : bs ≠ []) :
    (pwrite b off bs).length = max b.length (off + bs.length) := by
  have : bs.isEmpty = false := by cases bs <;> simp_all
  simp only [pwrite, this, Bool.false_eq_true, if_false, List.length_append, List.length_take,
    List.length_replicate, List.length_drop]
  omega

theorem pwrite_getD (b : List Nat) (off : Nat) (bs : List Nat) (i : Nat) :
    (pwrite b off bs).getD i 0 =
      if off ≤ i ∧ i < off + bs.length then bs.getD (i - off) 0 else b.getD i 0 := by
  by_cases hbs : bs = []
  · subst hbs
    have hc : ¬ (off ≤ i ∧ i < off + ([] : List Nat).length) := by simp
    rw [if_neg hc, pwrite_nil]
  have he : bs.isEmpty = false := by cases bs <;> simp_all
  simp only [pwrite, he, Bool.false_eq_true, if_false, List.getD_eq_getElem?_getD]
  by_cases h1 : i < off
  · have hc : ¬ (off ≤ i ∧ i < off + bs.length) := by omega
    rw [if_neg hc]
    by_cases h2 : i < b.length
    · rw [List.append_assoc, List.append_assoc, List.getElem?_append_left (by simp; omega)]
      simp [List.getElem?_take, h1]
    · rw [List.append_assoc, List.append_assoc,
        List.getElem?_append_right (by simp; omega),
        List.getElem?_append_left (by simp; omega)]
      rw [List.getElem?_replicate, if_pos (by simp; omega)]
      rw [List.getElem?_eq_none (by omega)]
      rfl
  · by_cases h3 : i < off + bs.length
    · rw [if_pos ⟨by omega, h3⟩]
      rw [List.getElem?_append_left (by simp; omega),
        List.getElem?_append_right (by simp; omega)]
      congr 2
      simp
      omega
    · have hc : ¬ (off ≤ i ∧ i < off + bs.length) := by omega
      rw [if_neg hc, List.getElem?_append_right (by simp; omega), List.getElem?_drop]
      congr 2
      simp
      omega

theorem pwrite_adj (b : List Nat) (off : Nat) (xs ys : List Nat) :
    pwrite (pwrite b off xs) (off + xs.length) ys = pwrite b off (xs ++ ys) := by
  by_cases hx : xs = []
  · subst hx; simp [pwrite_nil]
  by_cases hy : ys = []
  · subst hy; simp [pwrite_nil]
  apply list_ext_getD
  · rw [pwrite_length _ _ _ hy, pwrite_length _ _ _ hx, pwrite_length _ _ _ (by simp [hx])]
    simp only [List.length_append]
    omega
  · intro i
    simp only [pwrite_getD, List.length_append]
    by_cases h1 : off + xs.length ≤ i ∧ i < off + xs.length + ys.length
    · rw [if_pos h1, if_pos (by omega)]
      rw [List.getD_append_right _ _ _ _ (by omega)]
      congr 1
      omega
    · rw [if_neg h1]
      by_cases h2 : off ≤ i ∧ i < off + xs.length
      · rw [if_pos h2, if_pos (by omega), List.getD_append _ _ _ _ (by omega)]
      · rw [if_neg h2, if_neg (by omega)]

theorem pwrite_comm (b : List Nat) (a c : Nat) (xs ys : List Nat) (h : a + xs.length ≤ c) :
    pwrite (pwrite b a xs) c ys = pwrite (pwrite b c ys) a xs := by
  by_cases hx : xs = []
  · subst hx; simp [pwrite_nil]
  by_cases hy : ys = []
  · subst hy; simp [pwrite_nil]
  apply list_ext_getD
  · rw [pwrite_length _ _ _ hy, pwrite_length _ _ _ hx, pwrite_length _ _ _ hx,
      pwrite_length _ _ _ hy]
    omega
  · intro i
    simp only [pwrite_getD]
    by_cases h1 : c ≤ i ∧ i < c + ys.length
    · rw [if_pos h1, if_neg (by omega), if_pos h1]
    · rw [if_neg h1]
      by_cases h2 : a ≤ i ∧ i < a + xs.length
      · rw [if_pos h2, if_pos h2]
      · rw [if_neg h2, if_neg h2, if_neg h1]

/-- Reading back what was stored. -/
theorem pwrite_drop_take (b : List Nat) (off : Nat) (bs : List Nat) :
    ((pwrite b off bs).drop off).take bs.length = bs := by
  by_cases hbs : bs = []
  · subst hbs; simp
  have he : bs.isEmpty = false := by cases bs <;> simp_all
  have hlen : (b.take off ++ List.replicate (off - b.length) 0).length = off := by
    simp only [List.length_append, List.length_take, List.length_replicate]; omega
  simp only [pwrite, he, Bool.false_eq_true, if_false]
  rw [List.append_assoc (List.take off b ++ List.replicate (off - b.length) 0)]
  conv => lhs; arg 2; arg 1; rw [← hlen]
  rw [List.drop_left, List.take_left]

theorem pwrite_empty (off : Nat) (bs : List Nat) (h : bs ≠ []) :
    pwrite [] off bs = List.replicate off 0 ++ bs := by
  have he : bs.isEmpty = false := by cases bs <;> simp_all
  simp [pwrite, he]

theorem pwrite_zero (b bs : List Nat) (h : bs.length ≤ b.length) :
    pwrite b 0 bs = bs ++ b.drop bs.length := by
  by_cases hbs : bs = []
  · subst hbs; simp [pwrite_nil]
  have he : bs.isEmpty = false := by cases bs <;> simp_all
  simp [pwrite, he]

theorem pwrite_at_end (b bs : List Nat) : pwrite b b.length bs = b ++ bs := by
  by_cases hbs : bs = []
  · subst hbs; simp [pwrite_nil]
  have he : bs.isEmpty = false := by cases bs <;> simp_all
  simp [pwrite, he]

theorem toInt32_of_range (x : Int) (h1 : -2147483648 ≤ x) (h2 : x < 2147483648) :
    toInt32 x = x := by
  unfold toInt32 toUInt32; simp only []; split <;> omega

theorem toInt16_of_range (x : Int) (h1 : -32768 ≤ x) (h2 : x < 32768) : toInt16 x = x := by
  unfold toInt16; simp only []; split <;> omega

theorem toUInt64_of_nat (n : Nat) (h : n < 18446744073709551616) : toUInt64 (n : Int) = n := by
  unfold toUInt64; omega

theorem toUInt32_of_nat (n : Nat) (h : n < 4294967296) : toUInt32 (n : Int) = n := by
  unfold toUInt32; omega

theorem toUInt32_eq_mod (n : Nat) : toUInt32 (n : Int) = n % 4294967296 := by
  unfold toUInt32; omega

@[simp] theorem be16_length (x : Nat) : (be16 x).length = 2 := rfl

@[simp] theorem be32_length (x : Nat) : (be32 x).length = 4 := rfl

@[simp] theorem be64_length (x : Nat) : (be64 x).length = 8 := rfl

theorem fromBE_be16 (x : Nat) (h : x < 65536) : fromBE (be16 x) = x := by
  simp only [fromBE, be16, List.foldl]; omega

theorem fromBE_be32 (x : Nat) (h : x < 4294967296) : fromBE (be32 x) = x := by
  simp only [fromBE, be32, List.foldl]; omega

theorem fromBE_be32_mod (x : Nat) : fromBE (be32 x) = x % 4294967296 := by
  simp only [fromBE, be32, List.foldl]; omega

theorem fromBE_be64 (x : Nat) (h : x < 18446744073709551616) : fromBE (be64 x) = x := by
  simp only [fromBE, be64, be32, List.foldl, List.cons_append, List.nil_append]; omega

theorem be32_lt (x : Nat) : ∀ b ∈ be32 x, b < 256 := by
  intro b hb
  simp only [be32, List.mem_cons, List.mem_singleton, List.not_mem_nil, or_false] at hb
  omega

theorem Device.fseek_some {dev : Device} {f f1 : FILE} {off : Nat}
    (h : dev.fseek f off = some f1) : f1.bytes = f.bytes ∧ f1.pos = off := by
  unfold Device.fseek hw3.fseek at h
  split at h
  · split at h
    · cases h; exact ⟨rfl, rfl⟩
    · cases h
  · cases h

theorem Device.fwrite_some {dev : Device} {f f1 : FILE} {bs : List Nat}
    (h : dev.fwrite f bs = some f1) :
    f1.bytes = pwrite f.bytes f.pos bs ∧ f1.pos = f.pos + bs.length := by
  unfold Device.fwrite at h
  split at h
  · rename_i he
    cases h
    have : bs = [] := by cases bs <;> simp_all
    subst this
    simp [pwrite_nil]
  · split at h
    · cases h; exact ⟨rfl, rfl⟩
    · cases h

theorem fwriteString_some {dev : Device} {f f1 : FILE} {s : List Nat} {n : Int}
    (h : fwriteString dev f s n = some f1) :
    0 ≤ n ∧ f1.bytes = pwrite f.bytes f.pos (s.take n.toNat) ∧
      f1.pos = f.pos + (s.take n.toNat).length := by
  unfold fwriteString at h
  split at h
  · cases h
  · have := Device.fwrite_some h
    exact ⟨by omega, this.1, this.2⟩

theorem chainRecords_length {V : Type} (sz : HTKeyValue_t V → Nat) (li : List (HTKeyValue_t V))
    (p : Nat) : (chainRecords sz li p).length = sizeofElementPositionRecord * li.length := by
  induction li generalizing p with
  | nil => rfl
  | cons kv rest ih =>
    simp only [chainRecords, List.length_append, ih, List.length_cons,
      ElementPositionRecord.ToDiskFormat, be64_length, sizeofElementPositionRecord]
    omega

theorem chainElements_length {V : Type} (enc : Nat → HTKeyValue_t V → List Nat)
    (sz : HTKeyValue_t V → Nat) (henc : ∀ off kv, (enc off kv).length = sz kv)
    (li : List (HTKeyValue_t V)) (p : Nat) :
    (chainElements enc sz li p).length = chainSize sz li := by
  induction li generalizing p with
  | nil => rfl
  | cons kv rest ih =>
    simp only [chainElements, List.length_append, ih, henc, chainSize, List.map_cons,
      List.sum_cons]

theorem WriteHTBucket_loop_bytes {V : Type} (dev : Device) (fn : WriteElementFn V)
    (enc : Nat → HTKeyValue_t V → List Nat) (sz : HTKeyValue_t V → Nat)
    (hfn : WritesElements fn enc sz) (offset : Nat) (rest : List (HTKeyValue_t V)) :
    ∀ (f : FILE) (rp ep : Nat), rp + sizeofElementPositionRecord * rest.length ≤ ep →
      offset ≤ ep → ep + chainSize sz rest < 2147483648 →
      (WriteHTBucket_loop dev fn offset rest f rp ep).1 ≠ kFailedWrite →
      (WriteHTBucket_loop dev fn offset rest f rp ep).1 = ((ep + chainSize sz rest - offset : Nat) : Int) ∧
      (WriteHTBucket_loop dev fn offset rest f rp ep).2.bytes =
        pwrite (pwrite f.bytes rp (chainRecords sz rest ep)) ep (chainElements enc sz rest ep) := by
  induction rest with
  | nil =>
    intro f rp ep _ h2 h3 _
    simp only [WriteHTBucket_loop, chainSize, List.map_nil, List.sum_nil, Nat.add_zero,
      chainRecords, chainElements, pwrite_nil, and_true]
    rw [toInt32_of_range _ (by simp only [chainSize, List.map_nil, List.sum_nil] at h3; omega)
      (by simp only [chainSize, List.map_nil, List.sum_nil] at h3; omega)]
    omega
  | cons kv rest ih =>
    intro f rp ep h1 h2 h3 hok
    simp only [chainSize, List.map_cons, List.sum_cons, List.length_cons,
      sizeofElementPositionRecord] at h1 h3
    have h3' : ep + sz kv + chainSize sz rest < 2147483648 := by
      simp only [chainSize]; omega
    unfold WriteHTBucket_loop at hok ⊢
    cases hs : dev.fseek f rp with
    | none => simp [hs] at hok
    | some f1 =>
      simp only [hs] at hok ⊢
      obtain ⟨hb1, hp1⟩ := Device.fseek_some hs
      cases hw : dev.fwrite f1 (ElementPositionRecord.ToDiskFormat ep) with
      | none => simp [hw] at hok
      | some f2 =>
        simp only [hw] at hok ⊢
        obtain ⟨hb2, hp2⟩ := Device.fwrite_some hw
        by_cases hr : (fn f2 ep kv).1 = kFailedWrite
        · simp [hr] at hok
        · simp only [hr, if_false] at hok ⊢
          obtain ⟨hr1, hr2⟩ := hfn.2 f2 ep kv (by omega) hr
          have e1 : toUInt64 ((rp : Int) + (sizeofElementPositionRecord : Nat)) = rp + 8 := by
            have := toUInt64_of_nat (rp + 8) (by omega)
            simpa [sizeofElementPositionRecord] using this
          have e2 : toUInt64 ((ep : Int) + (fn f2 ep kv).1) = ep + sz kv := by
            rw [hr1]
            have := toUInt64_of_nat (ep + sz kv) (by omega)
            simpa using this
          rw [e1, e2] at hok ⊢
          obtain ⟨ih1, ih2⟩ := ih (fn f2 ep kv).2 (rp + 8) (ep + sz kv)
            (by simp only [sizeofElementPositionRecord]; omega) (by omega) h3' hok
          refine ⟨?_, ?_⟩
          · rw [ih1]; simp only [chainSize, List.map_cons, List.sum_cons]; congr 1; omega
          · rw [ih2, hr2, hb2, hp1, hb1]
            simp only [chainRecords, chainElements]
            have hlen : (ElementPositionRecord.ToDiskFormat ep).length = 8 := rfl
            have hcr := chainRecords_length sz rest (ep + sz kv)
            simp only [sizeofElementPositionRecord] at hcr
            rw [← pwrite_comm _ (rp + 8) ep _ _ (by rw [hcr]; omega)]
            have a1 := pwrite_adj f.bytes rp (ElementPositionRecord.ToDiskFormat ep)
              (chainRecords sz rest (ep + sz kv))
            rw [hlen] at a1
            rw [a1]
            have a2 := pwrite_adj (pwrite f.bytes rp (ElementPositionRecord.ToDiskFormat ep ++
              chainRecords sz rest (ep + sz kv))) ep (enc ep kv)
              (chainElements enc sz rest (ep + sz kv))
            rw [hfn.1] at a2
            rw [a2]

theorem LinkedList_NumElements_eq {A : Type} (li : List A) (h : li.length < 2147483648) :
    LinkedList_NumElements li = li.length := by
  unfold LinkedList_NumElements
  exact toInt32_of_range _ (by omega) (by omega)

theorem bucketBytes_length {V : Type} (enc : Nat → HTKeyValue_t V → List Nat)
    (sz : HTKeyValue_t V → Nat) (henc : ∀ off kv, (enc off kv).length = sz kv)
    (off : Nat) (li : List (HTKeyValue_t V)) :
    (bucketBytes enc sz off li).length = bucketSize sz li := by
  simp only [bucketBytes, List.length_append, chainRecords_length,
    chainElements_length enc sz henc, bucketSize]

theorem WriteHTBucket_bytes {V : Type} (dev : Device) (fn : WriteElementFn V)
    (enc : Nat → HTKeyValue_t V → List Nat) (sz : HTKeyValue_t V → Nat)
    (hfn : WritesElements fn enc sz) (f : FILE) (offset : Nat) (li : List (HTKeyValue_t V))
    (hsize : offset + bucketSize sz li < 2147483648)
    (hok : (WriteHTBucket dev f offset li fn).1 ≠ kFailedWrite) :
    (WriteHTBucket dev f offset li fn).1 = bucketSize sz li ∧
    (WriteHTBucket dev f offset li fn).2.bytes =
      pwrite f.bytes offset (bucketBytes enc sz offset li) := by
  simp only [bucketSize, sizeofElementPositionRecord] at hsize
  have hn : LinkedList_NumElements li = li.length :=
    LinkedList_NumElements_eq li (by omega)
  simp only [WriteHTBucket, hn] at hok ⊢
  by_cases hz : ((li.length : Nat) : Int) = 0
  · have hl : li = [] := by
      have : li.length = 0 := by omega
      exact List.length_eq_zero.mp this
    subst hl
    simp [bucketSize, chainSize, bucketBytes, chainRecords, chainElements, pwrite_nil]
  · simp only [hz, if_false, Int.toNat_ofNat, List.take_length] at hok ⊢
    have e1 : toUInt64 ((offset : Int) + ((sizeofElementPositionRecord : Nat) : Int) * (li.length : Int))
        = offset + 8 * li.length := by
      have := toUInt64_of_nat (offset + 8 * li.length) (by omega)
      simpa [sizeofElementPositionRecord] using this
    rw [e1] at hok ⊢
    obtain ⟨h1, h2⟩ := WriteHTBucket_loop_bytes dev fn enc sz hfn offset li f offset
      (offset + 8 * li.length) (by simp only [sizeofElementPositionRecord]; omega) (by omega)
      (by omega) hok
    refine ⟨?_, ?_⟩
    · rw [h1]; simp only [bucketSize, sizeofElementPositionRecord]; omega
    · rw [h2]
      simp only [bucketBytes, sizeofElementPositionRecord]
      have a1 := pwrite_adj f.bytes offset (chainRecords sz li (offset + 8 * li.length))
        (chainElements enc sz li (offset + 8 * li.length))
      rw [chainRecords_length] at a1
      simp only [sizeofElementPositionRecord] at a1
      rw [a1]

theorem WriteHTBucketRecord_bytes (dev : Device) (f : FILE) (offset : Nat) (num_elts : Int)
    (bucket_offset : Nat)
    (hok : (WriteHTBucketRecord dev f offset num_elts bucket_offset).1 ≠ kFailedWrite) :
    (WriteHTBucketRecord dev f offset num_elts bucket_offset).2.bytes =
      pwrite f.bytes offset (BucketRecord.ToDiskFormat num_elts bucket_offset) := by
  simp only [WriteHTBucketRecord] at hok ⊢
  cases hs : dev.fseek f offset with
  | none => simp [hs] at hok
  | some f1 =>
    simp only [hs] at hok ⊢
    obtain ⟨hb1, hp1⟩ := Device.fseek_some hs
    cases hw : dev.fwrite f1 (BucketRecord.ToDiskFormat num_elts bucket_offset) with
    | none => simp [hw] at hok
    | some f2 =>
      simp only [hw]
      obtain ⟨hb2, _⟩ := Device.fwrite_some hw
      rw [hb2, hb1, hp1]


theorem tableRecords_length {V : Type} (sz : HTKeyValue_t V → Nat)
    (bs : List (List (HTKeyValue_t V))) (p : Nat) :
    (tableRecords sz bs p).length = sizeofBucketRecord * bs.length := by
  induction bs generalizing p with
  | nil => rfl
  | cons li rest ih =>
    simp only [tableRecords, List.length_append, ih, List.length_cons,
      BucketRecord.ToDiskFormat, be64_length, be32_length, sizeofBucketRecord]
    omega


theorem tableBuckets_length {V : Type} (enc : Nat → HTKeyValue_t V → List Nat)
    (sz : HTKeyValue_t V → Nat) (henc : ∀ off kv, (enc off kv).length = sz kv)
    (bs : List (List (HTKeyValue_t V))) (p : Nat) :
    (tableBuckets enc sz bs p).length = bucketsSize sz bs := by
  induction bs generalizing p with
  | nil => rfl
  | cons li rest ih =>
    simp only [tableBuckets, List.length_append, ih, bucketBytes_length enc sz henc,
      bucketsSize, List.map_cons, List.sum_cons]


theorem tableBytes_length {V : Type} (enc : Nat → HTKeyValue_t V → List Nat)
    (sz : HTKeyValue_t V → Nat) (henc : ∀ off kv, (enc off kv).length = sz kv)
    (offset : Nat) (ht : HashTable V) :
    (tableBytes enc sz offset ht).length = tableSize sz ht := by
  simp only [tableBytes, List.length_append, tableRecords_length,
    tableBuckets_length enc sz henc, tableSize, BucketListHeader.ToDiskFormat, be32_length,
    sizeofBucketListHeader]


theorem WriteHashTable_loop_bytes {V : Type} (dev : Device) (fn : WriteElementFn V)
    (enc : Nat → HTKeyValue_t V → List Nat) (sz : HTKeyValue_t V → Nat)
    (hfn : WritesElements fn enc sz) (offset : Nat) (rest : List (List (HTKeyValue_t V))) :
    ∀ (f : FILE) (rp bp : Nat), rp + sizeofBucketRecord * rest.length ≤ bp →
      offset ≤ bp → bp + bucketsSize sz rest < 2147483648 →
      (WriteHashTable_loop dev fn offset rest f rp bp).1 ≠ kFailedWrite →
      (WriteHashTable_loop dev fn offset rest f rp bp).1 =
        ((bp + bucketsSize sz rest - offset : Nat) : Int) ∧
      (WriteHashTable_loop dev fn offset rest f rp bp).2.bytes =
        pwrite (pwrite f.bytes rp (tableRecords sz rest bp)) bp (tableBuckets enc sz rest bp) := by
  induction rest with
  | nil =>
    intro f rp bp _ h2 h3 _
    simp only [bucketsSize, List.map_nil, List.sum_nil, Nat.add_zero] at h3
    simp only [WriteHashTable_loop, bucketsSize, List.map_nil, List.sum_nil, Nat.add_zero,
      tableRecords, tableBuckets, pwrite_nil, and_true]
    rw [toInt32_of_range _ (by omega) (by omega)]
    omega
  | cons li rest ih =>
    intro f rp bp h1 h2 h3 hok
    simp only [bucketsSize, List.map_cons, List.sum_cons, List.length_cons,
      sizeofBucketRecord] at h1 h3
    have h3' : bp + bucketSize sz li + bucketsSize sz rest < 2147483648 := by
      simp only [bucketsSize]; omega
    have hli : li.length < 2147483648 := by
      simp only [bucketSize, sizeofElementPositionRecord] at h3; omega
    have hn : LinkedList_NumElements li = li.length := LinkedList_NumElements_eq li hli
    unfold WriteHashTable_loop at hok ⊢
    simp only [hn] at hok ⊢
    by_cases hr : (WriteHTBucketRecord dev f rp li.length bp).1 = kFailedWrite
    · simp [hr] at hok
    · simp only [hr, if_false] at hok ⊢
      have hrb := WriteHTBucketRecord_bytes dev f rp li.length bp hr
      have e1 : toUInt64 ((rp : Int) + (sizeofBucketRecord : Nat)) = rp + 12 := by
        have := toUInt64_of_nat (rp + 12) (by omega)
        simpa [sizeofBucketRecord] using this
      -- the bucket itself
      have key : ∃ r2 : Int × FILE,
          (if ((li.length : Nat) : Int) > 0 then
            WriteHTBucket dev (WriteHTBucketRecord dev f rp li.length bp).2 bp li fn
          else (0, (WriteHTBucketRecord dev f rp li.length bp).2)) = r2 := ⟨_, rfl⟩
      obtain ⟨r2, hr2⟩ := key
      rw [hr2] at hok ⊢
      by_cases hf2 : r2.1 = kFailedWrite
      · simp [hf2] at hok
      · simp only [hf2, if_false] at hok ⊢
        have hb : r2.1 = bucketSize sz li ∧ r2.2.bytes =
            pwrite (WriteHTBucketRecord dev f rp li.length bp).2.bytes bp
              (bucketBytes enc sz bp li) := by
          by_cases hpos : ((li.length : Nat) : Int) > 0
          · rw [if_pos hpos] at hr2
            rw [← hr2] at hf2 ⊢
            exact WriteHTBucket_bytes dev fn enc sz hfn _ bp li (by omega) hf2
          · rw [if_neg hpos] at hr2
            have hl : li = [] := List.length_eq_zero.mp (by omega)
            subst hl
            rw [← hr2]
            simp [bucketSize, chainSize, bucketBytes, chainRecords, chainElements, pwrite_nil]
        obtain ⟨hb1, hb2⟩ := hb
        have e2 : toUInt64 ((bp : Int) + r2.1) = bp + bucketSize sz li := by
          rw [hb1]
          have := toUInt64_of_nat (bp + bucketSize sz li) (by omega)
          simpa using this
        rw [e1, e2] at hok ⊢
        obtain ⟨ih1, ih2⟩ := ih r2.2 (rp + 12) (bp + bucketSize sz li)
          (by simp only [sizeofBucketRecord]; omega) (by omega) h3' hok
        refine ⟨?_, ?_⟩
        · rw [ih1]; simp only [bucketsSize, List.map_cons, List.sum_cons]; omega
        · rw [ih2, hb2, hrb]
          simp only [tableRecords, tableBuckets]
          have hlen : (BucketRecord.ToDiskFormat (li.length : Nat) bp).length = 12 := rfl
          have hcr := tableRecords_length sz rest (bp + bucketSize sz li)
          simp only [sizeofBucketRecord] at hcr
          rw [← pwrite_comm _ (rp + 12) bp _ _ (by rw [hcr]; omega)]
          have a1 := pwrite_adj f.bytes rp (BucketRecord.ToDiskFormat (li.length : Nat) bp)
            (tableRecords sz rest (bp + bucketSize sz li))
          rw [hlen] at a1
          rw [a1]
          have a2 := pwrite_adj (pwrite f.bytes rp (BucketRecord.ToDiskFormat (li.length : Nat) bp ++
            tableRecords sz rest (bp + bucketSize sz li))) bp (bucketBytes enc sz bp li)
            (tableBuckets enc sz rest (bp + bucketSize sz li))
          rw [bucketBytes_length enc sz hfn.1] at a2
          rw [a2]

theorem WriteHashTable_bytes {V : Type} (dev : Device) (fn : WriteElementFn V)
    (enc : Nat → HTKeyValue_t V → List Nat) (sz : HTKeyValue_t V → Nat)
    (hfn : WritesElements fn enc sz) (f : FILE) (offset : Nat) (ht : HashTable V)
    (hsize : offset + tableSize sz ht < 2147483648)
    (hok : (WriteHashTable dev f offset ht fn).1 ≠ kFailedWrite) :
    (WriteHashTable dev f offset ht fn).1 = tableSize sz ht ∧
    (WriteHashTable dev f offset ht fn).2.bytes =
      pwrite f.bytes offset (tableBytes enc sz offset ht) := by
  simp only [tableSize, sizeofBucketListHeader, sizeofBucketRecord] at hsize
  have hn : ht.num_buckets = ht.buckets.length := by
    unfold HashTable.num_buckets
    exact toInt32_of_range _ (by omega) (by omega)
  simp only [WriteHashTable] at hok ⊢
  cases hs : dev.fseek f offset with
  | none => simp [hs] at hok
  | some f1 =>
    simp only [hs] at hok ⊢
    obtain ⟨hb1, hp1⟩ := Device.fseek_some hs
    cases hw : dev.fwrite f1 (BucketListHeader.ToDiskFormat ht.num_buckets) with
    | none => simp [hw] at hok
    | some f2 =>
      simp only [hw] at hok ⊢
      obtain ⟨hb2, _⟩ := Device.fwrite_some hw
      simp only [hn, Int.toNat_ofNat, List.take_length] at hok hb2 ⊢
      have e1 : toUInt64 ((offset : Int) + (sizeofBucketListHeader : Nat)) = offset + 4 := by
        have := toUInt64_of_nat (offset + 4) (by omega)
        simpa [sizeofBucketListHeader] using this
      have e2 : toUInt64 ((offset : Int) + (sizeofBucketListHeader : Nat) +
          (ht.buckets.length : Int) * (sizeofBucketRecord : Nat)) =
          offset + 4 + 12 * ht.buckets.length := by
        have hc : ((offset : Int) + (sizeofBucketListHeader : Nat) +
            (ht.buckets.length : Int) * (sizeofBucketRecord : Nat)) =
            ((offset + 4 + 12 * ht.buckets.length : Nat) : Int) := by
          simp only [sizeofBucketListHeader, sizeofBucketRecord]
          push_cast
          ring
        rw [hc]
        exact toUInt64_of_nat _ (by omega)
      rw [e1, e2] at hok ⊢
      obtain ⟨h1, h2⟩ := WriteHashTable_loop_bytes dev fn enc sz hfn offset ht.buckets f2
        (offset + 4) (offset + 4 + 12 * ht.buckets.length)
        (by simp only [sizeofBucketRecord]; omega) (by omega) (by omega) hok
      refine ⟨?_, ?_⟩
      · rw [h1]
        simp only [tableSize, sizeofBucketListHeader, sizeofBucketRecord]
        omega
      · rw [h2, hb2, hb1, hp1]
        simp only [tableBytes, sizeofBucketListHeader, sizeofBucketRecord]
        have hlen : (BucketListHeader.ToDiskFormat (ht.buckets.length : Nat)).length = 4 := rfl
        have a1 := pwrite_adj f.bytes offset
          (BucketListHeader.ToDiskFormat (ht.buckets.length : Nat))
          (tableRecords sz ht.buckets (offset + 4 + 12 * ht.buckets.length))
        rw [hlen] at a1
        rw [a1]
        have a2 := pwrite_adj f.bytes offset
          (BucketListHeader.ToDiskFormat (ht.buckets.length : Nat) ++
            tableRecords sz ht.buckets (offset + 4 + 12 * ht.buckets.length))
          (tableBuckets enc sz ht.buckets (offset + 4 + 12 * ht.buckets.length))
        rw [List.length_append, hlen, tableRecords_length] at a2
        simp only [sizeofBucketRecord] at a2
        rw [← Nat.add_assoc] at a2
        rw [a2]

theorem positionsBytes_length (ps : List Nat) :
    (positionsBytes ps).length = sizeofDocIDElementPosition * ps.length := by
  induction ps with
  | nil => rfl
  | cons p ps ih =>
    simp only [positionsBytes, List.length_append, ih, List.length_cons,
      DocIDElementPosition.ToDiskFormat, be32_length, sizeofDocIDElementPosition]
    omega

theorem postingBytes_length (kv : HTKeyValue_t (List Nat)) :
    (postingBytes kv).length = postingSize kv := by
  simp only [postingBytes, List.length_append, positionsBytes_length, postingSize,
    DocIDElementHeader.ToDiskFormat, be64_length, be32_length, sizeofDocIDElementHeader]

theorem WriteDocIDToPositionListFn_loop_bytes (dev : Device) (num_positions : Int)
    (ps : List Nat) : ∀ (f : FILE),
    (WriteDocIDToPositionListFn_loop dev num_positions ps f).1 ≠ kFailedWrite →
    (WriteDocIDToPositionListFn_loop dev num_positions ps f).1 =
      toInt32 (sizeofDocIDElementHeader + num_positions * sizeofDocIDElementPosition) ∧
    (WriteDocIDToPositionListFn_loop dev num_positions ps f).2.bytes =
      pwrite f.bytes f.pos (positionsBytes ps) := by
  induction ps with
  | nil => intro f _; simp [WriteDocIDToPositionListFn_loop, positionsBytes, pwrite_nil]
  | cons p ps ih =>
    intro f hok
    unfold WriteDocIDToPositionListFn_loop at hok ⊢
    cases hw : dev.fwrite f (DocIDElementPosition.ToDiskFormat (p % 4294967296)) with
    | none => simp [hw] at hok
    | some f1 =>
      simp only [hw] at hok ⊢
      obtain ⟨hb, hp⟩ := Device.fwrite_some hw
      obtain ⟨h1, h2⟩ := ih f1 hok
      refine ⟨h1, ?_⟩
      rw [h2, hb, hp, pwrite_adj]
      rfl

theorem WriteDocIDToPositionListFn_writes (dev : Device) :
    WritesElements (WriteDocIDToPositionListFn dev) (fun _ => postingBytes) postingSize := by
  refine ⟨fun _ kv => postingBytes_length kv, ?_⟩
  intro f off kv hsize hok
  simp only [postingSize, sizeofDocIDElementHeader, sizeofDocIDElementPosition] at hsize
  have hn : LinkedList_NumElements kv.value = kv.value.length :=
    LinkedList_NumElements_eq _ (by omega)
  simp only [WriteDocIDToPositionListFn, hn] at hok ⊢
  cases hs : dev.fseek f off with
  | none => simp [hs] at hok
  | some f1 =>
    simp only [hs] at hok ⊢
    obtain ⟨hb1, hp1⟩ := Device.fseek_some hs
    cases hw : dev.fwrite f1 (DocIDElementHeader.ToDiskFormat kv.key kv.value.length) with
    | none => simp [hw] at hok
    | some f2 =>
      simp only [hw, Int.toNat_ofNat, List.take_length] at hok ⊢
      obtain ⟨hb2, hp2⟩ := Device.fwrite_some hw
      obtain ⟨h1, h2⟩ := WriteDocIDToPositionListFn_loop_bytes dev _ _ f2 hok
      refine ⟨?_, ?_⟩
      · rw [h1, toInt32_of_range]
        · simp only [postingSize, sizeofDocIDElementHeader, sizeofDocIDElementPosition]
          push_cast; ring
        · simp only [sizeofDocIDElementHeader, sizeofDocIDElementPosition]; omega
        · simp only [sizeofDocIDElementHeader, sizeofDocIDElementPosition]; omega
      · rw [h2, hb2, hp2, hb1, hp1, pwrite_adj]
        rfl

theorem toInt16_toNat_le (n : Nat) : (toInt16 n).toNat ≤ n := by
  unfold toInt16; simp only []; split <;> omega

theorem docBytes_length (kv : HTKeyValue_t (List Nat)) :
    (docBytes kv).length = docSize kv := by
  have := toInt16_toNat_le kv.value.length
  simp only [docBytes, List.length_append, List.length_take, docSize,
    DoctableElementHeader.ToDiskFormat, be64_length, be16_length, sizeofDoctableElementHeader]
  omega

theorem WriteDocidToDocnameFn_writes (dev : Device) :
    WritesElements (WriteDocidToDocnameFn dev) (fun _ => docBytes) docSize := by
  refine ⟨fun _ kv => docBytes_length kv, ?_⟩
  intro f off kv hsize hok
  simp only [docSize, sizeofDoctableElementHeader] at hsize
  simp only [WriteDocidToDocnameFn] at hok ⊢
  cases hs : dev.fseek f off with
  | none => simp [hs] at hok
  | some f1 =>
    simp only [hs] at hok ⊢
    obtain ⟨hb1, hp1⟩ := Device.fseek_some hs
    cases hw : dev.fwrite f1
        (DoctableElementHeader.ToDiskFormat kv.key (toInt16 kv.value.length)) with
    | none => simp [hw] at hok
    | some f2 =>
      simp only [hw] at hok ⊢
      obtain ⟨hb2, hp2⟩ := Device.fwrite_some hw
      cases hw3 : fwriteString dev f2 kv.value (toInt16 kv.value.length) with
      | none => simp [hw3] at hok
      | some f3 =>
        simp only [hw3]
        obtain ⟨hnn, hb3, _⟩ := fwriteString_some hw3
        refine ⟨?_, ?_⟩
        · rw [toInt32_of_range]
          · simp only [docSize, sizeofDoctableElementHeader]; omega
          · simp only [sizeofDoctableElementHeader]; omega
          · simp only [sizeofDoctableElementHeader]; omega
        · rw [hb3, hb2, hp2, hb1, hp1, pwrite_adj]
          rfl

theorem wordBytes_length (off : Nat) (kv : HTKeyValue_t WordPostings) :
    (wordBytes off kv).length = wordSize kv := by
  have := toInt16_toNat_le kv.value.word.length
  simp only [wordBytes, List.length_append, List.length_take, wordSize,
    tableBytes_length _ _ (fun _ kv => postingBytes_length kv),
    WordPostingsHeader.ToDiskFormat, be16_length, be32_length, sizeofWordPostingsHeader]
  omega

theorem WriteWordToPostingsFn_writes (dev : Device) :
    WritesElements (WriteWordToPostingsFn dev) wordBytes wordSize := by
  refine ⟨wordBytes_length, ?_⟩
  intro f off kv hsize hok
  simp only [wordSize, sizeofWordPostingsHeader] at hsize
  have hle := toInt16_toNat_le kv.value.word.length
  -- a negative 16-bit length makes the write of the word fail
  have hnn : 0 ≤ toInt16 kv.value.word.length := by
    by_contra hneg
    apply hok
    simp only [WriteWordToPostingsFn]
    generalize WriteHashTable dev f _ kv.value.postings (WriteDocIDToPositionListFn dev) = r
    by_cases hr : r.1 = kFailedWrite
    · simp [hr]
    · simp only [hr, if_false]
      cases hs : dev.fseek r.2 off with
      | none => rfl
      | some f1 =>
        simp only []
        cases hw : dev.fwrite f1 (WordPostingsHeader.ToDiskFormat
            (toInt16 kv.value.word.length) r.1) with
        | none => rfl
        | some f2 =>
          simp only []
          cases hw3 : fwriteString dev f2 kv.value.word (toInt16 kv.value.word.length) with
          | none => rfl
          | some f3 =>
            have := (fwriteString_some hw3).1
            omega
  have eoff : toUInt64 ((off : Int) + (sizeofWordPostingsHeader : Nat) +
      toInt16 kv.value.word.length) = off + 6 + (toInt16 kv.value.word.length).toNat := by
    have hc : ((off : Int) + (sizeofWordPostingsHeader : Nat) + toInt16 kv.value.word.length) =
        ((off + 6 + (toInt16 kv.value.word.length).toNat : Nat) : Int) := by
      simp only [sizeofWordPostingsHeader]
      omega
    rw [hc]
    exact toUInt64_of_nat _ (by omega)
  simp only [WriteWordToPostingsFn] at hok ⊢
  rw [eoff] at hok ⊢
  by_cases hr : (WriteHashTable dev f (off + 6 + (toInt16 kv.value.word.length).toNat)
      kv.value.postings (WriteDocIDToPositionListFn dev)).1 = kFailedWrite
  · simp [hr] at hok
  · simp only [hr, if_false] at hok ⊢
    obtain ⟨hr1, hr2⟩ := WriteHashTable_bytes dev _ _ _ (WriteDocIDToPositionListFn_writes dev) f
      (off + 6 + (toInt16 kv.value.word.length).toNat) kv.value.postings (by omega) hr
    cases hs : dev.fseek (WriteHashTable dev f (off + 6 + (toInt16 kv.value.word.length).toNat)
      kv.value.postings (WriteDocIDToPositionListFn dev)).2 off with
    | none => simp [hs] at hok
    | some f1 =>
      simp only [hs] at hok ⊢
      obtain ⟨hb1, hp1⟩ := Device.fseek_some hs
      cases hw : dev.fwrite f1 (WordPostingsHeader.ToDiskFormat (toInt16 kv.value.word.length)
          (WriteHashTable dev f (off + 6 + (toInt16 kv.value.word.length).toNat)
            kv.value.postings (WriteDocIDToPositionListFn dev)).1) with
      | none => simp [hw] at hok
      | some f2 =>
        simp only [hw] at hok ⊢
        obtain ⟨hb2, hp2⟩ := Device.fwrite_some hw
        cases hw3 : fwriteString dev f2 kv.value.word (toInt16 kv.value.word.length) with
        | none => simp [hw3] at hok
        | some f3 =>
          simp only [hw3]
          obtain ⟨_, hb3, _⟩ := fwriteString_some hw3
          refine ⟨?_, ?_⟩
          · rw [hr1, toInt32_of_range]
            · simp only [wordSize, sizeofWordPostingsHeader]; omega
            · simp only [sizeofWordPostingsHeader]; omega
            · simp only [sizeofWordPostingsHeader]; omega
          · rw [hb3, hb2, hp2, hb1, hp1, hr2, hr1]
            have hlenH : (WordPostingsHeader.ToDiskFormat (toInt16 kv.value.word.length)
                ((tableSize postingSize kv.value.postings : Nat) : Int)).length = 6 := rfl
            have hlenW : (kv.value.word.take (toInt16 kv.value.word.length).toNat).length =
                (toInt16 kv.value.word.length).toNat := by
              rw [List.length_take]; omega
            rw [hlenH]
            rw [← pwrite_comm _ off (off + 6 + (toInt16 kv.value.word.length).toNat) _ _
              (by rw [hlenH]; omega)]
            rw [← pwrite_comm _ (off + 6) (off + 6 + (toInt16 kv.value.word.length).toNat) _ _
              (by rw [hlenW])]
            have a1 := pwrite_adj f.bytes off
              (WordPostingsHeader.ToDiskFormat (toInt16 kv.value.word.length)
                ((tableSize postingSize kv.value.postings : Nat) : Int))
              (kv.value.word.take (toInt16 kv.value.word.length).toNat)
            rw [hlenH] at a1
            rw [a1]
            have a2 := pwrite_adj f.bytes off
              (WordPostingsHeader.ToDiskFormat (toInt16 kv.value.word.length)
                ((tableSize postingSize kv.value.postings : Nat) : Int) ++
                kv.value.word.take (toInt16 kv.value.word.length).toNat)
              (tableBytes (fun _ => postingBytes) postingSize
                (off + 6 + (toInt16 kv.value.word.length).toNat) kv.value.postings)
            rw [List.length_append, hlenH, hlenW, ← Nat.add_assoc] at a2
            rw [a2]
            simp only [wordBytes, sizeofWordPostingsHeader]

theorem WriteHeader_loop_eq (n : Nat) : ∀ (f : FILE) (crc : Nat),
    f.pos + n ≤ f.bytes.length →
    WriteHeader_loop n f crc =
      some (((f.bytes.drop f.pos).take n).foldl CRC32.FoldByteIntoCRC crc,
        { f with pos := f.pos + n }) := by
  induction n with
  | zero =>
    intro f crc _
    simp [WriteHeader_loop]
  | succ n ih =>
    intro f crc h
    unfold WriteHeader_loop
    have h1 : f.pos + 1 ≤ f.bytes.length := by omega
    have hlt : f.pos < f.bytes.length := by omega
    have hd : f.bytes.drop f.pos = f.bytes[f.pos] :: f.bytes.drop (f.pos + 1) :=
      List.drop_eq_getElem_cons hlt
    simp only [fread, h1, if_true, hd, List.take_succ_cons, List.take_zero, List.headD_cons]
    rw [ih _ _ (by simp only; omega)]
    simp only [List.foldl_cons, Option.some.injEq, Prod.mk.injEq, FILE.mk.injEq, true_and]
    omega

theorem indexFileBody_length (mi : MemIndex) (dt : DocTable) :
    (indexFileBody mi dt).length = tableSize docSize dt.id_to_name + tableSize wordSize mi := by
  simp only [indexFileBody, List.length_append,
    tableBytes_length _ _ (fun _ kv => docBytes_length kv),
    tableBytes_length _ _ wordBytes_length]

theorem indexFileBytes_length (kMagicNumber : Nat) (mi : MemIndex) (dt : DocTable) :
    (indexFileBytes kMagicNumber mi dt).length = indexFileSize mi dt := by
  simp only [indexFileBytes, List.length_append, indexFileBody_length, indexFileSize,
    IndexFileHeader.ToDiskFormat, be32_length, sizeofIndexFileHeader]
  omega

theorem tableSize_pos {V : Type} (sz : HTKeyValue_t V → Nat) (ht : HashTable V) :
    4 ≤ tableSize sz ht := by
  simp only [tableSize, sizeofBucketListHeader]; omega

theorem WriteHeader_bytes (kMagicNumber : Nat) (dev : Device) (f : FILE) (body : List Nat)
    (d m : Nat) (hbytes : f.bytes = List.replicate 16 0 ++ body)
    (hlen : body.length = d + m) (hsize : d + m < 2147483648)
    (hok : (WriteHeader kMagicNumber dev f d m).1 ≠ kFailedWrite) :
    (WriteHeader kMagicNumber dev f d m).2.bytes =
      IndexFileHeader.ToDiskFormat kMagicNumber
        (CRC32.GetFinalCRC (body.foldl CRC32.FoldByteIntoCRC CRC32.init)) d m ++ body := by
  have et : toUInt64 (toInt32 ((d : Int) + (m : Int))) = d + m := by
    rw [toInt32_of_range _ (by omega) (by omega)]
    have hc : ((d : Int) + (m : Int)) = ((d + m : Nat) : Int) := by push_cast; rfl
    rw [hc]
    exact toUInt64_of_nat _ (by omega)
  simp only [WriteHeader] at hok ⊢
  rw [et] at hok ⊢
  cases hs : dev.fseek f sizeofIndexFileHeader with
  | none => simp [hs] at hok
  | some f1 =>
    simp only [hs] at hok ⊢
    obtain ⟨hb1, hp1⟩ := Device.fseek_some hs
    have hloop := WriteHeader_loop_eq (d + m) f1 CRC32.init (by
      rw [hb1, hp1, hbytes]
      simp only [sizeofIndexFileHeader, List.length_append, List.length_replicate]
      omega)
    have hbody : (f1.bytes.drop f1.pos).take (d + m) = body := by
      rw [hb1, hp1, hbytes]
      have : sizeofIndexFileHeader = (List.replicate 16 0 : List Nat).length := by
        simp [sizeofIndexFileHeader]
      rw [this, List.drop_left, ← hlen, List.take_length]
    rw [hbody] at hloop
    rw [hloop] at hok ⊢
    simp only at hok ⊢
    cases hs2 : dev.fseek { f1 with pos := f1.pos + (d + m) } 0 with
    | none => simp [hs2] at hok
    | some f3 =>
      simp only [hs2] at hok ⊢
      obtain ⟨hb3, hp3⟩ := Device.fseek_some hs2
      cases hw : dev.fwrite f3 (IndexFileHeader.ToDiskFormat kMagicNumber
          (CRC32.GetFinalCRC (body.foldl CRC32.FoldByteIntoCRC CRC32.init)) d m) with
      | none => simp [hw] at hok
      | some f4 =>
        simp only [hw]
        obtain ⟨hb4, _⟩ := Device.fwrite_some hw
        rw [hb4, hp3, hb3]
        simp only
        rw [hb1, hbytes, pwrite_zero _ _ (by
          simp [IndexFileHeader.ToDiskFormat])]
        have : (IndexFileHeader.ToDiskFormat kMagicNumber
          (CRC32.GetFinalCRC (body.foldl CRC32.FoldByteIntoCRC CRC32.init)) d m).length =
            (List.replicate 16 0 : List Nat).length := by
          simp [IndexFileHeader.ToDiskFormat]
        rw [this, List.drop_left]

/-- A successful `WriteIndex` of an index below 2 GiB returns the file's size and
leaves exactly `indexFileBytes` in the file. -/
theorem WriteIndex_bytes (kMagicNumber : Nat) (dev : Device) (mi : MemIndex) (dt : DocTable)
    (old : Option (List Nat)) (hsize : indexFileSize mi dt < 2147483648)
    (hok : (WriteIndex kMagicNumber dev mi dt old).1 ≠ kFailedWrite) :
    WriteIndex kMagicNumber dev mi dt old =
      (((indexFileSize mi dt : Nat) : Int), some (indexFileBytes kMagicNumber mi dt)) := by
  simp only [indexFileSize, sizeofIndexFileHeader] at hsize
  have hD := tableSize_pos docSize dt.id_to_name
  have hM := tableSize_pos wordSize mi
  simp only [WriteIndex, WriteDocTable, WriteMemIndex, DT_GetIDToNameTable] at hok ⊢
  by_cases ho : dev.openOk = false
  · simp [ho] at hok
  simp only [ho, if_false] at hok ⊢
  by_cases hr1 : (WriteHashTable dev ⟨[], 0⟩ sizeofIndexFileHeader dt.id_to_name
      (WriteDocidToDocnameFn dev)).1 = kFailedWrite
  · simp [hr1] at hok
  simp only [hr1, if_false] at hok ⊢
  obtain ⟨h11, h12⟩ := WriteHashTable_bytes dev _ _ _ (WriteDocidToDocnameFn_writes dev)
    ⟨[], 0⟩ sizeofIndexFileHeader dt.id_to_name
    (by simp only [sizeofIndexFileHeader]; omega) hr1
  have ec1 : toUInt64 (((sizeofIndexFileHeader : Nat) : Int) +
      (WriteHashTable dev ⟨[], 0⟩ sizeofIndexFileHeader dt.id_to_name
        (WriteDocidToDocnameFn dev)).1) = 16 + tableSize docSize dt.id_to_name := by
    rw [h11]
    have hc : (((sizeofIndexFileHeader : Nat) : Int) + ((tableSize docSize dt.id_to_name : Nat) : Int))
        = ((16 + tableSize docSize dt.id_to_name : Nat) : Int) := by
      simp only [sizeofIndexFileHeader]; push_cast; rfl
    rw [hc]
    exact toUInt64_of_nat _ (by omega)
  rw [ec1] at hok ⊢
  by_cases hr2 : (WriteHashTable dev (WriteHashTable dev ⟨[], 0⟩ sizeofIndexFileHeader
      dt.id_to_name (WriteDocidToDocnameFn dev)).2 (16 + tableSize docSize dt.id_to_name) mi
      (WriteWordToPostingsFn dev)).1 = kFailedWrite
  · simp [hr2] at hok
  simp only [hr2, if_false] at hok ⊢
  obtain ⟨h21, h22⟩ := WriteHashTable_bytes dev _ _ _ (WriteWordToPostingsFn_writes dev)
    (WriteHashTable dev ⟨[], 0⟩ sizeofIndexFileHeader dt.id_to_name
      (WriteDocidToDocnameFn dev)).2 (16 + tableSize docSize dt.id_to_name) mi
    (by omega) hr2
  have ec2 : toUInt64 (((16 + tableSize docSize dt.id_to_name : Nat) : Int) +
      (WriteHashTable dev (WriteHashTable dev ⟨[], 0⟩ sizeofIndexFileHeader
        dt.id_to_name (WriteDocidToDocnameFn dev)).2 (16 + tableSize docSize dt.id_to_name) mi
        (WriteWordToPostingsFn dev)).1) =
      16 + tableSize docSize dt.id_to_name + tableSize wordSize mi := by
    rw [h21]
    have hc : (((16 + tableSize docSize dt.id_to_name : Nat) : Int) +
        ((tableSize wordSize mi : Nat) : Int)) =
        ((16 + tableSize docSize dt.id_to_name + tableSize wordSize mi : Nat) : Int) := by
      push_cast; rfl
    rw [hc]
    exact toUInt64_of_nat _ (by omega)
  rw [ec2] at hok ⊢
  rw [h11, h21] at hok ⊢
  -- the file before the header is written
  have hDT : (tableBytes (fun _ => docBytes) docSize sizeofIndexFileHeader dt.id_to_name) ≠ [] := by
    intro h
    have := tableBytes_length (fun _ => docBytes) docSize (fun _ kv => docBytes_length kv)
      sizeofIndexFileHeader dt.id_to_name
    rw [h] at this
    simp at this
    omega
  have hfile : (WriteHashTable dev (WriteHashTable dev ⟨[], 0⟩ sizeofIndexFileHeader
      dt.id_to_name (WriteDocidToDocnameFn dev)).2 (16 + tableSize docSize dt.id_to_name) mi
      (WriteWordToPostingsFn dev)).2.bytes = List.replicate 16 0 ++ indexFileBody mi dt := by
    rw [h22, h12]
    simp only
    rw [pwrite_empty _ _ hDT]
    have hl : (List.replicate sizeofIndexFileHeader 0 ++
        tableBytes (fun _ => docBytes) docSize sizeofIndexFileHeader dt.id_to_name).length =
        16 + tableSize docSize dt.id_to_name := by
      rw [List.length_append, tableBytes_length _ _ (fun _ kv => docBytes_length kv)]
      simp [sizeofIndexFileHeader]
    rw [← hl, pwrite_at_end, hl]
    simp only [indexFileBody, sizeofIndexFileHeader, List.append_assoc]
  by_cases hr3 : (WriteHeader kMagicNumber dev (WriteHashTable dev (WriteHashTable dev ⟨[], 0⟩
      sizeofIndexFileHeader dt.id_to_name (WriteDocidToDocnameFn dev)).2
      (16 + tableSize docSize dt.id_to_name) mi (WriteWordToPostingsFn dev)).2
      (tableSize docSize dt.id_to_name : Nat) (tableSize wordSize mi : Nat)).1 = kFailedWrite
  · simp [hr3] at hok
  simp only [hr3, if_false] at hok ⊢
  have h3 := WriteHeader_bytes kMagicNumber dev _ (indexFileBody mi dt)
    (tableSize docSize dt.id_to_name) (tableSize wordSize mi) hfile
    (indexFileBody_length mi dt) (by omega) hr3
  rw [h3]
  simp only [Bool.true_eq_false, if_false, indexFileBytes, indexFileSize,
    sizeofIndexFileHeader, Prod.mk.injEq, and_true]
  exact toInt32_of_range _ (by omega) (by omega)

theorem Holds_append {bytes : List Nat} {off : Nat} {x y : List Nat} :
    Holds bytes off (x ++ y) ↔ Holds bytes off x ∧ Holds bytes (off + x.length) y := by
  unfold Holds
  simp only [List.length_append]
  constructor
  · rintro ⟨h1, h2⟩
    have hx : List.take x.length (List.drop off bytes) = x := by
      have := congrArg (List.take x.length) h2
      rw [List.take_take, List.take_left, Nat.min_eq_left (by omega)] at this
      exact this
    have hy : List.take y.length (List.drop (off + x.length) bytes) = y := by
      have := congrArg (List.drop x.length) h2
      rw [List.drop_left, List.drop_take, List.drop_drop, Nat.add_sub_cancel_left] at this
      exact this
    exact ⟨⟨by omega, hx⟩, ⟨by omega, hy⟩⟩
  · rintro ⟨⟨h1, h2⟩, ⟨h3, h4⟩⟩
    refine ⟨by omega, ?_⟩
    rw [List.take_add, h2, List.drop_drop, h4]

theorem Holds_nil (bytes : List Nat) (off : Nat) (h : off ≤ bytes.length) : Holds bytes off [] := by
  unfold Holds; simp; exact h

theorem fread_of_Holds {bytes l : List Nat} {off : Nat} (h : Holds bytes off l) (n : Nat)
    (hn : n = l.length) :
    fread ⟨bytes, off⟩ n = some (l, ⟨bytes, off + n⟩) := by
  subst hn
  obtain ⟨h1, h2⟩ := h
  simp only [fread, h1, if_true, h2]

theorem fseek_eq (f : FILE) (off : Nat) (h : off < 9223372036854775808) :
    fseek f off = some ⟨f.bytes, off⟩ := by
  simp only [fseek, h, if_true]

theorem BucketRecord_roundtrip (n p : Nat) (hn : n < 2147483648)
    (hp : p < 18446744073709551616) :
    BucketRecord.ToHostFormat (BucketRecord.ToDiskFormat (n : Int) p) = ⟨(n : Int), p⟩ := by
  have h1 : (BucketRecord.ToDiskFormat (n : Int) p).take 4 = be32 (toUInt32 n) := by
    simp [BucketRecord.ToDiskFormat, be32]
  have h2 : ((BucketRecord.ToDiskFormat (n : Int) p).drop 4).take 8 = be64 p := by
    simp [BucketRecord.ToDiskFormat, be32, be64]
  simp only [BucketRecord.ToHostFormat, h1, h2, fromBE_be64 p hp,
    toUInt32_of_nat n (by omega), fromBE_be32 n (by omega)]
  rw [toInt32_of_range _ (by omega) (by omega)]

theorem DocIDElementHeader_roundtrip (k n : Nat) (hk : k < 18446744073709551616)
    (hn : n < 2147483648) :
    DocIDElementHeader.ToHostFormat (DocIDElementHeader.ToDiskFormat k (n : Int)) =
      ⟨k, (n : Int)⟩ := by
  have h1 : (DocIDElementHeader.ToDiskFormat k (n : Int)).take 8 = be64 k := by
    simp [DocIDElementHeader.ToDiskFormat, be32, be64]
  have h2 : ((DocIDElementHeader.ToDiskFormat k (n : Int)).drop 8).take 4 =
      be32 (toUInt32 n) := by
    simp [DocIDElementHeader.ToDiskFormat, be32, be64]
  simp only [DocIDElementHeader.ToHostFormat, h1, h2, fromBE_be64 k hk,
    toUInt32_of_nat n (by omega), fromBE_be32 n (by omega)]
  rw [toInt32_of_range _ (by omega) (by omega)]

theorem bucketsSize_cons {V : Type} (sz : HTKeyValue_t V → Nat) (li : List (HTKeyValue_t V))
    (bs : List (List (HTKeyValue_t V))) :
    bucketsSize sz (li :: bs) = bucketSize sz li + bucketsSize sz bs := by
  simp [bucketsSize]

theorem chainSize_cons {V : Type} (sz : HTKeyValue_t V → Nat) (kv : HTKeyValue_t V)
    (li : List (HTKeyValue_t V)) : chainSize sz (kv :: li) = sz kv + chainSize sz li := by
  simp [chainSize]

theorem bucketsSize_take_le {V : Type} (sz : HTKeyValue_t V → Nat)
    (bs : List (List (HTKeyValue_t V))) (i : Nat) :
    bucketsSize sz (bs.take i) + bucketSize sz (bs.getD i []) ≤ bucketsSize sz bs := by
  induction bs generalizing i with
  | nil => simp [bucketsSize, bucketSize, chainSize]
  | cons li rest ih =>
    cases i with
    | zero => simp [bucketsSize_cons, List.take, bucketsSize]
    | succ i =>
      have := ih i
      simp only [List.take_succ_cons, bucketsSize_cons, List.getD_cons_succ]
      omega

/-- The bucket record of bucket `i`. -/
theorem Holds_tableRecords {V : Type} (sz : HTKeyValue_t V → Nat) (bytes : List Nat)
    (bs : List (List (HTKeyValue_t V))) :
    ∀ (p0 p i : Nat), Holds bytes p0 (tableRecords sz bs p) → i < bs.length →
      Holds bytes (p0 + sizeofBucketRecord * i)
        (BucketRecord.ToDiskFormat ((bs.getD i []).length : Nat)
          (p + bucketsSize sz (bs.take i))) := by
  induction bs with
  | nil => intro p0 p i _ hi; simp at hi
  | cons li rest ih =>
    intro p0 p i h hi
    simp only [tableRecords] at h
    obtain ⟨h1, h2⟩ := Holds_append.mp h
    cases i with
    | zero =>
      simpa [bucketsSize] using h1
    | succ i =>
      have hlen : (BucketRecord.ToDiskFormat (li.length : Nat) p).length = 12 := rfl
      rw [hlen] at h2
      have := ih (p0 + 12) (p + bucketSize sz li) i h2 (by simpa using hi)
      simp only [List.getD_cons_succ, List.take_succ_cons, bucketsSize_cons, sizeofBucketRecord]
      simp only [sizeofBucketRecord] at this
      have e1 : p0 + 12 * (i + 1) = p0 + 12 + 12 * i := by omega
      have e2 : p + (bucketSize sz li + bucketsSize sz (List.take i rest)) =
          p + bucketSize sz li + bucketsSize sz (List.take i rest) := by omega
      rw [e1, e2]
      exact this

/-- The content of bucket `i`. -/
theorem Holds_tableBuckets {V : Type} (enc : Nat → HTKeyValue_t V → List Nat)
    (sz : HTKeyValue_t V → Nat) (henc : ∀ off kv, (enc off kv).length = sz kv)
    (bytes : List Nat) (bs : List (List (HTKeyValue_t V))) :
    ∀ (p i : Nat), Holds bytes p (tableBuckets enc sz bs p) → i < bs.length →
      Holds bytes (p + bucketsSize sz (bs.take i))
        (bucketBytes enc sz (p + bucketsSize sz (bs.take i)) (bs.getD i [])) := by
  induction bs with
  | nil => intro p i _ hi; simp at hi
  | cons li rest ih =>
    intro p i h hi
    simp only [tableBuckets] at h
    obtain ⟨h1, h2⟩ := Holds_append.mp h
    cases i with
    | zero => simpa [bucketsSize] using h1
    | succ i =>
      rw [bucketBytes_length enc sz henc] at h2
      have := ih (p + bucketSize sz li) i h2 (by simpa using hi)
      simp only [List.getD_cons_succ, List.take_succ_cons, bucketsSize_cons]
      have e2 : p + (bucketSize sz li + bucketsSize sz (List.take i rest)) =
          p + bucketSize sz li + bucketsSize sz (List.take i rest) := by omega
      rw [e2]
      exact this

theorem elementPositions_length {V : Type} (sz : HTKeyValue_t V → Nat)
    (li : List (HTKeyValue_t V)) (p : Nat) : (elementPositions sz li p).length = li.length := by
  induction li generalizing p with
  | nil => rfl
  | cons kv rest ih => simp [elementPositions, ih]

theorem LookupElementPositions_loop_eq {V : Type} (sz : HTKeyValue_t V → Nat)
    (bytes : List Nat) (position : Nat) (li : List (HTKeyValue_t V)) :
    ∀ (p i : Nat) (f : FILE) (ret : List Nat), f.bytes = bytes →
      Holds bytes (position + sizeofElementPositionRecord * i) (chainRecords sz li p) →
      position + sizeofElementPositionRecord * (i + li.length) < 2147483648 →
      p + chainSize sz li < 2147483648 →
      ∃ f1, LookupElementPositions_loop position li.length i f ret =
          some (ret ++ elementPositions sz li p, f1) ∧ f1.bytes = bytes := by
  induction li with
  | nil =>
    intro p i f ret hf _ _ _
    exact ⟨f, by simp [LookupElementPositions_loop, elementPositions], hf⟩
  | cons kv rest ih =>
    intro p i f ret hf h hb hp
    simp only [chainRecords] at h
    obtain ⟨h1, h2⟩ := Holds_append.mp h
    simp only [sizeofElementPositionRecord, List.length_cons, chainSize_cons] at hb hp h1 h2
    have hlen : (ElementPositionRecord.ToDiskFormat p).length = 8 := rfl
    rw [hlen] at h2
    have eoff : toUInt64 ((position : Int) + (i : Int) * (sizeofElementPositionRecord : Nat)) =
        position + 8 * i := by
      have hc : ((position : Int) + (i : Int) * (sizeofElementPositionRecord : Nat)) =
          ((position + 8 * i : Nat) : Int) := by
        simp only [sizeofElementPositionRecord]; push_cast; ring
      rw [hc]; exact toUInt64_of_nat _ (by omega)
    simp only [List.length_cons, LookupElementPositions_loop]
    rw [eoff, fseek_eq _ _ (by omega)]
    simp only [hf]
    rw [fread_of_Holds h1 sizeofElementPositionRecord rfl]
    simp only [ElementPositionRecord.ToDiskFormat, fromBE_be64 p (by omega)]
    obtain ⟨f1, hl, hb1⟩ := ih (p + sz kv) (i + 1) ⟨bytes, position + 8 * i + sizeofElementPositionRecord⟩
      (ret ++ [p]) rfl
      (by simp only [sizeofElementPositionRecord]
          have : position + 8 * (i + 1) = position + 8 * i + 8 := by omega
          rw [this]; exact h2)
      (by simp only [sizeofElementPositionRecord]; omega) (by omega)
    refine ⟨f1, ?_, hb1⟩
    rw [hl]
    simp [elementPositions]

theorem Holds_tableBytes {V : Type} {enc : Nat → HTKeyValue_t V → List Nat}
    {sz : HTKeyValue_t V → Nat} {bytes : List Nat} {offset : Nat} {ht : HashTable V}
    (h : Holds bytes offset (tableBytes enc sz offset ht)) :
    Holds bytes offset (BucketListHeader.ToDiskFormat ht.buckets.length) ∧
    Holds bytes (offset + 4) (tableRecords sz ht.buckets
      (offset + sizeofBucketListHeader + sizeofBucketRecord * ht.buckets.length)) ∧
    Holds bytes (offset + sizeofBucketListHeader + sizeofBucketRecord * ht.buckets.length)
      (tableBuckets enc sz ht.buckets
        (offset + sizeofBucketListHeader + sizeofBucketRecord * ht.buckets.length)) := by
  simp only [tableBytes] at h
  obtain ⟨h12, h3⟩ := Holds_append.mp h
  obtain ⟨h1, h2⟩ := Holds_append.mp h12
  have hlen : (BucketListHeader.ToDiskFormat (ht.buckets.length : Nat)).length = 4 := rfl
  rw [hlen] at h2
  rw [List.length_append, hlen, tableRecords_length] at h3
  refine ⟨h1, h2, ?_⟩
  simp only [sizeofBucketListHeader, sizeofBucketRecord] at h3 ⊢
  have e : offset + (4 + 12 * ht.buckets.length) = offset + 4 + 12 * ht.buckets.length := by omega
  rw [e] at h3
  exact h3

theorem HashTableReader_construct_eq {V : Type} {enc : Nat → HTKeyValue_t V → List Nat}
    {sz : HTKeyValue_t V → Nat} {bytes : List Nat} {offset : Nat} {ht : HashTable V}
    (h : RegionAt bytes offset enc sz ht) (f : FILE) (hf : f.bytes = bytes) :
    HashTableReader.construct f offset =
      some ⟨⟨bytes, offset + 4⟩, offset, ht.buckets.length⟩ := by
  obtain ⟨hh, hpos, hb, _⟩ := h
  simp only [tableSize, sizeofBucketListHeader, sizeofBucketRecord] at hb
  obtain ⟨h1, _, _⟩ := Holds_tableBytes hh
  simp only [HashTableReader.construct]
  rw [fseek_eq _ _ (by omega)]
  simp only [hf]
  rw [fread_of_Holds h1 sizeofBucketListHeader rfl]
  simp only [BucketListHeader.ToDiskFormat, sizeofBucketListHeader]
  rw [toUInt32_of_nat _ (by omega), fromBE_be32 _ (by omega)]

theorem LookupElementPositions_eq {V : Type} {enc : Nat → HTKeyValue_t V → List Nat}
    {sz : HTKeyValue_t V → Nat} {bytes : List Nat} {offset : Nat} {ht : HashTable V}
    (h : RegionAt bytes offset enc sz ht) (r : HashTableReader) (hf : r.file_.bytes = bytes)
    (ho : r.offset_ = offset) (hh : r.header_ = ht.buckets.length) (hash_key : Nat) :
    ∃ f1, r.LookupElementPositions hash_key =
        some (bucketElementPositions sz offset ht (hash_key % ht.buckets.length),
          { r with file_ := f1 }) ∧ f1.bytes = bytes := by
  obtain ⟨hhold, hpos, hb, henc⟩ := h
  obtain ⟨rf, ro, rh⟩ := r
  simp only at hf ho hh
  subst ho hh
  obtain ⟨_, hrec, hbuck⟩ := Holds_tableBytes hhold
  have hi : hash_key % ht.buckets.length < ht.buckets.length := Nat.mod_lt _ hpos
  have hrec1 := Holds_tableRecords sz bytes ht.buckets _ _ _ hrec hi
  have hbuck1 := Holds_tableBuckets enc sz henc bytes ht.buckets _ _ hbuck hi
  have hle := bucketsSize_take_le sz ht.buckets (hash_key % ht.buckets.length)
  simp only [tableSize, sizeofBucketListHeader, sizeofBucketRecord] at hb hrec1 hbuck1
  generalize hli : ht.buckets.getD (hash_key % ht.buckets.length) [] = li at *
  generalize hb0 : bucketsSize sz (List.take (hash_key % ht.buckets.length) ht.buckets) = b0 at *
  simp only [bucketSize, sizeofElementPositionRecord] at hle
  simp only [bucketBytes] at hbuck1
  obtain ⟨hcr, _⟩ := Holds_append.mp hbuck1
  have hne : ¬ (ht.buckets.length = 0) := by omega
  have eb : HashTableReader.bucket_rec_offset ⟨rf, ro, ht.buckets.length⟩ hash_key =
      ro + 4 + 12 * (hash_key % ht.buckets.length) := by
    rw [HashTableReader.bucket_rec_offset]
    dsimp only
    rw [toInt32_of_range _ (by omega) (by omega)]
    have hc : ((ro : Int) + (sizeofBucketListHeader : Nat) +
        ((sizeofBucketRecord : Nat) : Int) * ((hash_key % ht.buckets.length : Nat) : Int)) =
        ((ro + 4 + 12 * (hash_key % ht.buckets.length) : Nat) : Int) := by
      simp only [sizeofBucketListHeader, sizeofBucketRecord]; push_cast; ring
    show toUInt64 ((ro : Int) + (sizeofBucketListHeader : Nat) +
        ((sizeofBucketRecord : Nat) : Int) * ((hash_key % ht.buckets.length : Nat) : Int)) = _
    rw [hc]; exact toUInt64_of_nat _ (by omega)
  rw [HashTableReader.LookupElementPositions, if_neg hne]
  rw [eb, fseek_eq _ _ (by omega)]
  dsimp only
  rw [hf, fread_of_Holds hrec1 sizeofBucketRecord rfl]
  dsimp only
  rw [BucketRecord_roundtrip _ _ (by omega) (by omega)]
  dsimp only [Int.toNat_ofNat]
  obtain ⟨f1, hl, hb1⟩ := LookupElementPositions_loop_eq sz bytes
    (ro + 4 + 12 * ht.buckets.length + b0) li
    (ro + 4 + 12 * ht.buckets.length + b0 + sizeofElementPositionRecord * li.length) 0
    ⟨bytes, ro + 4 + 12 * (hash_key % ht.buckets.length) + sizeofBucketRecord⟩ [] rfl
    (by simpa [sizeofElementPositionRecord] using hcr)
    (by simp only [sizeofElementPositionRecord]; omega)
    (by simp only [sizeofElementPositionRecord]; omega)
  rw [hl]
  refine ⟨f1, ?_, hb1⟩
  simp only [bucketElementPositions, bucketPosition, hli, hb0, sizeofBucketListHeader,
    sizeofBucketRecord, List.nil_append]

theorem bucketsSize_of_empty {V : Type} (sz : HTKeyValue_t V → Nat)
    (bs : List (List (HTKeyValue_t V))) (h : ∀ li ∈ bs, li = []) : bucketsSize sz bs = 0 := by
  induction bs with
  | nil => rfl
  | cons li rest ih =>
    rw [bucketsSize_cons, ih (fun l hl => h l (List.mem_cons_of_mem _ hl)),
      h li (List.mem_cons_self _ _)]
    rfl

/-- C17: when `WriteHashTable` succeeds on a region that ends below 2 GiB, with an
element encoder that returns the size of what it stores, the value returned is the
bucket-list header size plus `num_buckets` bucket records plus, for every bucket, one
element-position record per element and the encoded sizes of its elements; the bytes
of the region are stored from `offset` on as one block of exactly that length; and
for a table whose buckets are all empty the value is header size plus `num_buckets`
records. -/
theorem WriteHashTable_returns_region_size {V : Type} (dev : Device) (fn : WriteElementFn V)
    (enc : Nat → HTKeyValue_t V → List Nat) (sz : HTKeyValue_t V → Nat)
    (hfn : WritesElements fn enc sz) (f : FILE) (offset : Nat) (ht : HashTable V)
    (hsize : offset + tableSize sz ht < 2147483648)
    (hok : (WriteHashTable dev f offset ht fn).1 ≠ kFailedWrite) :
    (WriteHashTable dev f offset ht fn).1 =
        ((sizeofBucketListHeader + ht.buckets.length * sizeofBucketRecord +
          (ht.buckets.map fun li =>
            li.length * sizeofElementPositionRecord + (li.map sz).sum).sum : Nat) : Int) ∧
      (WriteHashTable dev f offset ht fn).2.bytes =
        pwrite f.bytes offset (tableBytes enc sz offset ht) ∧
      (((tableBytes enc sz offset ht).length : Nat) : Int) = (WriteHashTable dev f offset ht fn).1 ∧
      ((∀ li ∈ ht.buckets, li = []) →
        (WriteHashTable dev f offset ht fn).1 =
          ((sizeofBucketListHeader + ht.buckets.length * sizeofBucketRecord : Nat) : Int)) := by
  obtain ⟨h1, h2⟩ := WriteHashTable_bytes dev fn enc sz hfn f offset ht hsize hok
  have e : tableSize sz ht = sizeofBucketListHeader + ht.buckets.length * sizeofBucketRecord +
      (ht.buckets.map fun li =>
        li.length * sizeofElementPositionRecord + (li.map sz).sum).sum := by
    simp only [tableSize, bucketsSize]
    have : (bucketSize sz) = fun li : List (HTKeyValue_t V) =>
        li.length * sizeofElementPositionRecord + (li.map sz).sum := by
      funext li; simp only [bucketSize, chainSize]; rw [Nat.mul_comm]
    rw [this, Nat.mul_comm]
  refine ⟨by rw [h1, e], h2, by rw [h1, tableBytes_length enc sz hfn.1], ?_⟩
  intro hall
  rw [h1]
  simp only [tableSize]
  rw [bucketsSize_of_empty sz _ hall, Nat.mul_comm, Nat.add_zero]

/-- The statement of C17 at the sample docID -> positions table, written at offset 16
of an empty file on a reliable device: 80 bytes. -/
theorem WriteHashTable_returns_region_size_witness :
    (WriteHashTable Device.reliable ⟨[], 0⟩ 16 samplePostings
      (WriteDocIDToPositionListFn Device.reliable)).1 = 80 :=
  (WriteHashTable_returns_region_size Device.reliable (WriteDocIDToPositionListFn Device.reliable)
    (fun _ => postingBytes) postingSize (WriteDocIDToPositionListFn_writes Device.reliable)
    ⟨[], 0⟩ 16 samplePostings (by decide) (by decide!)).1

/-- What the two region writers return inside a successful `WriteIndex`. -/
theorem WriteIndex_stages (kMagicNumber : Nat) (dev : Device) (mi : MemIndex) (dt : DocTable)
    (old : Option (List Nat)) (hsize : indexFileSize mi dt < 2147483648)
    (hok : (WriteIndex kMagicNumber dev mi dt old).1 ≠ kFailedWrite) :
    (WriteDocTable dev ⟨[], 0⟩ dt sizeofIndexFileHeader).1 =
        ((tableSize docSize dt.id_to_name : Nat) : Int) ∧
      (WriteMemIndex dev (WriteDocTable dev ⟨[], 0⟩ dt sizeofIndexFileHeader).2 mi
        (sizeofIndexFileHeader + tableSize docSize dt.id_to_name)).1 =
        ((tableSize wordSize mi : Nat) : Int) ∧
      (WriteMemIndex dev (WriteDocTable dev ⟨[], 0⟩ dt sizeofIndexFileHeader).2 mi
        (sizeofIndexFileHeader + tableSize docSize dt.id_to_name)).2.bytes =
        List.replicate 16 0 ++ indexFileBody mi dt := by
  simp only [indexFileSize, sizeofIndexFileHeader] at hsize
  have hD := tableSize_pos docSize dt.id_to_name
  simp only [WriteIndex, WriteDocTable, WriteMemIndex, DT_GetIDToNameTable] at hok ⊢
  by_cases ho : dev.openOk = false
  · simp [ho] at hok
  simp only [ho, if_false] at hok
  by_cases hr1 : (WriteHashTable dev ⟨[], 0⟩ sizeofIndexFileHeader dt.id_to_name
      (WriteDocidToDocnameFn dev)).1 = kFailedWrite
  · simp [hr1] at hok
  simp only [hr1, if_false] at hok
  obtain ⟨h11, h12⟩ := WriteHashTable_bytes dev _ _ _ (WriteDocidToDocnameFn_writes dev)
    ⟨[], 0⟩ sizeofIndexFileHeader dt.id_to_name
    (by simp only [sizeofIndexFileHeader]; omega) hr1
  have ec1 : toUInt64 (((sizeofIndexFileHeader : Nat) : Int) +
      (WriteHashTable dev ⟨[], 0⟩ sizeofIndexFileHeader dt.id_to_name
        (WriteDocidToDocnameFn dev)).1) = 16 + tableSize docSize dt.id_to_name := by
    rw [h11]
    have hc : (((sizeofIndexFileHeader : Nat) : Int) + ((tableSize docSize dt.id_to_name : Nat) : Int))
        = ((16 + tableSize docSize dt.id_to_name : Nat) : Int) := by
      simp only [sizeofIndexFileHeader]; push_cast; rfl
    rw [hc]
    exact toUInt64_of_nat _ (by omega)
  rw [ec1] at hok
  by_cases hr2 : (WriteHashTable dev (WriteHashTable dev ⟨[], 0⟩ sizeofIndexFileHeader
      dt.id_to_name (WriteDocidToDocnameFn dev)).2 (16 + tableSize docSize dt.id_to_name) mi
      (WriteWordToPostingsFn dev)).1 = kFailedWrite
  · simp [hr2] at hok
  obtain ⟨h21, h22⟩ := WriteHashTable_bytes dev _ _ _ (WriteWordToPostingsFn_writes dev)
    (WriteHashTable dev ⟨[], 0⟩ sizeofIndexFileHeader dt.id_to_name
      (WriteDocidToDocnameFn dev)).2 (16 + tableSize docSize dt.id_to_name) mi
    (by omega) hr2
  refine ⟨h11, h21, ?_⟩
  have hDT : (tableBytes (fun _ => docBytes) docSize sizeofIndexFileHeader dt.id_to_name) ≠ [] := by
    intro h
    have := tableBytes_length (fun _ => docBytes) docSize (fun _ kv => docBytes_length kv)
      sizeofIndexFileHeader dt.id_to_name
    rw [h] at this
    simp at this
    omega
  rw [show sizeofIndexFileHeader + tableSize docSize dt.id_to_name =
    16 + tableSize docSize dt.id_to_name from rfl, h22, h12]
  simp only
  rw [pwrite_empty _ _ hDT]
  have hl : (List.replicate sizeofIndexFileHeader 0 ++
      tableBytes (fun _ => docBytes) docSize sizeofIndexFileHeader dt.id_to_name).length =
      16 + tableSize docSize dt.id_to_name := by
    rw [List.length_append, tableBytes_length _ _ (fun _ kv => docBytes_length kv)]
    simp [sizeofIndexFileHeader]
  rw [← hl, pwrite_at_end, hl]
  simp only [indexFileBody, sizeofIndexFileHeader, List.append_assoc]

/-- The header fields of a written index file, read back. -/
theorem indexFileBytes_header (kMagicNumber : Nat) (mi : MemIndex) (dt : DocTable)
    (hsize : indexFileSize mi dt < 2147483648) :
    IndexFileHeader.ToHostFormat ((indexFileBytes kMagicNumber mi dt).take 16) =
      { magic_number := kMagicNumber % 4294967296
        checksum := (CRC32.GetFinalCRC
          ((indexFileBody mi dt).foldl CRC32.FoldByteIntoCRC CRC32.init)) % 4294967296
        doctable_bytes := tableSize docSize dt.id_to_name
        index_bytes := tableSize wordSize mi } := by
  simp only [indexFileSize, sizeofIndexFileHeader] at hsize
  have hl : (IndexFileHeader.ToDiskFormat kMagicNumber
      (CRC32.GetFinalCRC ((indexFileBody mi dt).foldl CRC32.FoldByteIntoCRC CRC32.init))
      (tableSize docSize dt.id_to_name) (tableSize wordSize mi)).length = 16 := by
    simp [IndexFileHeader.ToDiskFormat]
  rw [indexFileBytes, ← hl, List.take_left]
  simp only [IndexFileHeader.ToDiskFormat, IndexFileHeader.ToHostFormat]
  have t1 : ∀ a b c d : Nat, (be32 a ++ be32 b ++ be32 c ++ be32 d).take 4 = be32 a := by
    intro a b c d; simp [be32]
  have t2 : ∀ a b c d : Nat, ((be32 a ++ be32 b ++ be32 c ++ be32 d).drop 4).take 4 = be32 b := by
    intro a b c d; simp [be32]
  have t3 : ∀ a b c d : Nat, ((be32 a ++ be32 b ++ be32 c ++ be32 d).drop 8).take 4 = be32 c := by
    intro a b c d; simp [be32]
  have t4 : ∀ a b c d : Nat, ((be32 a ++ be32 b ++ be32 c ++ be32 d).drop 12).take 4 = be32 d := by
    intro a b c d; simp [be32]
  rw [t1, t2, t3, t4, toUInt32_eq_mod, toUInt32_eq_mod, toUInt32_eq_mod, toUInt32_eq_mod,
    fromBE_be32_mod, fromBE_be32_mod, fromBE_be32_mod, fromBE_be32_mod]
  simp only [Nat.mod_mod]
  rw [Nat.mod_eq_of_lt (show tableSize docSize dt.id_to_name < 4294967296 by omega),
    Nat.mod_eq_of_lt (show tableSize wordSize mi < 4294967296 by omega)]

/-- C12: a successful `WriteIndex` of an index below 2 GiB returns header size +
document-table byte length + index byte length, which is also the length of the file
it leaves; the two lengths are the values the two region writers returned and the
values stored in the header's `doctable_bytes` and `index_bytes` fields, so the
length that `FileIndexReader` compares the file's length with is the file's length. -/
theorem WriteIndex_returns_file_length (kMagicNumber : Nat) (dev : Device) (mi : MemIndex)
    (dt : DocTable) (old : Option (List Nat)) (hsize : indexFileSize mi dt < 2147483648)
    (hok : (WriteIndex kMagicNumber dev mi dt old).1 ≠ kFailedWrite) :
    ∃ (bytes : List Nat) (d m : Nat),
      (WriteDocTable dev ⟨[], 0⟩ dt sizeofIndexFileHeader).1 = (d : Int) ∧
      (WriteMemIndex dev (WriteDocTable dev ⟨[], 0⟩ dt sizeofIndexFileHeader).2 mi
        (sizeofIndexFileHeader + d)).1 = (m : Int) ∧
      WriteIndex kMagicNumber dev mi dt old =
        (((sizeofIndexFileHeader + d + m : Nat) : Int), some bytes) ∧
      bytes.length = sizeofIndexFileHeader + d + m ∧
      (IndexFileHeader.ToHostFormat (bytes.take sizeofIndexFileHeader)).doctable_bytes = d ∧
      (IndexFileHeader.ToHostFormat (bytes.take sizeofIndexFileHeader)).index_bytes = m ∧
      bytes.length = toUInt32 (sizeofIndexFileHeader +
        (IndexFileHeader.ToHostFormat (bytes.take sizeofIndexFileHeader)).doctable_bytes +
        (IndexFileHeader.ToHostFormat (bytes.take sizeofIndexFileHeader)).index_bytes) := by
  obtain ⟨h1, h2, _⟩ := WriteIndex_stages kMagicNumber dev mi dt old hsize hok
  have hb := WriteIndex_bytes kMagicNumber dev mi dt old hsize hok
  have hh := indexFileBytes_header kMagicNumber mi dt hsize
  have hl := indexFileBytes_length kMagicNumber mi dt
  refine ⟨indexFileBytes kMagicNumber mi dt, tableSize docSize dt.id_to_name,
    tableSize wordSize mi, h1, h2, ?_, ?_, ?_, ?_, ?_⟩
  · rw [hb]; rfl
  · rw [hl]; rfl
  · simp only [sizeofIndexFileHeader]; rw [hh]
  · simp only [sizeofIndexFileHeader]; rw [hh]
  · simp only [sizeofIndexFileHeader]; rw [hh]
    simp only
    have hc : (((16 : Nat) : Int) + ((tableSize docSize dt.id_to_name : Nat) : Int) +
        ((tableSize wordSize mi : Nat) : Int)) = ((indexFileSize mi dt : Nat) : Int) := by
      simp only [indexFileSize, sizeofIndexFileHeader]; push_cast; rfl
    rw [hl, hc, toUInt32_of_nat _ (by omega)]

/-- The statement of C12 at the sample index, written on a reliable device. -/
theorem WriteIndex_returns_file_length_witness :
    indexFileSize sampleMemIndex sampleDocTable < 2147483648 ∧
      ∃ (bytes : List Nat) (d m : Nat),
        WriteIndex sampleMagic Device.reliable sampleMemIndex sampleDocTable none =
          (((sizeofIndexFileHeader + d + m : Nat) : Int), some bytes) ∧
        bytes.length = sizeofIndexFileHeader + d + m :=
  ⟨by decide!,
    let ⟨b, d, m, _, _, h3, h4, _⟩ := WriteIndex_returns_file_length sampleMagic
      Device.reliable sampleMemIndex sampleDocTable none (by decide!) (by decide!)
    ⟨b, d, m, h3, h4⟩⟩

theorem CRC32.shift_lt (s : Nat) (h : s < 4294967296) : CRC32.shift s < 4294967296 := by
  unfold CRC32.shift
  have h2 : s / 2 < 2 ^ 32 := by omega
  split
  · exact Nat.xor_lt_two_pow h2 (by norm_num)
  · omega

theorem CRC32.FoldByteIntoCRC_lt (s byte : Nat) (h : s < 4294967296) :
    CRC32.FoldByteIntoCRC s byte < 4294967296 := by
  unfold CRC32.FoldByteIntoCRC
  have h0 : s ^^^ (byte % 256) < 2 ^ 32 :=
    Nat.xor_lt_two_pow (by omega) (by omega)
  exact CRC32.shift_lt _ (CRC32.shift_lt _ (CRC32.shift_lt _ (CRC32.shift_lt _
    (CRC32.shift_lt _ (CRC32.shift_lt _ (CRC32.shift_lt _ (CRC32.shift_lt _ h0)))))))

theorem CRC32.foldl_lt (bs : List Nat) : ∀ (s : Nat), s < 4294967296 →
    bs.foldl CRC32.FoldByteIntoCRC s < 4294967296 := by
  induction bs with
  | nil => intro s h; exact h
  | cons b rest ih => intro s h; exact ih _ (CRC32.FoldByteIntoCRC_lt s b h)

theorem CRC32.GetFinalCRC_lt (s : Nat) (h : s < 4294967296) :
    CRC32.GetFinalCRC s < 4294967296 := by
  unfold CRC32.GetFinalCRC
  have : s ^^^ 4294967295 < 2 ^ 32 := Nat.xor_lt_two_pow (by omega) (by norm_num)
  omega

theorem CRC32.checksum_lt (bs : List Nat) :
    CRC32.GetFinalCRC (bs.foldl CRC32.FoldByteIntoCRC CRC32.init) < 4294967296 :=
  CRC32.GetFinalCRC_lt _ (CRC32.foldl_lt bs _ (by unfold CRC32.init; omega))

theorem xor_left_cancel (a b c : Nat) (h : a ^^^ b = a ^^^ c) : b = c := by
  have := congrArg (fun x => a ^^^ x) h
  simpa [← Nat.xor_assoc] using this

theorem xor_right_cancel (a b c : Nat) (h : b ^^^ a = c ^^^ a) : b = c := by
  rw [Nat.xor_comm b a, Nat.xor_comm c a] at h
  exact xor_left_cancel a b c h

theorem CRC32.shift_inj (a b : Nat) (ha : a < 4294967296) (hb : b < 4294967296)
    (h : CRC32.shift a = CRC32.shift b) : a = b := by
  unfold CRC32.shift at h
  have ha2 : a / 2 < 2 ^ 31 := by omega
  have hb2 : b / 2 < 2 ^ 31 := by omega
  have hx : a / 2 ^^^ b / 2 < 2 ^ 31 := Nat.xor_lt_two_pow ha2 hb2
  split at h <;> split at h
  · have := xor_right_cancel _ _ _ h
    omega
  · exfalso
    have e : a / 2 ^^^ b / 2 = 3988292384 := by
      rw [← h, ← Nat.xor_assoc, Nat.xor_self, Nat.zero_xor]
    omega
  · exfalso
    have e : a / 2 ^^^ b / 2 = 3988292384 := by
      rw [h, Nat.xor_comm (b / 2), Nat.xor_assoc, Nat.xor_self, Nat.xor_zero]
    omega
  · omega

theorem CRC32.shift8_inj (a b : Nat) (ha : a < 4294967296) (hb : b < 4294967296)
    (h : CRC32.shift (CRC32.shift (CRC32.shift (CRC32.shift (CRC32.shift (CRC32.shift
      (CRC32.shift (CRC32.shift a))))))) =
      CRC32.shift (CRC32.shift (CRC32.shift (CRC32.shift (CRC32.shift (CRC32.shift
      (CRC32.shift (CRC32.shift b)))))))) : a = b := by
  have l := CRC32.shift_lt
  have i := CRC32.shift_inj
  exact i _ _ ha hb (i _ _ (l _ ha) (l _ hb) (i _ _ (l _ (l _ ha)) (l _ (l _ hb))
    (i _ _ (l _ (l _ (l _ ha))) (l _ (l _ (l _ hb)))
    (i _ _ (l _ (l _ (l _ (l _ ha)))) (l _ (l _ (l _ (l _ hb))))
    (i _ _ (l _ (l _ (l _ (l _ (l _ ha))))) (l _ (l _ (l _ (l _ (l _ hb)))))
    (i _ _ (l _ (l _ (l _ (l _ (l _ (l _ ha)))))) (l _ (l _ (l _ (l _ (l _ (l _ hb))))))
    (i _ _ (l _ (l _ (l _ (l _ (l _ (l _ (l _ ha))))))) (l _ (l _ (l _ (l _ (l _ (l _ (l _ hb)))))))
      h)))))))

theorem CRC32.FoldByteIntoCRC_inj_state (a b byte : Nat) (ha : a < 4294967296)
    (hb : b < 4294967296) (h : CRC32.FoldByteIntoCRC a byte = CRC32.FoldByteIntoCRC b byte) :
    a = b := by
  unfold CRC32.FoldByteIntoCRC at h
  have h0 : ∀ s, s < 4294967296 → s ^^^ (byte % 256) < 4294967296 := fun s hs => by
    have : s ^^^ (byte % 256) < 2 ^ 32 := Nat.xor_lt_two_pow (by omega) (by omega)
    omega
  exact xor_right_cancel _ _ _ (CRC32.shift8_inj _ _ (h0 a ha) (h0 b hb) h)

theorem CRC32.FoldByteIntoCRC_inj_byte (s x y : Nat) (hs : s < 4294967296)
    (h : CRC32.FoldByteIntoCRC s x = CRC32.FoldByteIntoCRC s y) : x % 256 = y % 256 := by
  unfold CRC32.FoldByteIntoCRC at h
  have h0 : ∀ c, s ^^^ (c % 256) < 4294967296 := fun c => by
    have : s ^^^ (c % 256) < 2 ^ 32 := Nat.xor_lt_two_pow (by omega) (by omega)
    omega
  exact xor_left_cancel _ _ _ (CRC32.shift8_inj _ _ (h0 x) (h0 y) h)

theorem CRC32.foldl_inj_state (bs : List Nat) : ∀ (a b : Nat), a < 4294967296 →
    b < 4294967296 → bs.foldl CRC32.FoldByteIntoCRC a = bs.foldl CRC32.FoldByteIntoCRC b →
    a = b := by
  induction bs with
  | nil => intro a b _ _ h; exact h
  | cons c rest ih =>
    intro a b ha hb h
    exact CRC32.FoldByteIntoCRC_inj_state a b c ha hb
      (ih _ _ (CRC32.FoldByteIntoCRC_lt a c ha) (CRC32.FoldByteIntoCRC_lt b c hb) h)

/-- Two byte strings that differ in one byte have different checksums. -/
theorem CRC32.checksum_ne (pre post : List Nat) (x y : Nat) (hxy : x % 256 ≠ y % 256) :
    CRC32.GetFinalCRC ((pre ++ x :: post).foldl CRC32.FoldByteIntoCRC CRC32.init) ≠
      CRC32.GetFinalCRC ((pre ++ y :: post).foldl CRC32.FoldByteIntoCRC CRC32.init) := by
  intro h
  unfold CRC32.GetFinalCRC at h
  have h1 := xor_right_cancel _ _ _ h
  rw [List.foldl_append, List.foldl_append, List.foldl_cons, List.foldl_cons] at h1
  have hs : pre.foldl CRC32.FoldByteIntoCRC CRC32.init < 4294967296 :=
    CRC32.foldl_lt pre _ (by unfold CRC32.init; omega)
  have h2 := CRC32.foldl_inj_state post _ _ (CRC32.FoldByteIntoCRC_lt _ x hs)
    (CRC32.FoldByteIntoCRC_lt _ y hs) h1
  exact hxy (CRC32.FoldByteIntoCRC_inj_byte _ x y hs h2)

/-- C13: after a successful `WriteIndex` of an index below 2 GiB, the checksum field
of the header is the CRC32 of the bytes at offsets
[header size, header size + doctable_bytes + index_bytes) of the file, folded in
ascending offset order; these are all the bytes after the header, and they are the
bytes the file held there when both regions had been written. -/
theorem WriteIndex_checksum_covers_body (kMagicNumber : Nat) (dev : Device) (mi : MemIndex)
    (dt : DocTable) (old : Option (List Nat)) (hsize : indexFileSize mi dt < 2147483648)
    (hok : (WriteIndex kMagicNumber dev mi dt old).1 ≠ kFailedWrite) :
    ∃ bytes : List Nat, (WriteIndex kMagicNumber dev mi dt old).2 = some bytes ∧
      (IndexFileHeader.ToHostFormat (bytes.take sizeofIndexFileHeader)).checksum =
        CRC32.GetFinalCRC (((bytes.drop sizeofIndexFileHeader).take
          ((IndexFileHeader.ToHostFormat (bytes.take sizeofIndexFileHeader)).doctable_bytes +
            (IndexFileHeader.ToHostFormat (bytes.take sizeofIndexFileHeader)).index_bytes)).foldl
          CRC32.FoldByteIntoCRC CRC32.init) ∧
      sizeofIndexFileHeader +
          (IndexFileHeader.ToHostFormat (bytes.take sizeofIndexFileHeader)).doctable_bytes +
          (IndexFileHeader.ToHostFormat (bytes.take sizeofIndexFileHeader)).index_bytes =
        bytes.length ∧
      bytes.drop sizeofIndexFileHeader =
        (WriteMemIndex dev (WriteDocTable dev ⟨[], 0⟩ dt sizeofIndexFileHeader).2 mi
          (sizeofIndexFileHeader + tableSize docSize dt.id_to_name)).2.bytes.drop
            sizeofIndexFileHeader := by
  obtain ⟨_, _, h3⟩ := WriteIndex_stages kMagicNumber dev mi dt old hsize hok
  have hb := WriteIndex_bytes kMagicNumber dev mi dt old hsize hok
  have hh := indexFileBytes_header kMagicNumber mi dt hsize
  have hl := indexFileBytes_length kMagicNumber mi dt
  have hbl := indexFileBody_length mi dt
  have hd : (indexFileBytes kMagicNumber mi dt).drop 16 = indexFileBody mi dt := by
    have hl16 : (IndexFileHeader.ToDiskFormat kMagicNumber
        (CRC32.GetFinalCRC ((indexFileBody mi dt).foldl CRC32.FoldByteIntoCRC CRC32.init))
        (tableSize docSize dt.id_to_name) (tableSize wordSize mi)).length = 16 := by
      simp [IndexFileHeader.ToDiskFormat]
    rw [indexFileBytes, ← hl16, List.drop_left]
  refine ⟨indexFileBytes kMagicNumber mi dt, by rw [hb], ?_, ?_, ?_⟩
  · simp only [sizeofIndexFileHeader]
    rw [hh, hd]
    simp only
    rw [← hbl, List.take_length]
    exact Nat.mod_eq_of_lt (CRC32.checksum_lt _)
  · simp only [sizeofIndexFileHeader]
    rw [hh, hl]
    rfl
  · rw [h3]
    simp only [sizeofIndexFileHeader]
    rw [hd]
    exact (List.drop_left (List.replicate 16 0) (indexFileBody mi dt)).symm

/-- The statement of C13 at the sample index: the stored checksum is the CRC32 of
everything after the header. -/
theorem WriteIndex_checksum_covers_body_witness :
    indexFileSize sampleMemIndex sampleDocTable < 2147483648 ∧
      ∃ bytes : List Nat,
        (WriteIndex sampleMagic Device.reliable sampleMemIndex sampleDocTable none).2 =
          some bytes ∧
        (IndexFileHeader.ToHostFormat (bytes.take sizeofIndexFileHeader)).checksum =
          CRC32.GetFinalCRC (((bytes.drop sizeofIndexFileHeader).take
            ((IndexFileHeader.ToHostFormat (bytes.take sizeofIndexFileHeader)).doctable_bytes +
              (IndexFileHeader.ToHostFormat (bytes.take sizeofIndexFileHeader)).index_bytes)).foldl
            CRC32.FoldByteIntoCRC CRC32.init) :=
  ⟨by decide!,
    let ⟨b, h1, h2, _⟩ := WriteIndex_checksum_covers_body sampleMagic Device.reliable
      sampleMemIndex sampleDocTable none (by decide!) (by decide!)
    ⟨b, h1, h2⟩⟩

/-- C14: once the output file is open, if the document-table writer, the index writer
or the header writer returns `kFailedWrite`, then `WriteIndex` returns `kFailedWrite`
(-1) and the output file is gone; and `WriteIndex` returns a non-negative value only
when none of the three stages failed. -/
theorem WriteIndex_failure_deletes_file (kMagicNumber : Nat) (dev : Device) (mi : MemIndex)
    (dt : DocTable) (old : Option (List Nat)) (hopen : dev.openOk = true) :
    (((WriteDocTable dev ⟨[], 0⟩ dt sizeofIndexFileHeader).1 = kFailedWrite ∨
        (WriteMemIndex dev (WriteDocTable dev ⟨[], 0⟩ dt sizeofIndexFileHeader).2 mi
          (toUInt64 (sizeofIndexFileHeader +
            (WriteDocTable dev ⟨[], 0⟩ dt sizeofIndexFileHeader).1))).1 = kFailedWrite ∨
        (WriteHeader kMagicNumber dev
          (WriteMemIndex dev (WriteDocTable dev ⟨[], 0⟩ dt sizeofIndexFileHeader).2 mi
            (toUInt64 (sizeofIndexFileHeader +
              (WriteDocTable dev ⟨[], 0⟩ dt sizeofIndexFileHeader).1))).2
          (WriteDocTable dev ⟨[], 0⟩ dt sizeofIndexFileHeader).1
          (WriteMemIndex dev (WriteDocTable dev ⟨[], 0⟩ dt sizeofIndexFileHeader).2 mi
            (toUInt64 (sizeofIndexFileHeader +
              (WriteDocTable dev ⟨[], 0⟩ dt sizeofIndexFileHeader).1))).1).1 = kFailedWrite) →
        WriteIndex kMagicNumber dev mi dt old = (kFailedWrite, none)) ∧
      (0 ≤ (WriteIndex kMagicNumber dev mi dt old).1 →
        (WriteDocTable dev ⟨[], 0⟩ dt sizeofIndexFileHeader).1 ≠ kFailedWrite ∧
        (WriteMemIndex dev (WriteDocTable dev ⟨[], 0⟩ dt sizeofIndexFileHeader).2 mi
          (toUInt64 (sizeofIndexFileHeader +
            (WriteDocTable dev ⟨[], 0⟩ dt sizeofIndexFileHeader).1))).1 ≠ kFailedWrite ∧
        (WriteHeader kMagicNumber dev
          (WriteMemIndex dev (WriteDocTable dev ⟨[], 0⟩ dt sizeofIndexFileHeader).2 mi
            (toUInt64 (sizeofIndexFileHeader +
              (WriteDocTable dev ⟨[], 0⟩ dt sizeofIndexFileHeader).1))).2
          (WriteDocTable dev ⟨[], 0⟩ dt sizeofIndexFileHeader).1
          (WriteMemIndex dev (WriteDocTable dev ⟨[], 0⟩ dt sizeofIndexFileHeader).2 mi
            (toUInt64 (sizeofIndexFileHeader +
              (WriteDocTable dev ⟨[], 0⟩ dt sizeofIndexFileHeader).1))).1).1 ≠ kFailedWrite) := by
  generalize hr1 : WriteDocTable dev ⟨[], 0⟩ dt sizeofIndexFileHeader = r1
  generalize hr2 : WriteMemIndex dev r1.2 mi (toUInt64 (sizeofIndexFileHeader + r1.1)) = r2
  generalize hr3 : WriteHeader kMagicNumber dev r2.2 r1.1 r2.1 = r3
  have hw : WriteIndex kMagicNumber dev mi dt old =
      if r1.1 = kFailedWrite then (kFailedWrite, none)
      else if r2.1 = kFailedWrite then (kFailedWrite, none)
      else if r3.1 = kFailedWrite then (kFailedWrite, none)
      else (toInt32 (toUInt64 (toUInt64 (sizeofIndexFileHeader + r1.1) + r2.1)), some r3.2.bytes) := by
    rw [WriteIndex]
    simp only [hopen, Bool.true_eq_false, if_false]
    rw [hr1, hr2, hr3]
  rw [hw]
  have hk : ¬ (0 : Int) ≤ kFailedWrite := by unfold kFailedWrite; omega
  constructor
  · rintro (h | h | h)
    · rw [if_pos h]
    · by_cases h1 : r1.1 = kFailedWrite
      · rw [if_pos h1]
      · rw [if_neg h1, if_pos h]
    · by_cases h1 : r1.1 = kFailedWrite
      · rw [if_pos h1]
      · by_cases h2 : r2.1 = kFailedWrite
        · rw [if_neg h1, if_pos h2]
        · rw [if_neg h1, if_neg h2, if_pos h]
  · intro h
    by_cases h1 : r1.1 = kFailedWrite
    · rw [if_pos h1] at h; exact absurd h hk
    · by_cases h2 : r2.1 = kFailedWrite
      · rw [if_neg h1, if_pos h2] at h; exact absurd h hk
      · by_cases h3 : r3.1 = kFailedWrite
        · rw [if_neg h1, if_neg h2, if_pos h3] at h; exact absurd h hk
        · exact ⟨h1, h2, h3⟩

/-- The statement of C14 on a device that fills up while the index region is being
written: `WriteIndex` returns -1 and no file is left. -/
theorem WriteIndex_failure_deletes_file_witness :
    WriteIndex sampleMagic sampleFullDevice sampleMemIndex sampleDocTable (some [1, 2, 3]) =
      (kFailedWrite, none) :=
  (WriteIndex_failure_deletes_file sampleMagic sampleFullDevice sampleMemIndex sampleDocTable
    (some [1, 2, 3]) rfl).1 (by decide!)

/-- A file shorter than the header makes the constructor abort. -/
theorem FileIndexReader.construct_short (kMagicNumber : Nat) (bytes : List Nat) (validate : Bool)
    (hl : ¬ sizeofIndexFileHeader ≤ bytes.length) :
    FileIndexReader.construct kMagicNumber (some bytes) validate = none := by
  have e : fread ⟨bytes, 0⟩ sizeofIndexFileHeader = none := by
    simp only [fread, Nat.zero_add, hl, if_false]
  simp only [FileIndexReader.construct, e]

/-- The constructor on a file that holds a whole header. -/
theorem FileIndexReader.construct_of_header (kMagicNumber : Nat) (bytes : List Nat)
    (validate : Bool) (hl : sizeofIndexFileHeader ≤ bytes.length) :
    FileIndexReader.construct kMagicNumber (some bytes) validate =
      if (IndexFileHeader.ToHostFormat (bytes.take sizeofIndexFileHeader)).magic_number ≠
          kMagicNumber then none
      else if bytes.length ≠ toUInt32 (sizeofIndexFileHeader +
          (IndexFileHeader.ToHostFormat (bytes.take sizeofIndexFileHeader)).doctable_bytes +
          (IndexFileHeader.ToHostFormat (bytes.take sizeofIndexFileHeader)).index_bytes) then none
      else if validate then
        match FileIndexReader_loop
          (toInt32 ((IndexFileHeader.ToHostFormat (bytes.take sizeofIndexFileHeader)).doctable_bytes +
            (IndexFileHeader.ToHostFormat (bytes.take sizeofIndexFileHeader)).index_bytes)).toNat
          (toInt32 ((IndexFileHeader.ToHostFormat (bytes.take sizeofIndexFileHeader)).doctable_bytes +
            (IndexFileHeader.ToHostFormat (bytes.take sizeofIndexFileHeader)).index_bytes))
          ⟨bytes, sizeofIndexFileHeader⟩ CRC32.init with
        | none => none
        | some (crc, f2) =>
          if CRC32.GetFinalCRC crc =
              (IndexFileHeader.ToHostFormat (bytes.take sizeofIndexFileHeader)).checksum then
            some { file_ := f2
                   header_ := IndexFileHeader.ToHostFormat (bytes.take sizeofIndexFileHeader) }
          else none
      else some { file_ := ⟨bytes, sizeofIndexFileHeader⟩
                  header_ := IndexFileHeader.ToHostFormat (bytes.take sizeofIndexFileHeader) } := by
  have e : fread ⟨bytes, 0⟩ sizeofIndexFileHeader =
      some (bytes.take sizeofIndexFileHeader, ⟨bytes, sizeofIndexFileHeader⟩) := by
    simp only [fread, Nat.zero_add, hl, if_true, List.drop_zero]
  simp only [FileIndexReader.construct, e]
  try rfl

/-- The checksum loop with nothing left to read. -/
theorem FileIndexReader_loop_nonpos (n : Nat) (left : Int) (f : FILE) (crc : Nat)
    (h : left ≤ 0) : FileIndexReader_loop n left f crc = some (crc, f) := by
  have hn : ¬ left > 0 := by omega
  cases n with
  | zero => simp only [FileIndexReader_loop, hn, if_false]
  | succ n => simp only [FileIndexReader_loop, hn, if_false]

/-- The checksum loop reads the next `left` bytes in chunks and folds them in file
order. -/
theorem FileIndexReader_loop_eq (n : Nat) : ∀ (left : Nat) (f : FILE) (crc : Nat),
    left ≤ n → f.pos + left ≤ f.bytes.length →
    FileIndexReader_loop n (left : Int) f crc =
      some (((f.bytes.drop f.pos).take left).foldl CRC32.FoldByteIntoCRC crc,
        ⟨f.bytes, f.pos + left⟩) := by
  induction n with
  | zero =>
    intro left f crc hle _
    have : left = 0 := by omega
    subst this
    simp [FileIndexReader_loop]
  | succ n ih =>
    intro left f crc hle hlen
    by_cases h0 : left = 0
    · subst h0
      simp [FileIndexReader_loop]
    · have hpos : ((left : Nat) : Int) > 0 := by omega
      obtain ⟨k, hk, hk1, hk2⟩ : ∃ k : Nat, min kBufSize (left : Int) = (k : Int) ∧ 0 < k ∧
          k ≤ left := by
        refine ⟨min 512 left, ?_, ?_, ?_⟩
        · unfold kBufSize; omega
        · omega
        · omega
      have hsub : ((left : Nat) : Int) - (k : Int) = ((left - k : Nat) : Int) := by omega
      have hr : fread f k = some ((f.bytes.drop f.pos).take k, ⟨f.bytes, f.pos + k⟩) := by
        simp only [fread]
        rw [if_pos (by omega)]
      rw [FileIndexReader_loop, if_pos hpos]
      simp only [hk, Int.toNat_ofNat, hr, hsub]
      rw [ih (left - k) _ _ (by omega) (by simp only; omega)]
      simp only
      have e1 : f.pos + k + (left - k) = f.pos + left := by omega
      rw [e1, ← List.foldl_append]
      congr 2
      have e2 : List.drop (f.pos + k) f.bytes = List.drop k (List.drop f.pos f.bytes) := by
        rw [List.drop_drop, Nat.add_comm]
      rw [e2]
      conv_rhs => rw [← List.take_append_drop k (List.take left (List.drop f.pos f.bytes))]
      rw [List.take_take, Nat.min_eq_left hk2, List.drop_take]

theorem fromBE_lt_of_length_four (bs : List Nat) (hl : bs.length = 4)
    (hb : ∀ b ∈ bs, b < 256) : fromBE bs < 4294967296 := by
  match bs, hl with
  | [a, b, c, d], _ =>
    have ha := hb a (by simp)
    have hb' := hb b (by simp)
    have hc := hb c (by simp)
    have hd := hb d (by simp)
    simp only [fromBE, List.foldl_cons, List.foldl_nil]
    omega

/-- What the constructor checks: a file of bytes is opened by `FileIndexReader` exactly
when it holds a whole header whose magic number is `kMagicNumber`, its length equals
header size +
doctable_bytes + index_bytes reduced modulo 2^32, and, when validate is requested,
the CRC32 of the `int` value of doctable_bytes + index_bytes many bytes after the
header (none when that value is not positive) equals the stored checksum; with
validate off the checksum is not consulted. -/
theorem FileIndexReader_opens_iff (kMagicNumber : Nat) (bytes : List Nat) (validate : Bool)
    (hbytes : ∀ b ∈ bytes, b < 256) :
    (FileIndexReader.construct kMagicNumber (some bytes) validate).isSome = true ↔
      (sizeofIndexFileHeader ≤ bytes.length ∧
        (IndexFileHeader.ToHostFormat (bytes.take sizeofIndexFileHeader)).magic_number =
          kMagicNumber ∧
        bytes.length = (sizeofIndexFileHeader +
          (IndexFileHeader.ToHostFormat (bytes.take sizeofIndexFileHeader)).doctable_bytes +
          (IndexFileHeader.ToHostFormat (bytes.take sizeofIndexFileHeader)).index_bytes) %
            4294967296 ∧
        (validate = true →
          CRC32.GetFinalCRC (((bytes.drop sizeofIndexFileHeader).take
            (toInt32 ((IndexFileHeader.ToHostFormat
                (bytes.take sizeofIndexFileHeader)).doctable_bytes +
              (IndexFileHeader.ToHostFormat
                (bytes.take sizeofIndexFileHeader)).index_bytes)).toNat).foldl
            CRC32.FoldByteIntoCRC CRC32.init) =
          (IndexFileHeader.ToHostFormat (bytes.take sizeofIndexFileHeader)).checksum)) := by
  by_cases hl : sizeofIndexFileHeader ≤ bytes.length
  swap
  · rw [FileIndexReader.construct_short kMagicNumber bytes validate hl]
    constructor
    · intro h; exact absurd h (by simp)
    · intro h; exact absurd h.1 hl
  rw [FileIndexReader.construct_of_header kMagicNumber bytes validate hl]
  generalize hh : IndexFileHeader.ToHostFormat (bytes.take sizeofIndexFileHeader) = hd
  have hd1 : hd.doctable_bytes < 4294967296 := by
    rw [← hh]
    simp only [IndexFileHeader.ToHostFormat]
    apply fromBE_lt_of_length_four
    · simp only [sizeofIndexFileHeader] at hl ⊢
      simp only [List.length_take, List.length_drop]; omega
    · intro b hb
      exact hbytes b (List.mem_of_mem_take (List.mem_of_mem_drop (List.mem_of_mem_take hb)))
  have hd2 : hd.index_bytes < 4294967296 := by
    rw [← hh]
    simp only [IndexFileHeader.ToHostFormat]
    apply fromBE_lt_of_length_four
    · simp only [sizeofIndexFileHeader] at hl ⊢
      simp only [List.length_take, List.length_drop]; omega
    · intro b hb
      exact hbytes b (List.mem_of_mem_take (List.mem_of_mem_drop (List.mem_of_mem_take hb)))
  have hc : (((sizeofIndexFileHeader : Nat) : Int) + (hd.doctable_bytes : Int) +
      (hd.index_bytes : Int)) =
      ((sizeofIndexFileHeader + hd.doctable_bytes + hd.index_bytes : Nat) : Int) := by
    push_cast; rfl
  rw [hc, toUInt32_eq_mod]
  by_cases hm : hd.magic_number = kMagicNumber
  swap
  · rw [if_pos hm]
    constructor
    · intro h; exact absurd h (by simp)
    · intro h; exact absurd h.2.1 hm
  rw [if_neg (not_not.mpr hm)]
  by_cases hlen : bytes.length =
      (sizeofIndexFileHeader + hd.doctable_bytes + hd.index_bytes) % 4294967296
  swap
  · rw [if_pos hlen]
    constructor
    · intro h; exact absurd h (by simp)
    · intro h; exact absurd h.2.2.1 hlen
  rw [if_neg (not_not.mpr hlen)]
  cases validate with
  | false =>
    simp only [Bool.false_eq_true, if_false, Option.isSome_some, false_implies, and_true,
      true_iff]
    exact ⟨hl, hm, hlen⟩
  | true =>
    simp only [if_true, true_implies]
    have hloop : FileIndexReader_loop
        (toInt32 ((hd.doctable_bytes : Int) + (hd.index_bytes : Int))).toNat
        (toInt32 ((hd.doctable_bytes : Int) + (hd.index_bytes : Int)))
        ⟨bytes, sizeofIndexFileHeader⟩ CRC32.init =
        some (((bytes.drop sizeofIndexFileHeader).take
          (toInt32 ((hd.doctable_bytes : Int) + (hd.index_bytes : Int))).toNat).foldl
            CRC32.FoldByteIntoCRC CRC32.init,
          ⟨bytes, sizeofIndexFileHeader +
            (toInt32 ((hd.doctable_bytes : Int) + (hd.index_bytes : Int))).toNat⟩) := by
      generalize hleft : toInt32 ((hd.doctable_bytes : Int) + (hd.index_bytes : Int)) = left
      by_cases hpos : left ≤ 0
      · rw [FileIndexReader_loop_nonpos _ _ _ _ hpos]
        have : left.toNat = 0 := by omega
        rw [this]
        rfl
      · have hL : left = ((left.toNat : Nat) : Int) := by omega
        have hfit : sizeofIndexFileHeader + left.toNat ≤ bytes.length := by
          rw [hlen]
          unfold toInt32 toUInt32 at hleft
          simp only [sizeofIndexFileHeader] at hleft ⊢
          split at hleft <;> omega
        have := FileIndexReader_loop_eq left.toNat left.toNat ⟨bytes, sizeofIndexFileHeader⟩
          CRC32.init (Nat.le_refl _) hfit
        rw [← hL] at this
        exact this
    rw [hloop]
    simp only
    constructor
    · intro h
      refine ⟨hl, hm, hlen, ?_⟩
      by_contra hne
      rw [if_neg hne] at h
      exact absurd h (by simp)
    · intro h
      rw [if_pos h.2.2.2]
      rfl

/-- Changing one byte of the body of a written index file changes its checksum, so
the validating reader rejects it. -/
theorem FileIndexReader_rejects_changed_body (kMagicNumber : Nat) (mi : MemIndex)
    (dt : DocTable) (hsize : indexFileSize mi dt < 2147483648) (i v : Nat)
    (hi : i < (indexFileBody mi dt).length)
    (hv : v % 256 ≠ (indexFileBody mi dt).getD i 0 % 256) :
    FileIndexReader.construct kMagicNumber
      (some ((indexFileBytes kMagicNumber mi dt).set (sizeofIndexFileHeader + i) v)) true =
      none := by
  have hbl := indexFileBody_length mi dt
  have hl16 : (IndexFileHeader.ToDiskFormat kMagicNumber
      (CRC32.GetFinalCRC ((indexFileBody mi dt).foldl CRC32.FoldByteIntoCRC CRC32.init))
      (tableSize docSize dt.id_to_name) (tableSize wordSize mi)).length = 16 := by
    simp [IndexFileHeader.ToDiskFormat]
  have hset : (indexFileBytes kMagicNumber mi dt).set (sizeofIndexFileHeader + i) v =
      IndexFileHeader.ToDiskFormat kMagicNumber
        (CRC32.GetFinalCRC ((indexFileBody mi dt).foldl CRC32.FoldByteIntoCRC CRC32.init))
        (tableSize docSize dt.id_to_name) (tableSize wordSize mi) ++
      (indexFileBody mi dt).set i v := by
    rw [indexFileBytes, List.set_append_right _ _ (by rw [hl16]; simp [sizeofIndexFileHeader])]
    rw [hl16]
    simp [sizeofIndexFileHeader]
  have htake : ((indexFileBytes kMagicNumber mi dt).set (sizeofIndexFileHeader + i) v).take
      sizeofIndexFileHeader = (indexFileBytes kMagicNumber mi dt).take 16 := by
    rw [hset, indexFileBytes]
    simp only [sizeofIndexFileHeader]
    rw [← hl16, List.take_left, List.take_left]
  have hdrop : ((indexFileBytes kMagicNumber mi dt).set (sizeofIndexFileHeader + i) v).drop
      sizeofIndexFileHeader = (indexFileBody mi dt).set i v := by
    rw [hset]
    simp only [sizeofIndexFileHeader]
    rw [← hl16, List.drop_left]
  have hlen : ((indexFileBytes kMagicNumber mi dt).set (sizeofIndexFileHeader + i) v).length =
      indexFileSize mi dt := by
    rw [List.length_set, indexFileBytes_length]
  have hsz : indexFileSize mi dt =
      16 + (tableSize docSize dt.id_to_name + tableSize wordSize mi) := by
    simp only [indexFileSize, sizeofIndexFileHeader]; omega
  rw [FileIndexReader.construct_of_header _ _ _ (by rw [hlen, hsz]; simp [sizeofIndexFileHeader]),
    htake, indexFileBytes_header kMagicNumber mi dt hsize]
  simp only
  have hc : ((tableSize docSize dt.id_to_name : Nat) : Int) + ((tableSize wordSize mi : Nat) : Int)
      = (((indexFileBody mi dt).length : Nat) : Int) := by
    rw [hbl]; push_cast; rfl
  rw [hc, toInt32_of_range _ (by omega) (by omega), Int.toNat_ofNat]
  rw [FileIndexReader_loop_eq _ _ _ _ (Nat.le_refl _) (by
    show sizeofIndexFileHeader + _ ≤ _
    rw [hlen, hsz, hbl]
    exact Nat.le_refl _)]
  simp only
  rw [hdrop]
  have hb : (indexFileBody mi dt).set i v =
      (indexFileBody mi dt).take i ++ v :: (indexFileBody mi dt).drop (i + 1) := by
    rw [List.set_eq_take_append_cons_drop, if_pos hi]
  have hb0 : indexFileBody mi dt =
      (indexFileBody mi dt).take i ++ (indexFileBody mi dt).getD i 0 ::
        (indexFileBody mi dt).drop (i + 1) := by
    have := List.set_eq_take_append_cons_drop (l := indexFileBody mi dt) (n := i)
      (a := (indexFileBody mi dt).getD i 0)
    rw [if_pos hi] at this
    rw [← this]
    apply List.ext_getElem
    · simp
    · intro n h1 h2
      rw [List.getElem_set]
      split
      · rename_i hin
        subst hin
        rw [List.getD_eq_getElem _ _ hi]
      · rfl
  have hlb : ((indexFileBody mi dt).set i v).length = (indexFileBody mi dt).length := by simp
  rw [← hlb, List.take_length, hb]
  have hne := CRC32.checksum_ne ((indexFileBody mi dt).take i) ((indexFileBody mi dt).drop (i + 1))
    v ((indexFileBody mi dt).getD i 0) hv
  rw [← hb0] at hne
  rw [Nat.mod_eq_of_lt (CRC32.checksum_lt _)]
  simp only [hne, if_false]
  split <;> simp

/-- C10: in a file produced by a successful `WriteIndex` (index below 2 GiB), replacing
the byte at any offset inside the body (the document-table and index regions) by a
different byte value makes `FileIndexReader` with validate = true reject the file. -/
theorem WriteIndex_checksum_sensitive (kMagicNumber : Nat) (dev : Device) (mi : MemIndex)
    (dt : DocTable) (old : Option (List Nat)) (hsize : indexFileSize mi dt < 2147483648)
    (hok : (WriteIndex kMagicNumber dev mi dt old).1 ≠ kFailedWrite)
    (bytes : List Nat) (hfile : (WriteIndex kMagicNumber dev mi dt old).2 = some bytes)
    (i v : Nat) (hi : sizeofIndexFileHeader + i < bytes.length) (hv : v < 256)
    (hold : bytes.getD (sizeofIndexFileHeader + i) 0 < 256)
    (hne : v ≠ bytes.getD (sizeofIndexFileHeader + i) 0) :
    FileIndexReader.construct kMagicNumber (some (bytes.set (sizeofIndexFileHeader + i) v))
      true = none := by
  rw [WriteIndex_bytes kMagicNumber dev mi dt old hsize hok] at hfile
  simp only [Option.some.injEq] at hfile
  subst hfile
  have hl16 : (IndexFileHeader.ToDiskFormat kMagicNumber
      (CRC32.GetFinalCRC ((indexFileBody mi dt).foldl CRC32.FoldByteIntoCRC CRC32.init))
      (tableSize docSize dt.id_to_name) (tableSize wordSize mi)).length = 16 := by
    simp [IndexFileHeader.ToDiskFormat]
  have hget : (indexFileBytes kMagicNumber mi dt).getD (sizeofIndexFileHeader + i) 0 =
      (indexFileBody mi dt).getD i 0 := by
    rw [indexFileBytes, List.getD_append_right _ _ _ _ (by rw [hl16]; simp [sizeofIndexFileHeader]),
      hl16]
    simp [sizeofIndexFileHeader]
  rw [hget] at hold hne
  have hi2 : i < (indexFileBody mi dt).length := by
    rw [indexFileBytes_length, indexFileSize] at hi
    rw [indexFileBody_length]
    omega
  exact FileIndexReader_rejects_changed_body kMagicNumber mi dt hsize i v hi2 (by omega)

/-- The statement of C10 at the sample index file: its first body byte, at offset 16,
changed to 255. -/
theorem WriteIndex_checksum_sensitive_witness :
    FileIndexReader.construct sampleMagic
      (some ((indexFileBytes sampleMagic sampleMemIndex sampleDocTable).set
        (sizeofIndexFileHeader + 0) 255)) true = none :=
  WriteIndex_checksum_sensitive sampleMagic Device.reliable sampleMemIndex sampleDocTable none
    (by decide!) (by decide!) (indexFileBytes sampleMagic sampleMemIndex sampleDocTable)
    (by rw [WriteIndex_bytes sampleMagic Device.reliable sampleMemIndex sampleDocTable none
      (by decide!) (by decide!)])
    0 255 (by decide!) (by decide) (by decide!) (by decide!)

theorem positionsBytes_drop_take (ps : List Nat) : ∀ (k : Nat), k < ps.length →
    ((positionsBytes ps).drop (sizeofDocIDElementPosition * k)).take
      sizeofDocIDElementPosition = be32 (ps.getD k 0 % 4294967296) := by
  induction ps with
  | nil => intro k hk; exact absurd hk (by simp)
  | cons p rest ih =>
    intro k hk
    cases k with
    | zero =>
      simp only [positionsBytes, DocIDElementPosition.ToDiskFormat, Nat.mul_zero, List.drop_zero,
        List.getD_cons_zero]
      have : sizeofDocIDElementPosition = (be32 (p % 4294967296)).length := by simp [be32, sizeofDocIDElementPosition]
      rw [this, List.take_left]
    | succ k =>
      simp only [positionsBytes, DocIDElementPosition.ToDiskFormat, List.getD_cons_succ]
      have e : sizeofDocIDElementPosition * (k + 1) =
          (be32 (p % 4294967296)).length + sizeofDocIDElementPosition * k := by
        simp [be32, sizeofDocIDElementPosition]; omega
      rw [e, ← List.drop_drop, List.drop_left]
      exact ih k (by simpa using hk)

/-- C26: when `WriteDocIDToPositionListFn` succeeds for an entry (docID, position
list of length n) that ends below 2 GiB, it returns header size + n x position-record
size and stores, at the offset, a header that reads back as (docID, n) followed by n
position records in list order, the k-th holding the k-th position modulo 2^32 (the
position itself when it fits in 32 bits). -/
theorem WriteDocIDToPositionListFn_layout (dev : Device) (f : FILE) (offset : Nat)
    (kv : HTKeyValue_t (List Nat))
    (hsize : offset + (sizeofDocIDElementHeader +
      sizeofDocIDElementPosition * kv.value.length) < 2147483648)
    (hkey : kv.key < 18446744073709551616)
    (hok : (WriteDocIDToPositionListFn dev f offset kv).1 ≠ kFailedWrite) :
    (WriteDocIDToPositionListFn dev f offset kv).1 =
        ((sizeofDocIDElementHeader + kv.value.length * sizeofDocIDElementPosition : Nat) : Int) ∧
      (WriteDocIDToPositionListFn dev f offset kv).2.bytes =
        pwrite f.bytes offset (postingBytes kv) ∧
      (postingBytes kv).length =
        sizeofDocIDElementHeader + kv.value.length * sizeofDocIDElementPosition ∧
      DocIDElementHeader.ToHostFormat ((postingBytes kv).take sizeofDocIDElementHeader) =
        ⟨kv.key, (kv.value.length : Int)⟩ ∧
      (∀ k, k < kv.value.length →
        fromBE (((postingBytes kv).drop
          (sizeofDocIDElementHeader + sizeofDocIDElementPosition * k)).take
            sizeofDocIDElementPosition) = kv.value.getD k 0 % 4294967296) ∧
      (∀ k, k < kv.value.length → kv.value.getD k 0 < 4294967296 →
        fromBE (((postingBytes kv).drop
          (sizeofDocIDElementHeader + sizeofDocIDElementPosition * k)).take
            sizeofDocIDElementPosition) = kv.value.getD k 0) := by
  obtain ⟨h1, h2⟩ := (WriteDocIDToPositionListFn_writes dev).2 f offset kv hsize hok
  have hhl : (DocIDElementHeader.ToDiskFormat kv.key (kv.value.length : Int)).length =
      sizeofDocIDElementHeader := by
    simp [DocIDElementHeader.ToDiskFormat, be64, be32, sizeofDocIDElementHeader]
  have hpos : ∀ k, k < kv.value.length →
      fromBE (((postingBytes kv).drop
        (sizeofDocIDElementHeader + sizeofDocIDElementPosition * k)).take
          sizeofDocIDElementPosition) = kv.value.getD k 0 % 4294967296 := by
    intro k hk
    rw [postingBytes, ← List.drop_drop, ← hhl, List.drop_left, positionsBytes_drop_take _ _ hk,
      fromBE_be32 _ (Nat.mod_lt _ (by norm_num))]
  refine ⟨?_, h2, ?_, ?_, hpos, ?_⟩
  · rw [h1, postingSize, Nat.mul_comm]
  · rw [postingBytes_length, postingSize, Nat.mul_comm]
  · rw [postingBytes, ← hhl, List.take_left]
    simp only [sizeofDocIDElementHeader, sizeofDocIDElementPosition] at hsize
    exact DocIDElementHeader_roundtrip _ _ hkey (by omega)
  · intro k hk hlt
    rw [hpos k hk, Nat.mod_eq_of_lt hlt]

/-- The statement of C26 for docID 1 with positions 0 and 2^32 + 13, stored at offset
16 of an empty file: twenty bytes, and the second position is stored as 13. -/
theorem WriteDocIDToPositionListFn_layout_witness :
    (WriteDocIDToPositionListFn Device.reliable ⟨[], 0⟩ 16 ⟨1, [0, 4294967309]⟩).1 = 20 ∧
      fromBE (((postingBytes ⟨1, [0, 4294967309]⟩).drop
        (sizeofDocIDElementHeader + sizeofDocIDElementPosition * 1)).take
          sizeofDocIDElementPosition) = 13 :=
  have h := WriteDocIDToPositionListFn_layout Device.reliable ⟨[], 0⟩ 16 ⟨1, [0, 4294967309]⟩
    (by decide) (by decide) (by decide!)
  ⟨h.1, h.2.2.2.2.1 1 (by decide)⟩

/-- `WriteDocidToDocnameFn` on a reliable device and an empty file, for a name whose
length the cast to `int16_t` turns into 1. -/
theorem WriteDocidToDocnameFn_of_cast_one (name : List Nat) (c : Nat)
    (h16 : toInt16 ((name.length : Nat) : Int) = 1) (hhead : name.take 1 = [c]) :
    WriteDocidToDocnameFn Device.reliable ⟨[], 0⟩ 0 ⟨1, name⟩ =
      (11, ⟨DoctableElementHeader.ToDiskFormat 1 1 ++ [c], 11⟩) := by
  have t2 : toInt32 (((sizeofDoctableElementHeader : Nat) : Int) + 1) = 11 := by
    unfold toInt32 toUInt32; simp only [sizeofDoctableElementHeader]; decide
  have hh : DoctableElementHeader.ToDiskFormat 1 1 = [0, 0, 0, 0, 0, 0, 0, 1, 0, 1] := by
    decide
  have hw : fwriteString Device.reliable ⟨[0, 0, 0, 0, 0, 0, 0, 1, 0, 1], 10⟩ name 1 =
      some ⟨[0, 0, 0, 0, 0, 0, 0, 1, 0, 1, c], 11⟩ := by
    have e : List.take (1 : Int).toNat name = [c] := hhead
    simp only [fwriteString, e]
    rfl
  have hs : Device.reliable.fseek ⟨[], 0⟩ 0 = some ⟨[], 0⟩ := by decide
  have hw1 : Device.reliable.fwrite ⟨[], 0⟩ [0, 0, 0, 0, 0, 0, 0, 1, 0, 1] =
      some ⟨[0, 0, 0, 0, 0, 0, 0, 1, 0, 1], 10⟩ := by decide
  simp only [WriteDocidToDocnameFn, h16, t2, hh, hs, hw1, hw]
  rfl

/-- `WriteWordToPostingsFn` on a reliable device and an empty file, for a word whose
length the cast to `int16_t` turns into 1 and whose postings table is one empty
bucket. -/
theorem WriteWordToPostingsFn_of_cast_one (word : List Nat) (c k : Nat)
    (h16 : toInt16 ((word.length : Nat) : Int) = 1) (hhead : word.take 1 = [c]) :
    WriteWordToPostingsFn Device.reliable ⟨[], 0⟩ 0 ⟨k, ⟨word, ⟨[[]]⟩⟩⟩ =
      (23, ⟨WordPostingsHeader.ToDiskFormat 1 16 ++ [c] ++
        tableBytes (fun _ => postingBytes) postingSize 7 ⟨[[]]⟩, 7⟩) := by
  have hn : WriteHashTable Device.reliable ⟨[], 0⟩
      (toUInt64 (((0 : Nat) : Int) + ((sizeofWordPostingsHeader : Nat) : Int) + 1))
      (⟨[[]]⟩ : HashTable (List Nat)) (WriteDocIDToPositionListFn Device.reliable) =
      (16, ⟨[0, 0, 0, 0, 0, 0, 0, 0, 0, 0, 1, 0, 0, 0, 0, 0, 0, 0, 0, 0, 0, 0, 23], 23⟩) := by
    decide!
  have hs : Device.reliable.fseek
      ⟨[0, 0, 0, 0, 0, 0, 0, 0, 0, 0, 1, 0, 0, 0, 0, 0, 0, 0, 0, 0, 0, 0, 23], 23⟩ 0 =
      some ⟨[0, 0, 0, 0, 0, 0, 0, 0, 0, 0, 1, 0, 0, 0, 0, 0, 0, 0, 0, 0, 0, 0, 23], 0⟩ := by
    decide
  have hw1 : Device.reliable.fwrite
      ⟨[0, 0, 0, 0, 0, 0, 0, 0, 0, 0, 1, 0, 0, 0, 0, 0, 0, 0, 0, 0, 0, 0, 23], 0⟩
      (WordPostingsHeader.ToDiskFormat 1 16) =
      some ⟨[0, 1, 0, 0, 0, 16, 0, 0, 0, 0, 1, 0, 0, 0, 0, 0, 0, 0, 0, 0, 0, 0, 23], 6⟩ := by
    decide!
  have hw : fwriteString Device.reliable
      ⟨[0, 1, 0, 0, 0, 16, 0, 0, 0, 0, 1, 0, 0, 0, 0, 0, 0, 0, 0, 0, 0, 0, 23], 6⟩ word 1 =
      some ⟨[0, 1, 0, 0, 0, 16, c, 0, 0, 0, 1, 0, 0, 0, 0, 0, 0, 0, 0, 0, 0, 0, 23], 7⟩ := by
    have e : List.take (1 : Int).toNat word = [c] := hhead
    simp only [fwriteString, e]
    rfl
  have t2 : toInt32 (((sizeofWordPostingsHeader : Nat) : Int) + 1 + 16) = 23 := by
    unfold toInt32 toUInt32; simp only [sizeofWordPostingsHeader]; decide
  have hk : ¬ ((16 : Int) = kFailedWrite) := by decide
  have hb : WordPostingsHeader.ToDiskFormat 1 16 ++ [c] ++
      tableBytes (fun _ => postingBytes) postingSize 7 (⟨[[]]⟩ : HashTable (List Nat)) =
      [0, 1, 0, 0, 0, 16, c, 0, 0, 0, 1, 0, 0, 0, 0, 0, 0, 0, 0, 0, 0, 0, 23] := by
    have h1 : WordPostingsHeader.ToDiskFormat 1 16 = [0, 1, 0, 0, 0, 16] := by decide!
    have h2 : tableBytes (fun _ => postingBytes) postingSize 7 (⟨[[]]⟩ : HashTable (List Nat)) =
        [0, 0, 0, 1, 0, 0, 0, 0, 0, 0, 0, 0, 0, 0, 0, 23] := by decide!
    rw [h1, h2]; rfl
  simp only [WriteWordToPostingsFn, h16, hn, hk, if_false, hs, hw1, hw, t2, hb]

/-- C27 fails on the code: for a document name, and for a word, of 65537 bytes the
cast to `int16_t` yields 1, so the element writers succeed, store 1 in the 16-bit
length field, write a single byte of the string and return header size + 1 (+ the
nested region length, 16, for the word). -/
theorem WriteElementFns_long_string :
    WriteDocidToDocnameFn Device.reliable ⟨[], 0⟩ 0 ⟨1, List.replicate 65537 97⟩ =
        (11, ⟨DoctableElementHeader.ToDiskFormat 1 1 ++ [97], 11⟩) ∧
      WriteWordToPostingsFn Device.reliable ⟨[], 0⟩ 0
          ⟨5, ⟨List.replicate 65537 97, ⟨[[]]⟩⟩⟩ =
        (23, ⟨WordPostingsHeader.ToDiskFormat 1 16 ++ [97] ++
          tableBytes (fun _ => postingBytes) postingSize 7 ⟨[[]]⟩, 7⟩) :=
  ⟨WriteDocidToDocnameFn_of_cast_one (List.replicate 65537 97) 97
      (by
        rw [List.length_replicate]
        unfold toInt16; simp only []; decide)
      (by rw [List.take_replicate]; rfl),
    WriteWordToPostingsFn_of_cast_one (List.replicate 65537 97) 97 5
      (by
        rw [List.length_replicate]
        unfold toInt16; simp only []; decide)
      (by rw [List.take_replicate]; rfl)⟩

/-- The steps of a successful `WriteWordToPostingsFn`, in the order they are made:
the nested table, then the header over the bytes the nested writer left, then the
word. -/
theorem WriteWordToPostingsFn_steps (dev : Device) (f : FILE) (off : Nat)
    (kv : HTKeyValue_t WordPostings)
    (hok : (WriteWordToPostingsFn dev f off kv).1 ≠ kFailedWrite) :
    (WriteHashTable dev f
        (toUInt64 (off + sizeofWordPostingsHeader + toInt16 kv.value.word.length))
        kv.value.postings (WriteDocIDToPositionListFn dev)).1 ≠ kFailedWrite ∧
      0 ≤ toInt16 kv.value.word.length ∧
      (WriteWordToPostingsFn dev f off kv).1 =
        toInt32 (sizeofWordPostingsHeader + toInt16 kv.value.word.length +
          (WriteHashTable dev f
            (toUInt64 (off + sizeofWordPostingsHeader + toInt16 kv.value.word.length))
            kv.value.postings (WriteDocIDToPositionListFn dev)).1) ∧
      (WriteWordToPostingsFn dev f off kv).2.bytes =
        pwrite (pwrite (WriteHashTable dev f
            (toUInt64 (off + sizeofWordPostingsHeader + toInt16 kv.value.word.length))
            kv.value.postings (WriteDocIDToPositionListFn dev)).2.bytes off
          (WordPostingsHeader.ToDiskFormat (toInt16 kv.value.word.length)
            (WriteHashTable dev f
              (toUInt64 (off + sizeofWordPostingsHeader + toInt16 kv.value.word.length))
              kv.value.postings (WriteDocIDToPositionListFn dev)).1))
          (off + sizeofWordPostingsHeader)
          (kv.value.word.take (toInt16 kv.value.word.length).toNat) := by
  simp only [WriteWordToPostingsFn] at hok ⊢
  generalize WriteHashTable dev f
    (toUInt64 (off + sizeofWordPostingsHeader + toInt16 kv.value.word.length))
    kv.value.postings (WriteDocIDToPositionListFn dev) = r at hok ⊢
  by_cases hr : r.1 = kFailedWrite
  · simp [hr] at hok
  · simp only [hr, if_false] at hok ⊢
    cases hs : dev.fseek r.2 off with
    | none => simp [hs] at hok
    | some f1 =>
      simp only [hs] at hok ⊢
      obtain ⟨hb1, hp1⟩ := Device.fseek_some hs
      cases hw : dev.fwrite f1 (WordPostingsHeader.ToDiskFormat
          (toInt16 kv.value.word.length) r.1) with
      | none => simp [hw] at hok
      | some f2 =>
        simp only [hw] at hok ⊢
        obtain ⟨hb2, hp2⟩ := Device.fwrite_some hw
        cases hw3 : fwriteString dev f2 kv.value.word (toInt16 kv.value.word.length) with
        | none => simp [hw3] at hok
        | some f3 =>
          simp only [hw3]
          obtain ⟨hnn, hb3, _⟩ := fwriteString_some hw3
          refine ⟨hr, hnn, trivial, ?_⟩
          have hlenH : (WordPostingsHeader.ToDiskFormat (toInt16 kv.value.word.length)
              r.1).length = 6 := by
            simp [WordPostingsHeader.ToDiskFormat, be16, be32]
          rw [hb3, hb2, hp2, hb1, hp1, hlenH]
          rfl

/-- Nesting for short words: when `WriteWordToPostingsFn` succeeds for an entry whose
word is shorter than 32768 bytes and which ends below 2 GiB, the nested postings table is written
first, at offset + word-header size + word length; then the header, whose two fields
read back as the word length and the byte count the nested `WriteHashTable` returned,
is written at the offset, and the word's bytes right after it; header, word and nested
region form one contiguous block; and the function returns header size + word length
+ nested region length. -/
theorem WriteWordToPostingsFn_nesting (dev : Device) (f : FILE) (offset : Nat)
    (kv : HTKeyValue_t WordPostings) (hword : kv.value.word.length < 32768)
    (hsize : offset + (sizeofWordPostingsHeader + kv.value.word.length +
      tableSize postingSize kv.value.postings) < 2147483648)
    (hok : (WriteWordToPostingsFn dev f offset kv).1 ≠ kFailedWrite) :
    (WriteHashTable dev f (offset + sizeofWordPostingsHeader + kv.value.word.length)
        kv.value.postings (WriteDocIDToPositionListFn dev)).1 =
        ((tableSize postingSize kv.value.postings : Nat) : Int) ∧
      (WriteHashTable dev f (offset + sizeofWordPostingsHeader + kv.value.word.length)
        kv.value.postings (WriteDocIDToPositionListFn dev)).2.bytes =
        pwrite f.bytes (offset + sizeofWordPostingsHeader + kv.value.word.length)
          (tableBytes (fun _ => postingBytes) postingSize
            (offset + sizeofWordPostingsHeader + kv.value.word.length) kv.value.postings) ∧
      (WriteWordToPostingsFn dev f offset kv).2.bytes =
        pwrite (pwrite (WriteHashTable dev f
            (offset + sizeofWordPostingsHeader + kv.value.word.length)
            kv.value.postings (WriteDocIDToPositionListFn dev)).2.bytes offset
          (WordPostingsHeader.ToDiskFormat kv.value.word.length
            (WriteHashTable dev f (offset + sizeofWordPostingsHeader + kv.value.word.length)
              kv.value.postings (WriteDocIDToPositionListFn dev)).1))
          (offset + sizeofWordPostingsHeader) kv.value.word ∧
      (WriteWordToPostingsFn dev f offset kv).2.bytes =
        pwrite f.bytes offset
          (WordPostingsHeader.ToDiskFormat kv.value.word.length
              (tableSize postingSize kv.value.postings) ++ kv.value.word ++
            tableBytes (fun _ => postingBytes) postingSize
              (offset + sizeofWordPostingsHeader + kv.value.word.length) kv.value.postings) ∧
      (WordPostingsHeader.ToDiskFormat kv.value.word.length
        (tableSize postingSize kv.value.postings)).length = sizeofWordPostingsHeader ∧
      fromBE ((WordPostingsHeader.ToDiskFormat kv.value.word.length
        (tableSize postingSize kv.value.postings)).take 2) = kv.value.word.length ∧
      fromBE (((WordPostingsHeader.ToDiskFormat kv.value.word.length
        (tableSize postingSize kv.value.postings)).drop 2).take 4) =
          tableSize postingSize kv.value.postings ∧
      (WriteWordToPostingsFn dev f offset kv).1 =
        ((sizeofWordPostingsHeader + kv.value.word.length +
          tableSize postingSize kv.value.postings : Nat) : Int) := by
  have h16 : toInt16 ((kv.value.word.length : Nat) : Int) = kv.value.word.length :=
    toInt16_of_range _ (by omega) (by omega)
  have hsz : offset + wordSize kv < 2147483648 := by
    rw [wordSize, h16, Int.toNat_ofNat]; exact hsize
  simp only [sizeofWordPostingsHeader] at hsize
  have eoff : toUInt64 ((offset : Int) + (sizeofWordPostingsHeader : Nat) +
      toInt16 kv.value.word.length) = offset + sizeofWordPostingsHeader + kv.value.word.length := by
    rw [h16]
    have hc : ((offset : Int) + (sizeofWordPostingsHeader : Nat) + (kv.value.word.length : Nat)) =
        ((offset + sizeofWordPostingsHeader + kv.value.word.length : Nat) : Int) := by
      push_cast; rfl
    rw [hc]
    exact toUInt64_of_nat _ (by simp only [sizeofWordPostingsHeader]; omega)
  obtain ⟨s1, _, _, s4⟩ := WriteWordToPostingsFn_steps dev f offset kv hok
  rw [eoff] at s1 s4
  rw [h16, Int.toNat_ofNat, List.take_of_length_le (Nat.le_refl _)] at s4
  obtain ⟨n1, n2⟩ := WriteHashTable_bytes dev _ _ _ (WriteDocIDToPositionListFn_writes dev) f
    (offset + sizeofWordPostingsHeader + kv.value.word.length) kv.value.postings
    (by simp only [sizeofWordPostingsHeader]; omega) s1
  obtain ⟨w1, w2⟩ := (WriteWordToPostingsFn_writes dev).2 f offset kv hsz hok
  have hwb : wordBytes offset kv =
      WordPostingsHeader.ToDiskFormat kv.value.word.length
          (tableSize postingSize kv.value.postings) ++ kv.value.word ++
        tableBytes (fun _ => postingBytes) postingSize
          (offset + sizeofWordPostingsHeader + kv.value.word.length) kv.value.postings := by
    rw [wordBytes, h16, Int.toNat_ofNat, List.take_of_length_le (Nat.le_refl _)]
  have hmod : (((kv.value.word.length : Nat) : Int) % 65536).toNat = kv.value.word.length := by
    omega
  refine ⟨n1, n2, s4, ?_, ?_, ?_, ?_, ?_⟩
  · rw [w2, hwb]
  · simp [WordPostingsHeader.ToDiskFormat, be16, be32, sizeofWordPostingsHeader]
  · have : (WordPostingsHeader.ToDiskFormat kv.value.word.length
        (tableSize postingSize kv.value.postings)).take 2 = be16 kv.value.word.length := by
      simp only [WordPostingsHeader.ToDiskFormat, hmod]
      simp [be16]
    rw [this, fromBE_be16 _ (by omega)]
  · have : ((WordPostingsHeader.ToDiskFormat kv.value.word.length
        (tableSize postingSize kv.value.postings)).drop 2).take 4 =
        be32 (tableSize postingSize kv.value.postings) := by
      simp only [WordPostingsHeader.ToDiskFormat, hmod,
        toUInt32_of_nat (tableSize postingSize kv.value.postings) (by omega)]
      simp [be16, be32]
    rw [this, fromBE_be32 _ (by omega)]
  · rw [w1, wordSize, h16, Int.toNat_ofNat]

theorem Holds_pwrite (b : List Nat) (off : Nat) (bs : List Nat) (h : bs ≠ []) :
    Holds (pwrite b off bs) off bs := by
  refine ⟨?_, pwrite_drop_take b off bs⟩
  rw [pwrite_length b off bs h]
  omega

theorem chainSize_take_succ {V : Type} (sz : HTKeyValue_t V → Nat) (li : List (HTKeyValue_t V)) :
    ∀ (k : Nat) (kv : HTKeyValue_t V), li[k]? = some kv →
      chainSize sz (li.take (k + 1)) = chainSize sz (li.take k) + sz kv := by
  induction li with
  | nil => intro k kv h; simp at h
  | cons a rest ih =>
    intro k kv h
    cases k with
    | zero =>
      simp only [List.getElem?_cons_zero, Option.some.injEq] at h
      subst h
      simp [chainSize]
    | succ k =>
      simp only [List.getElem?_cons_succ] at h
      have := ih k kv h
      simp only [List.take_succ_cons, chainSize_cons]
      omega

theorem chainSize_take_le {V : Type} (sz : HTKeyValue_t V → Nat) (li : List (HTKeyValue_t V)) :
    ∀ (k : Nat), chainSize sz (li.take k) ≤ chainSize sz li := by
  induction li with
  | nil => intro k; simp [chainSize]
  | cons a rest ih =>
    intro k
    cases k with
    | zero => simp [chainSize]
    | succ k =>
      have := ih k
      simp only [List.take_succ_cons, chainSize_cons]
      omega

/-- The element-position record of element `k` of a chain. -/
theorem Holds_chainRecords {V : Type} (sz : HTKeyValue_t V → Nat) (bytes : List Nat)
    (li : List (HTKeyValue_t V)) :
    ∀ (p0 p k : Nat), Holds bytes p0 (chainRecords sz li p) → k < li.length →
      Holds bytes (p0 + sizeofElementPositionRecord * k)
        (ElementPositionRecord.ToDiskFormat (p + chainSize sz (li.take k))) := by
  induction li with
  | nil => intro p0 p k _ hk; simp at hk
  | cons a rest ih =>
    intro p0 p k h hk
    simp only [chainRecords] at h
    obtain ⟨h1, h2⟩ := Holds_append.mp h
    cases k with
    | zero => simpa [chainSize] using h1
    | succ k =>
      have hlen : (ElementPositionRecord.ToDiskFormat p).length = 8 := by
        simp [ElementPositionRecord.ToDiskFormat, be64, be32]
      rw [hlen] at h2
      have := ih (p0 + 8) (p + sz a) k h2 (by simpa using hk)
      simp only [List.take_succ_cons, chainSize_cons, sizeofElementPositionRecord]
      simp only [sizeofElementPositionRecord] at this
      have e1 : p0 + 8 * (k + 1) = p0 + 8 + 8 * k := by omega
      have e2 : p + (sz a + chainSize sz (List.take k rest)) =
          p + sz a + chainSize sz (List.take k rest) := by omega
      rw [e1, e2]
      exact this

/-- The bytes of element `k` of a chain. -/
theorem Holds_chainElements {V : Type} (enc : Nat → HTKeyValue_t V → List Nat)
    (sz : HTKeyValue_t V → Nat) (henc : ∀ off kv, (enc off kv).length = sz kv)
    (bytes : List Nat) (li : List (HTKeyValue_t V)) :
    ∀ (p k : Nat) (kv : HTKeyValue_t V), Holds bytes p (chainElements enc sz li p) →
      li[k]? = some kv →
      Holds bytes (p + chainSize sz (li.take k)) (enc (p + chainSize sz (li.take k)) kv) := by
  induction li with
  | nil => intro p k kv _ hk; simp at hk
  | cons a rest ih =>
    intro p k kv h hk
    simp only [chainElements] at h
    obtain ⟨h1, h2⟩ := Holds_append.mp h
    cases k with
    | zero =>
      simp only [List.getElem?_cons_zero, Option.some.injEq] at hk
      subst hk
      simpa [chainSize] using h1
    | succ k =>
      simp only [List.getElem?_cons_succ] at hk
      rw [henc] at h2
      have := ih (p + sz a) k kv h2 hk
      simp only [List.take_succ_cons, chainSize_cons]
      have e2 : p + (sz a + chainSize sz (List.take k rest)) =
          p + sz a + chainSize sz (List.take k rest) := by omega
      rw [e2]
      exact this

/-- C25: when `WriteHTBucket` succeeds for a bucket of n elements written at offset o
and ending below 2 GiB, with an element encoder that returns the size of what it
stores, it returns n x record size + the encoded sizes; the k-th element-position
record stores o + n x record size + the encoded sizes of elements 0..k-1; the encoded
k-th element lies at exactly that position; the position is inside
[o, o + returned size) and inside the file; and the element ends where the next one
starts. -/
theorem WriteHTBucket_element_positions {V : Type} (dev : Device) (fn : WriteElementFn V)
    (enc : Nat → HTKeyValue_t V → List Nat) (sz : HTKeyValue_t V → Nat)
    (hfn : WritesElements fn enc sz) (f : FILE) (offset : Nat) (li : List (HTKeyValue_t V))
    (hsize : offset + bucketSize sz li < 2147483648)
    (hok : (WriteHTBucket dev f offset li fn).1 ≠ kFailedWrite) :
    (WriteHTBucket dev f offset li fn).1 =
        ((li.length * sizeofElementPositionRecord + (li.map sz).sum : Nat) : Int) ∧
      ∀ (k : Nat) (kv : HTKeyValue_t V), li[k]? = some kv →
        Holds (WriteHTBucket dev f offset li fn).2.bytes
            (offset + sizeofElementPositionRecord * k)
            (ElementPositionRecord.ToDiskFormat
              (offset + li.length * sizeofElementPositionRecord + ((li.take k).map sz).sum)) ∧
          fromBE (ElementPositionRecord.ToDiskFormat
              (offset + li.length * sizeofElementPositionRecord + ((li.take k).map sz).sum)) =
            offset + li.length * sizeofElementPositionRecord + ((li.take k).map sz).sum ∧
          Holds (WriteHTBucket dev f offset li fn).2.bytes
            (offset + li.length * sizeofElementPositionRecord + ((li.take k).map sz).sum)
            (enc (offset + li.length * sizeofElementPositionRecord + ((li.take k).map sz).sum)
              kv) ∧
          offset ≤ offset + li.length * sizeofElementPositionRecord + ((li.take k).map sz).sum ∧
          offset + li.length * sizeofElementPositionRecord + ((li.take k).map sz).sum + sz kv ≤
            offset + (li.length * sizeofElementPositionRecord + (li.map sz).sum) ∧
          offset + li.length * sizeofElementPositionRecord + ((li.take k).map sz).sum + sz kv ≤
            (WriteHTBucket dev f offset li fn).2.bytes.length ∧
          offset + li.length * sizeofElementPositionRecord + ((li.take k).map sz).sum + sz kv =
            offset + li.length * sizeofElementPositionRecord + ((li.take (k + 1)).map sz).sum := by
  obtain ⟨h1, h2⟩ := WriteHTBucket_bytes dev fn enc sz hfn f offset li hsize hok
  refine ⟨?_, ?_⟩
  · rw [h1, bucketSize, chainSize, Nat.mul_comm]
  intro k kv hk
  have hklt : k < li.length := by
    rcases Nat.lt_or_ge k li.length with h | h
    · exact h
    · rw [List.getElem?_eq_none h] at hk; exact absurd hk (by simp)
  have hne : bucketBytes enc sz offset li ≠ [] := by
    intro h0
    have := bucketBytes_length enc sz hfn.1 offset li
    rw [h0] at this
    simp only [List.length_nil, bucketSize, sizeofElementPositionRecord] at this
    omega
  have hH := Holds_pwrite f.bytes offset _ hne
  rw [← h2] at hH
  simp only [bucketBytes] at hH
  obtain ⟨hrec, hel⟩ := Holds_append.mp hH
  rw [chainRecords_length] at hel
  have r1 := Holds_chainRecords sz _ li _ _ k hrec hklt
  have r2 := Holds_chainElements enc sz hfn.1 _ li _ k kv hel hk
  have hts := chainSize_take_succ sz li k kv hk
  have htl := chainSize_take_le sz li (k + 1)
  simp only [bucketSize, chainSize, sizeofElementPositionRecord] at *
  have e : offset + li.length * 8 = offset + 8 * li.length := by omega
  rw [e]
  refine ⟨r1, fromBE_be64 _ (by omega), r2, by omega, by omega, ?_, by omega⟩
  have := r2.1
  rw [hfn.1] at this
  exact this

/-- The statement of C25 for bucket 0 of the sample index (the entries of "banana"
and "cherry"), written at offset 200 of an empty file, at its second element. -/
theorem WriteHTBucket_element_positions_witness :
    fromBE (ElementPositionRecord.ToDiskFormat
      (200 + (sampleMemIndex.buckets.getD 0 []).length * sizeofElementPositionRecord +
        (((sampleMemIndex.buckets.getD 0 []).take 1).map wordSize).sum)) =
      200 + (sampleMemIndex.buckets.getD 0 []).length * sizeofElementPositionRecord +
        (((sampleMemIndex.buckets.getD 0 []).take 1).map wordSize).sum :=
  ((WriteHTBucket_element_positions Device.reliable (WriteWordToPostingsFn Device.reliable)
    wordBytes wordSize (WriteWordToPostingsFn_writes Device.reliable) ⟨[], 0⟩ 200
    (sampleMemIndex.buckets.getD 0 []) (by decide!) (by decide!)).2 1
    ⟨sampleHash wordCherry, ⟨wordCherry, ⟨[[⟨2, [7]⟩], []]⟩⟩⟩ (by decide!)).2.1

theorem bucketsSize_take_succ {V : Type} (sz : HTKeyValue_t V → Nat)
    (bs : List (List (HTKeyValue_t V))) :
    ∀ (i : Nat), i < bs.length →
      bucketsSize sz (bs.take (i + 1)) = bucketsSize sz (bs.take i) + bucketSize sz (bs.getD i []) := by
  induction bs with
  | nil => intro i hi; simp at hi
  | cons li rest ih =>
    intro i hi
    cases i with
    | zero => simp [bucketsSize]
    | succ i =>
      have := ih i (by simpa using hi)
      simp only [List.take_succ_cons, bucketsSize_cons, List.getD_cons_succ]
      omega

theorem bucketsSize_take_all {V : Type} (sz : HTKeyValue_t V → Nat)
    (bs : List (List (HTKeyValue_t V))) : bucketsSize sz (bs.take bs.length) = bucketsSize sz bs := by
  rw [List.take_length]

theorem bucketPosition_of_empty {V : Type} (sz : HTKeyValue_t V → Nat) (offset : Nat)
    (ht : HashTable V) (i : Nat) :
    ∀ (d : Nat), i + d ≤ ht.buckets.length →
      (∀ k, i ≤ k → k < i + d → ht.buckets.getD k [] = []) →
      bucketPosition sz offset ht (i + d) = bucketPosition sz offset ht i := by
  intro d
  induction d with
  | zero => intro _ _; rfl
  | succ d ih =>
    intro hle hall
    have h1 := ih (by omega) (fun k h1 h2 => hall k h1 (by omega))
    have h2 := bucketsSize_take_succ sz ht.buckets (i + d) (by omega)
    have h3 := hall (i + d) (by omega) (by omega)
    rw [← h1]
    simp only [bucketPosition]
    rw [← Nat.add_assoc i d 1, h2, h3]
    simp [bucketSize, chainSize]

/-- C24: in the region left by a successful `WriteHashTable` (ending below 2 GiB,
element encoder returning the size of what it stores), for every bucket index i the
i-th bucket record reads back as (number of entries of in-memory bucket i, file offset
at which bucket i's content starts); the content of bucket 0 starts right after the
bucket-record array and that of bucket i + 1 right after that of bucket i; an empty
bucket contributes zero content bytes, so the offset in its record is the start of the
next non-empty bucket's content, or the region's end. -/
theorem WriteHashTable_bucket_records {V : Type} (dev : Device) (fn : WriteElementFn V)
    (enc : Nat → HTKeyValue_t V → List Nat) (sz : HTKeyValue_t V → Nat)
    (hfn : WritesElements fn enc sz) (f : FILE) (offset : Nat) (ht : HashTable V)
    (hsize : offset + tableSize sz ht < 2147483648)
    (hok : (WriteHashTable dev f offset ht fn).1 ≠ kFailedWrite) :
    (∀ i, i < ht.buckets.length →
        Holds (WriteHashTable dev f offset ht fn).2.bytes
          (offset + sizeofBucketListHeader + sizeofBucketRecord * i)
          (BucketRecord.ToDiskFormat ((ht.buckets.getD i []).length : Nat)
            (bucketPosition sz offset ht i)) ∧
        BucketRecord.ToHostFormat (BucketRecord.ToDiskFormat
            ((ht.buckets.getD i []).length : Nat) (bucketPosition sz offset ht i)) =
          ⟨((ht.buckets.getD i []).length : Nat), bucketPosition sz offset ht i⟩ ∧
        Holds (WriteHashTable dev f offset ht fn).2.bytes (bucketPosition sz offset ht i)
          (bucketBytes enc sz (bucketPosition sz offset ht i) (ht.buckets.getD i [])) ∧
        bucketPosition sz offset ht (i + 1) =
          bucketPosition sz offset ht i + (bucketBytes enc sz (bucketPosition sz offset ht i)
            (ht.buckets.getD i [])).length) ∧
      bucketPosition sz offset ht 0 =
        offset + sizeofBucketListHeader + sizeofBucketRecord * ht.buckets.length ∧
      bucketPosition sz offset ht ht.buckets.length = offset + tableSize sz ht ∧
      (bucketBytes enc sz offset ([] : List (HTKeyValue_t V))).length = 0 ∧
      (∀ i j, i ≤ j → j ≤ ht.buckets.length →
        (∀ k, i ≤ k → k < j → ht.buckets.getD k [] = []) →
        bucketPosition sz offset ht j = bucketPosition sz offset ht i) := by
  obtain ⟨h1, h2⟩ := WriteHashTable_bytes dev fn enc sz hfn f offset ht hsize hok
  have hne : tableBytes enc sz offset ht ≠ [] := by
    intro h0
    have := tableBytes_length enc sz hfn.1 offset ht
    rw [h0] at this
    have := tableSize_pos sz ht
    simp only [List.length_nil] at *
    omega
  have hH := Holds_pwrite f.bytes offset _ hne
  rw [← h2] at hH
  obtain ⟨_, hrec, hbuck⟩ := Holds_tableBytes hH
  refine ⟨?_, ?_, ?_, ?_, ?_⟩
  · intro i hi
    have r1 := Holds_tableRecords sz _ ht.buckets _ _ i hrec hi
    have r2 := Holds_tableBuckets enc sz hfn.1 _ ht.buckets _ i hbuck hi
    have hle := bucketsSize_take_le sz ht.buckets i
    have hli : (ht.buckets.getD i []).length < 2147483648 := by
      simp only [tableSize, bucketSize, sizeofElementPositionRecord] at hsize hle
      omega
    have hbp : bucketPosition sz offset ht i < 18446744073709551616 := by
      simp only [tableSize, bucketPosition] at hsize ⊢
      omega
    refine ⟨?_, BucketRecord_roundtrip _ _ hli hbp, r2, ?_⟩
    · have e : offset + sizeofBucketListHeader + sizeofBucketRecord * i =
          offset + 4 + sizeofBucketRecord * i := rfl
      rw [e]
      exact r1
    · rw [bucketBytes_length enc sz hfn.1]
      simp only [bucketPosition]
      rw [bucketsSize_take_succ sz ht.buckets i hi]
      omega
  · simp [bucketPosition, bucketsSize]
  · simp only [bucketPosition, tableSize, bucketsSize_take_all]
    omega
  · simp [bucketBytes, chainRecords, chainElements]
  · intro i j hij hj hall
    obtain ⟨d, rfl⟩ := Nat.exists_eq_add_of_le hij
    exact bucketPosition_of_empty sz offset ht i d hj hall

/-- The statement of C24 for the table with three empty buckets written at offset 16
of an empty file: every bucket record holds the offset of the region's end. -/
theorem WriteHashTable_bucket_records_witness :
    bucketPosition postingSize 16 sampleEmptyTable 3 =
      bucketPosition postingSize 16 sampleEmptyTable 0 :=
  (WriteHashTable_bucket_records Device.reliable (WriteDocIDToPositionListFn Device.reliable)
    (fun _ => postingBytes) postingSize (WriteDocIDToPositionListFn_writes Device.reliable)
    ⟨[], 0⟩ 16 sampleEmptyTable (by decide) (by decide!)).2.2.2.2 0 3 (by decide) (by decide)
    (by decide)

theorem Untouched.refl (lo : Nat) (b : List Nat) : Untouched lo b b := fun _ _ => rfl

theorem Untouched.trans {lo : Nat} {b b1 b2 : List Nat} (h1 : Untouched lo b b1)
    (h2 : Untouched lo b1 b2) : Untouched lo b b2 :=
  fun i hi => (h2 i hi).trans (h1 i hi)

theorem Untouched.of_eq {lo : Nat} {b b1 : List Nat} (h : b1 = b) : Untouched lo b b1 :=
  fun _ _ => by rw [h]

theorem Untouched_pwrite (lo : Nat) (b : List Nat) (off : Nat) (bs : List Nat) (h : lo ≤ off) :
    Untouched lo b (pwrite b off bs) := by
  intro i hi
  rw [pwrite_getD, if_neg (by omega)]

/-- A seek followed by a write at or above `lo` leaves the bytes below `lo` alone. -/
theorem Untouched_fseek {lo : Nat} {dev : Device} {f f1 : FILE} {off : Nat}
    (h : dev.fseek f off = some f1) : Untouched lo f.bytes f1.bytes :=
  Untouched.of_eq (Device.fseek_some h).1

theorem Untouched_fwrite {lo : Nat} {dev : Device} {f f1 : FILE} {bs : List Nat}
    (h : dev.fwrite f bs = some f1) (hlo : lo ≤ f.pos) : Untouched lo f.bytes f1.bytes := by
  rw [(Device.fwrite_some h).1]
  exact Untouched_pwrite lo _ _ _ hlo

theorem WriteHTBucketRecord_frame (lo : Nat) (dev : Device) (f : FILE) (offset : Nat)
    (num_elts : Int) (bucket_offset : Nat) (hlo : lo ≤ offset) :
    Untouched lo f.bytes (WriteHTBucketRecord dev f offset num_elts bucket_offset).2.bytes := by
  simp only [WriteHTBucketRecord]
  cases hs : dev.fseek f offset with
  | none => exact Untouched.refl _ _
  | some f1 =>
    simp only []
    obtain ⟨hb1, hp1⟩ := Device.fseek_some hs
    cases hw : dev.fwrite f1 (BucketRecord.ToDiskFormat num_elts bucket_offset) with
    | none => exact Untouched.of_eq hb1
    | some f2 =>
      simp only []
      exact (Untouched.of_eq hb1).trans (Untouched_fwrite hw (by omega))

theorem WriteDocIDToPositionListFn_loop_frame (lo : Nat) (dev : Device) (num_positions : Int)
    (ps : List Nat) : ∀ (f : FILE), lo ≤ f.pos →
    Untouched lo f.bytes (WriteDocIDToPositionListFn_loop dev num_positions ps f).2.bytes := by
  induction ps with
  | nil => intro f _; exact Untouched.refl _ _
  | cons p rest ih =>
    intro f hlo
    simp only [WriteDocIDToPositionListFn_loop]
    cases hw : dev.fwrite f (DocIDElementPosition.ToDiskFormat (p % 4294967296)) with
    | none => exact Untouched.refl _ _
    | some f1 =>
      simp only []
      have hp := (Device.fwrite_some hw).2
      exact (Untouched_fwrite hw hlo).trans (ih f1 (by omega))

theorem WriteDocIDToPositionListFn_frames (dev : Device) :
    FramesElements (WriteDocIDToPositionListFn dev) postingSize (fun _ => True) := by
  intro lo f off kv _ hlo _
  simp only [WriteDocIDToPositionListFn]
  cases hs : dev.fseek f off with
  | none => exact Untouched.refl _ _
  | some f1 =>
    simp only []
    obtain ⟨hb1, hp1⟩ := Device.fseek_some hs
    cases hw : dev.fwrite f1 (DocIDElementHeader.ToDiskFormat kv.key
        (LinkedList_NumElements kv.value)) with
    | none => exact Untouched.of_eq hb1
    | some f2 =>
      simp only []
      have hp2 := (Device.fwrite_some hw).2
      exact ((Untouched.of_eq hb1).trans (Untouched_fwrite hw (by omega))).trans
        (WriteDocIDToPositionListFn_loop_frame lo dev _ _ f2 (by omega))

theorem WriteDocidToDocnameFn_frames (dev : Device) :
    FramesElements (WriteDocidToDocnameFn dev) docSize (fun _ => True) := by
  intro lo f off kv _ hlo _
  simp only [WriteDocidToDocnameFn]
  cases hs : dev.fseek f off with
  | none => exact Untouched.refl _ _
  | some f1 =>
    simp only []
    obtain ⟨hb1, hp1⟩ := Device.fseek_some hs
    cases hw : dev.fwrite f1 (DoctableElementHeader.ToDiskFormat kv.key
        (toInt16 kv.value.length)) with
    | none => exact Untouched.of_eq hb1
    | some f2 =>
      simp only []
      obtain ⟨hb2, hp2⟩ := Device.fwrite_some hw
      have u2 : Untouched lo f.bytes f2.bytes :=
        (Untouched.of_eq hb1).trans (Untouched_fwrite hw (by omega))
      cases hw3 : fwriteString dev f2 kv.value (toInt16 kv.value.length) with
      | none => exact u2
      | some f3 =>
        simp only []
        obtain ⟨_, hb3, _⟩ := fwriteString_some hw3
        refine u2.trans ?_
        rw [hb3]
        exact Untouched_pwrite lo _ _ _ (by omega)

theorem WriteHTBucket_loop_frame {V : Type} (lo : Nat) (dev : Device) (fn : WriteElementFn V)
    (enc : Nat → HTKeyValue_t V → List Nat) (sz : HTKeyValue_t V → Nat)
    (ok : HTKeyValue_t V → Prop)
    (hfn : WritesElements fn enc sz) (hfr : FramesElements fn sz ok) (offset : Nat)
    (rest : List (HTKeyValue_t V)) :
    ∀ (f : FILE) (rp ep : Nat), (∀ kv ∈ rest, ok kv) → lo ≤ rp →
      rp + sizeofElementPositionRecord * rest.length ≤ ep →
      ep + chainSize sz rest < 2147483648 →
      Untouched lo f.bytes (WriteHTBucket_loop dev fn offset rest f rp ep).2.bytes := by
  induction rest with
  | nil => intro f rp ep _ _ _ _; exact Untouched.refl _ _
  | cons kv rest ih =>
    intro f rp ep hall hlo h1 h3
    simp only [chainSize, List.map_cons, List.sum_cons, List.length_cons,
      sizeofElementPositionRecord] at h1 h3
    have h3' : ep + sz kv + chainSize sz rest < 2147483648 := by
      simp only [chainSize]; omega
    unfold WriteHTBucket_loop
    cases hs : dev.fseek f rp with
    | none => exact Untouched.refl _ _
    | some f1 =>
      simp only []
      obtain ⟨hb1, hp1⟩ := Device.fseek_some hs
      cases hw : dev.fwrite f1 (ElementPositionRecord.ToDiskFormat ep) with
      | none => exact Untouched.of_eq hb1
      | some f2 =>
        simp only []
        have u2 : Untouched lo f.bytes f2.bytes :=
          (Untouched.of_eq hb1).trans (Untouched_fwrite hw (by omega))
        have u3 : Untouched lo f.bytes (fn f2 ep kv).2.bytes :=
          u2.trans (hfr lo f2 ep kv (hall kv (List.mem_cons_self _ _)) (by omega) (by omega))
        by_cases hr : (fn f2 ep kv).1 = kFailedWrite
        · simp only [hr, if_true]
          exact u3
        · simp only [hr, if_false]
          obtain ⟨hr1, _⟩ := hfn.2 f2 ep kv (by omega) hr
          have e1 : toUInt64 ((rp : Int) + (sizeofElementPositionRecord : Nat)) = rp + 8 := by
            have := toUInt64_of_nat (rp + 8) (by omega)
            simpa [sizeofElementPositionRecord] using this
          have e2 : toUInt64 ((ep : Int) + (fn f2 ep kv).1) = ep + sz kv := by
            rw [hr1]
            have := toUInt64_of_nat (ep + sz kv) (by omega)
            simpa using this
          rw [e1, e2]
          exact u3.trans (ih (fn f2 ep kv).2 (rp + 8) (ep + sz kv)
            (fun x hx => hall x (List.mem_cons_of_mem _ hx)) (by omega)
            (by simp only [sizeofElementPositionRecord]; omega) h3')

theorem WriteHTBucket_frame {V : Type} (lo : Nat) (dev : Device) (fn : WriteElementFn V)
    (enc : Nat → HTKeyValue_t V → List Nat) (sz : HTKeyValue_t V → Nat)
    (ok : HTKeyValue_t V → Prop)
    (hfn : WritesElements fn enc sz) (hfr : FramesElements fn sz ok) (f : FILE) (offset : Nat)
    (li : List (HTKeyValue_t V)) (hall : ∀ kv ∈ li, ok kv) (hlo : lo ≤ offset)
    (hsize : offset + bucketSize sz li < 2147483648) :
    Untouched lo f.bytes (WriteHTBucket dev f offset li fn).2.bytes := by
  simp only [bucketSize, sizeofElementPositionRecord] at hsize
  have hn : LinkedList_NumElements li = li.length :=
    LinkedList_NumElements_eq li (by omega)
  simp only [WriteHTBucket, hn]
  by_cases hz : ((li.length : Nat) : Int) = 0
  · simp only [hz, if_true]
    exact Untouched.refl _ _
  · simp only [hz, if_false, Int.toNat_ofNat, List.take_length]
    have e1 : toUInt64 ((offset : Int) + ((sizeofElementPositionRecord : Nat) : Int) * (li.length : Int))
        = offset + 8 * li.length := by
      have := toUInt64_of_nat (offset + 8 * li.length) (by omega)
      simpa [sizeofElementPositionRecord] using this
    rw [e1]
    exact WriteHTBucket_loop_frame lo dev fn enc sz ok hfn hfr offset li f offset
      (offset + 8 * li.length) hall hlo (by simp only [sizeofElementPositionRecord]; omega) (by omega)

theorem WriteHashTable_loop_frame {V : Type} (lo : Nat) (dev : Device) (fn : WriteElementFn V)
    (enc : Nat → HTKeyValue_t V → List Nat) (sz : HTKeyValue_t V → Nat)
    (ok : HTKeyValue_t V → Prop)
    (hfn : WritesElements fn enc sz) (hfr : FramesElements fn sz ok) (offset : Nat)
    (rest : List (List (HTKeyValue_t V))) :
    ∀ (f : FILE) (rp bp : Nat), (∀ li ∈ rest, ∀ kv ∈ li, ok kv) → lo ≤ rp →
      rp + sizeofBucketRecord * rest.length ≤ bp →
      bp + bucketsSize sz rest < 2147483648 →
      Untouched lo f.bytes (WriteHashTable_loop dev fn offset rest f rp bp).2.bytes := by
  induction rest with
  | nil => intro f rp bp _ _ _ _; exact Untouched.refl _ _
  | cons li rest ih =>
    intro f rp bp hall hlo h1 h3
    simp only [bucketsSize, List.map_cons, List.sum_cons, List.length_cons,
      sizeofBucketRecord] at h1 h3
    have h3' : bp + bucketSize sz li + bucketsSize sz rest < 2147483648 := by
      simp only [bucketsSize]; omega
    have hli : li.length < 2147483648 := by
      simp only [bucketSize, sizeofElementPositionRecord] at h3; omega
    have hn : LinkedList_NumElements li = li.length := LinkedList_NumElements_eq li hli
    unfold WriteHashTable_loop
    simp only [hn]
    have u1 : Untouched lo f.bytes (WriteHTBucketRecord dev f rp li.length bp).2.bytes :=
      WriteHTBucketRecord_frame lo dev f rp _ bp hlo
    by_cases hr : (WriteHTBucketRecord dev f rp li.length bp).1 = kFailedWrite
    · simp only [hr, if_true]
      exact u1
    · simp only [hr, if_false]
      have e1 : toUInt64 ((rp : Int) + (sizeofBucketRecord : Nat)) = rp + 12 := by
        have := toUInt64_of_nat (rp + 12) (by omega)
        simpa [sizeofBucketRecord] using this
      have key : ∃ r2 : Int × FILE,
          (if ((li.length : Nat) : Int) > 0 then
            WriteHTBucket dev (WriteHTBucketRecord dev f rp li.length bp).2 bp li fn
          else (0, (WriteHTBucketRecord dev f rp li.length bp).2)) = r2 := ⟨_, rfl⟩
      obtain ⟨r2, hr2⟩ := key
      rw [hr2]
      have u2 : Untouched lo f.bytes r2.2.bytes := by
        by_cases hpos : ((li.length : Nat) : Int) > 0
        · rw [if_pos hpos] at hr2
          rw [← hr2]
          exact u1.trans (WriteHTBucket_frame lo dev fn enc sz ok hfn hfr _ bp li
            (hall li (List.mem_cons_self _ _)) (by omega) (by omega))
        · rw [if_neg hpos] at hr2
          rw [← hr2]
          exact u1
      by_cases hf2 : r2.1 = kFailedWrite
      · simp only [hf2, if_true]
        exact u2
      · simp only [hf2, if_false]
        have hb1 : r2.1 = bucketSize sz li := by
          by_cases hpos : ((li.length : Nat) : Int) > 0
          · rw [if_pos hpos] at hr2
            rw [← hr2] at hf2 ⊢
            exact (WriteHTBucket_bytes dev fn enc sz hfn _ bp li (by omega) hf2).1
          · rw [if_neg hpos] at hr2
            have hl : li = [] := List.length_eq_zero.mp (by omega)
            subst hl
            rw [← hr2]
            simp [bucketSize, chainSize]
        have e2 : toUInt64 ((bp : Int) + r2.1) = bp + bucketSize sz li := by
          rw [hb1]
          have := toUInt64_of_nat (bp + bucketSize sz li) (by omega)
          simpa using this
        rw [e1, e2]
        exact u2.trans (ih r2.2 (rp + 12) (bp + bucketSize sz li)
          (fun x hx => hall x (List.mem_cons_of_mem _ hx)) (by omega)
          (by simp only [sizeofBucketRecord]; omega) h3')

/-- `WriteHashTable` never writes below the offset it is given, also when it fails. -/
theorem WriteHashTable_frame {V : Type} (lo : Nat) (dev : Device) (fn : WriteElementFn V)
    (enc : Nat → HTKeyValue_t V → List Nat) (sz : HTKeyValue_t V → Nat)
    (ok : HTKeyValue_t V → Prop)
    (hfn : WritesElements fn enc sz) (hfr : FramesElements fn sz ok) (f : FILE) (offset : Nat)
    (ht : HashTable V) (hall : ∀ li ∈ ht.buckets, ∀ kv ∈ li, ok kv) (hlo : lo ≤ offset) (hsize : offset + tableSize sz ht < 2147483648) :
    Untouched lo f.bytes (WriteHashTable dev f offset ht fn).2.bytes := by
  simp only [tableSize, sizeofBucketListHeader, sizeofBucketRecord] at hsize
  have hn : ht.num_buckets = ht.buckets.length := by
    unfold HashTable.num_buckets
    exact toInt32_of_range _ (by omega) (by omega)
  simp only [WriteHashTable]
  cases hs : dev.fseek f offset with
  | none => exact Untouched.refl _ _
  | some f1 =>
    simp only []
    obtain ⟨hb1, hp1⟩ := Device.fseek_some hs
    cases hw : dev.fwrite f1 (BucketListHeader.ToDiskFormat ht.num_buckets) with
    | none => exact Untouched.of_eq hb1
    | some f2 =>
      simp only []
      have u2 : Untouched lo f.bytes f2.bytes :=
        (Untouched.of_eq hb1).trans (Untouched_fwrite hw (by omega))
      simp only [hn, Int.toNat_ofNat, List.take_length]
      have e1 : toUInt64 ((offset : Int) + (sizeofBucketListHeader : Nat)) = offset + 4 := by
        have := toUInt64_of_nat (offset + 4) (by omega)
        simpa [sizeofBucketListHeader] using this
      have e2 : toUInt64 ((offset : Int) + (sizeofBucketListHeader : Nat) +
          (ht.buckets.length : Int) * (sizeofBucketRecord : Nat)) =
          offset + 4 + 12 * ht.buckets.length := by
        have hc : ((offset : Int) + (sizeofBucketListHeader : Nat) +
            (ht.buckets.length : Int) * (sizeofBucketRecord : Nat)) =
            ((offset + 4 + 12 * ht.buckets.length : Nat) : Int) := by
          simp only [sizeofBucketListHeader, sizeofBucketRecord]
          push_cast
          ring
        rw [hc]
        exact toUInt64_of_nat _ (by omega)
      rw [e1, e2]
      exact u2.trans (WriteHashTable_loop_frame lo dev fn enc sz ok hfn hfr offset ht.buckets f2
        (offset + 4) (offset + 4 + 12 * ht.buckets.length) hall (by omega)
        (by simp only [sizeofBucketRecord]; omega) (by omega))

theorem WriteWordToPostingsFn_frames (dev : Device) :
    FramesElements (WriteWordToPostingsFn dev) wordSize
      (fun kv => 0 ≤ toInt16 kv.value.word.length) := by
  intro lo f off kv hnn hlo hsize
  simp only [wordSize, sizeofWordPostingsHeader] at hsize
  have hle := toInt16_toNat_le kv.value.word.length
  simp only [WriteWordToPostingsFn]
  · have eoff : toUInt64 ((off : Int) + (sizeofWordPostingsHeader : Nat) +
        toInt16 kv.value.word.length) = off + 6 + (toInt16 kv.value.word.length).toNat := by
      have hc : ((off : Int) + (sizeofWordPostingsHeader : Nat) + toInt16 kv.value.word.length) =
          ((off + 6 + (toInt16 kv.value.word.length).toNat : Nat) : Int) := by
        simp only [sizeofWordPostingsHeader]
        omega
      rw [hc]
      exact toUInt64_of_nat _ (by omega)
    rw [eoff]
    have u1 := WriteHashTable_frame lo dev _ _ _ (fun _ => True)
      (WriteDocIDToPositionListFn_writes dev)
      (WriteDocIDToPositionListFn_frames dev) f
      (off + 6 + (toInt16 kv.value.word.length).toNat) kv.value.postings
      (fun _ _ _ _ => trivial) (by omega) (by omega)
    generalize WriteHashTable dev f (off + 6 + (toInt16 kv.value.word.length).toNat)
      kv.value.postings (WriteDocIDToPositionListFn dev) = r at u1 ⊢
    by_cases hr : r.1 = kFailedWrite
    · simp only [hr, if_true]; exact u1
    · simp only [hr, if_false]
      cases hs : dev.fseek r.2 off with
      | none => exact u1
      | some f1 =>
        simp only []
        obtain ⟨hb1, hp1⟩ := Device.fseek_some hs
        cases hw : dev.fwrite f1 (WordPostingsHeader.ToDiskFormat
            (toInt16 kv.value.word.length) r.1) with
        | none => exact u1.trans (Untouched.of_eq hb1)
        | some f2 =>
          simp only []
          obtain ⟨hb2, hp2⟩ := Device.fwrite_some hw
          have u2 : Untouched lo f.bytes f2.bytes :=
            (u1.trans (Untouched.of_eq hb1)).trans (Untouched_fwrite hw (by omega))
          cases hw3 : fwriteString dev f2 kv.value.word (toInt16 kv.value.word.length) with
          | none => exact u2
          | some f3 =>
            simp only []
            obtain ⟨_, hb3, _⟩ := fwriteString_some hw3
            refine u2.trans ?_
            rw [hb3]
            exact Untouched_pwrite lo _ _ _ (by omega)

/-- Header area for short words: in a `WriteIndex` of an index below 2 GiB whose words
are shorter than 32768 bytes, on any device (so also when a seek or write fails part-way), the
document-table writer and the index writer leave every byte below the file-header
size unwritten: after each of them the first sixteen bytes are still the zeros of a
gap.  The magic number is in the file only after `WriteHeader`, which a successful
`WriteIndex` runs last. -/
theorem WriteIndex_header_written_last (kMagicNumber : Nat) (dev : Device) (mi : MemIndex)
    (dt : DocTable) (hsize : indexFileSize mi dt < 2147483648)
    (hwords : ∀ li ∈ mi.buckets, ∀ kv ∈ li, kv.value.word.length < 32768) :
    (∀ i, i < sizeofIndexFileHeader →
        (WriteDocTable dev ⟨[], 0⟩ dt sizeofIndexFileHeader).2.bytes.getD i 0 = 0) ∧
      ((WriteDocTable dev ⟨[], 0⟩ dt sizeofIndexFileHeader).1 ≠ kFailedWrite →
        ∀ i, i < sizeofIndexFileHeader →
          (WriteMemIndex dev (WriteDocTable dev ⟨[], 0⟩ dt sizeofIndexFileHeader).2 mi
            (toUInt64 (sizeofIndexFileHeader +
              (WriteDocTable dev ⟨[], 0⟩ dt sizeofIndexFileHeader).1))).2.bytes.getD i 0 = 0) ∧
      (∀ old, (WriteIndex kMagicNumber dev mi dt old).1 ≠ kFailedWrite →
        ∃ bytes, (WriteIndex kMagicNumber dev mi dt old).2 = some bytes ∧
          bytes.take 4 = be32 (toUInt32 kMagicNumber) ∧
          bytes = (WriteHeader kMagicNumber dev
            (WriteMemIndex dev (WriteDocTable dev ⟨[], 0⟩ dt sizeofIndexFileHeader).2 mi
              (toUInt64 (sizeofIndexFileHeader +
                (WriteDocTable dev ⟨[], 0⟩ dt sizeofIndexFileHeader).1))).2
            (WriteDocTable dev ⟨[], 0⟩ dt sizeofIndexFileHeader).1
            (WriteMemIndex dev (WriteDocTable dev ⟨[], 0⟩ dt sizeofIndexFileHeader).2 mi
              (toUInt64 (sizeofIndexFileHeader +
                (WriteDocTable dev ⟨[], 0⟩ dt sizeofIndexFileHeader).1))).1).2.bytes) := by
  have hsz := hsize
  simp only [indexFileSize, sizeofIndexFileHeader] at hsz
  have hD := tableSize_pos docSize dt.id_to_name
  have u1 : Untouched 16 [] (WriteDocTable dev ⟨[], 0⟩ dt sizeofIndexFileHeader).2.bytes :=
    WriteHashTable_frame 16 dev _ _ _ (fun _ => True) (WriteDocidToDocnameFn_writes dev)
      (WriteDocidToDocnameFn_frames dev) ⟨[], 0⟩ sizeofIndexFileHeader dt.id_to_name
      (fun _ _ _ _ => trivial) (Nat.le_refl _) (by simp only [sizeofIndexFileHeader]; omega)
  have z : ∀ i, ([] : List Nat).getD i 0 = 0 := fun i => by simp
  refine ⟨?_, ?_, ?_⟩
  · intro i hi
    rw [u1 i hi, z]
  · intro hok1 i hi
    have h11 := (WriteHashTable_bytes dev _ _ _ (WriteDocidToDocnameFn_writes dev)
      ⟨[], 0⟩ sizeofIndexFileHeader dt.id_to_name
      (by simp only [sizeofIndexFileHeader]; omega) hok1).1
    have ec1 : toUInt64 (((sizeofIndexFileHeader : Nat) : Int) +
        (WriteDocTable dev ⟨[], 0⟩ dt sizeofIndexFileHeader).1) =
        16 + tableSize docSize dt.id_to_name := by
      simp only [WriteDocTable, DT_GetIDToNameTable]
      rw [h11]
      have hc : (((sizeofIndexFileHeader : Nat) : Int) +
          ((tableSize docSize dt.id_to_name : Nat) : Int))
          = ((16 + tableSize docSize dt.id_to_name : Nat) : Int) := by
        simp only [sizeofIndexFileHeader]; push_cast; rfl
      rw [hc]
      exact toUInt64_of_nat _ (by omega)
    rw [ec1]
    have u2 := WriteHashTable_frame 16 dev _ _ _ (fun kv => 0 ≤ toInt16 kv.value.word.length)
      (WriteWordToPostingsFn_writes dev) (WriteWordToPostingsFn_frames dev)
      (WriteDocTable dev ⟨[], 0⟩ dt sizeofIndexFileHeader).2
      (16 + tableSize docSize dt.id_to_name) mi
      (fun li hli kv hkv => by
        show 0 ≤ toInt16 _
        rw [toInt16_of_range _ (by omega) (by have := hwords li hli kv hkv; omega)]
        omega)
      (by omega) (by omega)
    have := (u1.trans u2) i hi
    rw [z] at this
    exact this
  · intro old hok
    have hb := WriteIndex_bytes kMagicNumber dev mi dt old hsize hok
    refine ⟨indexFileBytes kMagicNumber mi dt, by rw [hb], ?_, ?_⟩
    · simp [indexFileBytes, IndexFileHeader.ToDiskFormat, be32]
    · have h2 : (WriteIndex kMagicNumber dev mi dt old).2 =
          some (indexFileBytes kMagicNumber mi dt) := by rw [hb]
      revert h2 hok
      generalize hr1 : WriteDocTable dev ⟨[], 0⟩ dt sizeofIndexFileHeader = r1
      generalize hr2 : WriteMemIndex dev r1.2 mi (toUInt64 (sizeofIndexFileHeader + r1.1)) = r2
      generalize hr3 : WriteHeader kMagicNumber dev r2.2 r1.1 r2.1 = r3
      intro hok h2
      by_cases ho : dev.openOk = false
      · rw [WriteIndex] at hok
        simp [ho] at hok
      have hw : WriteIndex kMagicNumber dev mi dt old =
          if r1.1 = kFailedWrite then (kFailedWrite, none)
          else if r2.1 = kFailedWrite then (kFailedWrite, none)
          else if r3.1 = kFailedWrite then (kFailedWrite, none)
          else (toInt32 (toUInt64 (toUInt64 (sizeofIndexFileHeader + r1.1) + r2.1)),
            some r3.2.bytes) := by
        rw [WriteIndex]
        simp only [ho, if_false]
        rw [hr1, hr2, hr3]
        simp only [Bool.true_eq_false, if_false]
      rw [hw] at hok h2
      by_cases h1 : r1.1 = kFailedWrite
      · rw [if_pos h1] at hok; exact absurd rfl hok
      by_cases h2' : r2.1 = kFailedWrite
      · rw [if_neg h1, if_pos h2'] at hok; exact absurd rfl hok
      by_cases h3 : r3.1 = kFailedWrite
      · rw [if_neg h1, if_neg h2', if_pos h3] at hok; exact absurd rfl hok
      rw [if_neg h1, if_neg h2', if_neg h3] at h2
      simp only [Option.some.injEq] at h2
      exact h2.symm

theorem elementPositions_getD {V : Type} (sz : HTKeyValue_t V → Nat)
    (li : List (HTKeyValue_t V)) : ∀ (p k : Nat), k < li.length →
    (elementPositions sz li p).getD k 0 = p + chainSize sz (li.take k) := by
  induction li with
  | nil => intro p k hk; simp at hk
  | cons a rest ih =>
    intro p k hk
    cases k with
    | zero => simp [elementPositions, chainSize]
    | succ k =>
      simp only [elementPositions, List.getD_cons_succ, List.take_succ_cons, chainSize_cons]
      rw [ih (p + sz a) k (by simpa using hk)]
      omega

/-- A region just written is a well-formed region. -/
theorem RegionAt_pwrite {V : Type} (enc : Nat → HTKeyValue_t V → List Nat)
    (sz : HTKeyValue_t V → Nat) (henc : ∀ off kv, (enc off kv).length = sz kv) (b : List Nat)
    (offset : Nat) (ht : HashTable V) (hpos : 0 < ht.buckets.length)
    (hsize : offset + tableSize sz ht < 2147483648) :
    RegionAt (pwrite b offset (tableBytes enc sz offset ht)) offset enc sz ht := by
  refine ⟨Holds_pwrite b offset _ ?_, hpos, hsize, henc⟩
  intro h0
  have := tableBytes_length enc sz henc offset ht
  rw [h0] at this
  have := tableSize_pos sz ht
  simp only [List.length_nil] at *
  omega

/-- C18: for a well-formed serialized region (the file holds, at the region's offset,
the bytes of a table with at least one bucket, ending below 2 GiB) and every key hash
h, a reader opened on the region reads the table's bucket count from the region's
header, and `LookupElementPositions(h)` returns, for bucket h mod that count, as many
element offsets as the bucket's chain is long: the offsets stored in the bucket's
element-position records, in stored order.  The result is empty exactly when the
chain length is 0. -/
theorem LookupElementPositions_selects_bucket {V : Type}
    {enc : Nat → HTKeyValue_t V → List Nat} {sz : HTKeyValue_t V → Nat} {bytes : List Nat}
    {offset : Nat} {ht : HashTable V} (h : RegionAt bytes offset enc sz ht) (f : FILE)
    (hf : f.bytes = bytes) (hash_key : Nat) :
    ∃ (r : HashTableReader) (f1 : FILE) (positions : List Nat),
      HashTableReader.construct f offset = some r ∧
      r.header_ = ht.buckets.length ∧
      r.LookupElementPositions hash_key = some (positions, { r with file_ := f1 }) ∧
      positions.length = (ht.buckets.getD (hash_key % r.header_) []).length ∧
      Holds bytes (offset + sizeofBucketListHeader + sizeofBucketRecord * (hash_key % r.header_))
        (BucketRecord.ToDiskFormat (positions.length : Nat)
          (bucketPosition sz offset ht (hash_key % r.header_))) ∧
      (∀ k, k < positions.length →
        Holds bytes (bucketPosition sz offset ht (hash_key % r.header_) +
            sizeofElementPositionRecord * k)
          (ElementPositionRecord.ToDiskFormat (positions.getD k 0))) ∧
      (positions = [] ↔ ht.buckets.getD (hash_key % r.header_) [] = []) := by
  have hc := HashTableReader_construct_eq h f hf
  obtain ⟨f1, hl, _⟩ := LookupElementPositions_eq h ⟨⟨bytes, offset + 4⟩, offset,
    ht.buckets.length⟩ rfl rfl rfl hash_key
  obtain ⟨hhold, hpos, hb, henc⟩ := h
  obtain ⟨_, hrec, hbuck⟩ := Holds_tableBytes hhold
  have hi : hash_key % ht.buckets.length < ht.buckets.length := Nat.mod_lt _ hpos
  have hrec1 := Holds_tableRecords sz bytes ht.buckets _ _ _ hrec hi
  have hbuck1 := Holds_tableBuckets enc sz henc bytes ht.buckets _ _ hbuck hi
  simp only [bucketBytes] at hbuck1
  obtain ⟨hcr, _⟩ := Holds_append.mp hbuck1
  have hlen := elementPositions_length sz (ht.buckets.getD (hash_key % ht.buckets.length) [])
    (bucketPosition sz offset ht (hash_key % ht.buckets.length) + sizeofElementPositionRecord *
      (ht.buckets.getD (hash_key % ht.buckets.length) []).length)
  refine ⟨_, f1, _, hc, rfl, hl, ?_, ?_, ?_, ?_⟩
  · exact hlen
  · simp only [bucketElementPositions]
    rw [hlen]
    exact hrec1
  · intro k hk
    simp only [bucketElementPositions] at hk ⊢
    rw [hlen] at hk
    rw [elementPositions_getD sz _ _ k hk]
    exact Holds_chainRecords sz bytes _ _ _ k hcr hk
  · simp only [bucketElementPositions]
    constructor
    · intro h0
      have := congrArg List.length h0
      rw [hlen] at this
      exact List.length_eq_zero.mp this
    · intro h0
      apply List.length_eq_zero.mp
      rw [hlen, h0]
      rfl

/-- The statement of C18 for the sample docID -> positions table stored at offset 16
and the key hash 3. -/
theorem LookupElementPositions_selects_bucket_witness :
    ∃ (r : HashTableReader) (f1 : FILE) (positions : List Nat),
      HashTableReader.construct
        ⟨pwrite [] 16 (tableBytes (fun _ => postingBytes) postingSize 16 samplePostings), 0⟩ 16 =
        some r ∧
      r.header_ = samplePostings.buckets.length ∧
      r.LookupElementPositions 3 = some (positions, { r with file_ := f1 }) ∧
      positions.length = (samplePostings.buckets.getD (3 % r.header_) []).length :=
  let ⟨r, f1, ps, h1, h2, h3, h4, _⟩ := LookupElementPositions_selects_bucket
    (RegionAt_pwrite (fun _ => postingBytes) postingSize (fun _ kv => postingBytes_length kv)
      [] 16 samplePostings (by decide) (by decide))
    ⟨pwrite [] 16 (tableBytes (fun _ => postingBytes) postingSize 16 samplePostings), 0⟩ rfl 3
  ⟨r, f1, ps, h1, h2, h3, h4⟩

/-- The position loop of `LookupDocID` reads the stored positions in order. -/
theorem LookupDocID_positions_eq (bytes : List Nat) (ps : List Nat) :
    ∀ (f : FILE) (ret : List Nat), f.bytes = bytes → Holds bytes f.pos (positionsBytes ps) →
      ∃ f1, LookupDocID_positions ps.length f ret =
          some (ret ++ ps.map (fun p => p % 4294967296), f1) ∧ f1.bytes = bytes := by
  induction ps with
  | nil =>
    intro f ret hf _
    exact ⟨f, by simp [LookupDocID_positions], hf⟩
  | cons p rest ih =>
    intro f ret hf h
    simp only [positionsBytes] at h
    obtain ⟨h1, h2⟩ := Holds_append.mp h
    have hlen : (DocIDElementPosition.ToDiskFormat (p % 4294967296)).length = 4 := by
      simp [DocIDElementPosition.ToDiskFormat, be32]
    rw [hlen] at h2
    obtain ⟨fb, fp⟩ := f
    simp only at hf h1 h2
    subst hf
    simp only [List.length_cons, LookupDocID_positions]
    rw [fread_of_Holds h1 sizeofDocIDElementPosition (by rw [hlen]; rfl)]
    simp only [DocIDElementPosition.ToDiskFormat, fromBE_be32 _ (Nat.mod_lt p (by norm_num))]
    obtain ⟨f1, hl, hb1⟩ := ih ⟨fb, fp + sizeofDocIDElementPosition⟩
      (ret ++ [p % 4294967296]) rfl h2
    refine ⟨f1, ?_, hb1⟩
    rw [hl]
    simp

/-- The element loop of `LookupDocID` on the elements of a chain: the first element
whose docID is the one looked for decides. -/
theorem LookupDocID_loop_eq (bytes : List Nat) (doc_id : Nat)
    (li : List (HTKeyValue_t (List Nat))) :
    ∀ (p : Nat) (f : FILE) (ret : List Nat), f.bytes = bytes →
      Holds bytes p (chainElements (fun _ => postingBytes) postingSize li p) →
      (∀ kv ∈ li, kv.key < 18446744073709551616) →
      p + chainSize postingSize li < 2147483648 →
      ∃ f1, LookupDocID_loop doc_id (elementPositions postingSize li p) f ret =
          some (match li.find? (fun kv => decide (kv.key = doc_id)) with
            | some kv => (true, ret ++ kv.value.map (fun q => q % 4294967296), f1)
            | none => (false, ret, f1)) ∧ f1.bytes = bytes := by
  induction li with
  | nil =>
    intro p f ret hf _ _ _
    exact ⟨f, by simp [LookupDocID_loop, elementPositions], hf⟩
  | cons kv rest ih =>
    intro p f ret hf h hkeys hp
    simp only [chainElements] at h
    obtain ⟨h1, h2⟩ := Holds_append.mp h
    rw [postingBytes_length] at h2
    simp only [postingBytes] at h1
    obtain ⟨hhead, hposs⟩ := Holds_append.mp h1
    have hlenH : (DocIDElementHeader.ToDiskFormat kv.key (kv.value.length : Nat)).length = 12 := by
      simp [DocIDElementHeader.ToDiskFormat, be64, be32]
    rw [hlenH] at hposs
    simp only [chainSize_cons, postingSize, sizeofDocIDElementHeader,
      sizeofDocIDElementPosition] at hp
    have hk := hkeys kv (List.mem_cons_self _ _)
    simp only [elementPositions, LookupDocID_loop]
    rw [fseek_eq _ _ (by omega)]
    simp only [hf]
    rw [fread_of_Holds hhead sizeofDocIDElementHeader (by rw [hlenH]; rfl)]
    simp only [DocIDElementHeader_roundtrip kv.key kv.value.length hk (by omega),
      Int.toNat_ofNat]
    by_cases hd : kv.key = doc_id
    · simp only [hd, if_true, List.find?_cons, decide_True]
      obtain ⟨f1, hl, hb1⟩ := LookupDocID_positions_eq bytes kv.value
        ⟨bytes, p + sizeofDocIDElementHeader⟩ ret rfl hposs
      refine ⟨f1, ?_, hb1⟩
      rw [hl]
    · simp only [hd, if_false, List.find?_cons, decide_False]
      exact ih (p + postingSize kv) ⟨bytes, p + sizeofDocIDElementHeader⟩ ret rfl h2
        (fun x hx => hkeys x (List.mem_cons_of_mem _ hx))
        (by simp only [postingSize, sizeofDocIDElementHeader, sizeofDocIDElementPosition]; omega)

/-- `DocIDTableReader::LookupDocID` on a well-formed postings region. -/
theorem LookupDocID_eq {bytes : List Nat} {offset : Nat} {ht : HashTable (List Nat)}
    (h : RegionAt bytes offset (fun _ => postingBytes) postingSize ht)
    (hkeys : ∀ li ∈ ht.buckets, ∀ kv ∈ li, kv.key < 18446744073709551616)
    (r : HashTableReader) (hf : r.file_.bytes = bytes) (ho : r.offset_ = offset)
    (hh : r.header_ = ht.buckets.length) (doc_id : Nat) (ret : List Nat) :
    ∃ f1, DocIDTableReader.LookupDocID r doc_id ret =
        some (match (ht.buckets.getD (doc_id % ht.buckets.length) []).find?
            (fun kv => decide (kv.key = doc_id)) with
          | some kv => (true, ret ++ kv.value.map (fun q => q % 4294967296),
              { r with file_ := f1 })
          | none => (false, ret, { r with file_ := f1 })) ∧ f1.bytes = bytes := by
  obtain ⟨f1, hl, hb1⟩ := LookupElementPositions_eq h r hf ho hh doc_id
  obtain ⟨hhold, hpos, hb, henc⟩ := h
  obtain ⟨_, _, hbuck⟩ := Holds_tableBytes hhold
  have hi : doc_id % ht.buckets.length < ht.buckets.length := Nat.mod_lt _ hpos
  have hbuck1 := Holds_tableBuckets (fun _ => postingBytes) postingSize henc bytes ht.buckets
    _ _ hbuck hi
  have hle := bucketsSize_take_le postingSize ht.buckets (doc_id % ht.buckets.length)
  have hmem : ∀ kv ∈ ht.buckets.getD (doc_id % ht.buckets.length) [],
      kv.key < 18446744073709551616 := by
    intro kv hkv
    refine hkeys _ ?_ kv hkv
    rw [List.getD_eq_getElem _ _ hi]
    exact List.getElem_mem _
  simp only [bucketBytes] at hbuck1
  obtain ⟨_, hel⟩ := Holds_append.mp hbuck1
  rw [chainRecords_length] at hel
  simp only [bucketElementPositions, bucketPosition] at hl
  generalize hli : ht.buckets.getD (doc_id % ht.buckets.length) [] = li at *
  simp only [DocIDTableReader.LookupDocID, hl]
  cases li with
  | nil =>
    refine ⟨f1, ?_, hb1⟩
    simp only [elementPositions, List.isEmpty_nil, if_true, List.find?_nil]
  | cons kv rest =>
    simp only [elementPositions, List.isEmpty_cons, Bool.false_eq_true, if_false]
    obtain ⟨f2, hl2, hb2⟩ := LookupDocID_loop_eq bytes doc_id (kv :: rest)
      (offset + sizeofBucketListHeader + sizeofBucketRecord * ht.buckets.length +
        bucketsSize postingSize (List.take (doc_id % ht.buckets.length) ht.buckets) +
        sizeofElementPositionRecord * (kv :: rest).length) f1 ret hb1 hel hmem
      (by
        simp only [tableSize, bucketSize] at hb hle
        omega)
    refine ⟨f2, ?_, hb2⟩
    simp only [elementPositions] at hl2
    rw [hl2]
    cases (kv :: rest).find? (fun kv => decide (kv.key = doc_id)) <;> rfl

/-- C19: for a well-formed postings region (64-bit docIDs) and every docID d,
`LookupDocID(d)` returns, without tripping an assertion, found exactly when some
element of bucket d mod num_buckets stores docID d; on found the output list is the
input list followed by that element's stored positions (the values modulo 2^32 of the
first element of the chain with docID d), in stored order, as many as its position
count; on not-found the output list is unchanged. -/
theorem LookupDocID_found_iff {bytes : List Nat} {offset : Nat} {ht : HashTable (List Nat)}
    (h : RegionAt bytes offset (fun _ => postingBytes) postingSize ht)
    (hkeys : ∀ li ∈ ht.buckets, ∀ kv ∈ li, kv.key < 18446744073709551616)
    (f : FILE) (hf : f.bytes = bytes) (doc_id : Nat) (ret : List Nat) :
    ∃ (r : HashTableReader) (found : Bool) (ret1 : List Nat) (r1 : HashTableReader),
      HashTableReader.construct f offset = some r ∧
      DocIDTableReader.LookupDocID r doc_id ret = some (found, ret1, r1) ∧
      (found = true ↔ ∃ kv ∈ ht.buckets.getD (doc_id % r.header_) [], kv.key = doc_id) ∧
      (∀ kv, (ht.buckets.getD (doc_id % r.header_) []).find?
          (fun kv => decide (kv.key = doc_id)) = some kv →
        ret1 = ret ++ kv.value.map (fun q => q % 4294967296) ∧
          ret1.length = ret.length + kv.value.length) ∧
      (found = false → ret1 = ret) := by
  have hc := HashTableReader_construct_eq h f hf
  obtain ⟨f1, hl, _⟩ := LookupDocID_eq h hkeys ⟨⟨bytes, offset + 4⟩, offset, ht.buckets.length⟩
    rfl rfl rfl doc_id ret
  cases hfind : (ht.buckets.getD (doc_id % ht.buckets.length) []).find?
      (fun kv => decide (kv.key = doc_id)) with
  | none =>
    rw [hfind] at hl
    refine ⟨_, false, ret, _, hc, hl, ?_, ?_, fun _ => rfl⟩
    · simp only [Bool.false_eq_true, false_iff]
      rintro ⟨kv, hkv, hk⟩
      have := List.find?_eq_none.mp hfind kv hkv
      simp [hk] at this
    · intro kv hkv
      rw [hfind] at hkv
      exact absurd hkv (by simp)
  | some kv0 =>
    rw [hfind] at hl
    refine ⟨_, true, _, _, hc, hl, ?_, ?_, fun hx => absurd hx (by simp)⟩
    · simp only [true_iff]
      refine ⟨kv0, List.mem_of_find?_eq_some hfind, ?_⟩
      have := List.find?_some hfind
      simpa using this
    · intro kv hkv
      rw [hfind] at hkv
      simp only [Option.some.injEq] at hkv
      subst hkv
      exact ⟨rfl, by simp⟩

/-- The statement of C19 for the sample docID -> positions table stored at offset 16,
docID 1 and an output list that already holds 7. -/
theorem LookupDocID_found_iff_witness :
    ∃ (r : HashTableReader) (r1 : HashTableReader),
      HashTableReader.construct
        ⟨pwrite [] 16 (tableBytes (fun _ => postingBytes) postingSize 16 samplePostings), 0⟩ 16 =
        some r ∧
      DocIDTableReader.LookupDocID r 1 [7] = some (true, [7, 0, 13], r1) := by
  obtain ⟨r, found, ret1, r1, h1, h2, h3, h4, _⟩ := LookupDocID_found_iff
    (RegionAt_pwrite (fun _ => postingBytes) postingSize (fun _ kv => postingBytes_length kv)
      [] 16 samplePostings (by decide) (by decide)) (by decide)
    ⟨pwrite [] 16 (tableBytes (fun _ => postingBytes) postingSize 16 samplePostings), 0⟩ rfl
    1 [7]
  have hr : r.header_ = 2 := by
    have := HashTableReader_construct_eq
      (RegionAt_pwrite (fun _ => postingBytes) postingSize (fun _ kv => postingBytes_length kv)
        [] 16 samplePostings (by decide) (by decide))
      ⟨pwrite [] 16 (tableBytes (fun _ => postingBytes) postingSize 16 samplePostings), 0⟩ rfl
    rw [this] at h1
    simp only [Option.some.injEq] at h1
    rw [← h1]
    rfl
  rw [hr] at h3 h4
  have hf : found = true := h3.mpr ⟨⟨1, [0, 13]⟩, by decide, rfl⟩
  have hret := (h4 ⟨1, [0, 13]⟩ (by decide)).1
  subst hf
  rw [hret] at h2
  exact ⟨r, r1, h1, h2⟩

/-- The chain loop of `GetDocIDList` on one bucket. -/
theorem GetDocIDList_chain_eq (bytes : List Nat) (position : Nat)
    (li : List (HTKeyValue_t (List Nat))) :
    ∀ (p j : Nat) (f : FILE) (acc : List DocIDElementHeader), f.bytes = bytes →
      Holds bytes (position + sizeofElementPositionRecord * j) (chainRecords postingSize li p) →
      Holds bytes p (chainElements (fun _ => postingBytes) postingSize li p) →
      (∀ kv ∈ li, kv.key < 18446744073709551616) →
      position + sizeofElementPositionRecord * (j + li.length) < 2147483648 →
      p + chainSize postingSize li < 2147483648 →
      ∃ f1, GetDocIDList_chain position li.length j f acc =
          some (acc ++ li.map (fun kv => ⟨kv.key, (kv.value.length : Int)⟩), f1) ∧
        f1.bytes = bytes := by
  induction li with
  | nil =>
    intro p j f acc hf _ _ _ _ _
    exact ⟨f, by simp [GetDocIDList_chain], hf⟩
  | cons kv rest ih =>
    intro p j f acc hf hr he hkeys hb hp
    simp only [chainRecords] at hr
    obtain ⟨hr1, hr2⟩ := Holds_append.mp hr
    have hlen : (ElementPositionRecord.ToDiskFormat p).length = 8 := by
      simp [ElementPositionRecord.ToDiskFormat, be64, be32]
    rw [hlen] at hr2
    simp only [chainElements] at he
    obtain ⟨he1, he2⟩ := Holds_append.mp he
    rw [postingBytes_length] at he2
    simp only [postingBytes] at he1
    obtain ⟨hhead, _⟩ := Holds_append.mp he1
    have hlenH : (DocIDElementHeader.ToDiskFormat kv.key (kv.value.length : Nat)).length = 12 := by
      simp [DocIDElementHeader.ToDiskFormat, be64, be32]
    simp only [sizeofElementPositionRecord, List.length_cons, chainSize_cons, postingSize,
      sizeofDocIDElementHeader, sizeofDocIDElementPosition] at hb hp hr1 hr2
    have hk := hkeys kv (List.mem_cons_self _ _)
    have eoff : toUInt64 ((position : Int) + (j : Int) * (sizeofElementPositionRecord : Nat)) =
        position + 8 * j := by
      have hc : ((position : Int) + (j : Int) * (sizeofElementPositionRecord : Nat)) =
          ((position + 8 * j : Nat) : Int) := by
        simp only [sizeofElementPositionRecord]; push_cast; ring
      rw [hc]; exact toUInt64_of_nat _ (by omega)
    simp only [List.length_cons, GetDocIDList_chain]
    rw [eoff, fseek_eq _ _ (by omega)]
    simp only [hf]
    rw [fread_of_Holds hr1 sizeofElementPositionRecord (by rw [hlen]; rfl)]
    simp only [ElementPositionRecord.ToDiskFormat, fromBE_be64 p (by omega)]
    rw [fseek_eq _ _ (by omega)]
    simp only []
    rw [fread_of_Holds hhead sizeofDocIDElementHeader (by rw [hlenH]; rfl)]
    simp only [DocIDElementHeader_roundtrip kv.key kv.value.length hk (by omega)]
    obtain ⟨f1, hl, hb1⟩ := ih (p + postingSize kv) (j + 1)
      ⟨bytes, p + sizeofDocIDElementHeader⟩ (acc ++ [⟨kv.key, (kv.value.length : Int)⟩]) rfl
      (by simp only [sizeofElementPositionRecord]
          have : position + 8 * (j + 1) = position + 8 * j + 8 := by omega
          rw [this]; exact hr2)
      he2 (fun x hx => hkeys x (List.mem_cons_of_mem _ hx))
      (by simp only [sizeofElementPositionRecord]; omega)
      (by simp only [postingSize, sizeofDocIDElementHeader, sizeofDocIDElementPosition]; omega)
    refine ⟨f1, ?_, hb1⟩
    rw [hl]
    simp

/-- The bucket loop of `GetDocIDList` on the buckets of a region. -/
theorem GetDocIDList_loop_eq (bytes : List Nat) (offset : Nat)
    (bs : List (List (HTKeyValue_t (List Nat)))) :
    ∀ (bp i : Nat) (f : FILE) (acc : List DocIDElementHeader), f.bytes = bytes →
      Holds bytes (offset + sizeofBucketListHeader + sizeofBucketRecord * i)
        (tableRecords postingSize bs bp) →
      Holds bytes bp (tableBuckets (fun _ => postingBytes) postingSize bs bp) →
      (∀ li ∈ bs, ∀ kv ∈ li, kv.key < 18446744073709551616) →
      offset + sizeofBucketListHeader + sizeofBucketRecord * (i + bs.length) ≤ bp →
      bp + bucketsSize postingSize bs < 2147483648 →
      ∃ f1, GetDocIDList_loop offset bs.length i f acc =
          some (acc ++ bs.flatten.map (fun kv => ⟨kv.key, (kv.value.length : Int)⟩), f1) ∧
        f1.bytes = bytes := by
  induction bs with
  | nil =>
    intro bp i f acc hf _ _ _ _ _
    exact ⟨f, by simp [GetDocIDList_loop], hf⟩
  | cons li rest ih =>
    intro bp i f acc hf hr hbk hkeys hle hb
    simp only [tableRecords] at hr
    obtain ⟨hr1, hr2⟩ := Holds_append.mp hr
    have hlen : (BucketRecord.ToDiskFormat (li.length : Nat) bp).length = 12 := by
      simp [BucketRecord.ToDiskFormat, be64, be32]
    rw [hlen] at hr2
    simp only [tableBuckets] at hbk
    obtain ⟨hbk1, hbk2⟩ := Holds_append.mp hbk
    rw [bucketBytes_length _ _ (fun _ kv => postingBytes_length kv)] at hbk2
    simp only [bucketBytes] at hbk1
    obtain ⟨hcr, hce⟩ := Holds_append.mp hbk1
    rw [chainRecords_length] at hce
    simp only [sizeofBucketListHeader, sizeofBucketRecord, List.length_cons, bucketsSize_cons,
      bucketSize, sizeofElementPositionRecord] at hle hb hr1 hr2 hcr hce
    have eoff : toUInt64 ((offset : Int) + (sizeofBucketListHeader : Nat) +
        (i : Int) * (sizeofBucketRecord : Nat)) = offset + 4 + 12 * i := by
      have hc : ((offset : Int) + (sizeofBucketListHeader : Nat) +
          (i : Int) * (sizeofBucketRecord : Nat)) = ((offset + 4 + 12 * i : Nat) : Int) := by
        simp only [sizeofBucketListHeader, sizeofBucketRecord]; push_cast; ring
      rw [hc]; exact toUInt64_of_nat _ (by omega)
    simp only [List.length_cons, GetDocIDList_loop]
    rw [eoff, fseek_eq _ _ (by omega)]
    simp only [hf]
    rw [fread_of_Holds hr1 sizeofBucketRecord (by rw [hlen]; rfl)]
    simp only [BucketRecord_roundtrip li.length bp (by omega) (by omega), Int.toNat_ofNat]
    obtain ⟨f1, hl1, hb1⟩ := GetDocIDList_chain_eq bytes bp li (bp + 8 * li.length) 0
      ⟨bytes, offset + 4 + 12 * i + sizeofBucketRecord⟩ acc rfl
      (by simpa [sizeofElementPositionRecord] using hcr) hce
      (hkeys li (List.mem_cons_self _ _))
      (by simp only [sizeofElementPositionRecord]; omega) (by omega)
    rw [hl1]
    simp only []
    obtain ⟨f2, hl2, hb2⟩ := ih (bp + (8 * li.length + chainSize postingSize li)) (i + 1) f1
      (acc ++ li.map (fun kv => ⟨kv.key, (kv.value.length : Int)⟩)) hb1
      (by simp only [sizeofBucketListHeader, sizeofBucketRecord]
          have : offset + 4 + 12 * (i + 1) = offset + 4 + 12 * i + 12 := by omega
          rw [this]; exact hr2)
      (by simpa [bucketSize, sizeofElementPositionRecord] using hbk2)
      (fun x hx => hkeys x (List.mem_cons_of_mem _ hx))
      (by simp only [sizeofBucketListHeader, sizeofBucketRecord]; omega) (by omega)
    refine ⟨f2, ?_, hb2⟩
    rw [hl2]
    simp

/-- `DocIDTableReader::GetDocIDList` on a well-formed postings region. -/
theorem GetDocIDList_eq {bytes : List Nat} {offset : Nat} {ht : HashTable (List Nat)}
    (h : RegionAt bytes offset (fun _ => postingBytes) postingSize ht)
    (hkeys : ∀ li ∈ ht.buckets, ∀ kv ∈ li, kv.key < 18446744073709551616)
    (r : HashTableReader) (hf : r.file_.bytes = bytes) (ho : r.offset_ = offset)
    (hh : r.header_ = ht.buckets.length) :
    ∃ f1, DocIDTableReader.GetDocIDList r =
        some (ht.buckets.flatten.map (fun kv => ⟨kv.key, (kv.value.length : Int)⟩),
          { r with file_ := f1 }) ∧ f1.bytes = bytes := by
  obtain ⟨hhold, hpos, hb, henc⟩ := h
  obtain ⟨_, hrec, hbuck⟩ := Holds_tableBytes hhold
  simp only [tableSize] at hb
  obtain ⟨f1, hl, hb1⟩ := GetDocIDList_loop_eq bytes offset ht.buckets
    (offset + sizeofBucketListHeader + sizeofBucketRecord * ht.buckets.length) 0 r.file_ [] hf
    (by simpa [sizeofBucketListHeader] using hrec) hbuck hkeys
    (by simp) (by omega)
  refine ⟨f1, ?_, hb1⟩
  simp only [DocIDTableReader.GetDocIDList, ho, hh, hl, List.nil_append]

/-- C20: for a well-formed postings region (64-bit docIDs), `GetDocIDList` returns
exactly one (docID, position count) entry per stored element, the buckets in index
order and each chain in chain order; the length of the list is the sum of the buckets'
chain lengths. -/
theorem GetDocIDList_enumerates {bytes : List Nat} {offset : Nat} {ht : HashTable (List Nat)}
    (h : RegionAt bytes offset (fun _ => postingBytes) postingSize ht)
    (hkeys : ∀ li ∈ ht.buckets, ∀ kv ∈ li, kv.key < 18446744073709551616)
    (f : FILE) (hf : f.bytes = bytes) :
    ∃ (r : HashTableReader) (doc_id_list : List DocIDElementHeader) (r1 : HashTableReader),
      HashTableReader.construct f offset = some r ∧
      DocIDTableReader.GetDocIDList r = some (doc_id_list, r1) ∧
      doc_id_list =
        ht.buckets.flatten.map (fun kv => ⟨kv.key, (kv.value.length : Int)⟩) ∧
      doc_id_list.length = (ht.buckets.map List.length).sum := by
  have hc := HashTableReader_construct_eq h f hf
  obtain ⟨f1, hl, _⟩ := GetDocIDList_eq h hkeys ⟨⟨bytes, offset + 4⟩, offset, ht.buckets.length⟩
    rfl rfl rfl
  refine ⟨_, _, _, hc, hl, rfl, ?_⟩
  rw [List.length_map, List.length_flatten]

/-- The statement of C20 for the sample docID -> positions table stored at offset
16: docID 2 of bucket 0 first, then docID 1 of bucket 1. -/
theorem GetDocIDList_enumerates_witness :
    ∃ (r : HashTableReader) (r1 : HashTableReader),
      HashTableReader.construct
        ⟨pwrite [] 16 (tableBytes (fun _ => postingBytes) postingSize 16 samplePostings), 0⟩ 16 =
        some r ∧
      DocIDTableReader.GetDocIDList r = some ([⟨2, 1⟩, ⟨1, 2⟩], r1) := by
  obtain ⟨r, l, r1, h1, h2, h3, _⟩ := GetDocIDList_enumerates
    (RegionAt_pwrite (fun _ => postingBytes) postingSize (fun _ kv => postingBytes_length kv)
      [] 16 samplePostings (by decide) (by decide)) (by decide)
    ⟨pwrite [] 16 (tableBytes (fun _ => postingBytes) postingSize 16 samplePostings), 0⟩ rfl
  subst h3
  exact ⟨r, r1, h1, h2⟩

theorem HashTableReader_construct_of_Holds {V : Type} {enc : Nat → HTKeyValue_t V → List Nat}
    {sz : HTKeyValue_t V → Nat} {bytes : List Nat} {offset : Nat} {ht : HashTable V}
    (hh : Holds bytes offset (tableBytes enc sz offset ht))
    (hb : offset + tableSize sz ht < 2147483648) (f : FILE) (hf : f.bytes = bytes) :
    HashTableReader.construct f offset =
      some ⟨⟨bytes, offset + 4⟩, offset, ht.buckets.length⟩ := by
  simp only [tableSize, sizeofBucketListHeader, sizeofBucketRecord] at hb
  obtain ⟨h1, _, _⟩ := Holds_tableBytes hh
  simp only [HashTableReader.construct]
  rw [fseek_eq _ _ (by omega)]
  simp only [hf]
  rw [fread_of_Holds h1 sizeofBucketListHeader rfl]
  simp only [BucketListHeader.ToDiskFormat, sizeofBucketListHeader]
  rw [toUInt32_of_nat _ (by omega), fromBE_be32 _ (by omega)]

theorem Holds_of_append (x l y : List Nat) : Holds (x ++ l ++ y) x.length l := by
  refine ⟨by simp only [List.length_append]; omega, ?_⟩
  rw [List.append_assoc, List.drop_left, List.take_left]

/-- The two regions of a written index file. -/
theorem indexFileBytes_regions (kMagicNumber : Nat) (mi : MemIndex) (dt : DocTable) :
    Holds (indexFileBytes kMagicNumber mi dt) 16
        (tableBytes (fun _ => docBytes) docSize 16 dt.id_to_name) ∧
      Holds (indexFileBytes kMagicNumber mi dt) (16 + tableSize docSize dt.id_to_name)
        (tableBytes wordBytes wordSize (16 + tableSize docSize dt.id_to_name) mi) := by
  have hl16 : (IndexFileHeader.ToDiskFormat kMagicNumber
      (CRC32.GetFinalCRC ((indexFileBody mi dt).foldl CRC32.FoldByteIntoCRC CRC32.init))
      (tableSize docSize dt.id_to_name) (tableSize wordSize mi)).length = 16 := by
    simp [IndexFileHeader.ToDiskFormat]
  have hlD := tableBytes_length (fun _ => docBytes) docSize (fun _ kv => docBytes_length kv) 16
    dt.id_to_name
  constructor
  · have := Holds_of_append (IndexFileHeader.ToDiskFormat kMagicNumber
      (CRC32.GetFinalCRC ((indexFileBody mi dt).foldl CRC32.FoldByteIntoCRC CRC32.init))
      (tableSize docSize dt.id_to_name) (tableSize wordSize mi))
      (tableBytes (fun _ => docBytes) docSize 16 dt.id_to_name)
      (tableBytes wordBytes wordSize (16 + tableSize docSize dt.id_to_name) mi)
    rw [hl16] at this
    simpa [indexFileBytes, indexFileBody, sizeofIndexFileHeader, List.append_assoc] using this
  · have := Holds_of_append (IndexFileHeader.ToDiskFormat kMagicNumber
      (CRC32.GetFinalCRC ((indexFileBody mi dt).foldl CRC32.FoldByteIntoCRC CRC32.init))
      (tableSize docSize dt.id_to_name) (tableSize wordSize mi) ++
      tableBytes (fun _ => docBytes) docSize 16 dt.id_to_name)
      (tableBytes wordBytes wordSize (16 + tableSize docSize dt.id_to_name) mi) []
    rw [List.length_append, hl16, hlD] at this
    simpa [indexFileBytes, indexFileBody, sizeofIndexFileHeader, List.append_assoc] using this

/-- A written index file is opened by `FileIndexReader`, validating or not. -/
theorem FileIndexReader_construct_written (kMagicNumber : Nat) (mi : MemIndex) (dt : DocTable)
    (hsize : indexFileSize mi dt < 2147483648) (hK : kMagicNumber < 4294967296)
    (validate : Bool) :
    ∃ pos, FileIndexReader.construct kMagicNumber (some (indexFileBytes kMagicNumber mi dt))
        validate =
      some ⟨⟨indexFileBytes kMagicNumber mi dt, pos⟩,
        { magic_number := kMagicNumber
          checksum := CRC32.GetFinalCRC
            ((indexFileBody mi dt).foldl CRC32.FoldByteIntoCRC CRC32.init)
          doctable_bytes := tableSize docSize dt.id_to_name
          index_bytes := tableSize wordSize mi }⟩ := by
  have hbl := indexFileBody_length mi dt
  have hlen := indexFileBytes_length kMagicNumber mi dt
  have hsz : indexFileSize mi dt =
      16 + (tableSize docSize dt.id_to_name + tableSize wordSize mi) := by
    simp only [indexFileSize, sizeofIndexFileHeader]; omega
  have hl16 : (IndexFileHeader.ToDiskFormat kMagicNumber
      (CRC32.GetFinalCRC ((indexFileBody mi dt).foldl CRC32.FoldByteIntoCRC CRC32.init))
      (tableSize docSize dt.id_to_name) (tableSize wordSize mi)).length = 16 := by
    simp [IndexFileHeader.ToDiskFormat]
  have hdrop : (indexFileBytes kMagicNumber mi dt).drop sizeofIndexFileHeader =
      indexFileBody mi dt := by
    rw [indexFileBytes]
    simp only [sizeofIndexFileHeader]
    rw [← hl16, List.drop_left]
  rw [FileIndexReader.construct_of_header _ _ _ (by rw [hlen, hsz]; simp [sizeofIndexFileHeader])]
  have hh := indexFileBytes_header kMagicNumber mi dt hsize
  simp only [sizeofIndexFileHeader] at hh ⊢
  rw [hh]
  simp only [Nat.mod_eq_of_lt hK, Nat.mod_eq_of_lt (CRC32.checksum_lt _), ne_eq,
    not_true_eq_false, if_false]
  have hc3 : (((16 : Nat) : Int) + ((tableSize docSize dt.id_to_name : Nat) : Int) +
      ((tableSize wordSize mi : Nat) : Int)) = ((indexFileSize mi dt : Nat) : Int) := by
    rw [hsz]; push_cast; ring
  rw [hc3, toUInt32_of_nat _ (by omega), hlen]
  simp only [not_true_eq_false, if_false]
  cases validate with
  | false => exact ⟨16, by simp⟩
  | true =>
    simp only [if_true]
    have hc : ((tableSize docSize dt.id_to_name : Nat) : Int) +
        ((tableSize wordSize mi : Nat) : Int) = (((indexFileBody mi dt).length : Nat) : Int) := by
      rw [hbl]; push_cast; rfl
    rw [hc, toInt32_of_range _ (by omega) (by omega), Int.toNat_ofNat]
    rw [FileIndexReader_loop_eq _ _ _ _ (Nat.le_refl _) (by
      show 16 + _ ≤ _
      rw [hlen, hsz, hbl])]
    simp only
    have hd16 : List.drop 16 (indexFileBytes kMagicNumber mi dt) = indexFileBody mi dt := hdrop
    rw [hd16, List.take_length]
    simp only [if_true]
    exact ⟨_, rfl⟩

/-- C28: in a successful `WriteIndex` of an index below 2 GiB (32-bit magic number) the
document-table region is written at the file-header size and the index region at the
file-header size + the document-table byte length; for the file so written
`FileIndexReader` opens (validate on or off), and `NewDocTableReader` and
`NewIndexTableReader` open their hash-table readers at exactly these two offsets, each
reader's bucket count being that of the in-memory table that was written. -/
theorem WriteIndex_region_offsets_agree (kMagicNumber : Nat) (dev : Device) (mi : MemIndex)
    (dt : DocTable) (old : Option (List Nat)) (hsize : indexFileSize mi dt < 2147483648)
    (hK : kMagicNumber < 4294967296)
    (hok : (WriteIndex kMagicNumber dev mi dt old).1 ≠ kFailedWrite) (validate : Bool) :
    ∃ (bytes : List Nat) (fir : FileIndexReader) (dtr itr : HashTableReader),
      (WriteIndex kMagicNumber dev mi dt old).2 = some bytes ∧
      Holds bytes sizeofIndexFileHeader
        (tableBytes (fun _ => docBytes) docSize sizeofIndexFileHeader dt.id_to_name) ∧
      toUInt64 (sizeofIndexFileHeader +
          (WriteDocTable dev ⟨[], 0⟩ dt sizeofIndexFileHeader).1) =
        sizeofIndexFileHeader + tableSize docSize dt.id_to_name ∧
      Holds bytes (sizeofIndexFileHeader + tableSize docSize dt.id_to_name)
        (tableBytes wordBytes wordSize
          (sizeofIndexFileHeader + tableSize docSize dt.id_to_name) mi) ∧
      FileIndexReader.construct kMagicNumber (some bytes) validate = some fir ∧
      fir.NewDocTableReader = some dtr ∧
      dtr.offset_ = sizeofIndexFileHeader ∧
      dtr.header_ = dt.id_to_name.buckets.length ∧
      fir.NewIndexTableReader = some itr ∧
      itr.offset_ = sizeofIndexFileHeader + tableSize docSize dt.id_to_name ∧
      itr.header_ = mi.buckets.length := by
  have hb := WriteIndex_bytes kMagicNumber dev mi dt old hsize hok
  obtain ⟨s1, _, _⟩ := WriteIndex_stages kMagicNumber dev mi dt old hsize hok
  obtain ⟨hR1, hR2⟩ := indexFileBytes_regions kMagicNumber mi dt
  obtain ⟨pos, hopen⟩ := FileIndexReader_construct_written kMagicNumber mi dt hsize hK validate
  have hsz := hsize
  simp only [indexFileSize, sizeofIndexFileHeader] at hsz
  have hM := tableSize_pos wordSize mi
  have hc1 := HashTableReader_construct_of_Holds hR1 (by omega)
    (FileDup ⟨indexFileBytes kMagicNumber mi dt, pos⟩) rfl
  have hc2 := HashTableReader_construct_of_Holds hR2 (by omega)
    (FileDup ⟨indexFileBytes kMagicNumber mi dt, pos⟩) rfl
  have e2 : toUInt64 (((sizeofIndexFileHeader : Nat) : Int) +
      ((tableSize docSize dt.id_to_name : Nat) : Int)) =
      16 + tableSize docSize dt.id_to_name := by
    have hc : (((sizeofIndexFileHeader : Nat) : Int) +
        ((tableSize docSize dt.id_to_name : Nat) : Int))
        = ((16 + tableSize docSize dt.id_to_name : Nat) : Int) := by
      simp only [sizeofIndexFileHeader]; push_cast; rfl
    rw [hc]
    exact toUInt64_of_nat _ (by omega)
  refine ⟨indexFileBytes kMagicNumber mi dt, _,
    ⟨⟨indexFileBytes kMagicNumber mi dt, 16 + 4⟩, 16, dt.id_to_name.buckets.length⟩,
    ⟨⟨indexFileBytes kMagicNumber mi dt, 16 + tableSize docSize dt.id_to_name + 4⟩,
      16 + tableSize docSize dt.id_to_name, mi.buckets.length⟩,
    by rw [hb], hR1, ?_, hR2, hopen, ?_, rfl, rfl, ?_, rfl, rfl⟩
  · rw [s1]; exact e2
  · exact hc1
  · simp only [FileIndexReader.NewIndexTableReader]
    rw [e2]
    exact hc2

/-- The statement of C28 at the sample index, opened with validation. -/
theorem WriteIndex_region_offsets_agree_witness :
    ∃ (bytes : List Nat) (fir : FileIndexReader) (dtr itr : HashTableReader),
      (WriteIndex sampleMagic Device.reliable sampleMemIndex sampleDocTable none).2 =
        some bytes ∧
      FileIndexReader.construct sampleMagic (some bytes) true = some fir ∧
      fir.NewDocTableReader = some dtr ∧ dtr.header_ = 2 ∧
      fir.NewIndexTableReader = some itr ∧ itr.header_ = 2 :=
  let ⟨b, fir, dtr, itr, h1, _, _, _, h5, h6, _, h8, h9, _, h11⟩ :=
    WriteIndex_region_offsets_agree sampleMagic Device.reliable sampleMemIndex sampleDocTable
      none (by decide!) (by decide) (by decide!) true
  ⟨b, fir, dtr, itr, h1, h5, h6, h8, h9, h11⟩

theorem getD_of_getElem? {A : Type} {l : List A} {i : Nat} {a d : A} (h : l[i]? = some a) :
    l.getD i d = a ∧ i < l.length := by
  have hlt : i < l.length := by
    rcases Nat.lt_or_ge i l.length with h1 | h1
    · exact h1
    · rw [List.getElem?_eq_none h1] at h; exact absurd h (by simp)
  refine ⟨?_, hlt⟩
  rw [List.getD_eq_getElem?_getD, h]
  rfl

theorem find?_of_unique {A : Type} (p : A → Bool) (l : List A) (a : A) (ha : a ∈ l)
    (hp : p a = true) (hu : ∀ b ∈ l, p b = true → b = a) : l.find? p = some a := by
  induction l with
  | nil => exact absurd ha (by simp)
  | cons x rest ih =>
    by_cases hx : p x = true
    · have := hu x (List.mem_cons_self _ _) hx
      subst this
      simp [List.find?_cons, hx]
    · have hxf : p x = false := by simpa using hx
      rw [List.find?_cons, hxf]
      rcases List.mem_cons.mp ha with h1 | h1
      · subst h1; exact absurd hp hx
      · exact ih h1 (fun b hb => hu b (List.mem_cons_of_mem _ hb))

theorem map_mod_of_lt (l : List Nat) (h : ∀ q ∈ l, q < 4294967296) :
    l.map (fun q => q % 4294967296) = l := by
  induction l with
  | nil => rfl
  | cons a rest ih =>
    simp only [List.map_cons]
    rw [Nat.mod_eq_of_lt (h a (List.mem_cons_self _ _)),
      ih (fun q hq => h q (List.mem_cons_of_mem _ hq))]

/-- The element at chain index `j` of bucket `i` of a region, with the bounds of its
position. -/
theorem Holds_element {V : Type} {enc : Nat → HTKeyValue_t V → List Nat}
    {sz : HTKeyValue_t V → Nat} {bytes : List Nat} {offset : Nat} {ht : HashTable V}
    (h : Holds bytes offset (tableBytes enc sz offset ht))
    (henc : ∀ off kv, (enc off kv).length = sz kv) (i j : Nat) (li : List (HTKeyValue_t V))
    (kv : HTKeyValue_t V) (hi : ht.buckets[i]? = some li) (hj : li[j]? = some kv) :
    Holds bytes (bucketPosition sz offset ht i + sizeofElementPositionRecord * li.length +
        chainSize sz (li.take j))
      (enc (bucketPosition sz offset ht i + sizeofElementPositionRecord * li.length +
        chainSize sz (li.take j)) kv) ∧
    bucketPosition sz offset ht i + sizeofElementPositionRecord * li.length +
        chainSize sz (li.take j) + sz kv ≤ offset + tableSize sz ht ∧
    offset ≤ bucketPosition sz offset ht i := by
  obtain ⟨hgi, hilt⟩ := getD_of_getElem? (d := []) hi
  obtain ⟨_, _, hbuck⟩ := Holds_tableBytes h
  have hbuck1 := Holds_tableBuckets enc sz henc bytes ht.buckets _ _ hbuck hilt
  rw [hgi] at hbuck1
  simp only [bucketBytes] at hbuck1
  obtain ⟨_, hel⟩ := Holds_append.mp hbuck1
  rw [chainRecords_length] at hel
  have h1 := Holds_chainElements enc sz henc bytes li _ j kv hel hj
  have hle := bucketsSize_take_le sz ht.buckets i
  rw [hgi] at hle
  have hts := chainSize_take_succ sz li j kv hj
  have htl := chainSize_take_le sz li (j + 1)
  refine ⟨h1, ?_, ?_⟩
  · simp only [bucketPosition, tableSize, bucketSize] at hle ⊢
    omega
  · simp only [bucketPosition]
    omega

/-- The nested postings region of the word at chain index `j` of bucket `i` of a
written index file is a well-formed region. -/
theorem indexFileBytes_postings_region (kMagicNumber : Nat) (mi : MemIndex) (dt : DocTable)
    (hsize : indexFileSize mi dt < 2147483648) (i j : Nat)
    (li : List (HTKeyValue_t WordPostings)) (kv : HTKeyValue_t WordPostings)
    (hi : mi.buckets[i]? = some li) (hj : li[j]? = some kv)
    (hbuckets : 0 < kv.value.postings.buckets.length) :
    Holds (indexFileBytes kMagicNumber mi dt)
        (elementPosition wordSize (sizeofIndexFileHeader + tableSize docSize dt.id_to_name) mi i j)
        (wordBytes
          (elementPosition wordSize (sizeofIndexFileHeader + tableSize docSize dt.id_to_name)
            mi i j) kv) ∧
      RegionAt (indexFileBytes kMagicNumber mi dt)
        (postingsOffset
          (elementPosition wordSize (sizeofIndexFileHeader + tableSize docSize dt.id_to_name)
            mi i j) kv)
        (fun _ => postingBytes) postingSize kv.value.postings := by
  obtain ⟨_, hR2⟩ := indexFileBytes_regions kMagicNumber mi dt
  obtain ⟨hgi, _⟩ := getD_of_getElem? (d := []) hi
  obtain ⟨h1, h2, h3⟩ := Holds_element hR2 wordBytes_length i j li kv hi hj
  simp only [indexFileSize, sizeofIndexFileHeader] at hsize
  have hP : elementPosition wordSize (sizeofIndexFileHeader + tableSize docSize dt.id_to_name)
      mi i j = bucketPosition wordSize (16 + tableSize docSize dt.id_to_name) mi i +
        sizeofElementPositionRecord * li.length + chainSize wordSize (li.take j) := by
    simp only [elementPosition, hgi, sizeofIndexFileHeader]
  rw [hP]
  refine ⟨h1, ?_, hbuckets, ?_, fun _ kv => postingBytes_length kv⟩
  · have hw := h1
    simp only [wordBytes] at hw
    obtain ⟨hw1, hw2⟩ := Holds_append.mp hw
    have hlen : (WordPostingsHeader.ToDiskFormat (toInt16 kv.value.word.length)
        (tableSize postingSize kv.value.postings) ++
        kv.value.word.take (toInt16 kv.value.word.length).toNat).length =
        6 + (toInt16 kv.value.word.length).toNat := by
      have := toInt16_toNat_le kv.value.word.length
      rw [List.length_append, List.length_take]
      simp [WordPostingsHeader.ToDiskFormat, be16, be32]
      omega
    rw [hlen] at hw2
    simp only [postingsOffset, sizeofWordPostingsHeader]
    simp only [sizeofWordPostingsHeader] at hw2
    rw [← Nat.add_assoc] at hw2
    exact hw2
  · simp only [postingsOffset, sizeofWordPostingsHeader]
    simp only [wordSize, sizeofWordPostingsHeader] at h2
    omega

/-- Postings by layout: after a successful `WriteIndex` of an index below 2 GiB, for
every term of the index (the entry at chain index j of bucket i), every docID entry of
its postings table that lies in bucket docID mod num_buckets, with 64-bit docIDs that are not
repeated within the chain and positions that fit in 32 bits: the written file holds
the term's element, a reader opened on the nested postings region inside it finds the
docID, and `LookupDocID` returns true with exactly the source position list, in the
source order. -/
theorem WriteIndex_round_trip (kMagicNumber : Nat) (dev : Device) (mi : MemIndex)
    (dt : DocTable) (old : Option (List Nat)) (hsize : indexFileSize mi dt < 2147483648)
    (hok : (WriteIndex kMagicNumber dev mi dt old).1 ≠ kFailedWrite) (i j : Nat)
    (li : List (HTKeyValue_t WordPostings)) (kv : HTKeyValue_t WordPostings)
    (hi : mi.buckets[i]? = some li) (hj : li[j]? = some kv)
    (hbuckets : 0 < kv.value.postings.buckets.length)
    (hkeys : ∀ chain ∈ kv.value.postings.buckets, ∀ e ∈ chain, e.key < 18446744073709551616)
    (chain : List (HTKeyValue_t (List Nat))) (e : HTKeyValue_t (List Nat))
    (hchain : kv.value.postings.buckets[e.key % kv.value.postings.buckets.length]? = some chain)
    (he : e ∈ chain) (huniq : ∀ e1 ∈ chain, e1.key = e.key → e1 = e)
    (hpos : ∀ q ∈ e.value, q < 4294967296) :
    ∃ (bytes : List Nat) (r r1 : HashTableReader),
      (WriteIndex kMagicNumber dev mi dt old).2 = some bytes ∧
      Holds bytes
        (elementPosition wordSize (sizeofIndexFileHeader + tableSize docSize dt.id_to_name) mi i j)
        (wordBytes
          (elementPosition wordSize (sizeofIndexFileHeader + tableSize docSize dt.id_to_name)
            mi i j) kv) ∧
      HashTableReader.construct ⟨bytes, 0⟩
        (postingsOffset
          (elementPosition wordSize (sizeofIndexFileHeader + tableSize docSize dt.id_to_name)
            mi i j) kv) = some r ∧
      DocIDTableReader.LookupDocID r e.key [] = some (true, e.value, r1) := by
  have hb := WriteIndex_bytes kMagicNumber dev mi dt old hsize hok
  obtain ⟨hH, hR⟩ := indexFileBytes_postings_region kMagicNumber mi dt hsize i j li kv hi hj
    hbuckets
  have hc := HashTableReader_construct_eq hR ⟨indexFileBytes kMagicNumber mi dt, 0⟩ rfl
  obtain ⟨f1, hl, _⟩ := LookupDocID_eq hR hkeys
    ⟨⟨indexFileBytes kMagicNumber mi dt, postingsOffset
      (elementPosition wordSize (sizeofIndexFileHeader + tableSize docSize dt.id_to_name)
        mi i j) kv + 4⟩,
      postingsOffset
        (elementPosition wordSize (sizeofIndexFileHeader + tableSize docSize dt.id_to_name)
          mi i j) kv, kv.value.postings.buckets.length⟩ rfl rfl rfl e.key []
  obtain ⟨hgc, _⟩ := getD_of_getElem? (d := []) hchain
  rw [hgc, find?_of_unique _ chain e he (by simp) (fun b hb hp => huniq b hb (by simpa using hp))]
    at hl
  simp only [List.nil_append, map_mod_of_lt e.value hpos] at hl
  exact ⟨_, _, _, by rw [hb], hH, hc, hl⟩

theorem intersect_inner_eq (x : DocIDElementHeader) (next : List DocIDElementHeader) :
    ∀ (acc : List DocIDElementHeader), intersect_inner x next acc =
      acc ++ ((next.find? fun y => decide (x.doc_id = y.doc_id)).map fun y =>
        ({ doc_id := x.doc_id
           num_positions := toInt32 (x.num_positions + y.num_positions) } :
          DocIDElementHeader)).toList := by
  induction next with
  | nil => intro acc; simp [intersect_inner]
  | cons y ys ih =>
    intro acc
    by_cases h : x.doc_id = y.doc_id
    · simp [intersect_inner, h, List.find?_cons]
    · simp [intersect_inner, h, List.find?_cons, ih]

theorem intersect_outer_eq (next : List DocIDElementHeader) (result : List DocIDElementHeader) :
    ∀ (acc : List DocIDElementHeader), intersect_outer next result acc =
      acc ++ result.filterMap fun x =>
        (next.find? fun y => decide (x.doc_id = y.doc_id)).map fun y =>
          ({ doc_id := x.doc_id
             num_positions := toInt32 (x.num_positions + y.num_positions) } :
            DocIDElementHeader) := by
  induction result with
  | nil => intro acc; simp [intersect_outer]
  | cons x xs ih =>
    intro acc
    rw [intersect_outer, ih, intersect_inner_eq, List.filterMap_cons]
    cases next.find? fun y => decide (x.doc_id = y.doc_id) <;> simp

/-- The nested loops as a filter over `result`. -/
theorem intersect_eq_filterMap (result next : List DocIDElementHeader) :
    intersect result next =
      result.filterMap fun x =>
        (next.find? fun y => decide (x.doc_id = y.doc_id)).map fun y =>
          ({ doc_id := x.doc_id
             num_positions := toInt32 (x.num_positions + y.num_positions) } :
            DocIDElementHeader) := by
  rw [intersect, intersect_outer_eq, List.nil_append]

theorem countMap_foldl (d : Nat) (next : List DocIDElementHeader) :
    ∀ (m : Nat → Option Int), (next.map fun y => y.doc_id).Nodup →
      next.foldl (fun m y d => if d = y.doc_id then some y.num_positions else m d) m d =
        match next.find? fun y => decide (d = y.doc_id) with
        | some y => some y.num_positions
        | none => m d := by
  induction next with
  | nil => intro m _; rfl
  | cons y ys ih =>
    intro m hnd
    simp only [List.map_cons, List.nodup_cons] at hnd
    rw [List.foldl_cons, ih _ hnd.2]
    by_cases h : d = y.doc_id
    · have hnone : ys.find? (fun z => decide (d = z.doc_id)) = none := by
        rw [List.find?_eq_none]
        intro z hz hdz
        apply hnd.1
        simp only [decide_eq_true_eq] at hdz
        rw [← h, hdz]
        exact List.mem_map_of_mem _ hz
      rw [hnone]
      simp [List.find?_cons, h]
    · simp [List.find?_cons, h]

theorem countMap_eq (next : List DocIDElementHeader) (d : Nat)
    (hnd : (next.map fun y => y.doc_id).Nodup) :
    countMap next d = (next.find? fun y => decide (d = y.doc_id)).map fun y => y.num_positions := by
  rw [countMap, countMap_foldl d next _ hnd]
  cases next.find? fun y => decide (d = y.doc_id) <;> rfl

/-- C30: for a next-term posting list without repeated docIDs, and counts whose sums
fit the `int` rank, the nested-loop intersection of `ProcessQuery` is the hashed
intersection: the entries of the running result whose docID is in the next list, in
the running result's order, each with rank = running rank + the next list's count for
that docID; and it is never longer than the running result. -/
theorem intersect_eq_hashedIntersect (result next : List DocIDElementHeader)
    (hnext : (next.map fun y => y.doc_id).Nodup)
    (hfit : ∀ x ∈ result, ∀ y ∈ next,
      -2147483648 ≤ x.num_positions + y.num_positions ∧
        x.num_positions + y.num_positions < 2147483648) :
    intersect result next = hashedIntersect result next ∧
      (intersect result next).length ≤ result.length := by
  rw [intersect_eq_filterMap]
  refine ⟨?_, List.length_filterMap_le _ _⟩
  rw [hashedIntersect]
  apply List.filterMap_congr
  intro x hx
  rw [countMap_eq next x.doc_id hnext]
  cases hf : next.find? fun y => decide (x.doc_id = y.doc_id) with
  | none => rfl
  | some y =>
    have hy := List.mem_of_find?_eq_some hf
    obtain ⟨h1, h2⟩ := hfit x hx y hy
    simp only [Option.map_some', toInt32_of_range _ h1 h2]

/-- The statement of C30 for a running result with docIDs 4, 9, 2 and a next list with
docIDs 2, 4. -/
theorem intersect_eq_hashedIntersect_witness :
    intersect [⟨4, 1⟩, ⟨9, 5⟩, ⟨2, 3⟩] [⟨2, 10⟩, ⟨4, 20⟩] =
      hashedIntersect [⟨4, 1⟩, ⟨9, 5⟩, ⟨2, 3⟩] [⟨2, 10⟩, ⟨4, 20⟩] :=
  (intersect_eq_hashedIntersect [⟨4, 1⟩, ⟨9, 5⟩, ⟨2, 3⟩] [⟨2, 10⟩, ⟨4, 20⟩] (by decide)
    (by decide)).1

/-- The checksum loop does not depend on the iteration bound once the bound covers
the bytes left to read. -/
theorem FileIndexReader_loop_fuel (n : Nat) : ∀ (m : Nat) (left : Nat) (f : FILE) (crc : Nat),
    left ≤ n → left ≤ m →
    FileIndexReader_loop n (left : Int) f crc = FileIndexReader_loop m (left : Int) f crc := by
  induction n with
  | zero =>
    intro m left f crc h1 _
    have : left = 0 := by omega
    subst this
    rw [FileIndexReader_loop_nonpos 0 _ f crc (by simp),
      FileIndexReader_loop_nonpos m _ f crc (by simp)]
  | succ n ih =>
    intro m left f crc h1 h2
    by_cases h0 : left = 0
    · subst h0
      rw [FileIndexReader_loop_nonpos _ _ f crc (by simp),
        FileIndexReader_loop_nonpos m _ f crc (by simp)]
    · have hpos : ((left : Nat) : Int) > 0 := by omega
      obtain ⟨m1, rfl⟩ : ∃ m1, m = m1 + 1 := ⟨m - 1, by omega⟩
      obtain ⟨k, hk, hk1, hk2⟩ : ∃ k : Nat, min kBufSize (left : Int) = (k : Int) ∧ 0 < k ∧
          k ≤ left := by
        refine ⟨min 512 left, ?_, ?_, ?_⟩
        · unfold kBufSize; omega
        · omega
        · omega
      have hsub : ((left : Nat) : Int) - (k : Int) = ((left - k : Nat) : Int) := by omega
      rw [FileIndexReader_loop, FileIndexReader_loop, if_pos hpos, if_pos hpos]
      simp only [hk, Int.toNat_ofNat, hsub]
      cases fread f k with
      | none => rfl
      | some p =>
        obtain ⟨buf, f1⟩ := p
        exact ih m1 (left - k) f1 _ (by omega) (by omega)

/-- C33: for every non-negative body length, the reader's checksum loop, which reads
chunks of at most 512 bytes, returns within as many iterations as there are bytes
(any larger bound gives the same result), and when the file holds that many bytes at
the cursor it yields the CRC state and cursor of the writer's byte-at-a-time loop
over the same bytes; consequently the file left by a successful `WriteIndex` (index
below 2 GiB, 32-bit magic number) is accepted by `FileIndexReader` with
validate = true. -/
theorem FileIndexReader_checksum_agrees :
    (∀ (n fuel : Nat) (f : FILE) (crc : Nat), n ≤ fuel →
        FileIndexReader_loop fuel (n : Int) f crc = FileIndexReader_loop n (n : Int) f crc) ∧
      (∀ (n : Nat) (f : FILE) (crc : Nat), f.pos + n ≤ f.bytes.length →
        FileIndexReader_loop n (n : Int) f crc = WriteHeader_loop n f crc ∧
          WriteHeader_loop n f crc =
            some (((f.bytes.drop f.pos).take n).foldl CRC32.FoldByteIntoCRC crc,
              ⟨f.bytes, f.pos + n⟩)) ∧
      (∀ (kMagicNumber : Nat) (dev : Device) (mi : MemIndex) (dt : DocTable)
          (old : Option (List Nat)), indexFileSize mi dt < 2147483648 →
        kMagicNumber < 4294967296 →
        (WriteIndex kMagicNumber dev mi dt old).1 ≠ kFailedWrite →
        ∃ bytes fir, (WriteIndex kMagicNumber dev mi dt old).2 = some bytes ∧
          FileIndexReader.construct kMagicNumber (some bytes) true = some fir) := by
  refine ⟨?_, ?_, ?_⟩
  · intro n fuel f crc h
    exact FileIndexReader_loop_fuel fuel n n f crc h (Nat.le_refl _)
  · intro n f crc h
    have h1 := FileIndexReader_loop_eq n n f crc (Nat.le_refl _) h
    have h2 := WriteHeader_loop_eq n f crc h
    exact ⟨h1.trans h2.symm, h2⟩
  · intro kMagicNumber dev mi dt old hsize hK hok
    obtain ⟨pos, hopen⟩ := FileIndexReader_construct_written kMagicNumber mi dt hsize hK true
    exact ⟨_, _, by rw [WriteIndex_bytes kMagicNumber dev mi dt old hsize hok], hopen⟩

/-- The statement of C33 at the sample index: the written file is accepted with
validation. -/
theorem FileIndexReader_checksum_agrees_witness :
    ∃ bytes fir,
      (WriteIndex sampleMagic Device.reliable sampleMemIndex sampleDocTable none).2 =
        some bytes ∧
      FileIndexReader.construct sampleMagic (some bytes) true = some fir :=
  FileIndexReader_checksum_agrees.2.2 sampleMagic Device.reliable sampleMemIndex sampleDocTable
    none (by decide!) (by decide) (by decide!)

theorem mem_flatten_of_getElem? {A : Type} {bs : List (List A)} {i : Nat} {li : List A} {a : A}
    (hi : bs[i]? = some li) (ha : a ∈ li) : a ∈ bs.flatten := by
  rw [List.mem_flatten]
  exact ⟨li, List.getElem?_mem hi, ha⟩

theorem nodup_keys_of_flatten {bs : List (List (HTKeyValue_t (List Nat)))}
    (hnd : (bs.flatten.map fun kv => kv.key).Nodup) :
    ∀ a ∈ bs.flatten, ∀ b ∈ bs.flatten, a.key = b.key → a = b := by
  intro a ha b hb hab
  exact List.inj_on_of_nodup_map hnd ha hb hab

/-- C32: for a well-formed postings region of a table with distinct 64-bit docID keys,
each kept in bucket key mod num_buckets: for each (d, n) returned by `GetDocIDList`,
`LookupDocID(d)` returns found with exactly n positions, and every docID for which
`LookupDocID` returns found occurs exactly once in the list of `GetDocIDList`. -/
theorem GetDocIDList_agrees_with_LookupDocID {bytes : List Nat} {offset : Nat}
    {ht : HashTable (List Nat)}
    (h : RegionAt bytes offset (fun _ => postingBytes) postingSize ht)
    (hkeys : ∀ li ∈ ht.buckets, ∀ kv ∈ li, kv.key < 18446744073709551616)
    (hwf : ∀ i, i < ht.buckets.length →
      ∀ kv ∈ ht.buckets.getD i [], kv.key % ht.buckets.length = i)
    (hnd : (ht.buckets.flatten.map fun kv => kv.key).Nodup)
    (f : FILE) (hf : f.bytes = bytes) :
    ∃ (r : HashTableReader) (doc_id_list : List DocIDElementHeader) (r1 : HashTableReader),
      HashTableReader.construct f offset = some r ∧
      DocIDTableReader.GetDocIDList r = some (doc_id_list, r1) ∧
      (∀ entry ∈ doc_id_list, ∃ ret r2,
        DocIDTableReader.LookupDocID r entry.doc_id [] = some (true, ret, r2) ∧
          (ret.length : Int) = entry.num_positions) ∧
      (∀ d ret r2, DocIDTableReader.LookupDocID r d [] = some (true, ret, r2) →
        (doc_id_list.map fun e => e.doc_id).count d = 1) := by
  have hc := HashTableReader_construct_eq h f hf
  obtain ⟨f1, hl, _⟩ := GetDocIDList_eq h hkeys ⟨⟨bytes, offset + 4⟩, offset, ht.buckets.length⟩
    rfl rfl rfl
  have hpos := h.2.1
  have huniq := nodup_keys_of_flatten hnd
  have hids : (ht.buckets.flatten.map fun kv =>
      (⟨kv.key, (kv.value.length : Int)⟩ : DocIDElementHeader)).map (fun e => e.doc_id) =
      ht.buckets.flatten.map fun kv => kv.key := by
    rw [List.map_map]; rfl
  refine ⟨_, _, _, hc, hl, ?_, ?_⟩
  · intro entry hentry
    obtain ⟨kv, hkv, rfl⟩ := List.mem_map.mp hentry
    obtain ⟨li, hli, hkvli⟩ := List.mem_flatten.mp hkv
    obtain ⟨i, hilt, hgi⟩ := List.getElem_of_mem hli
    have hi? : ht.buckets[i]? = some li := by
      rw [List.getElem?_eq_getElem hilt, hgi]
    have hbi := hwf i hilt kv (by rw [(getD_of_getElem? hi?).1]; exact hkvli)
    obtain ⟨f2, hl2, _⟩ := LookupDocID_eq h hkeys ⟨⟨bytes, offset + 4⟩, offset,
      ht.buckets.length⟩ rfl rfl rfl kv.key []
    have hgd : ht.buckets.getD (kv.key % ht.buckets.length) [] = li := by
      rw [hbi]; exact (getD_of_getElem? hi?).1
    rw [hgd, find?_of_unique _ li kv hkvli (by simp)
      (fun b hb hp => huniq b (mem_flatten_of_getElem? hi? hb) kv hkv (by simpa using hp))] at hl2
    exact ⟨_, _, hl2, by simp⟩
  · intro d ret r2 hfound
    obtain ⟨f2, hl2, _⟩ := LookupDocID_eq h hkeys ⟨⟨bytes, offset + 4⟩, offset,
      ht.buckets.length⟩ rfl rfl rfl d []
    rw [hl2] at hfound
    have hi : d % ht.buckets.length < ht.buckets.length := Nat.mod_lt _ hpos
    cases hfind : (ht.buckets.getD (d % ht.buckets.length) []).find?
        (fun kv => decide (kv.key = d)) with
    | none =>
      rw [hfind] at hfound
      simp at hfound
    | some kv =>
      have hmem := List.mem_of_find?_eq_some hfind
      have hkey : kv.key = d := by simpa using List.find?_some hfind
      have hfl : kv ∈ ht.buckets.flatten := by
        rw [List.mem_flatten]
        refine ⟨_, ?_, hmem⟩
        rw [List.getD_eq_getElem _ _ hi]
        exact List.getElem_mem _
      rw [hids]
      apply List.count_eq_one_of_mem hnd
      rw [← hkey]
      exact List.mem_map_of_mem _ hfl

/-- The statement of C32 for the sample docID -> positions table stored at offset
16. -/
theorem GetDocIDList_agrees_with_LookupDocID_witness :
    ∃ (r : HashTableReader) (doc_id_list : List DocIDElementHeader) (r1 : HashTableReader),
      HashTableReader.construct
        ⟨pwrite [] 16 (tableBytes (fun _ => postingBytes) postingSize 16 samplePostings), 0⟩ 16 =
        some r ∧
      DocIDTableReader.GetDocIDList r = some (doc_id_list, r1) ∧
      (∀ entry ∈ doc_id_list, ∃ ret r2,
        DocIDTableReader.LookupDocID r entry.doc_id [] = some (true, ret, r2) ∧
          (ret.length : Int) = entry.num_positions) :=
  let ⟨r, l, r1, h1, h2, h3, _⟩ := GetDocIDList_agrees_with_LookupDocID
    (RegionAt_pwrite (fun _ => postingBytes) postingSize (fun _ kv => postingBytes_length kv)
      [] 16 samplePostings (by decide) (by decide)) (by decide) (by decide) (by decide)
    ⟨pwrite [] 16 (tableBytes (fun _ => postingBytes) postingSize 16 samplePostings), 0⟩ rfl
  ⟨r, l, r1, h1, h2, h3⟩

/-- C16 as stated fails: with one unopenable file ahead of the sample index file, the
constructor of `QueryProcessor` aborts; no processor exists to answer a query from
the remaining file. -/
theorem QueryProcessor_unopenable_file_aborts :
    QueryProcessor.construct sampleMagic
      [none, some (indexFileBytes sampleMagic sampleMemIndex sampleDocTable)] false = none := by
  rfl

theorem QueryProcessor_loop_of_mem_none (kMagicNumber : Nat) (validate : Bool)
    (index_list : List (Option (List Nat))) (h : none ∈ index_list) :
    QueryProcessor_loop kMagicNumber validate index_list = none := by
  induction index_list with
  | nil => exact absurd h (by simp)
  | cons file rest ih =>
    rw [QueryProcessor_loop]
    cases hfile : file with
    | none => rfl
    | some bytes =>
      have hrest : none ∈ rest := by
        rcases List.mem_cons.mp h with h1 | h1
        · rw [hfile] at h1; exact absurd h1 (by simp)
        · exact h1
      rw [ih hrest]
      cases FileIndexReader.construct kMagicNumber (some bytes) validate with
      | none => rfl
      | some fir =>
        simp only []
        cases fir.NewDocTableReader <;> cases fir.NewIndexTableReader <;> rfl

/-- C16, amended: when one of the index files given to `QueryProcessor` cannot be
opened, `FileIndexReader`'s constructor aborts ("crash on error"), so the constructor
of `QueryProcessor` aborts as well, with validate on or off and whatever the other
files hold; no file is skipped. -/
theorem QueryProcessor_construct_aborts_on_unopenable (kMagicNumber : Nat) (validate : Bool)
    (index_list : List (Option (List Nat))) (h : none ∈ index_list) :
    QueryProcessor.construct kMagicNumber index_list validate = none := by
  rw [QueryProcessor.construct, QueryProcessor_loop_of_mem_none kMagicNumber validate
    index_list h]
  split <;> rfl

/-- The statement of C16 (amended) with the unopenable file after the sample index
file. -/
theorem QueryProcessor_construct_aborts_on_unopenable_witness :
    QueryProcessor.construct sampleMagic
      [some (indexFileBytes sampleMagic sampleMemIndex sampleDocTable), none] true = none :=
  QueryProcessor_construct_aborts_on_unopenable sampleMagic true
    [some (indexFileBytes sampleMagic sampleMemIndex sampleDocTable), none] (by simp)

theorem drop_cons_facts {content : List Nat} {pos c : Nat} {rest : List Nat}
    (hs : content.drop pos = c :: rest) :
    content.getD pos 0 = c ∧ content.drop (pos + 1) = rest := by
  constructor
  · have h := congrArg (fun l => l.getD 0 0) hs
    simp only [List.getD_cons_zero] at h
    rw [← h, List.getD_eq_getElem?_getD, List.getD_eq_getElem?_getD, List.getElem?_drop]
    rfl
  · rw [← List.tail_drop, hs]
    rfl

/-- The loop of `InsertContent`, from any state outside a word or inside one. -/
theorem InsertContent_loop_eq (content : List Nat) (s : List Nat) :
    ∀ (pos : Nat), content.drop pos = s →
      (∀ ws w, (pos = 0 ∨ isalpha (content.getD (pos - 1) 0) = false) →
        InsertContent_loop s pos false ws w =
          ((List.range' pos s.length).filter (isRunStart content)).map fun p =>
            ((runAt content p).1, wordPosition p)) ∧
      (∀ ws w, 0 < pos → isalpha (content.getD (pos - 1) 0) = true →
        (runAt content ws).1 = w ++ (s.takeWhile isalpha).map tolower →
        InsertContent_loop s pos true ws w =
          ((runAt content ws).1, wordPosition ws) ::
            ((List.range' pos s.length).filter (isRunStart content)).map fun p =>
              ((runAt content p).1, wordPosition p)) := by
  induction s with
  | nil =>
    intro pos _
    constructor
    · intro ws w _
      simp [InsertContent_loop]
    · intro ws w _ _ hw
      simp only [List.takeWhile_nil, List.map_nil, List.append_nil] at hw
      simp [InsertContent_loop, hw]
  | cons c rest ih =>
    intro pos hs
    obtain ⟨hc, hrest⟩ := drop_cons_facts hs
    obtain ⟨ihA, ihB⟩ := ih (pos + 1) hrest
    have hprev : content.getD (pos + 1 - 1) 0 = c := by
      rw [Nat.add_sub_cancel]; exact hc
    have hrange : List.range' pos (c :: rest).length = pos :: List.range' (pos + 1) rest.length := by
      simp [List.range'_succ]
    constructor
    · intro ws w hp
      by_cases ha : isalpha c = true
      · have hrs : isRunStart content pos = true := by
          simp only [isRunStart, hc, ha, Bool.true_and, Bool.or_eq_true, decide_eq_true_eq,
            Bool.not_eq_true']
          exact hp
        have hrun : (runAt content pos).1 =
            [tolower c] ++ (rest.takeWhile isalpha).map tolower := by
          simp only [runAt, hs, List.takeWhile_cons, ha, if_true, List.map_cons,
            List.singleton_append]
        rw [InsertContent_loop, if_pos ha]
        simp only [Bool.not_false, if_true]
        rw [ihB pos [tolower c] (Nat.succ_pos _) (by rw [hprev]; exact ha) hrun, hrange,
          List.filter_cons, if_pos hrs]
        rfl
      · have ha' : isalpha c = false := by simpa using ha
        have hrs : isRunStart content pos = false := by
          simp only [isRunStart, hc, ha', Bool.false_and]
        rw [InsertContent_loop, if_neg ha]
        simp only [Bool.false_eq_true, if_false]
        rw [ihA ws w (Or.inr (by rw [hprev]; exact ha')), hrange, List.filter_cons, hrs]
        rfl
    · intro ws w hpos hp hw
      have hrs : isRunStart content pos = false := by
        simp only [isRunStart, hp, Bool.not_true, Bool.or_false, Bool.and_eq_false_imp,
          decide_eq_false_iff_not]
        intro _; omega
      by_cases ha : isalpha c = true
      · have hw' : (runAt content ws).1 =
            (w ++ [tolower c]) ++ (rest.takeWhile isalpha).map tolower := by
          rw [hw]
          simp only [List.takeWhile_cons, ha, if_true, List.map_cons, List.append_assoc,
            List.singleton_append]
        rw [InsertContent_loop, if_pos ha]
        simp only [Bool.not_true, Bool.false_eq_true, if_false]
        rw [ihB ws (w ++ [tolower c]) (Nat.succ_pos _) (by rw [hprev]; exact ha) hw', hrange,
          List.filter_cons, hrs]
        rfl
      · have ha' : isalpha c = false := by simpa using ha
        have hw' : (runAt content ws).1 = w := by
          rw [hw]
          simp only [List.takeWhile_cons, ha', Bool.false_eq_true, if_false, List.map_nil,
            List.append_nil]
        rw [InsertContent_loop, if_neg ha]
        simp only [if_true]
        rw [ihA ws [] (Or.inr (by rw [hprev]; exact ha')), hrange, List.filter_cons, hrs, hw']
        rfl

theorem isalpha_tolower (c : Nat) (h : isalpha c = true) :
    97 ≤ tolower c ∧ tolower c ≤ 122 := by
  simp only [isalpha, Bool.or_eq_true, Bool.and_eq_true, decide_eq_true_eq] at h
  unfold tolower
  split <;> omega

/-- C34: for every document text shorter than 2 GiB, the calls
`AddWordPosition(word, position)` that `InsertContent` makes are, in text order, one
per maximal run of alphabetic characters (a run that ends at the end of the text
included): the word is the run in lower case and the position is the byte offset of
the run's first character; every character of a recorded word is a lower-case
letter. -/
theorem InsertContent_records_runs (content : List Nat) (hlen : content.length < 2147483648) :
    InsertContent content =
        ((List.range content.length).filter (isRunStart content)).map (runAt content) ∧
      (∀ wp ∈ InsertContent content, wp.1 ≠ [] ∧ ∀ c ∈ wp.1, 97 ≤ c ∧ c ≤ 122) := by
  have h := (InsertContent_loop_eq content content 0 rfl).1 0 [] (Or.inl rfl)
  have hmap : ((List.range' 0 content.length).filter (isRunStart content)).map (fun p =>
      ((runAt content p).1, wordPosition p)) =
      ((List.range content.length).filter (isRunStart content)).map (runAt content) := by
    rw [List.range_eq_range']
    apply List.map_congr_left
    intro p hp
    have hp' := (List.mem_filter.mp hp).1
    rw [List.mem_range'_1] at hp'
    have : wordPosition p = p := by
      unfold wordPosition
      rw [toInt32_of_range _ (by omega) (by omega), toUInt32_of_nat _ (by omega)]
    rw [this]
    rfl
  have heq : InsertContent content =
      ((List.range content.length).filter (isRunStart content)).map (runAt content) := by
    rw [InsertContent, h, hmap]
  refine ⟨heq, ?_⟩
  intro wp hwp
  rw [heq] at hwp
  obtain ⟨p, hp, rfl⟩ := List.mem_map.mp hwp
  obtain ⟨hp1, hp2⟩ := List.mem_filter.mp hp
  rw [List.mem_range] at hp1
  simp only [isRunStart, Bool.and_eq_true] at hp2
  have hd : content.drop p = content.getD p 0 :: content.drop (p + 1) := by
    rw [List.getD_eq_getElem _ _ hp1]
    exact List.drop_eq_getElem_cons hp1
  constructor
  · simp only [runAt, hd, List.takeWhile_cons, hp2.1, if_true, List.map_cons, ne_eq]
    exact List.cons_ne_nil _ _
  · intro c hc
    simp only [runAt, List.mem_map] at hc
    obtain ⟨a, ha, rfl⟩ := hc
    exact isalpha_tolower a (List.mem_takeWhile_imp ha)

/-- The statement of C34 at the text "Apple, pie": two runs, at offsets 0 and 7. -/
theorem InsertContent_records_runs_witness :
    InsertContent [65, 112, 112, 108, 101, 44, 32, 112, 105, 101] =
      ((List.range 10).filter (isRunStart [65, 112, 112, 108, 101, 44, 32, 112, 105, 101])).map
        (runAt [65, 112, 112, 108, 101, 44, 32, 112, 105, 101]) :=
  (InsertContent_records_runs [65, 112, 112, 108, 101, 44, 32, 112, 105, 101] (by decide)).1

/-- A character is a hexadecimal digit of the specification exactly when its upper
case passes the test of `URIDecode`, and the digit value the code computes is the
specified one. -/
theorem hexDigit_facts (x : Nat) :
    (hexDigit x = none ∧ isUpperHex (toupper x) = false) ∨
      (∃ a, hexDigit x = some a ∧ a < 16 ∧ isUpperHex (toupper x) = true ∧
        (if 65 ≤ toupper x then 10 + ((toupper x : Int) - 65) else (toupper x : Int) - 48) = a) := by
  have hu : (97 ≤ x ∧ x ≤ 122 ∧ toupper x = x - 32) ∨ (¬(97 ≤ x ∧ x ≤ 122) ∧ toupper x = x) := by
    unfold toupper
    by_cases h : 97 ≤ x ∧ x ≤ 122
    · left; rw [if_pos h]; exact ⟨h.1, h.2, rfl⟩
    · right; rw [if_neg h]; exact ⟨h, rfl⟩
  generalize toupper x = u at hu ⊢
  unfold hexDigit isUpperHex
  by_cases h1 : 48 ≤ x ∧ x ≤ 57
  · right
    refine ⟨x - 48, by simp [h1], by omega, ?_, ?_⟩
    · simp only [Bool.or_eq_true, Bool.and_eq_true, decide_eq_true_eq]; omega
    · split <;> omega
  · by_cases h2 : 65 ≤ x ∧ x ≤ 70
    · right
      refine ⟨x - 55, by simp [h1, h2], by omega, ?_, ?_⟩
      · simp only [Bool.or_eq_true, Bool.and_eq_true, decide_eq_true_eq]; omega
      · split <;> omega
    · by_cases h3 : 97 ≤ x ∧ x ≤ 102
      · right
        refine ⟨x - 87, by simp [h1, h2, h3], by omega, ?_, ?_⟩
        · simp only [Bool.or_eq_true, Bool.and_eq_true, decide_eq_true_eq]; omega
        · split <;> omega
      · left
        refine ⟨by simp [h1, h2, h3], ?_⟩
        simp only [Bool.or_eq_false_iff, Bool.and_eq_false_imp, decide_eq_true_eq,
          decide_eq_false_iff_not]
        omega

theorem toInt8_of_lt (v : Nat) (h : v < 256) :
    toInt8 (v : Int) = if v < 128 then (v : Int) else (v : Int) - 256 := by
  unfold toInt8; simp only []; split <;> split <;> omega

theorem toInt8_congr (a b : Int) (h : a % 256 = b % 256) : toInt8 a = toInt8 b := by
  unfold toInt8
  simp only []
  rw [h]

theorem toInt8_add (x y : Int) : toInt8 (toInt8 x + y) = toInt8 (x + y) := by
  apply toInt8_congr
  unfold toInt8; simp only []; split <;> omega

/-- The `int8_t code` of two hexadecimal digits is their value reduced to eight bits. -/
theorem URIDecode_code_eq (x y a b : Nat) (ha : a < 16) (hb : b < 16)
    (hx : (if 65 ≤ toupper x then 10 + ((toupper x : Int) - 65) else (toupper x : Int) - 48) = a)
    (hy : (if 65 ≤ toupper y then 10 + ((toupper y : Int) - 65) else (toupper y : Int) - 48) = b) :
    URIDecode_code (toupper x) (toupper y) =
      if 16 * a + b < 128 then ((16 * a + b : Nat) : Int) else ((16 * a + b : Nat) : Int) - 256 := by
  have h1 : (if 65 ≤ toupper x then 16 * (10 + ((toupper x : Int) - 65))
      else 16 * ((toupper x : Int) - 48)) = 16 * (a : Int) := by
    split at hx <;> rename_i h <;> simp only [h, if_true, if_false] <;> omega
  have h2 : ∀ code : Int, (if 65 ≤ toupper y then code + (10 + ((toupper y : Int) - 65))
      else code + ((toupper y : Int) - 48)) = code + (b : Int) := by
    intro code
    split at hy <;> rename_i h <;> simp only [h, if_true, if_false] <;> omega
  unfold URIDecode_code
  simp only []
  rw [h1, h2, toInt8_add]
  have := toInt8_of_lt (16 * a + b) (by omega)
  push_cast at this ⊢
  exact this

theorem URIDecode_step_plus (c2 c3 : Nat) (next skip : List Nat) :
    URIDecode_step 43 c2 c3 next skip = 32 :: next := by
  simp [URIDecode_step]

theorem URIDecode_step_plain (c c2 c3 : Nat) (next skip : List Nat) (h1 : c ≠ 43) (h2 : c ≠ 37) :
    URIDecode_step c c2 c3 next skip = c :: next := by
  simp [URIDecode_step, h1, h2]

theorem URIDecode_step_length (c1 c2 c3 : Nat) (next skip : List Nat) (n : Nat)
    (h1 : next.length ≤ n) (h2 : skip.length ≤ n) :
    (URIDecode_step c1 c2 c3 next skip).length ≤ n + 1 := by
  unfold URIDecode_step
  simp only []
  split_ifs <;> simp only [List.length_cons] <;> omega

theorem URIDecode_length (s : List Nat) : (URIDecode s).length ≤ s.length := by
  induction s using URIDecode.induct with
  | case1 => simp [URIDecode]
  | case2 c1 =>
    rw [URIDecode]
    exact URIDecode_step_length _ _ _ _ _ 0 (Nat.le_refl _) (Nat.le_refl _)
  | case3 c1 x ih =>
    rw [URIDecode]
    exact URIDecode_step_length _ _ _ _ _ 1 ih (Nat.zero_le _)
  | case4 c1 x y rest ih1 ih2 =>
    rw [URIDecode]
    exact URIDecode_step_length _ _ _ _ _ _ ih1 (by simp only [List.length_cons]; omega)

/-- C36: `URIDecode` turns every `+` into a space and copies every character other
than `+` and `%`; a `%` followed by two hexadecimal digits (either case) whose
value is between 32 and 127 is replaced, with both digits, by the character of that
value; any other `%` is copied and decoding goes on with the character right
after it; the output is never longer than the input. -/
theorem URIDecode_cases :
    (∀ rest, URIDecode (43 :: rest) = 32 :: URIDecode rest) ∧
    (∀ c rest, c ≠ 43 → c ≠ 37 → URIDecode (c :: rest) = c :: URIDecode rest) ∧
    (∀ x y rest v, hexPair x y = some v → 32 ≤ v → v ≤ 127 →
      URIDecode (37 :: x :: y :: rest) = v :: URIDecode rest) ∧
    (∀ rest, (∀ v, hexToken rest = some v → v < 32 ∨ 127 < v) →
      URIDecode (37 :: rest) = 37 :: URIDecode rest) ∧
    (∀ s, (URIDecode s).length ≤ s.length) := by
  refine ⟨?_, ?_, ?_, ?_, URIDecode_length⟩
  · intro rest
    match rest with
    | [] => simp [URIDecode, URIDecode_step_plus]
    | [x] => simp only [URIDecode, URIDecode_step_plus]
    | x :: y :: rest => rw [URIDecode, URIDecode_step_plus]
  · intro c rest h1 h2
    match rest with
    | [] => simp [URIDecode, URIDecode_step_plain _ _ _ _ _ h1 h2]
    | [x] => simp only [URIDecode, URIDecode_step_plain _ _ _ _ _ h1 h2]
    | x :: y :: rest => rw [URIDecode, URIDecode_step_plain _ _ _ _ _ h1 h2]
  · intro x y rest v hv h32 h127
    rcases hexDigit_facts x with ⟨hx, _⟩ | ⟨a, hxa, ha, hxu, hxv⟩
    · simp [hexPair, hx] at hv
    rcases hexDigit_facts y with ⟨hy, _⟩ | ⟨b, hyb, hb, hyu, hyv⟩
    · simp [hexPair, hxa, hy] at hv
    simp only [hexPair, hxa, hyb, Option.some.injEq] at hv
    have hcode := URIDecode_code_eq x y a b ha hb hxv hyv
    rw [hv, if_pos (by omega)] at hcode
    rw [URIDecode, URIDecode_step]
    simp only [hxu, hyu, hcode, Bool.not_true, Bool.false_eq_true, if_false]
    rw [if_neg (by decide), if_neg (by simp), if_neg (by omega)]
    simp
  · intro rest h
    match rest with
    | [] => simp [URIDecode, URIDecode_step, isUpperHex]
    | [x] =>
      conv_lhs => rw [URIDecode, URIDecode_step]
      simp [isUpperHex]
    | x :: y :: rest =>
      rw [URIDecode, URIDecode_step]
      rw [if_neg (by decide), if_neg (by simp)]
      rcases hexDigit_facts x with ⟨_, hx⟩ | ⟨a, hxa, ha, hxu, hxv⟩
      · simp [hx]
      rcases hexDigit_facts y with ⟨_, hy⟩ | ⟨b, hyb, hb, hyu, hyv⟩
      · simp [hxu, hy]
      have hcode := URIDecode_code_eq x y a b ha hb hxv hyv
      have hr := h (16 * a + b) (by simp [hexToken, hexPair, hxa, hyb])
      simp only [hxu, hyu, hcode, Bool.not_true, Bool.false_eq_true, if_false]
      split_ifs <;> first | rfl | omega

/-- The statement of C36 at "%7e" (decoded to `~`), at "%80" and "%4" (copied), at
"+" and at "a". -/
theorem URIDecode_cases_witness :
    URIDecode [37, 55, 101, 43] = 126 :: URIDecode [43] ∧
      URIDecode [37, 56, 48] = 37 :: URIDecode [56, 48] ∧
      URIDecode [37, 52] = 37 :: URIDecode [52] ∧
      URIDecode [43, 97] = 32 :: URIDecode [97] ∧
      URIDecode [97, 43] = 97 :: URIDecode [43] :=
  ⟨URIDecode_cases.2.2.1 55 101 [43] 126 (by decide) (by decide) (by decide),
    URIDecode_cases.2.2.2.1 [56, 48] (by decide),
    URIDecode_cases.2.2.2.1 [52] (by decide),
    URIDecode_cases.1 [97],
    URIDecode_cases.2.1 97 [43] (by decide) (by decide)⟩

/-- What `EscapeHtml` puts in the place of one character. -/
theorem EscapeHtml_flatMap (s : List Nat) :
    EscapeHtml s = s.flatMap fun c =>
      if c = 38 then [38, 97, 109, 112, 59]
      else if c = 60 then [38, 108, 116, 59]
      else if c = 62 then [38, 103, 116, 59]
      else if c = 34 then [38, 113, 117, 111, 116, 59]
      else if c = 39 then [38, 97, 112, 111, 115, 59]
      else [c] := by
  simp only [EscapeHtml, replace_all, List.flatMap_assoc]
  congr 1
  funext c
  by_cases h38 : c = 38
  · subst h38; decide
  by_cases h60 : c = 60
  · subst h60; decide
  by_cases h62 : c = 62
  · subst h62; decide
  by_cases h34 : c = 34
  · subst h34; decide
  by_cases h39 : c = 39
  · subst h39; decide
  simp [h38, h60, h62, h34, h39]

theorem EscapeHtml_nil : EscapeHtml [] = [] := by decide

/-- `EscapeHtml` of a string is the entity or the copy of its first character,
followed by `EscapeHtml` of the rest. -/
theorem EscapeHtml_cons (c : Nat) (s : List Nat) :
    EscapeHtml (c :: s) =
      (if c = 38 then [38, 97, 109, 112, 59]
        else if c = 60 then [38, 108, 116, 59]
        else if c = 62 then [38, 103, 116, 59]
        else if c = 34 then [38, 113, 117, 111, 116, 59]
        else if c = 39 then [38, 97, 112, 111, 115, 59]
        else [c]) ++ EscapeHtml s := by
  rw [EscapeHtml_flatMap, EscapeHtml_flatMap, List.flatMap_cons]

/-- The first character of the escaped string is an `&` with an entity behind it, or
a safe character. -/
theorem EscapeHtml_cons_cases (c : Nat) (s : List Nat) :
    (∃ e ∈ htmlEntities, e.2 = c ∧ EscapeHtml (c :: s) = 38 :: (e.1 ++ EscapeHtml s) ∧
        (∀ x ∈ e.1, x ≠ 38 ∧ x ≠ 60 ∧ x ≠ 62 ∧ x ≠ 34 ∧ x ≠ 39)) ∨
      (c ≠ 38 ∧ c ≠ 60 ∧ c ≠ 62 ∧ c ≠ 34 ∧ c ≠ 39 ∧ EscapeHtml (c :: s) = c :: EscapeHtml s) := by
  rw [EscapeHtml_cons]
  by_cases h38 : c = 38
  · subst h38; left; exact ⟨([97, 109, 112, 59], 38), by decide, rfl, rfl, by decide⟩
  by_cases h60 : c = 60
  · subst h60; left; exact ⟨([108, 116, 59], 60), by decide, rfl, rfl, by decide⟩
  by_cases h62 : c = 62
  · subst h62; left; exact ⟨([103, 116, 59], 62), by decide, rfl, rfl, by decide⟩
  by_cases h34 : c = 34
  · subst h34; left; exact ⟨([113, 117, 111, 116, 59], 34), by decide, rfl, rfl, by decide⟩
  by_cases h39 : c = 39
  · subst h39; left; exact ⟨([97, 112, 111, 115, 59], 39), by decide, rfl, rfl, by decide⟩
  right
  simp [h38, h60, h62, h34, h39]

theorem stripEntity_entity (e : List Nat × Nat) (he : e ∈ htmlEntities) (rest : List Nat) :
    stripEntity (e.1 ++ rest) = some (e.2, e.1.length) := by
  simp only [htmlEntities, List.mem_cons, List.mem_singleton, List.not_mem_nil, or_false] at he
  rcases he with rfl | rfl | rfl | rfl | rfl <;> simp [stripEntity, htmlEntities]

theorem unescapeHtml_entity (e : List Nat × Nat) (he : e ∈ htmlEntities) (rest : List Nat) :
    unescapeHtml (38 :: (e.1 ++ rest)) = e.2 :: unescapeHtml rest := by
  rw [unescapeHtml, if_pos rfl, stripEntity_entity e he]
  simp only [List.drop_left]

theorem unescapeHtml_plain (c : Nat) (rest : List Nat) (h : c ≠ 38) :
    unescapeHtml (c :: rest) = c :: unescapeHtml rest := by
  rw [unescapeHtml, if_neg h]

theorem unescapeHtml_EscapeHtml (s : List Nat) : unescapeHtml (EscapeHtml s) = s := by
  induction s with
  | nil => rw [EscapeHtml_nil, unescapeHtml]
  | cons c s ih =>
    rcases EscapeHtml_cons_cases c s with ⟨e, he, hc, heq, _⟩ | ⟨h38, _, _, _, _, heq⟩
    · rw [heq, unescapeHtml_entity e he, ih, hc]
    · rw [heq, unescapeHtml_plain c _ h38, ih]

theorem EscapeHtml_safe (s : List Nat) :
    ∀ c ∈ EscapeHtml s, c ≠ 60 ∧ c ≠ 62 ∧ c ≠ 34 ∧ c ≠ 39 := by
  induction s with
  | nil => intro c hc; simp [EscapeHtml_nil] at hc
  | cons a s ih =>
    intro c hc
    rcases EscapeHtml_cons_cases a s with ⟨e, he, _, heq, hsafe⟩ | ⟨_, h60, h62, h34, h39, heq⟩
    · rw [heq] at hc
      rcases List.mem_cons.mp hc with rfl | hc
      · decide
      rcases List.mem_append.mp hc with hc | hc
      · exact (hsafe c hc).2
      · exact ih c hc
    · rw [heq] at hc
      rcases List.mem_cons.mp hc with rfl | hc
      · exact ⟨h60, h62, h34, h39⟩
      · exact ih c hc

theorem EscapeHtml_amp (s : List Nat) :
    ∀ pre post, EscapeHtml s = pre ++ 38 :: post → ∃ e ∈ htmlEntities, e.1 <+: post := by
  induction s with
  | nil => intro pre post h; simp [EscapeHtml_nil] at h
  | cons a s ih =>
    intro pre post h
    rcases EscapeHtml_cons_cases a s with ⟨e, he, _, heq, hsafe⟩ | ⟨h38, _, _, _, _, heq⟩
    · rw [heq] at h
      match pre, h with
      | [], h =>
        simp only [List.nil_append, List.cons.injEq, true_and] at h
        exact ⟨e, he, ⟨_, h⟩⟩
      | p :: pre, h =>
        simp only [List.cons_append, List.cons.injEq] at h
        obtain ⟨_, h⟩ := h
        rcases List.append_eq_append_iff.mp h with ⟨a', h1, h2⟩ | ⟨c', h1, h2⟩
        · exact ih a' post h2
        · match c', h1, h2 with
          | [], h1, h2 =>
            simp only [List.nil_append] at h2
            exact ih [] post h2.symm
          | x :: c', h1, h2 =>
            simp only [List.cons_append, List.cons.injEq] at h2
            have : (38 : Nat) ∈ e.1 := by
              rw [h1, ← h2.1]; simp
            exact absurd rfl (hsafe 38 this).1
    · rw [heq] at h
      match pre, h with
      | [], h =>
        simp only [List.nil_append, List.cons.injEq] at h
        exact absurd h.1 h38
      | p :: pre, h =>
        simp only [List.cons_append, List.cons.injEq] at h
        exact ih pre post h.2

theorem EscapeHtml_id (s : List Nat)
    (h : ∀ c ∈ s, c ≠ 38 ∧ c ≠ 60 ∧ c ≠ 62 ∧ c ≠ 34 ∧ c ≠ 39) : EscapeHtml s = s := by
  induction s with
  | nil => decide
  | cons a s ih =>
    have ha := h a (List.mem_cons_self _ _)
    rw [EscapeHtml_cons, ih (fun c hc => h c (List.mem_cons_of_mem _ hc))]
    simp [ha.1, ha.2.1, ha.2.2.1, ha.2.2.2.1, ha.2.2.2.2]

/-- C37: for every string, the output of `EscapeHtml` holds none of the characters
`<`, `>`, `"` and `'`; every `&` in it is followed by the rest of one of the five
entities; replacing the entities by their characters gives back the input, so
`EscapeHtml` is injective; and a string without the five unsafe characters is
returned as it is. -/
theorem EscapeHtml_escapes :
    (∀ s, ∀ c ∈ EscapeHtml s, c ≠ 60 ∧ c ≠ 62 ∧ c ≠ 34 ∧ c ≠ 39) ∧
    (∀ s pre post, EscapeHtml s = pre ++ 38 :: post → ∃ e ∈ htmlEntities, e.1 <+: post) ∧
    (∀ s, unescapeHtml (EscapeHtml s) = s) ∧
    Function.Injective EscapeHtml ∧
    (∀ s, (∀ c ∈ s, c ≠ 38 ∧ c ≠ 60 ∧ c ≠ 62 ∧ c ≠ 34 ∧ c ≠ 39) → EscapeHtml s = s) :=
  ⟨EscapeHtml_safe, EscapeHtml_amp, unescapeHtml_EscapeHtml,
    Function.LeftInverse.injective unescapeHtml_EscapeHtml, EscapeHtml_id⟩

/-- The statement of C37 at the strings `a<&` and `ab`. -/
theorem EscapeHtml_escapes_witness :
    (∃ e ∈ htmlEntities, e.1 <+: [108, 116, 59, 38, 97, 109, 112, 59]) ∧
      EscapeHtml [97, 98] = [97, 98] :=
  ⟨EscapeHtml_escapes.2.1 [97, 60, 38] [97] [108, 116, 59, 38, 97, 109, 112, 59] (by decide),
    EscapeHtml_escapes.2.2.2.2 [97, 98] (by decide)⟩

theorem nodeAt_lt {nodes : List (Option LinkedListNode)} {a : Nat} {n : LinkedListNode}
    (h : nodeAt nodes a = some n) : a < nodes.length := by
  by_contra hlt
  rw [nodeAt, List.getD_eq_default _ _ (by omega)] at h
  exact Option.noConfusion h

theorem nodeAt_set_ne (nodes : List (Option LinkedListNode)) (a b : Nat)
    (v : Option LinkedListNode) (h : a ≠ b) : nodeAt (nodes.set a v) b = nodeAt nodes b := by
  simp only [nodeAt, List.getD_eq_getElem?_getD, List.getElem?_set_ne h]

theorem nodeAt_set_self (nodes : List (Option LinkedListNode)) (a : Nat)
    (v : Option LinkedListNode) (h : a < nodes.length) : nodeAt (nodes.set a v) a = v := by
  simp only [nodeAt, List.getD_eq_getElem?_getD, List.getElem?_set_self h, Option.getD_some]

theorem nodeAt_append_left (nodes l : List (Option LinkedListNode)) (b : Nat)
    (h : b < nodes.length) : nodeAt (nodes ++ l) b = nodeAt nodes b := by
  simp only [nodeAt, List.getD_eq_getElem?_getD, List.getElem?_append_left h]

theorem nodeAt_append_new (nodes : List (Option LinkedListNode)) (v : Option LinkedListNode) :
    nodeAt (nodes ++ [v]) nodes.length = v := by
  simp [nodeAt, List.getD_eq_getElem?_getD]

theorem firstAddr_append (l1 l2 : List (Nat × Nat)) (nxt : Option Nat) :
    firstAddr (l1 ++ l2) nxt = firstAddr l1 (firstAddr l2 nxt) := by
  cases l1 <;> rfl

theorem lastAddr_nil (prev : Option Nat) : lastAddr [] prev = prev := rfl

theorem lastAddr_cons (c : Nat × Nat) (rest : List (Nat × Nat)) (prev : Option Nat) :
    lastAddr (c :: rest) prev = lastAddr rest (some c.1) := by
  cases rest with
  | nil => rfl
  | cons d rest =>
    simp only [lastAddr, List.getLast?_cons_cons]
    rw [List.getLast?_eq_getLast _ (List.cons_ne_nil d rest)]

theorem lastAddr_append (l1 l2 : List (Nat × Nat)) (prev : Option Nat) :
    lastAddr (l1 ++ l2) prev = lastAddr l2 (lastAddr l1 prev) := by
  induction l1 generalizing prev with
  | nil => rfl
  | cons c l1 ih => rw [List.cons_append, lastAddr_cons, lastAddr_cons, ih]

theorem lastAddr_cons_cons (c d : Nat × Nat) (rest : List (Nat × Nat)) (p q : Option Nat) :
    lastAddr (c :: d :: rest) p = lastAddr (d :: rest) q := by
  rw [lastAddr_cons, lastAddr_cons, lastAddr_cons]

theorem Seg_append (nodes : List (Option LinkedListNode)) (l1 l2 : List (Nat × Nat))
    (prev nxt : Option Nat) :
    Seg nodes prev (l1 ++ l2) nxt ↔
      Seg nodes prev l1 (firstAddr l2 nxt) ∧ Seg nodes (lastAddr l1 prev) l2 nxt := by
  induction l1 generalizing prev with
  | nil => simp [Seg, lastAddr_nil]
  | cons c l1 ih =>
    show (nodeAt nodes c.1 = some ⟨c.2, firstAddr (l1 ++ l2) nxt, prev⟩ ∧
        Seg nodes (some c.1) (l1 ++ l2) nxt) ↔
      (nodeAt nodes c.1 = some ⟨c.2, firstAddr l1 (firstAddr l2 nxt), prev⟩ ∧
        Seg nodes (some c.1) l1 (firstAddr l2 nxt)) ∧ Seg nodes (lastAddr (c :: l1) prev) l2 nxt
    rw [ih, firstAddr_append, lastAddr_cons, and_assoc]

theorem Seg_frame {nodes nodes' : List (Option LinkedListNode)} {cells : List (Nat × Nat)}
    {prev nxt : Option Nat} (h : ∀ c ∈ cells, nodeAt nodes' c.1 = nodeAt nodes c.1)
    (hs : Seg nodes prev cells nxt) : Seg nodes' prev cells nxt := by
  induction cells generalizing prev with
  | nil => trivial
  | cons c rest ih =>
    refine ⟨?_, ih (fun d hd => h d (List.mem_cons_of_mem _ hd)) hs.2⟩
    rw [h c (List.mem_cons_self _ _)]
    exact hs.1

theorem Seg_lt {nodes : List (Option LinkedListNode)} {cells : List (Nat × Nat)}
    {prev nxt : Option Nat} (hs : Seg nodes prev cells nxt) :
    ∀ c ∈ cells, c.1 < nodes.length := by
  induction cells generalizing prev with
  | nil => intro c hc; cases hc
  | cons d rest ih =>
    intro c hc
    rcases List.mem_cons.mp hc with rfl | hc
    · exact nodeAt_lt hs.1
    · exact ih hs.2 c hc

/-- Changing the `prev` link of the first node re-enters the segment from elsewhere. -/
theorem Seg_set_prev {nodes : List (Option LinkedListNode)} {c : Nat × Nat}
    {rest : List (Nat × Nat)} {prev nxt : Option Nat} (q : Option Nat)
    (hs : Seg nodes prev (c :: rest) nxt) (hnd : c.1 ∉ rest.map Prod.fst) :
    Seg (nodes.set c.1 (some ⟨c.2, firstAddr rest nxt, q⟩)) q (c :: rest) nxt := by
  refine ⟨nodeAt_set_self _ _ _ (nodeAt_lt hs.1), Seg_frame ?_ hs.2⟩
  intro d hd
  apply nodeAt_set_ne
  intro heq
  exact hnd (List.mem_map.mpr ⟨d, hd, heq.symm⟩)

/-- Changing the `next` link of the last node leaves the segment to elsewhere. -/
theorem Seg_set_next {nodes : List (Option LinkedListNode)} {cells : List (Nat × Nat)}
    {c : Nat × Nat} {prev nxt : Option Nat} (q : Option Nat)
    (hs : Seg nodes prev (cells ++ [c]) nxt) (hnd : c.1 ∉ cells.map Prod.fst) :
    Seg (nodes.set c.1 (some ⟨c.2, q, lastAddr cells prev⟩)) prev (cells ++ [c]) q := by
  induction cells generalizing prev with
  | nil =>
    exact ⟨nodeAt_set_self _ _ _ (nodeAt_lt hs.1), trivial⟩
  | cons d cells ih =>
    have hne : c.1 ≠ d.1 := fun h => hnd (by simp [h])
    have hnd' : c.1 ∉ cells.map Prod.fst := fun h => hnd (by simp [h])
    refine ⟨?_, ?_⟩
    · rw [nodeAt_set_ne _ _ _ _ hne]
      have : nodeAt nodes d.1 = some ⟨d.2, firstAddr (cells ++ [c]) nxt, prev⟩ := hs.1
      show nodeAt nodes d.1 = some ⟨d.2, firstAddr (cells ++ [c]) q, prev⟩
      cases cells <;> exact this
    · rw [lastAddr_cons]
      exact ih hs.2 hnd'

theorem forward_of_Seg {nodes : List (Option LinkedListNode)} {cells : List (Nat × Nat)}
    {prev : Option Nat} (hs : Seg nodes prev cells none) :
    ∀ fuel, cells.length ≤ fuel →
      forward nodes fuel (firstAddr cells none) = some (cells.map Prod.fst) := by
  induction cells generalizing prev with
  | nil => intro fuel _; cases fuel <;> rfl
  | cons c rest ih =>
    intro fuel hf
    obtain ⟨fuel, rfl⟩ : ∃ k, fuel = k + 1 := ⟨fuel - 1, by simp only [List.length_cons] at hf; omega⟩
    show forward nodes (fuel + 1) (some c.1) = _
    rw [forward, hs.1]
    simp only []
    rw [ih hs.2 fuel (by simp only [List.length_cons] at hf; omega)]
    rfl

theorem backward_append (nodes : List (Option LinkedListNode)) (cells : List (Nat × Nat))
    (c : Nat × Nat) (prev nxt : Option Nat) (hs : Seg nodes prev (cells ++ [c]) nxt) (fuel : Nat) :
    backward nodes (fuel + 1) (some c.1) =
      (backward nodes fuel (lastAddr cells prev)).map (c.1 :: ·) := by
  have h := ((Seg_append nodes cells [c] prev nxt).mp hs).2.1
  simp only [backward, h]

theorem backward_of_Seg {nodes : List (Option LinkedListNode)} (cells : List (Nat × Nat))
    {nxt : Option Nat} (hs : Seg nodes none cells nxt) :
    ∀ fuel, cells.length ≤ fuel →
      backward nodes fuel (lastAddr cells none) = some (cells.map Prod.fst).reverse := by
  induction cells using List.reverseRecOn generalizing nxt with
  | nil => intro fuel _; cases fuel <;> rfl
  | append_singleton cells c ih =>
    intro fuel hf
    obtain ⟨fuel, rfl⟩ : ∃ k, fuel = k + 1 :=
      ⟨fuel - 1, by simp only [List.length_append, List.length_singleton] at hf; omega⟩
    have h1 := ((Seg_append nodes cells [c] none nxt).mp hs).1
    rw [lastAddr_append]
    show backward nodes (fuel + 1) (some c.1) = _
    rw [backward_append nodes cells c none nxt hs fuel,
      ih h1 fuel (by simp only [List.length_append, List.length_singleton] at hf; omega)]
    simp

theorem payloadAt_of_Seg {nodes : List (Option LinkedListNode)} {cells : List (Nat × Nat)}
    {prev nxt : Option Nat} (hs : Seg nodes prev cells nxt) :
    (cells.map Prod.fst).map (payloadAt nodes) = cells.map Prod.snd := by
  induction cells generalizing prev with
  | nil => rfl
  | cons c rest ih =>
    simp only [List.map_cons, List.cons.injEq]
    exact ⟨by simp only [payloadAt, hs.1], ih hs.2⟩

theorem firstAddr_eq_none {cells : List (Nat × Nat)} : firstAddr cells none = none ↔ cells = [] := by
  cases cells <;> simp [firstAddr]

theorem lastAddr_eq_none {cells : List (Nat × Nat)} : lastAddr cells none = none ↔ cells = [] := by
  induction cells using List.reverseRecOn with
  | nil => simp [lastAddr_nil]
  | append_singleton cells c _ => simp [lastAddr_append, lastAddr]

theorem Represents_nodes {s : Heap} {cells : List (Nat × Nat)} (h : Represents s cells) :
    LinkedList_nodes s = cells.map Prod.fst := by
  obtain ⟨hseg, _, hnum, hhead, _⟩ := h
  rw [LinkedList_nodes, hhead, forward_of_Seg hseg _ (by rw [hnum]; simp)]
  rfl

theorem Represents_payloads {s : Heap} {cells : List (Nat × Nat)} (h : Represents s cells) :
    LinkedList_payloads s = cells.map Prod.snd := by
  rw [LinkedList_payloads, Represents_nodes h, payloadAt_of_Seg h.1]

theorem Invariant_of_Represents {s : Heap} {cells : List (Nat × Nat)} (h : Represents s cells) :
    Invariant s := by
  obtain ⟨hseg, hnd, hnum, hhead, htail⟩ := h
  refine ⟨cells.map Prod.fst, ?_, by rw [hnum, List.length_map], ?_, ?_, ?_, ?_, ?_⟩
  · rw [hhead, forward_of_Seg hseg _ (by rw [hnum]; simp)]
  · rw [hhead, hnum, firstAddr_eq_none]
    simp [List.length_eq_zero]
  · rw [htail, hnum, lastAddr_eq_none]
    simp [List.length_eq_zero]
  · cases cells with
    | nil => simp [headPrev, hhead, firstAddr]
    | cons c rest => simp [headPrev, hhead, firstAddr, hseg.1]
  · induction cells using List.reverseRecOn with
    | nil => simp [tailNext, htail, lastAddr]
    | append_singleton cells c _ =>
      have h := ((Seg_append _ cells [c] none none).mp hseg).2.1
      simp [tailNext, htail, lastAddr_append, lastAddr, h, firstAddr]
  · rw [htail, backward_of_Seg cells hseg _ (by rw [hnum]; simp)]

theorem nodeAt_set (nodes : List (Option LinkedListNode)) (a b : Nat)
    (v : Option LinkedListNode) (h : a < nodes.length) :
    nodeAt (nodes.set a v) b = if b = a then v else nodeAt nodes b := by
  by_cases hb : b = a
  · subst hb; rw [if_pos rfl, nodeAt_set_self _ _ _ h]
  · rw [if_neg hb, nodeAt_set_ne _ _ _ _ (Ne.symm hb)]

theorem toInt32_succ (n : Nat) (h : (n : Int) < 2147483647) :
    toInt32 ((n : Int) + 1) = ((n + 1 : Nat) : Int) := by
  rw [toInt32_of_range _ (by omega) (by omega)]
  push_cast; rfl

theorem toInt32_pred (n : Nat) (h : ((n + 1 : Nat) : Int) < 2147483648) :
    toInt32 (((n + 1 : Nat) : Int) - 1) = (n : Int) := by
  rw [toInt32_of_range _ (by omega) (by omega)]
  push_cast; omega

theorem Represents_nil_iff {s : Heap} :
    Represents s [] ↔ s.list = ⟨0, none, none⟩ := by
  constructor
  · rintro ⟨_, _, h1, h2, h3⟩
    cases hl : s.list with
    | mk n h t =>
      rw [hl] at h1 h2 h3
      simp only [List.length_nil, Nat.cast_zero, firstAddr, lastAddr_nil] at h1 h2 h3
      simp [h1, h2, h3]
  · intro h
    refine ⟨trivial, List.nodup_nil, ?_, ?_, ?_⟩ <;> rw [h] <;> rfl

/-- `LinkedList_Push` on a represented list. -/
theorem LinkedList_Push_Represents {s : Heap} {cells : List (Nat × Nat)} (p : Nat)
    (h : Represents s cells) (hn : s.list.num_elements < 2147483647) :
    ∃ s1, LinkedList_Push s p = some s1 ∧ Represents s1 ((s.nodes.length, p) :: cells) ∧
      s1.list.num_elements = s.list.num_elements + 1 := by
  obtain ⟨hseg, hnd, hnum, hhead, htail⟩ := h
  rw [hnum] at hn
  cases cells with
  | nil =>
    simp only [List.length_nil, Nat.cast_zero, firstAddr, lastAddr_nil] at hnum hhead htail
    have hpush : LinkedList_Push s p = some ⟨s.nodes ++ [some ⟨p, none, none⟩],
        ⟨toInt32 (s.list.num_elements + 1), some s.nodes.length, some s.nodes.length⟩⟩ := by
      simp only [LinkedList_Push, hnum, hhead, htail, if_true, ne_eq, not_true_eq_false,
        if_false]
    have h1 : toInt32 (s.list.num_elements + 1) = 1 := by
      rw [hnum]; exact toInt32_of_range _ (by omega) (by omega)
    refine ⟨_, hpush, ?_, ?_⟩
    · exact ⟨⟨nodeAt_append_new _ _, trivial⟩, by simp, h1, rfl, rfl⟩
    · show toInt32 (s.list.num_elements + 1) = _
      rw [h1, hnum]; rfl
  | cons c rest =>
    have hne : s.list.num_elements ≠ 0 := by
      rw [hnum]; simp only [List.length_cons]; push_cast; omega
    have hc : nodeAt s.nodes c.1 = some ⟨c.2, firstAddr rest none, none⟩ := hseg.1
    have hlt := Seg_lt hseg
    have hcn : c.1 ∉ rest.map Prod.fst := (List.nodup_cons.mp hnd).1
    refine ⟨_, by simp only [LinkedList_Push, hne, if_false, hhead, firstAddr, hc]; rfl, ?_, ?_⟩
    · refine ⟨⟨?_, ?_⟩, ?_, ?_, rfl, ?_⟩
      · have := nodeAt_append_new (s.nodes.set c.1 (some ⟨c.2, firstAddr rest none,
          some s.nodes.length⟩)) (some ⟨p, some c.1, none⟩)
        rw [List.length_set] at this
        exact this
      · have h1 := Seg_set_prev (some s.nodes.length) hseg hcn
        refine Seg_frame ?_ h1
        intro d hd
        apply nodeAt_append_left
        rw [List.length_set]
        exact hlt d hd
      · rw [List.map_cons, List.nodup_cons]
        refine ⟨?_, hnd⟩
        intro hmem
        obtain ⟨d, hd, hd2⟩ := List.mem_map.mp hmem
        have := hlt d hd
        rw [hd2] at this
        exact Nat.lt_irrefl _ this
      · show toInt32 (s.list.num_elements + 1) = _
        rw [hnum, toInt32_succ _ hn]
        simp
      · show s.list.tail = _
        rw [htail, lastAddr_cons_cons _ c rest none none]
    · show toInt32 (s.list.num_elements + 1) = _
      rw [hnum, toInt32_succ _ hn]
      push_cast; rfl

/-- `LinkedList_Pop` on a represented list that is not empty. -/
theorem LinkedList_Pop_Represents {s : Heap} {c : Nat × Nat} {rest : List (Nat × Nat)}
    (h : Represents s (c :: rest)) (hn : s.list.num_elements < 2147483648) :
    ∃ s1, LinkedList_Pop s = some (some c.2, s1) ∧ Represents s1 rest := by
  obtain ⟨hseg, hnd, hnum, hhead, htail⟩ := h
  rw [hnum] at hn
  have hne : s.list.num_elements ≠ 0 := by
    rw [hnum]; simp only [List.length_cons]; push_cast; omega
  have hc : nodeAt s.nodes c.1 = some ⟨c.2, firstAddr rest none, none⟩ := hseg.1
  have hcn : c.1 ∉ rest.map Prod.fst := (List.nodup_cons.mp hnd).1
  have hnum1 : toInt32 (s.list.num_elements - 1) = (rest.length : Int) := by
    rw [hnum]; exact toInt32_pred _ hn
  cases rest with
  | nil =>
    have h1 : s.list.num_elements = 1 := by rw [hnum]; rfl
    have hpop : LinkedList_Pop s = some (some c.2, ⟨s.nodes.set c.1 none,
        ⟨toInt32 (s.list.num_elements - 1), none, none⟩⟩) := by
      simp only [LinkedList_Pop, hhead, firstAddr, hc, h1, if_true, one_ne_zero, if_false]
    refine ⟨_, hpop, ?_⟩
    rw [Represents_nil_iff]
    show LinkedList.mk (toInt32 (s.list.num_elements - 1)) none none = _
    rw [hnum1]; rfl
  | cons d rest =>
    have h1 : s.list.num_elements ≠ 1 := by
      rw [hnum]; simp only [List.length_cons]; push_cast; omega
    have hd : nodeAt s.nodes d.1 = some ⟨d.2, firstAddr rest none, some c.1⟩ := hseg.2.1
    have hdn : d.1 ∉ rest.map Prod.fst := (List.nodup_cons.mp (List.nodup_cons.mp hnd).2).1
    refine ⟨_, by simp only [LinkedList_Pop, hne, if_false, hhead, firstAddr, hc, h1, hd]; rfl, ?_⟩
    refine ⟨?_, (List.nodup_cons.mp hnd).2, hnum1, rfl, ?_⟩
    · have h2 := Seg_set_prev none hseg.2 hdn
      refine Seg_frame ?_ h2
      intro e he
      apply nodeAt_set_ne
      intro heq
      exact hcn (List.mem_map.mpr ⟨e, he, heq.symm⟩)
    · show s.list.tail = _
      rw [htail, lastAddr_cons_cons _ d rest none none]

/-- `LinkedList_Append` on a represented list. -/
theorem LinkedList_Append_Represents {s : Heap} {cells : List (Nat × Nat)} (p : Nat)
    (h : Represents s cells) (hn : s.list.num_elements < 2147483647) :
    ∃ s1, LinkedList_Append s p = some s1 ∧ Represents s1 (cells ++ [(s.nodes.length, p)]) ∧
      s1.list.num_elements = s.list.num_elements + 1 := by
  obtain ⟨hseg, hnd, hnum, hhead, htail⟩ := h
  rw [hnum] at hn
  have hnum1 : toInt32 (s.list.num_elements + 1) = s.list.num_elements + 1 := by
    rw [hnum, toInt32_succ _ hn]; push_cast; rfl
  have hlt := Seg_lt hseg
  have hfresh : s.nodes.length ∉ cells.map Prod.fst := by
    intro hmem
    obtain ⟨d, hd, hd2⟩ := List.mem_map.mp hmem
    have := hlt d hd
    rw [hd2] at this
    exact Nat.lt_irrefl _ this
  have hnd1 : ((cells ++ [(s.nodes.length, p)]).map Prod.fst).Nodup := by
    rw [List.map_append, List.nodup_append]
    refine ⟨hnd, by simp, ?_⟩
    intro a ha hb
    simp only [List.map_cons, List.map_nil, List.mem_singleton] at hb
    exact hfresh (hb ▸ ha)
  induction cells using List.reverseRecOn with
  | nil =>
    simp only [List.length_nil, Nat.cast_zero, firstAddr, lastAddr_nil] at hnum hhead htail
    have happ : LinkedList_Append s p = some ⟨s.nodes ++ [some ⟨p, none, none⟩],
        ⟨toInt32 (s.list.num_elements + 1), some s.nodes.length, some s.nodes.length⟩⟩ := by
      simp only [LinkedList_Append, hnum, if_true]
    have h1 : toInt32 (s.list.num_elements + 1) = 1 := by
      rw [hnum]; exact toInt32_of_range _ (by omega) (by omega)
    refine ⟨_, happ, ?_, ?_⟩
    · exact ⟨⟨nodeAt_append_new _ _, trivial⟩, by simp, h1, rfl, rfl⟩
    · exact hnum1
  | append_singleton init t _ =>
    have hne : s.list.num_elements ≠ 0 := by
      rw [hnum]; simp only [List.length_append, List.length_singleton]; push_cast; omega
    have hsplit := (Seg_append _ init [t] none none).mp hseg
    have ht : nodeAt s.nodes t.1 = some ⟨t.2, none, lastAddr init none⟩ := hsplit.2.1
    have htl : s.list.tail = some t.1 := by rw [htail, lastAddr_append]; rfl
    have htn : t.1 ∉ init.map Prod.fst := by
      rw [List.map_append, List.nodup_append] at hnd
      intro hmem
      exact hnd.2.2 hmem (by simp)
    refine ⟨_, by simp only [LinkedList_Append, hne, if_false, htl, ht]; rfl, ?_, ?_⟩
    · refine ⟨?_, hnd1, ?_, ?_, ?_⟩
      · rw [Seg_append]
        constructor
        · have h2 := Seg_set_next (some s.nodes.length) hseg htn
          refine Seg_frame ?_ h2
          intro d hd
          apply nodeAt_append_left
          rw [List.length_set]
          exact hlt d hd
        · refine ⟨?_, trivial⟩
          have := nodeAt_append_new (s.nodes.set t.1 (some ⟨t.2, some s.nodes.length,
            lastAddr init none⟩)) (some ⟨p, none, some t.1⟩)
          rw [List.length_set] at this
          rw [lastAddr_append]
          exact this
      · show toInt32 (s.list.num_elements + 1) = _
        rw [hnum1, hnum]
        simp only [List.length_append, List.length_singleton]
        push_cast; rfl
      · show s.list.head = _
        rw [hhead, firstAddr_append, firstAddr_append]
        cases init <;> rfl
      · rw [lastAddr_append]
        rfl
    · exact hnum1

/-- `LLSlice` on a represented list that is not empty. -/
theorem LLSlice_Represents {s : Heap} {init : List (Nat × Nat)} {c : Nat × Nat}
    (h : Represents s (init ++ [c])) (hn : s.list.num_elements < 2147483648) :
    ∃ s1, LLSlice s = some (some c.2, s1) ∧ Represents s1 init := by
  obtain ⟨hseg, hnd, hnum, hhead, htail⟩ := h
  rw [hnum] at hn
  have hne : s.list.num_elements ≠ 0 := by
    rw [hnum]; simp only [List.length_append, List.length_singleton]; push_cast; omega
  have hsplit := (Seg_append _ init [c] none none).mp hseg
  have hc : nodeAt s.nodes c.1 = some ⟨c.2, none, lastAddr init none⟩ := hsplit.2.1
  have htl : s.list.tail = some c.1 := by rw [htail, lastAddr_append]; rfl
  have hnd' := hnd
  rw [List.map_append, List.nodup_append] at hnd'
  have hcn : c.1 ∉ init.map Prod.fst := fun hmem => hnd'.2.2 hmem (by simp)
  have hnum1 : toInt32 (s.list.num_elements - 1) = (init.length : Int) := by
    rw [hnum]
    simp only [List.length_append, List.length_singleton] at hn ⊢
    exact toInt32_pred _ hn
  induction init using List.reverseRecOn with
  | nil =>
    have h1 : s.list.num_elements = 1 := by rw [hnum]; rfl
    have hsl : LLSlice s = some (some c.2, ⟨s.nodes.set c.1 none,
        ⟨toInt32 (s.list.num_elements - 1), none, none⟩⟩) := by
      simp only [LLSlice, htl, hc, h1, if_true, one_ne_zero, if_false]
    refine ⟨_, hsl, ?_⟩
    rw [Represents_nil_iff]
    show LinkedList.mk (toInt32 (s.list.num_elements - 1)) none none = _
    rw [hnum1]; rfl
  | append_singleton init t _ =>
    have h1 : s.list.num_elements ≠ 1 := by
      rw [hnum]; simp only [List.length_append, List.length_singleton]; push_cast; omega
    have hprev : lastAddr (init ++ [t]) none = some t.1 := by rw [lastAddr_append]; rfl
    rw [hprev] at hc
    have hsplit2 := (Seg_append _ init [t] none _).mp hsplit.1
    have ht : nodeAt s.nodes t.1 = some ⟨t.2, some c.1, lastAddr init none⟩ := hsplit2.2.1
    have htn : t.1 ∉ init.map Prod.fst := by
      have := hnd'.1
      rw [List.map_append, List.nodup_append] at this
      intro hmem
      exact this.2.2 hmem (by simp)
    refine ⟨_, by simp only [LLSlice, hne, if_false, htl, hc, h1, ht]; rfl, ?_⟩
    refine ⟨?_, hnd'.1, hnum1, ?_, ?_⟩
    · have h2 := Seg_set_next none hsplit.1 htn
      refine Seg_frame ?_ h2
      intro e he
      apply nodeAt_set_ne
      intro heq
      exact hcn (List.mem_map.mpr ⟨e, he, heq.symm⟩)
    · show s.list.head = _
      rw [hhead, firstAddr_append (init ++ [t]) [c], firstAddr_append init [t],
        firstAddr_append init [t]]
      rfl
    · exact hprev.symm

theorem forward_head {nodes : List (Option LinkedListNode)} {fuel : Nat} {start : Option Nat}
    {f : List Nat} (h : forward nodes fuel start = some f) : start = f.head? := by
  cases start with
  | none =>
    cases fuel <;> simp only [forward, Option.some.injEq] at h <;> rw [← h] <;> rfl
  | some a =>
    cases fuel with
    | zero => simp [forward] at h
    | succ fuel =>
      simp only [forward] at h
      cases hn : nodeAt nodes a with
      | none => simp [hn] at h
      | some n =>
        simp only [hn, Option.map_eq_some'] at h
        obtain ⟨r, _, rfl⟩ := h
        rfl

theorem forward_cons {nodes : List (Option LinkedListNode)} {fuel : Nat} {start : Option Nat}
    {a : Nat} {rest : List Nat} (h : forward nodes fuel start = some (a :: rest)) :
    ∃ n, nodeAt nodes a = some n ∧ ∃ fuel1, forward nodes fuel1 n.next = some rest := by
  have hs := forward_head h
  simp only [List.head?_cons] at hs
  subst hs
  cases fuel with
  | zero => simp [forward] at h
  | succ fuel =>
    simp only [forward] at h
    cases hn : nodeAt nodes a with
    | none => simp [hn] at h
    | some n =>
      simp only [hn, Option.map_eq_some', List.cons.injEq, true_and] at h
      obtain ⟨r, hr, rfl⟩ := h
      exact ⟨n, rfl, fuel, hr⟩

theorem backward_head {nodes : List (Option LinkedListNode)} {fuel : Nat} {start : Option Nat}
    {f : List Nat} (h : backward nodes fuel start = some f) : start = f.head? := by
  cases start with
  | none =>
    cases fuel <;> simp only [backward, Option.some.injEq] at h <;> rw [← h] <;> rfl
  | some a =>
    cases fuel with
    | zero => simp [backward] at h
    | succ fuel =>
      simp only [backward] at h
      cases hn : nodeAt nodes a with
      | none => simp [hn] at h
      | some n =>
        simp only [hn, Option.map_eq_some'] at h
        obtain ⟨r, _, rfl⟩ := h
        rfl

theorem backward_cons {nodes : List (Option LinkedListNode)} {fuel : Nat} {start : Option Nat}
    {a : Nat} {rest : List Nat} (h : backward nodes fuel start = some (a :: rest)) :
    ∃ n, nodeAt nodes a = some n ∧ ∃ fuel1, backward nodes fuel1 n.prev = some rest := by
  have hs := backward_head h
  simp only [List.head?_cons] at hs
  subst hs
  cases fuel with
  | zero => simp [backward] at h
  | succ fuel =>
    simp only [backward] at h
    cases hn : nodeAt nodes a with
    | none => simp [hn] at h
    | some n =>
      simp only [hn, Option.map_eq_some', List.cons.injEq, true_and] at h
      obtain ⟨r, hr, rfl⟩ := h
      exact ⟨n, rfl, fuel, hr⟩

/-- Every node met on a forward walk points to the node met next. -/
theorem forward_links {nodes : List (Option LinkedListNode)} (f : List Nat) :
    ∀ (fuel : Nat) (start : Option Nat), forward nodes fuel start = some f →
      ∀ l1 a l2, f = l1 ++ a :: l2 → ∃ n, nodeAt nodes a = some n ∧ n.next = l2.head? := by
  induction f with
  | nil => intro _ _ _ l1 a l2 h; cases l1 <;> cases h
  | cons x rest ih =>
    intro fuel start h l1 a l2 hf
    obtain ⟨n, hn, fuel1, hrest⟩ := forward_cons h
    cases l1 with
    | nil =>
      simp only [List.nil_append, List.cons.injEq] at hf
      obtain ⟨rfl, rfl⟩ := hf
      exact ⟨n, hn, forward_head hrest⟩
    | cons y l1 =>
      simp only [List.cons_append, List.cons.injEq] at hf
      exact ih fuel1 n.next hrest l1 a l2 hf.2

/-- Every node met on a backward walk points back to the node met next. -/
theorem backward_links {nodes : List (Option LinkedListNode)} (f : List Nat) :
    ∀ (fuel : Nat) (start : Option Nat), backward nodes fuel start = some f →
      ∀ l1 a l2, f = l1 ++ a :: l2 → ∃ n, nodeAt nodes a = some n ∧ n.prev = l2.head? := by
  induction f with
  | nil => intro _ _ _ l1 a l2 h; cases l1 <;> cases h
  | cons x rest ih =>
    intro fuel start h l1 a l2 hf
    obtain ⟨n, hn, fuel1, hrest⟩ := backward_cons h
    cases l1 with
    | nil =>
      simp only [List.nil_append, List.cons.injEq] at hf
      obtain ⟨rfl, rfl⟩ := hf
      exact ⟨n, hn, backward_head hrest⟩
    | cons y l1 =>
      simp only [List.cons_append, List.cons.injEq] at hf
      exact ih fuel1 n.prev hrest l1 a l2 hf.2

/-- On a walk that reaches `NULL`, what follows an address is the same at each of
its occurrences. -/
theorem links_suffix_unique {nodes : List (Option LinkedListNode)} {f : List Nat}
    (H : ∀ l1 a l2, f = l1 ++ a :: l2 → ∃ n, nodeAt nodes a = some n ∧ n.next = l2.head?) :
    ∀ (l2 l1 l1' l2' : List Nat) (a : Nat), f = l1 ++ a :: l2 → f = l1' ++ a :: l2' → l2 = l2' := by
  intro l2
  induction l2 with
  | nil =>
    intro l1 l1' l2' a h1 h2
    obtain ⟨n, hn, hnext⟩ := H l1 a [] h1
    obtain ⟨n', hn', hnext'⟩ := H l1' a l2' h2
    rw [hn] at hn'
    cases hn'
    rw [hnext] at hnext'
    cases l2' with
    | nil => rfl
    | cons b m => simp at hnext'
  | cons b m ih =>
    intro l1 l1' l2' a h1 h2
    obtain ⟨n, hn, hnext⟩ := H l1 a (b :: m) h1
    obtain ⟨n', hn', hnext'⟩ := H l1' a l2' h2
    rw [hn] at hn'
    cases hn'
    rw [hnext] at hnext'
    cases l2' with
    | nil => simp at hnext'
    | cons b' m' =>
      simp only [List.head?_cons, Option.some.injEq] at hnext'
      subst hnext'
      have := ih (l1 ++ [a]) (l1' ++ [a]) m' b (by simp [h1]) (by simp [h2])
      rw [this]

theorem links_nodup {nodes : List (Option LinkedListNode)} (f : List Nat) :
    (∀ l1 a l2, f = l1 ++ a :: l2 → ∃ n, nodeAt nodes a = some n ∧ n.next = l2.head?) →
      f.Nodup := by
  induction f with
  | nil => intro _; exact List.nodup_nil
  | cons x rest ih =>
    intro H
    rw [List.nodup_cons]
    constructor
    · intro hx
      obtain ⟨l3, l4, h34⟩ := List.append_of_mem hx
      have := links_suffix_unique H rest [] (x :: l3) l4 x rfl (by rw [h34]; rfl)
      have hlen := congrArg List.length h34
      rw [this] at hlen
      simp only [List.length_append, List.length_cons] at hlen
      omega
    · apply ih
      intro l1 a l2 h
      exact H (x :: l1) a l2 (by rw [h]; rfl)

/-- The cells of a walk: each address with the payload stored there. -/
theorem Seg_of_links {nodes : List (Option LinkedListNode)} (f : List Nat) :
    ∀ prev : Option Nat,
      (∀ l1 a l2, f = l1 ++ a :: l2 → ∃ n, nodeAt nodes a = some n ∧ n.next = l2.head? ∧
        n.prev = if l1 = [] then prev else l1.getLast?) →
      Seg nodes prev (f.map fun a => (a, payloadAt nodes a)) none := by
  induction f with
  | nil => intro _ _; trivial
  | cons x rest ih =>
    intro prev H
    obtain ⟨n, hn, hnext, hprev⟩ := H [] x rest rfl
    simp only [if_true] at hprev
    refine ⟨?_, ih (some x) ?_⟩
    · show nodeAt nodes x = some ⟨payloadAt nodes x, _, prev⟩
      have hp : payloadAt nodes x = n.payload := by simp only [payloadAt, hn]
      have hf : firstAddr (rest.map fun a => (a, payloadAt nodes a)) none = rest.head? := by
        cases rest <;> rfl
      rw [hn, hp, hf, ← hnext, ← hprev]
    · intro l1 a l2 h
      obtain ⟨m, hm, hmn, hmp⟩ := H (x :: l1) a l2 (by rw [h]; rfl)
      refine ⟨m, hm, hmn, ?_⟩
      rw [hmp, if_neg (List.cons_ne_nil _ _)]
      cases l1 with
      | nil => rfl
      | cons y l1 => rw [if_neg (List.cons_ne_nil _ _), List.getLast?_cons_cons]

theorem lastAddr_map (nodes : List (Option LinkedListNode)) (f : List Nat) :
    lastAddr (f.map fun a => (a, payloadAt nodes a)) none = f.getLast? := by
  induction f using List.reverseRecOn with
  | nil => rfl
  | append_singleton f a _ => simp [lastAddr_append, lastAddr]

/-- A heap that satisfies the structural invariant represents a sequence of cells. -/
theorem Represents_of_Invariant {s : Heap} (h : Invariant s) :
    ∃ cells, Represents s cells := by
  obtain ⟨f, hfw, hnum, _, _, _, _, hbw⟩ := h
  have HN := forward_links f _ _ hfw
  have HP := backward_links f.reverse _ _ hbw
  refine ⟨f.map fun a => (a, payloadAt s.nodes a), ?_, ?_, ?_, ?_, ?_⟩
  · apply Seg_of_links
    intro l1 a l2 hf
    obtain ⟨n, hn, hnext⟩ := HN l1 a l2 hf
    obtain ⟨m, hm, hprev⟩ := HP l2.reverse a l1.reverse (by rw [hf]; simp)
    rw [hn] at hm
    cases hm
    refine ⟨n, hn, hnext, ?_⟩
    rw [hprev, List.head?_reverse]
    cases l1 with
    | nil => rfl
    | cons y l1 => rw [if_neg (List.cons_ne_nil _ _)]
  · rw [List.map_map]
    have : (Prod.fst ∘ fun a => (a, payloadAt s.nodes a)) = id := rfl
    rw [this, List.map_id]
    exact links_nodup f HN
  · rw [hnum, List.length_map]
  · rw [forward_head hfw]
    cases f <;> rfl
  · rw [backward_head hbw, lastAddr_map, List.head?_reverse]

theorem Invariant_iff_Represents (s : Heap) : Invariant s ↔ ∃ cells, Represents s cells :=
  ⟨Represents_of_Invariant, fun ⟨_, h⟩ => Invariant_of_Represents h⟩

theorem Seg_frame_set {nodes : List (Option LinkedListNode)} {cells : List (Nat × Nat)}
    {prev nxt : Option Nat} (a : Nat) (v : Option LinkedListNode)
    (hs : Seg nodes prev cells nxt) (ha : a ∉ cells.map Prod.fst) :
    Seg (nodes.set a v) prev cells nxt := by
  refine Seg_frame ?_ hs
  intro e he
  apply nodeAt_set_ne
  intro heq
  exact ha (List.mem_map.mpr ⟨e, he, heq.symm⟩)

theorem firstAddr_mem {cells : List (Nat × Nat)} (h : cells ≠ []) (nxt : Option Nat) :
    ∃ x ∈ cells, firstAddr cells nxt = some x.1 := by
  cases cells with
  | nil => exact absurd rfl h
  | cons c rest => exact ⟨c, List.mem_cons_self _ _, rfl⟩

theorem lastAddr_mem {cells : List (Nat × Nat)} (h : cells ≠ []) (prev : Option Nat) :
    ∃ x ∈ cells, lastAddr cells prev = some x.1 := by
  induction cells using List.reverseRecOn with
  | nil => exact absurd rfl h
  | append_singleton init c _ =>
    exact ⟨c, by simp, by rw [lastAddr_append]; rfl⟩

theorem firstAddr_snoc (pre : List (Nat × Nat)) (t : Nat × Nat) (x y : Option Nat) :
    firstAddr (pre ++ [t]) x = firstAddr (pre ++ [t]) y := by
  cases pre <;> rfl

/-- `LLIterator_Remove` on a represented list, with the iterator on the cell `c`. -/
theorem LLIterator_Remove_Represents {s : Heap} {pre post : List (Nat × Nat)} {c : Nat × Nat}
    (h : Represents s (pre ++ c :: post)) (hn : s.list.num_elements < 2147483648) :
    ∃ s1, LLIterator_Remove s (some c.1) =
        some (decide (pre ++ post ≠ []), firstAddr post (lastAddr pre none), s1) ∧
      Represents s1 (pre ++ post) := by
  obtain ⟨hseg, hnd, hnum, hhead, htail⟩ := h
  rw [hnum] at hn
  have hsplit := (Seg_append _ pre (c :: post) none none).mp hseg
  have hc : nodeAt s.nodes c.1 = some ⟨c.2, firstAddr post none, lastAddr pre none⟩ := hsplit.2.1
  have hnd' := hnd
  rw [List.map_append, List.map_cons, List.nodup_append, List.nodup_cons] at hnd'
  obtain ⟨hndpre, ⟨hcpost, hndpost⟩, hdisj⟩ := hnd'
  have hcpre : c.1 ∉ pre.map Prod.fst := fun hm => hdisj hm (List.mem_cons_self _ _)
  have hdis2 : ∀ a, a ∈ pre.map Prod.fst → a ∉ post.map Prod.fst :=
    fun a ha hb => hdisj ha (List.mem_cons_of_mem _ hb)
  have hnd2 : ((pre ++ post).map Prod.fst).Nodup := by
    rw [List.map_append, List.nodup_append]
    exact ⟨hndpre, hndpost, fun a ha hb => hdis2 a ha hb⟩
  have hnum1 : toInt32 (s.list.num_elements - 1) = ((pre ++ post).length : Int) := by
    rw [hnum]
    simp only [List.length_append, List.length_cons] at hn ⊢
    rw [show pre.length + (post.length + 1) = (pre.length + post.length) + 1 from by omega] at hn ⊢
    exact toInt32_pred _ hn
  have htl : s.list.tail = lastAddr post (some c.1) := by
    rw [htail, lastAddr_append, lastAddr_cons]
  have hhd : s.list.head = firstAddr pre (some c.1) := by
    rw [hhead, firstAddr_append]; rfl
  cases post with
  | nil =>
    induction pre using List.reverseRecOn with
    | nil =>
      have h1 : s.list.num_elements = 1 := by rw [hnum]; rfl
      have hrm : LLIterator_Remove s (some c.1) = some (false, none, ⟨s.nodes.set c.1 none,
          ⟨toInt32 (s.list.num_elements - 1), none, none⟩⟩) := by
        simp only [LLIterator_Remove, hc, h1, if_true]
      refine ⟨_, hrm, ?_⟩
      show Represents _ []
      rw [Represents_nil_iff]
      show LinkedList.mk (toInt32 (s.list.num_elements - 1)) none none = _
      rw [hnum1]; rfl
    | append_singleton pre t _ =>
      have h1 : s.list.num_elements ≠ 1 := by
        rw [hnum]; simp only [List.length_append, List.length_singleton]; push_cast; omega
      have hprev : lastAddr (pre ++ [t]) none = some t.1 := by rw [lastAddr_append]; rfl
      rw [hprev] at hc
      have hhne : s.list.head ≠ some c.1 := by
        obtain ⟨x, hx, hfx⟩ := firstAddr_mem (List.append_ne_nil_of_right_ne_nil pre
          (List.cons_ne_nil t [])) (some c.1)
        rw [hhd, hfx]
        intro heq
        exact hcpre (List.mem_map.mpr ⟨x, hx, Option.some.inj heq⟩)
      have htl' : s.list.tail = some c.1 := htl
      have hsplit2 := (Seg_append _ pre [t] none _).mp hsplit.1
      have ht : nodeAt s.nodes t.1 = some ⟨t.2, some c.1, lastAddr pre none⟩ := hsplit2.2.1
      have htn : t.1 ∉ pre.map Prod.fst := by
        rw [List.map_append, List.nodup_append] at hndpre
        intro hmem
        exact hndpre.2.2 hmem (by simp)
      have hrm : LLIterator_Remove s (some c.1) = some (true, some t.1,
          ⟨(s.nodes.set t.1 (some ⟨t.2, none, lastAddr pre none⟩)).set c.1 none,
            ⟨toInt32 (s.list.num_elements - 1), s.list.head, some t.1⟩⟩) := by
        simp only [LLIterator_Remove, hc, h1, if_false, hhne, htl', if_true, ht]
      have hflag : decide (pre ++ [t] ++ [] ≠ []) = true := by simp
      have hit : firstAddr [] (lastAddr (pre ++ [t]) none) = some t.1 := hprev
      rw [hflag, hit]
      refine ⟨_, hrm, ?_⟩
      · rw [List.append_nil]
        refine ⟨?_, hndpre, by rw [← List.append_nil (pre ++ [t])]; exact hnum1, ?_, hprev.symm⟩
        · exact Seg_frame_set _ _ (Seg_set_next none hsplit.1 htn) hcpre
        · show s.list.head = _
          rw [hhd]
          exact firstAddr_snoc _ _ _ _
  | cons d post =>
    have h1 : s.list.num_elements ≠ 1 := by
      rw [hnum]; simp only [List.length_append, List.length_cons]; push_cast; omega
    have hd : nodeAt s.nodes d.1 = some ⟨d.2, firstAddr post none, some c.1⟩ := hsplit.2.2.1
    have hdn : d.1 ∉ post.map Prod.fst := (List.nodup_cons.mp hndpost).1
    have hcd : c.1 ≠ d.1 := fun heq => hcpost (by rw [heq]; simp)
    have hcpost' : c.1 ∉ (d :: post).map Prod.fst := hcpost
    induction pre using List.reverseRecOn with
    | nil =>
      have hhd' : s.list.head = some c.1 := hhd
      have hrm : LLIterator_Remove s (some c.1) = some (true, some d.1,
          ⟨(s.nodes.set d.1 (some ⟨d.2, firstAddr post none, none⟩)).set c.1 none,
            ⟨toInt32 (s.list.num_elements - 1), some d.1, s.list.tail⟩⟩) := by
        simp only [LLIterator_Remove, hc, h1, if_false, hhd', if_true, firstAddr, hd]
      have hflag : decide ([] ++ d :: post ≠ []) = true := by simp
      have hit : firstAddr (d :: post) (lastAddr [] none) = some d.1 := rfl
      rw [hflag, hit]
      refine ⟨_, hrm, ?_⟩
      · refine ⟨?_, hnd2, hnum1, rfl, ?_⟩
        · exact Seg_frame_set _ _ (Seg_set_prev none hsplit.2.2 hdn) hcpost'
        · show s.list.tail = lastAddr (d :: post) none
          rw [htl, lastAddr_cons, lastAddr_cons]
    | append_singleton pre t _ =>
      have hprev : lastAddr (pre ++ [t]) none = some t.1 := by rw [lastAddr_append]; rfl
      rw [hprev] at hc
      have hhne : s.list.head ≠ some c.1 := by
        obtain ⟨x, hx, hfx⟩ := firstAddr_mem (List.append_ne_nil_of_right_ne_nil pre
          (List.cons_ne_nil t [])) (some c.1)
        rw [hhd, hfx]
        intro heq
        exact hcpre (List.mem_map.mpr ⟨x, hx, Option.some.inj heq⟩)
      have htne : s.list.tail ≠ some c.1 := by
        obtain ⟨x, hx, hfx⟩ := lastAddr_mem (List.cons_ne_nil d post) (some c.1)
        rw [htl, hfx]
        intro heq
        exact hcpost (List.mem_map.mpr ⟨x, hx, Option.some.inj heq⟩)
      have hsplit2 := (Seg_append _ pre [t] none _).mp hsplit.1
      have ht : nodeAt s.nodes t.1 = some ⟨t.2, some c.1, lastAddr pre none⟩ := hsplit2.2.1
      have htn : t.1 ∉ pre.map Prod.fst := by
        rw [List.map_append, List.nodup_append] at hndpre
        intro hmem
        exact hndpre.2.2 hmem (by simp)
      have htpost : t.1 ∉ (d :: post).map Prod.fst := hdis2 t.1 (by simp)
      have htd : d.1 ≠ t.1 := fun heq => htpost (by rw [← heq]; simp)
      have hdpre : d.1 ∉ (pre ++ [t]).map Prod.fst := fun hm => hdis2 d.1 hm (by simp)
      have ht1 : nodeAt (s.nodes.set d.1 (some ⟨d.2, firstAddr post none, some t.1⟩)) t.1 =
          some ⟨t.2, some c.1, lastAddr pre none⟩ := by
        rw [nodeAt_set_ne _ _ _ _ htd, ht]
      have hrm : LLIterator_Remove s (some c.1) = some (true, some d.1,
          ⟨((s.nodes.set d.1 (some ⟨d.2, firstAddr post none, some t.1⟩)).set t.1
              (some ⟨t.2, some d.1, lastAddr pre none⟩)).set c.1 none,
            ⟨toInt32 (s.list.num_elements - 1), s.list.head, s.list.tail⟩⟩) := by
        have hc' : nodeAt s.nodes c.1 = some ⟨c.2, some d.1, some t.1⟩ := hc
        simp only [LLIterator_Remove, hc', h1, if_false, hhne, htne, hd, ht1]
      have hflag : decide (pre ++ [t] ++ d :: post ≠ []) = true := by simp
      have hit : firstAddr (d :: post) (lastAddr (pre ++ [t]) none) = some d.1 := rfl
      rw [hflag, hit]
      refine ⟨_, hrm, ?_⟩
      · refine ⟨?_, hnd2, hnum1, ?_, ?_⟩
        · rw [Seg_append]
          constructor
          · have hA := Seg_frame_set d.1 (some ⟨d.2, firstAddr post none, some t.1⟩) hsplit.1 hdpre
            exact Seg_frame_set _ _ (Seg_set_next (some d.1) hA htn) hcpre
          · have hB := Seg_set_prev (some t.1) hsplit.2.2 hdn
            rw [hprev]
            exact Seg_frame_set _ _ (Seg_frame_set t.1 _ hB htpost) hcpost'
        · show s.list.head = _
          rw [hhd, firstAddr_append (pre ++ [t]) (d :: post)]
          exact firstAddr_snoc _ _ _ _
        · show s.list.tail = _
          rw [htl, lastAddr_append, lastAddr_cons, lastAddr_cons]

theorem sampleList_Invariant : Invariant sampleList :=
  ⟨[0, 1, 2], by decide, by decide, by decide, by decide, by decide, by decide, by decide⟩

theorem Represents_num_nonneg {s : Heap} {cells : List (Nat × Nat)} (h : Represents s cells) :
    s.list.num_elements = 0 ↔ cells = [] := by
  rw [h.2.2.1]
  cases cells <;> simp
  omega

theorem LinkedList_Pop_empty (s : Heap) (h : s.list.num_elements = 0) :
    LinkedList_Pop s = some (none, s) := by
  simp only [LinkedList_Pop, h, if_true]

theorem LLSlice_empty (s : Heap) (h : s.list.num_elements = 0) :
    LLSlice s = some (none, s) := by
  simp only [LLSlice, h, if_true]

/-- C38: on a list that satisfies the structural invariant and holds fewer than
`INT_MAX` elements, `LinkedList_Push(p)` makes the payload sequence `p :: xs` and a
`LinkedList_Pop` right after it returns `p` and the sequence `xs` again;
`LinkedList_Append(p)` makes it `xs ++ [p]` and an `LLSlice` right after it returns
`p` and the sequence `xs` again; on an empty list `LinkedList_Pop` and `LLSlice`
return `false` and leave the heap and the record as they are. -/
theorem LinkedList_round_trips (s : Heap) (p : Nat) (hinv : Invariant s)
    (hn : s.list.num_elements < 2147483647) :
    (∃ s1 s2, LinkedList_Push s p = some s1 ∧
        LinkedList_payloads s1 = p :: LinkedList_payloads s ∧
        LinkedList_Pop s1 = some (some p, s2) ∧
        LinkedList_payloads s2 = LinkedList_payloads s) ∧
      (∃ s1 s2, LinkedList_Append s p = some s1 ∧
        LinkedList_payloads s1 = LinkedList_payloads s ++ [p] ∧
        LLSlice s1 = some (some p, s2) ∧
        LinkedList_payloads s2 = LinkedList_payloads s) ∧
      (LinkedList_payloads s = [] →
        LinkedList_Pop s = some (none, s) ∧ LLSlice s = some (none, s)) := by
  obtain ⟨cells, hrep⟩ := Represents_of_Invariant hinv
  refine ⟨?_, ?_, ?_⟩
  · obtain ⟨s1, h1, hr1, hn1⟩ := LinkedList_Push_Represents p hrep hn
    obtain ⟨s2, h2, hr2⟩ := LinkedList_Pop_Represents hr1 (by rw [hn1]; omega)
    exact ⟨s1, s2, h1, by rw [Represents_payloads hr1, Represents_payloads hrep]; rfl, h2,
      by rw [Represents_payloads hr2, Represents_payloads hrep]⟩
  · obtain ⟨s1, h1, hr1, hn1⟩ := LinkedList_Append_Represents p hrep hn
    obtain ⟨s2, h2, hr2⟩ := LLSlice_Represents hr1 (by rw [hn1]; omega)
    exact ⟨s1, s2, h1, by rw [Represents_payloads hr1, Represents_payloads hrep]; simp, h2,
      by rw [Represents_payloads hr2, Represents_payloads hrep]⟩
  · intro hempty
    rw [Represents_payloads hrep, List.map_eq_nil_iff] at hempty
    have h0 := (Represents_num_nonneg hrep).mpr hempty
    exact ⟨LinkedList_Pop_empty s h0, LLSlice_empty s h0⟩

/-- The statement of C38 at the sample list 30, 10, 20 and the payload 5. -/
theorem LinkedList_round_trips_witness :
    (∃ s1 s2, LinkedList_Push sampleList 5 = some s1 ∧
        LinkedList_payloads s1 = 5 :: LinkedList_payloads sampleList ∧
        LinkedList_Pop s1 = some (some 5, s2) ∧
        LinkedList_payloads s2 = LinkedList_payloads sampleList) ∧
      (∃ s1 s2, LinkedList_Append sampleList 5 = some s1 ∧
        LinkedList_payloads s1 = LinkedList_payloads sampleList ++ [5] ∧
        LLSlice s1 = some (some 5, s2) ∧
        LinkedList_payloads s2 = LinkedList_payloads sampleList) :=
  ⟨(LinkedList_round_trips sampleList 5 sampleList_Invariant (by decide)).1,
    (LinkedList_round_trips sampleList 5 sampleList_Invariant (by decide)).2.1⟩

theorem lastAddr_eq_getLast (cells : List (Nat × Nat)) :
    lastAddr cells none = (cells.map Prod.fst).getLast? := by
  induction cells using List.reverseRecOn with
  | nil => rfl
  | append_singleton f a _ => simp [lastAddr_append, lastAddr]

/-- C40: the structural invariant (`num_elements` nodes are met from `head` before
`NULL`; `head` and `tail` are `NULL` exactly when `num_elements` is 0; `head` has no
predecessor and `tail` no successor; the walk back from `tail` is the reverse of the
walk from `head`) holds after `LinkedList_Allocate` and is kept by
`LinkedList_Push` and `LinkedList_Append` (on a list of fewer than `INT_MAX`
elements), by `LinkedList_Pop` and `LLSlice`, and by `LLIterator_Remove` on an
iterator that stands on a node of the list; `LLIterator_Remove` takes exactly that
node out of the walk, returns `false` exactly when no node is left, and leaves the
iterator on the successor, or on the predecessor when there is no successor. -/
theorem LinkedList_invariant_kept :
    (∀ nodes, Invariant (LinkedList_Allocate nodes)) ∧
    (∀ s p, Invariant s → s.list.num_elements < 2147483647 →
      ∃ s1, LinkedList_Push s p = some s1 ∧ Invariant s1) ∧
    (∀ s p, Invariant s → s.list.num_elements < 2147483647 →
      ∃ s1, LinkedList_Append s p = some s1 ∧ Invariant s1) ∧
    (∀ s, Invariant s → s.list.num_elements < 2147483648 →
      ∃ r, LinkedList_Pop s = some r ∧ Invariant r.2) ∧
    (∀ s, Invariant s → s.list.num_elements < 2147483648 →
      ∃ r, LLSlice s = some r ∧ Invariant r.2) ∧
    (∀ s pre a post, Invariant s → s.list.num_elements < 2147483648 →
      LinkedList_nodes s = pre ++ a :: post →
      ∃ s1, LLIterator_Remove s (some a) =
          some (decide (pre ++ post ≠ []),
            (if post = [] then pre.getLast? else post.head?), s1) ∧
        Invariant s1 ∧ LinkedList_nodes s1 = pre ++ post ∧
        LinkedList_payloads s1 =
          (LinkedList_payloads s).take pre.length ++ (LinkedList_payloads s).drop (pre.length + 1)) := by
  refine ⟨?_, ?_, ?_, ?_, ?_, ?_⟩
  · intro nodes
    exact Invariant_of_Represents (Represents_nil_iff.mpr rfl)
  · intro s p hinv hn
    obtain ⟨cells, hrep⟩ := Represents_of_Invariant hinv
    obtain ⟨s1, h1, hr1, _⟩ := LinkedList_Push_Represents p hrep hn
    exact ⟨s1, h1, Invariant_of_Represents hr1⟩
  · intro s p hinv hn
    obtain ⟨cells, hrep⟩ := Represents_of_Invariant hinv
    obtain ⟨s1, h1, hr1, _⟩ := LinkedList_Append_Represents p hrep hn
    exact ⟨s1, h1, Invariant_of_Represents hr1⟩
  · intro s hinv hn
    obtain ⟨cells, hrep⟩ := Represents_of_Invariant hinv
    cases cells with
    | nil =>
      exact ⟨_, LinkedList_Pop_empty s ((Represents_num_nonneg hrep).mpr rfl), hinv⟩
    | cons c rest =>
      obtain ⟨s1, h1, hr1⟩ := LinkedList_Pop_Represents hrep hn
      exact ⟨_, h1, Invariant_of_Represents hr1⟩
  · intro s hinv hn
    obtain ⟨cells, hrep⟩ := Represents_of_Invariant hinv
    induction cells using List.reverseRecOn with
    | nil =>
      exact ⟨_, LLSlice_empty s ((Represents_num_nonneg hrep).mpr rfl), hinv⟩
    | append_singleton init c _ =>
      obtain ⟨s1, h1, hr1⟩ := LLSlice_Represents hrep hn
      exact ⟨_, h1, Invariant_of_Represents hr1⟩
  · intro s pre a post hinv hn hnodes
    obtain ⟨cells, hrep⟩ := Represents_of_Invariant hinv
    rw [Represents_nodes hrep] at hnodes
    obtain ⟨cpre, crest, rfl, hpre, hrest⟩ := List.map_eq_append_iff.mp hnodes
    obtain ⟨c, cpost, rfl, hc, hpost⟩ := List.map_eq_cons_iff.mp hrest
    obtain ⟨s1, h1, hr1⟩ := LLIterator_Remove_Represents hrep hn
    subst hpre hpost hc
    have hit : firstAddr cpost (lastAddr cpre none) =
        if cpost.map Prod.fst = [] then (cpre.map Prod.fst).getLast?
        else (cpost.map Prod.fst).head? := by
      rw [lastAddr_eq_getLast]
      cases cpost with
      | nil => rfl
      | cons d cpost => rw [if_neg (by simp)]; rfl
    have hflag : decide (cpre ++ cpost ≠ []) =
        decide (cpre.map Prod.fst ++ cpost.map Prod.fst ≠ []) := by
      cases cpre <;> cases cpost <;> simp
    rw [hit, hflag] at h1
    refine ⟨s1, h1, Invariant_of_Represents hr1, ?_, ?_⟩
    · rw [Represents_nodes hr1, List.map_append]
    · have e1 : (cpre.map Prod.fst).length = (cpre.map Prod.snd).length := by simp
      rw [Represents_payloads hr1, Represents_payloads hrep, e1, List.map_append,
        List.map_append, List.map_cons, List.take_left, List.drop_append]
      rfl

/-- The statement of C40 at the sample list: a push, and the removal of its middle
node. -/
theorem LinkedList_invariant_kept_witness :
    (∃ s1, LinkedList_Push sampleList 5 = some s1 ∧ Invariant s1) ∧
      (∃ s1, LLIterator_Remove sampleList (some 1) = some (true, some 2, s1) ∧
        Invariant s1 ∧ LinkedList_nodes s1 = [0, 2] ∧
        LinkedList_payloads s1 = [30, 20]) :=
  ⟨LinkedList_invariant_kept.2.1 sampleList 5 sampleList_Invariant (by decide),
    LinkedList_invariant_kept.2.2.2.2.2 sampleList [0] 1 [2] sampleList_Invariant (by decide)
      (by decide)⟩

theorem bubblePass_spec (sw : Nat → Nat → Bool) (hasym : ∀ a b, sw a b = true → sw b a = false)
    (rest : List Nat) : ∀ (cur : Nat) (swapped : Bool),
      (bubblePass sw cur rest swapped).1.Perm (cur :: rest) ∧
      inversions sw (bubblePass sw cur rest swapped).1 ≤ inversions sw (cur :: rest) ∧
      ((bubblePass sw cur rest swapped).2 = true →
        swapped = true ∨
          inversions sw (bubblePass sw cur rest swapped).1 < inversions sw (cur :: rest)) ∧
      ((bubblePass sw cur rest swapped).2 = false →
        swapped = false ∧ (bubblePass sw cur rest swapped).1 = cur :: rest ∧
          List.Chain' (fun a b => sw a b = false) (cur :: rest)) := by
  induction rest with
  | nil =>
    intro cur swapped
    refine ⟨List.Perm.refl _, Nat.le_refl _, fun h => Or.inl h, fun h => ⟨h, rfl, ?_⟩⟩
    exact List.chain'_singleton _
  | cons b rest ih =>
    intro cur swapped
    by_cases hsw : sw cur b = true
    · obtain ⟨hperm, hle, _, hfalse⟩ := ih cur true
      have hflag : (bubblePass sw cur rest true).2 = true := by
        cases hf : (bubblePass sw cur rest true).2 with
        | true => rfl
        | false => exact absurd (hfalse hf).1 (by decide)
      have hb : sw b cur = false := hasym cur b hsw
      have hinv : inversions sw (b :: (bubblePass sw cur rest true).1) <
          inversions sw (cur :: b :: rest) := by
        simp only [inversions, List.countP_cons, hsw, if_true] at hle ⊢
        rw [hperm.countP_eq (sw b)]
        simp only [List.countP_cons, hb, Bool.false_eq_true, if_false]
        omega
      simp only [bubblePass, hsw, if_true]
      refine ⟨?_, Nat.le_of_lt hinv, fun _ => Or.inr hinv, fun h => ?_⟩
      · exact (List.Perm.cons b hperm).trans (List.Perm.swap cur b rest)
      · rw [hflag] at h; exact absurd h (by decide)
    · have hsw' : sw cur b = false := by simpa using hsw
      obtain ⟨hperm, hle, htrue, hfalse⟩ := ih b swapped
      have hcount : List.countP (sw cur) (bubblePass sw b rest swapped).1 =
          List.countP (sw cur) (b :: rest) := hperm.countP_eq (sw cur)
      simp only [bubblePass, hsw', Bool.false_eq_true, if_false]
      refine ⟨List.Perm.cons cur hperm, ?_, fun h => ?_, fun h => ?_⟩
      · simp only [inversions] at hle ⊢
        rw [hcount]
        omega
      · rcases htrue h with h1 | h1
        · exact Or.inl h1
        · right
          simp only [inversions] at h1 ⊢
          rw [hcount]
          omega
      · obtain ⟨h1, h2, h3⟩ := hfalse h
        exact ⟨h1, by rw [h2], List.Chain'.cons hsw' h3⟩

theorem bubblePass_length (sw : Nat → Nat → Bool) (rest : List Nat) :
    ∀ (cur : Nat) (swapped : Bool), (bubblePass sw cur rest swapped).1.length = rest.length + 1 := by
  induction rest with
  | nil => intro _ _; rfl
  | cons b rest ih =>
    intro cur swapped
    simp only [bubblePass]
    split <;> simp only [List.length_cons, ih]

/-- Writing another payload into a node of a segment. -/
theorem Seg_set_payload {nodes : List (Option LinkedListNode)} {l1 l2 : List (Nat × Nat)}
    {a x : Nat} {prev nxt : Option Nat} (y : Nat)
    (hs : Seg nodes prev (l1 ++ (a, x) :: l2) nxt)
    (hnd : ((l1 ++ (a, x) :: l2).map Prod.fst).Nodup) :
    Seg (nodes.set a (some ⟨y, firstAddr l2 nxt, lastAddr l1 prev⟩)) prev
      (l1 ++ (a, y) :: l2) nxt := by
  rw [List.map_append, List.map_cons, List.nodup_append, List.nodup_cons] at hnd
  obtain ⟨_, ⟨ha2, _⟩, hdisj⟩ := hnd
  have ha1 : a ∉ l1.map Prod.fst := fun hm => hdisj hm (List.mem_cons_self _ _)
  rw [Seg_append] at hs ⊢
  refine ⟨Seg_frame_set _ _ hs.1 ha1, ?_, Seg_frame_set _ _ hs.2.2 ha2⟩
  exact nodeAt_set_self _ _ _ (nodeAt_lt hs.2.1)

/-- One pass of `LinkedList_Sort` from the node of the cell `c` on. -/
theorem LinkedList_Sort_pass_Seg (cmp : Nat → Nat → Int) (asc : Bool) (rest : List (Nat × Nat)) :
    ∀ (pre : List (Nat × Nat)) (c : Nat × Nat) (nodes : List (Option LinkedListNode))
      (swapped : Bool) (prev : Option Nat),
      Seg nodes prev (pre ++ c :: rest) none →
      ((pre ++ c :: rest).map Prod.fst).Nodup →
      ∀ fuel, rest.length < fuel →
        ∃ nodes1, LinkedList_Sort_pass cmp asc fuel nodes c.1 swapped =
            some (nodes1, (bubblePass (sortSwaps cmp asc) c.2 (rest.map Prod.snd) swapped).2) ∧
          Seg nodes1 prev (pre ++ ((c :: rest).map Prod.fst).zip
            (bubblePass (sortSwaps cmp asc) c.2 (rest.map Prod.snd) swapped).1) none := by
  induction rest with
  | nil =>
    intro pre c nodes swapped prev hseg _ fuel hf
    obtain ⟨fuel, rfl⟩ : ∃ k, fuel = k + 1 := ⟨fuel - 1, by omega⟩
    have hc : nodeAt nodes c.1 = some ⟨c.2, none, lastAddr pre prev⟩ :=
      ((Seg_append _ pre [c] prev none).mp hseg).2.1
    refine ⟨nodes, by simp only [LinkedList_Sort_pass, hc]; rfl, ?_⟩
    exact hseg
  | cons d rest ih =>
    intro pre c nodes swapped prev hseg hnd fuel hf
    obtain ⟨fuel, rfl⟩ : ∃ k, fuel = k + 1 := ⟨fuel - 1, by omega⟩
    have hf' : rest.length < fuel := by simp only [List.length_cons] at hf; omega
    have hsplit := (Seg_append _ pre (c :: d :: rest) prev none).mp hseg
    have hc : nodeAt nodes c.1 = some ⟨c.2, some d.1, lastAddr pre prev⟩ := hsplit.2.1
    have hd : nodeAt nodes d.1 = some ⟨d.2, firstAddr rest none, some c.1⟩ := hsplit.2.2.1
    have hnd' := hnd
    rw [List.map_append, List.map_cons, List.map_cons, List.nodup_append, List.nodup_cons] at hnd'
    have hcd : c.1 ≠ d.1 := fun heq => hnd'.2.1.1 (by rw [heq]; simp)
    by_cases hsw : sortSwaps cmp asc c.2 d.2 = true
    · have hlt : (if asc = true then toInt32 (cmp c.2 d.2 * -1) else cmp c.2 d.2) < 0 := by
        simpa only [sortSwaps, decide_eq_true_eq] using hsw
      have hseg1 : Seg (nodes.set c.1 (some ⟨d.2, some d.1, lastAddr pre prev⟩)) prev
          (pre ++ (c.1, d.2) :: d :: rest) none :=
        Seg_set_payload d.2 (x := c.2) hseg hnd
      have hd1 : nodeAt (nodes.set c.1 (some ⟨d.2, some d.1, lastAddr pre prev⟩)) d.1 =
          some ⟨d.2, firstAddr rest none, some c.1⟩ := by
        rw [nodeAt_set_ne _ _ _ _ hcd, hd]
      have hseg2 : Seg ((nodes.set c.1 (some ⟨d.2, some d.1, lastAddr pre prev⟩)).set d.1
          (some ⟨c.2, firstAddr rest none, some c.1⟩)) prev
          ((pre ++ [(c.1, d.2)]) ++ (d.1, c.2) :: rest) none := by
        have h := @Seg_set_payload _ (pre ++ [(c.1, d.2)]) rest d.1 d.2 prev none c.2
          (by rw [List.append_assoc]; exact hseg1)
          (by rw [List.append_assoc]; simpa using hnd)
        rw [lastAddr_append] at h
        exact h
      obtain ⟨nodes1, hpass, hres⟩ := ih (pre ++ [(c.1, d.2)]) (d.1, c.2) _ true prev hseg2
        (by rw [List.append_assoc]; simpa using hnd) fuel hf'
      refine ⟨nodes1, ?_, ?_⟩
      · rw [LinkedList_Sort_pass]
        simp only [hc, hd, hlt, if_true, hd1]
        rw [hpass]
        simp only [List.map_cons, bubblePass, hsw, if_true]
      · simp only [List.map_cons, bubblePass, hsw, if_true, List.zip_cons_cons]
        rw [List.append_assoc] at hres
        exact hres
    · have hsw' : sortSwaps cmp asc c.2 d.2 = false := by simpa using hsw
      have hlt : ¬ (if asc = true then toInt32 (cmp c.2 d.2 * -1) else cmp c.2 d.2) < 0 := by
        simpa only [sortSwaps, decide_eq_false_iff_not] using hsw'
      obtain ⟨nodes1, hpass, hres⟩ := ih (pre ++ [c]) d nodes swapped prev
        (by rw [List.append_assoc]; exact hseg) (by rw [List.append_assoc]; exact hnd) fuel hf'
      refine ⟨nodes1, ?_, ?_⟩
      · rw [LinkedList_Sort_pass]
        simp only [hc, hd, hlt, if_false]
        rw [hpass]
        simp only [List.map_cons, bubblePass, hsw', Bool.false_eq_true, if_false]
      · simp only [List.map_cons, bubblePass, hsw', Bool.false_eq_true, if_false,
          List.zip_cons_cons]
        rw [List.append_assoc] at hres
        exact hres

/-- The `do ... while (swapped)` loop of `LinkedList_Sort` on the nodes `a :: as`
with the payloads `x :: xs`. -/
theorem LinkedList_Sort_loop_Seg (cmp : Nat → Nat → Int) (asc : Bool)
    (hasym : ∀ a b, sortSwaps cmp asc a b = true → sortSwaps cmp asc b a = false)
    (a : Nat) (as : List Nat) (hnd : (a :: as).Nodup) (steps : Nat) (hsteps : as.length < steps) :
    ∀ (fuel : Nat) (x : Nat) (xs : List Nat) (nodes : List (Option LinkedListNode)),
      Seg nodes none ((a :: as).zip (x :: xs)) none → xs.length = as.length →
      inversions (sortSwaps cmp asc) (x :: xs) < fuel →
      ∃ nodes1 ys, LinkedList_Sort_loop cmp asc steps a fuel nodes = some nodes1 ∧
        Seg nodes1 none ((a :: as).zip ys) none ∧ ys.Perm (x :: xs) ∧
        List.Chain' (fun p q => sortSwaps cmp asc p q = false) ys := by
  intro fuel
  induction fuel with
  | zero => intro x xs nodes _ _ h; exact absurd h (Nat.not_lt_zero _)
  | succ fuel ih =>
    intro x xs nodes hseg hlen hinv
    have hfst : (as.zip xs).map Prod.fst = as := List.map_fst_zip _ _ (by omega)
    have hsnd : (as.zip xs).map Prod.snd = xs := List.map_snd_zip _ _ (by omega)
    obtain ⟨nodes1, hpass, hres⟩ := LinkedList_Sort_pass_Seg cmp asc (as.zip xs) [] (a, x) nodes
      false none hseg (by simpa [hfst] using hnd) steps
      (by rw [List.length_zip, hlen, Nat.min_self]; exact hsteps)
    simp only [hsnd, List.map_cons, hfst, List.nil_append] at hpass hres
    obtain ⟨hperm, _, htrue, hfalse⟩ := bubblePass_spec (sortSwaps cmp asc) hasym xs x false
    have hblen := bubblePass_length (sortSwaps cmp asc) xs x false
    cases hflag : (bubblePass (sortSwaps cmp asc) x xs false).2 with
    | false =>
      obtain ⟨_, heq, hchain⟩ := hfalse hflag
      refine ⟨nodes1, x :: xs, ?_, ?_, List.Perm.refl _, hchain⟩
      · rw [LinkedList_Sort_loop, hpass, hflag]
        simp
      · rw [heq] at hres
        exact hres
    | true =>
      have hlt : inversions (sortSwaps cmp asc) (bubblePass (sortSwaps cmp asc) x xs false).1 <
          inversions (sortSwaps cmp asc) (x :: xs) := by
        rcases htrue hflag with h | h
        · exact absurd h (by decide)
        · exact h
      cases hys : (bubblePass (sortSwaps cmp asc) x xs false).1 with
      | nil => rw [hys] at hblen; simp at hblen
      | cons y ys =>
        rw [hys] at hres hlt hperm hblen
        obtain ⟨nodes2, zs, hloop, hseg2, hperm2, hchain⟩ := ih y ys nodes1 hres
          (by simp only [List.length_cons] at hblen; omega) (by omega)
        refine ⟨nodes2, zs, ?_, hseg2, hperm2.trans hperm, hchain⟩
        rw [LinkedList_Sort_loop, hpass, hflag]
        simpa using hloop

theorem sortSwaps_true (cmp : Nat → Nat → Int)
    (hrange : ∀ a b, -2147483648 < cmp a b ∧ cmp a b < 2147483648) (a b : Nat) :
    sortSwaps cmp true a b = decide (0 < cmp a b) := by
  have h := hrange a b
  simp only [sortSwaps, if_true]
  rw [toInt32_of_range _ (by omega) (by omega)]
  apply decide_eq_decide.mpr
  omega

theorem sortSwaps_false (cmp : Nat → Nat → Int) (a b : Nat) :
    sortSwaps cmp false a b = decide (cmp a b < 0) := by
  simp [sortSwaps]

theorem zip_map_fst_snd (l : List (Nat × Nat)) :
    l = (l.map Prod.fst).zip (l.map Prod.snd) := by
  induction l with
  | nil => rfl
  | cons c l ih => rw [List.map_cons, List.map_cons, List.zip_cons_cons, ← ih]

theorem chain_pairwise {R : Nat → Nat → Prop} (htrans : ∀ a b c, R a b → R b c → R a c)
    {l : List Nat} (h : List.Chain' R l) : l.Pairwise R := by
  haveI : IsTrans Nat R := ⟨htrans⟩
  exact List.chain'_iff_pairwise.mp h

/-- C39: on a list that satisfies the structural invariant, with a comparator that
is a total preorder given as a three-way comparison (`c(a, b) < 0` exactly when
`c(b, a) > 0`, `c(a, b) <= 0` transitive, no result equal to `INT_MIN`, the one
value whose sign the code cannot change), `LinkedList_Sort` returns for every loop
bound from some bound on; the nodes, their links and the record are as before, the
payloads are a permutation of the old payloads, each payload is at most every later
one when `ascending` is true and at least every later one when it is false, and a
list of fewer than two elements is left as it is. -/
theorem LinkedList_Sort_sorts (s : Heap) (ascending : Bool) (cmp : Nat → Nat → Int)
    (hinv : Invariant s)
    (hrange : ∀ a b, -2147483648 < cmp a b ∧ cmp a b < 2147483648)
    (hanti : ∀ a b, cmp a b < 0 ↔ 0 < cmp b a)
    (htrans : ∀ a b c, cmp a b ≤ 0 → cmp b c ≤ 0 → cmp a c ≤ 0) :
    ∃ N, ∀ fuel, N ≤ fuel →
      ∃ s1, LinkedList_Sort s ascending cmp fuel = some s1 ∧ Invariant s1 ∧
        s1.list = s.list ∧ LinkedList_nodes s1 = LinkedList_nodes s ∧
        (LinkedList_payloads s1).Perm (LinkedList_payloads s) ∧
        (LinkedList_payloads s1).Pairwise
          (fun a b => if ascending = true then cmp a b ≤ 0 else cmp b a ≤ 0) ∧
        (s.list.num_elements < 2 → s1 = s) := by
  obtain ⟨cells, hrep⟩ := Represents_of_Invariant hinv
  have hpay := Represents_payloads hrep
  have hnodes := Represents_nodes hrep
  obtain ⟨hseg, hnd, hnum, hhead, htail⟩ := hrep
  by_cases hsmall : s.list.num_elements < 2
  · refine ⟨0, fun fuel _ => ⟨s, by simp only [LinkedList_Sort, hsmall, if_true], hinv, rfl, rfl,
      List.Perm.refl _, ?_, fun _ => rfl⟩⟩
    rw [hpay]
    rw [hnum] at hsmall
    match cells, hsmall with
    | [], _ => exact List.Pairwise.nil
    | [c], _ => exact List.pairwise_singleton _ _
    | c :: d :: rest, h => simp only [List.length_cons] at h; omega
  · cases cells with
    | nil => rw [hnum] at hsmall; exact absurd (by decide) hsmall
    | cons c rest =>
      have hasym : ∀ a b, sortSwaps cmp ascending a b = true →
          sortSwaps cmp ascending b a = false := by
        intro a b h
        cases ascending with
        | true =>
          rw [sortSwaps_true cmp hrange] at h ⊢
          simp only [decide_eq_true_eq, decide_eq_false_iff_not] at h ⊢
          have := (hanti b a).mpr h
          omega
        | false =>
          rw [sortSwaps_false] at h ⊢
          simp only [decide_eq_true_eq, decide_eq_false_iff_not] at h ⊢
          have := (hanti a b).mp h
          omega
      have hzip := zip_map_fst_snd (c :: rest)
      refine ⟨inversions (sortSwaps cmp ascending) ((c :: rest).map Prod.snd) + rest.length + 1,
        fun fuel hfuel => ?_⟩
      obtain ⟨nodes1, ys, hloop, hseg1, hperm, hchain⟩ :=
        LinkedList_Sort_loop_Seg cmp ascending hasym c.1 (rest.map Prod.fst) hnd fuel
          (by rw [List.length_map]; omega) fuel c.2 (rest.map Prod.snd) s.nodes
          (by rw [← List.map_cons, ← List.map_cons, ← hzip]; exact hseg)
          (by simp) (by simp only [List.map_cons] at hfuel; omega)
      have hlen : ys.length = (c :: rest).length := by
        rw [hperm.length_eq]; simp
      have hfst : (((c :: rest).map Prod.fst).zip ys).map Prod.fst = (c :: rest).map Prod.fst :=
        List.map_fst_zip _ _ (by rw [List.length_map, hlen])
      have hsnd : (((c :: rest).map Prod.fst).zip ys).map Prod.snd = ys :=
        List.map_snd_zip _ _ (by rw [List.length_map, hlen])
      have hrep1 : Represents ⟨nodes1, s.list⟩ (((c :: rest).map Prod.fst).zip ys) := by
        refine ⟨hseg1, by rw [hfst]; exact hnd, ?_, ?_, ?_⟩
        · show s.list.num_elements = _
          rw [hnum, List.length_zip, List.length_map, hlen, Nat.min_self]
        · show s.list.head = _
          rw [hhead]
          cases ys with
          | nil => simp at hlen
          | cons y ys => rfl
        · show s.list.tail = _
          rw [htail, lastAddr_eq_getLast, lastAddr_eq_getLast, hfst]
      refine ⟨⟨nodes1, s.list⟩, ?_, Invariant_of_Represents hrep1, rfl, ?_, ?_, ?_,
        fun h => absurd h hsmall⟩
      · simp only [LinkedList_Sort, hsmall, if_false, hhead, firstAddr, hloop]
      · rw [Represents_nodes hrep1, hfst, hnodes]
      · rw [Represents_payloads hrep1, hsnd, hpay]
        exact hperm
      · rw [Represents_payloads hrep1, hsnd]
        cases ascending with
        | true =>
          refine chain_pairwise (R := fun a b => if true = true then cmp a b ≤ 0 else cmp b a ≤ 0)
            (fun a b c h1 h2 => ?_) (hchain.imp fun {a b} h => ?_)
          · simp only [if_true] at h1 h2 ⊢
            exact htrans a b c h1 h2
          · rw [sortSwaps_true cmp hrange] at h
            simp only [decide_eq_false_iff_not] at h
            simp only [if_true]
            omega
        | false =>
          refine chain_pairwise (R := fun a b => if false = true then cmp a b ≤ 0 else cmp b a ≤ 0)
            (fun a b c h1 h2 => ?_) (hchain.imp fun {a b} h => ?_)
          · simp only [Bool.false_eq_true, if_false] at h1 h2 ⊢
            exact htrans c b a h2 h1
          · rw [sortSwaps_false] at h
            simp only [decide_eq_false_iff_not] at h
            simp only [Bool.false_eq_true, if_false]
            have h2 : ¬ 0 < cmp b a := fun h3 => h ((hanti a b).mpr h3)
            omega

theorem sampleComparator_range (a b : Nat) :
    -2147483648 < sampleComparator a b ∧ sampleComparator a b < 2147483648 := by
  unfold sampleComparator; split_ifs <;> omega

theorem sampleComparator_anti (a b : Nat) :
    sampleComparator a b < 0 ↔ 0 < sampleComparator b a := by
  unfold sampleComparator; split_ifs <;> omega

theorem sampleComparator_trans (a b c : Nat) (h1 : sampleComparator a b ≤ 0)
    (h2 : sampleComparator b c ≤ 0) : sampleComparator a c ≤ 0 := by
  unfold sampleComparator at *; split_ifs at * <;> omega

/-- The statement of C39 at the sample list 30, 10, 20, in ascending order. -/
theorem LinkedList_Sort_sorts_witness :
    ∃ N, ∀ fuel, N ≤ fuel →
      ∃ s1, LinkedList_Sort sampleList true sampleComparator fuel = some s1 ∧ Invariant s1 ∧
        s1.list = sampleList.list ∧ LinkedList_nodes s1 = LinkedList_nodes sampleList ∧
        (LinkedList_payloads s1).Perm (LinkedList_payloads sampleList) ∧
        (LinkedList_payloads s1).Pairwise
          (fun a b => if true = true then sampleComparator a b ≤ 0
            else sampleComparator b a ≤ 0) ∧
        (sampleList.list.num_elements < 2 → s1 = sampleList) :=
  LinkedList_Sort_sorts sampleList true sampleComparator sampleList_Invariant
    sampleComparator_range sampleComparator_anti sampleComparator_trans

theorem flatten_set {A : Type} (l : List (List A)) (i : Nat) (h : i < l.length) :
    ∃ X Y, l.flatten = X ++ l.getD i [] ++ Y ∧ ∀ c, (l.set i c).flatten = X ++ c ++ Y := by
  induction l generalizing i with
  | nil => exact absurd h (Nat.not_lt_zero _)
  | cons a l ih =>
    cases i with
    | zero => exact ⟨[], l.flatten, by simp, fun c => by simp⟩
    | succ i =>
      obtain ⟨X, Y, h1, h2⟩ := ih i (by simpa using h)
      refine ⟨a ++ X, Y, ?_, fun c => ?_⟩
      · simp only [List.flatten_cons, h1, List.getD_cons_succ, List.append_assoc]
      · simp only [List.set_cons_succ, List.flatten_cons, h2 c, List.append_assoc]

theorem HashTable_replace_spec {V : Type} (newkv : HTKeyValue_t V)
    (chain : List (HTKeyValue_t V)) (old : HTKeyValue_t V)
    (h : chain.find? (fun kv => kv.key == newkv.key) = some old) :
    ∃ C D, chain = C ++ old :: D ∧ HashTable_replace newkv chain = C ++ newkv :: D := by
  induction chain with
  | nil => simp at h
  | cons kv chain ih =>
    by_cases hk : (kv.key == newkv.key) = true
    · simp only [List.find?_cons, hk, Option.some.injEq] at h
      subst h
      exact ⟨[], chain, rfl, by simp only [HashTable_replace, hk, if_true]; rfl⟩
    · have hk' : (kv.key == newkv.key) = false := by simpa using hk
      simp only [List.find?_cons, hk'] at h
      obtain ⟨C, D, h1, h2⟩ := ih h
      refine ⟨kv :: C, D, by rw [h1]; rfl, ?_⟩
      simp only [HashTable_replace, hk', Bool.false_eq_true, if_false, h2]
      rfl

theorem HashTable_Insert_buckets_length {V : Type} (ht : HashTable V) (kv : HTKeyValue_t V) :
    (HashTable_Insert ht kv).2.buckets.length = ht.buckets.length := by
  unfold HashTable_Insert
  simp only []
  split <;> simp only [List.length_set]

/-- The entries of the table after `HashTable_Insert` of a key it does not hold. -/
theorem HashTable_Insert_new {V : Type} (ht : HashTable V) (kv : HTKeyValue_t V)
    (hn : 0 < ht.buckets.length) (h : HashTable_Find ht kv.key = none) :
    ∃ X Y, ht.buckets.flatten = X ++ Y ∧
      (HashTable_Insert ht kv).2.buckets.flatten = X ++ kv :: Y := by
  obtain ⟨X, Y, h1, h2⟩ := flatten_set ht.buckets (kv.key % ht.buckets.length)
    (Nat.mod_lt _ hn)
  unfold HashTable_Find at h
  refine ⟨X ++ ht.buckets.getD (kv.key % ht.buckets.length) [], Y, h1, ?_⟩
  simp only [HashTable_Insert, h, h2, List.append_assoc, List.singleton_append]

/-- The entries of the table after `HashTable_Insert` of a key it holds. -/
theorem HashTable_Insert_old {V : Type} (ht : HashTable V) (kv old : HTKeyValue_t V)
    (hn : 0 < ht.buckets.length) (h : HashTable_Find ht kv.key = some old) :
    ∃ X Y, ht.buckets.flatten = X ++ old :: Y ∧
      (HashTable_Insert ht kv).2.buckets.flatten = X ++ kv :: Y := by
  obtain ⟨X, Y, h1, h2⟩ := flatten_set ht.buckets (kv.key % ht.buckets.length)
    (Nat.mod_lt _ hn)
  unfold HashTable_Find at h
  obtain ⟨C, D, h3, h4⟩ := HashTable_replace_spec kv _ old h
  refine ⟨X ++ C, D ++ Y, ?_, ?_⟩
  · rw [h1, h3]; simp
  · simp only [HashTable_Insert, h, h2, h4]
    simp

theorem find_replace {V : Type} (newkv : HTKeyValue_t V) (chain : List (HTKeyValue_t V))
    (k : Nat) (hex : (chain.find? fun kv => kv.key == newkv.key).isSome = true) :
    (HashTable_replace newkv chain).find? (fun kv => kv.key == k) =
      if k = newkv.key then some newkv else chain.find? (fun kv => kv.key == k) := by
  induction chain with
  | nil => simp at hex
  | cons kv chain ih =>
    by_cases hk : (kv.key == newkv.key) = true
    · have hkk : kv.key = newkv.key := by simpa using hk
      simp only [HashTable_replace, hk, if_true, List.find?_cons]
      by_cases hkn : k = newkv.key
      · simp [hkn]
      · have h1 : (newkv.key == k) = false := by simpa using fun h => hkn h.symm
        have h2 : (kv.key == k) = false := by rw [hkk]; exact h1
        simp only [h1, h2, if_neg hkn]
    · have hk' : (kv.key == newkv.key) = false := by simpa using hk
      simp only [List.find?_cons, hk'] at hex
      simp only [HashTable_replace, hk', Bool.false_eq_true, if_false, List.find?_cons, ih hex]
      by_cases hkn : k = newkv.key
      · have h2 : (kv.key == k) = false := by rw [hkn]; exact hk'
        simp only [h2, if_pos hkn]
      · simp only [if_neg hkn]

theorem getD_set_self {A : Type} (l : List A) (i : Nat) (c d : A) (h : i < l.length) :
    (l.set i c).getD i d = c := by
  simp only [List.getD_eq_getElem?_getD, List.getElem?_set_self h, Option.getD_some]

theorem getD_set_ne {A : Type} (l : List A) (i j : Nat) (c d : A) (h : i ≠ j) :
    (l.set i c).getD j d = l.getD j d := by
  simp only [List.getD_eq_getElem?_getD, List.getElem?_set_ne h]

theorem HashTable_Insert_buckets {V : Type} (ht : HashTable V) (kv : HTKeyValue_t V) :
    (HashTable_Insert ht kv).2.buckets = ht.buckets.set (kv.key % ht.buckets.length)
      (if ((ht.buckets.getD (kv.key % ht.buckets.length) []).find?
          fun e => e.key == kv.key).isSome
        then HashTable_replace kv (ht.buckets.getD (kv.key % ht.buckets.length) [])
        else ht.buckets.getD (kv.key % ht.buckets.length) [] ++ [kv]) := by
  unfold HashTable_Insert
  simp only []
  split <;> rename_i h <;> simp only [h, Option.isSome_some, Option.isSome_none, if_true,
    Bool.false_eq_true, if_false]

/-- What `HashTable_Find` answers after a `HashTable_Insert`. -/
theorem HashTable_Find_Insert {V : Type} (ht : HashTable V) (kv : HTKeyValue_t V) (k : Nat)
    (hn : 0 < ht.buckets.length) :
    HashTable_Find (HashTable_Insert ht kv).2 k =
      if k = kv.key then some kv else HashTable_Find ht k := by
  have hlen := HashTable_Insert_buckets_length ht kv
  have hi : kv.key % ht.buckets.length < ht.buckets.length := Nat.mod_lt _ hn
  unfold HashTable_Find
  rw [hlen, HashTable_Insert_buckets]
  by_cases hb : k % ht.buckets.length = kv.key % ht.buckets.length
  · rw [hb, getD_set_self _ _ _ _ hi]
    generalize ht.buckets.getD (kv.key % ht.buckets.length) [] = chain
    cases hf : chain.find? (fun e => e.key == kv.key) with
    | none =>
      simp only [Option.isSome_none, Bool.false_eq_true, if_false, List.find?_append]
      by_cases hkn : k = kv.key
      · subst hkn
        simp [hf]
      · have h1 : (kv.key == k) = false := by simpa using fun h => hkn h.symm
        simp [h1, hkn]
    | some old =>
      simp only [Option.isSome_some, if_true]
      rw [find_replace kv _ k (by rw [hf]; rfl)]
  · have hkn : k ≠ kv.key := fun h => hb (by rw [h])
    rw [if_neg hkn]
    have hne : kv.key % ht.buckets.length ≠ k % ht.buckets.length := fun h => hb h.symm
    rw [getD_set_ne _ _ _ _ _ hne]

theorem HashTable_Find_Allocate {V : Type} (n k : Nat) :
    HashTable_Find (HashTable_Allocate n : HashTable V) k = none := by
  simp only [HashTable_Find, HashTable_Allocate, List.getD_eq_getElem?_getD,
    List.getElem?_replicate]
  split <;> rfl

theorem InsertContent_eq_runs (content : List Nat) (hlen : content.length < 2147483648) :
    InsertContent content =
      ((List.range content.length).filter (isRunStart content)).map (runAt content) := by
  have h := (InsertContent_loop_eq content content 0 rfl).1 0 [] (Or.inl rfl)
  rw [InsertContent, h, List.range_eq_range']
  apply List.map_congr_left
  intro p hp
  have hp' := (List.mem_filter.mp hp).1
  rw [List.mem_range'_1] at hp'
  have : wordPosition p = p := by
    unfold wordPosition
    rw [toInt32_of_range _ (by omega) (by omega), toUInt32_of_nat _ (by omega)]
  rw [this]
  rfl

theorem InsertContent_positions_sorted (content : List Nat) (hlen : content.length < 2147483648) :
    ((InsertContent content).map Prod.snd).Pairwise (· < ·) := by
  rw [InsertContent_eq_runs content hlen, List.map_map]
  have : (Prod.snd ∘ runAt content) = id := rfl
  rw [this, List.map_id]
  exact List.Pairwise.filter _ (List.pairwise_lt_range _)

theorem HashTable_Find_mem {V : Type} (ht : HashTable V) (k : Nat) (kv : HTKeyValue_t V)
    (hn : 0 < ht.buckets.length) (h : HashTable_Find ht k = some kv) :
    kv ∈ ht.buckets.flatten ∧ kv.key = k := by
  unfold HashTable_Find at h
  have hk := List.find?_some h
  have hm := List.mem_of_find?_eq_some h
  refine ⟨?_, by simpa using hk⟩
  rw [List.mem_flatten]
  refine ⟨_, ?_, hm⟩
  rw [List.getD_eq_getElem _ _ (Nat.mod_lt _ hn)]
  exact List.getElem_mem _

/-- One call of `AddWordPosition` at a position above all the positions recorded so
far. -/
theorem AddWordPosition_step (hash : List Nat → Nat) (tab tab1 : HashTable WordPositions)
    (w : List Nat) (p : Nat) (hn : 0 < tab.buckets.length)
    (h : AddWordPosition hash tab w p = some tab1)
    (hgood : ∀ kv ∈ tab.buckets.flatten, kv.value.positions ≠ [] ∧
      kv.value.positions.Pairwise (· < ·) ∧ ∀ q ∈ kv.value.positions, q < p) :
    0 < tab1.buckets.length ∧
      (∀ kv ∈ tab1.buckets.flatten, kv.value.positions ≠ [] ∧
        kv.value.positions.Pairwise (· < ·) ∧ ∀ q ∈ kv.value.positions, q ≤ p) ∧
      (tab1.buckets.flatten.map fun kv => kv.value.positions.length).sum =
        (tab.buckets.flatten.map fun kv => kv.value.positions.length).sum + 1 := by
  unfold AddWordPosition at h
  simp only [] at h
  cases hf : HashTable_Find tab (hash w) with
  | none =>
    simp only [hf, Option.some.injEq] at h
    subst h
    obtain ⟨X, Y, h1, h2⟩ := HashTable_Insert_new tab ⟨hash w, ⟨w, [p]⟩⟩ hn hf
    refine ⟨by rw [HashTable_Insert_buckets_length]; exact hn, ?_, ?_⟩
    · intro kv hkv
      rw [h2] at hkv
      rcases List.mem_append.mp hkv with hkv | hkv
      · obtain ⟨a, b, c⟩ := hgood kv (by rw [h1]; exact List.mem_append_left _ hkv)
        exact ⟨a, b, fun q hq => Nat.le_of_lt (c q hq)⟩
      · rcases List.mem_cons.mp hkv with rfl | hkv
        · exact ⟨by simp, by simp, by simp⟩
        · obtain ⟨a, b, c⟩ := hgood kv (by rw [h1]; exact List.mem_append_right _ hkv)
          exact ⟨a, b, fun q hq => Nat.le_of_lt (c q hq)⟩
    · rw [h2, h1]
      simp only [List.map_append, List.map_cons, List.sum_append, List.sum_cons,
        List.length_singleton]
      omega
  | some old =>
    simp only [hf] at h
    split at h
    · exact Option.noConfusion h
    · simp only [Option.some.injEq] at h
      subst h
      obtain ⟨X, Y, h1, h2⟩ := HashTable_Insert_old tab
        ⟨hash w, ⟨old.value.word, old.value.positions ++ [p]⟩⟩ old hn hf
      have hold := hgood old (by rw [h1]; simp)
      refine ⟨by rw [HashTable_Insert_buckets_length]; exact hn, ?_, ?_⟩
      · intro kv hkv
        rw [h2] at hkv
        rcases List.mem_append.mp hkv with hkv | hkv
        · obtain ⟨a, b, c⟩ := hgood kv (by rw [h1]; exact List.mem_append_left _ hkv)
          exact ⟨a, b, fun q hq => Nat.le_of_lt (c q hq)⟩
        · rcases List.mem_cons.mp hkv with rfl | hkv
          · refine ⟨by simp, ?_, ?_⟩
            · rw [List.pairwise_append]
              exact ⟨hold.2.1, by simp, fun a ha b hb => by
                rw [List.mem_singleton] at hb; rw [hb]; exact hold.2.2 a ha⟩
            · intro q hq
              rcases List.mem_append.mp hq with hq | hq
              · exact Nat.le_of_lt (hold.2.2 q hq)
              · rw [List.mem_singleton] at hq; rw [hq]
          · obtain ⟨a, b, c⟩ := hgood kv (by rw [h1]; simp [hkv])
            exact ⟨a, b, fun q hq => Nat.le_of_lt (c q hq)⟩
      · rw [h2, h1]
        simp only [List.map_append, List.map_cons, List.sum_append, List.sum_cons,
          List.length_append, List.length_singleton]
        omega

/-- The calls of `AddWordPosition`, at increasing positions. -/
theorem AddWordPosition_all_spec (hash : List Nat → Nat) (wps : List (List Nat × Nat)) :
    ∀ (tab tab1 : HashTable WordPositions) (bound : Nat), 0 < tab.buckets.length →
      AddWordPosition_all hash tab wps = some tab1 →
      (∀ kv ∈ tab.buckets.flatten, kv.value.positions ≠ [] ∧
        kv.value.positions.Pairwise (· < ·) ∧ ∀ q ∈ kv.value.positions, q < bound) →
      (∀ q ∈ wps.map Prod.snd, bound ≤ q) →
      (wps.map Prod.snd).Pairwise (· < ·) →
      (∀ kv ∈ tab1.buckets.flatten, kv.value.positions ≠ [] ∧
        kv.value.positions.Pairwise (· < ·)) ∧
      (tab1.buckets.flatten.map fun kv => kv.value.positions.length).sum =
        (tab.buckets.flatten.map fun kv => kv.value.positions.length).sum + wps.length := by
  induction wps with
  | nil =>
    intro tab tab1 bound _ h hgood _ _
    simp only [AddWordPosition_all, Option.some.injEq] at h
    subst h
    exact ⟨fun kv hkv => ⟨(hgood kv hkv).1, (hgood kv hkv).2.1⟩, rfl⟩
  | cons wp rest ih =>
    intro tab tab1 bound hn h hgood hb hsorted
    rw [AddWordPosition_all] at h
    cases hstep : AddWordPosition hash tab wp.1 wp.2 with
    | none => simp [hstep] at h
    | some tab2 =>
      simp only [hstep] at h
      have hwp : bound ≤ wp.2 := hb wp.2 (by simp)
      obtain ⟨hn2, hgood2, hsum2⟩ := AddWordPosition_step hash tab tab2 wp.1 wp.2 hn hstep
        (fun kv hkv => ⟨(hgood kv hkv).1, (hgood kv hkv).2.1,
          fun q hq => Nat.lt_of_lt_of_le ((hgood kv hkv).2.2 q hq) hwp⟩)
      rw [List.map_cons, List.pairwise_cons] at hsorted
      obtain ⟨hres, hsum⟩ := ih tab2 tab1 (wp.2 + 1) hn2 h
        (fun kv hkv => ⟨(hgood2 kv hkv).1, (hgood2 kv hkv).2.1,
          fun q hq => Nat.lt_succ_of_le ((hgood2 kv hkv).2.2 q hq)⟩)
        (fun q hq => hsorted.1 q hq) hsorted.2
      refine ⟨hres, ?_⟩
      rw [hsum, hsum2, List.length_cons]
      omega

/-- `AddWordPosition` has a result when no two different words share a hash. -/
theorem AddWordPosition_all_isSome (hash : List Nat → Nat) (wps : List (List Nat × Nat)) :
    ∀ (tab : HashTable WordPositions) (seen : List (List Nat)), 0 < tab.buckets.length →
      (∀ kv ∈ tab.buckets.flatten, kv.key = hash kv.value.word ∧ kv.value.word ∈ seen) →
      (∀ a ∈ seen ++ wps.map Prod.fst, ∀ b ∈ seen ++ wps.map Prod.fst, hash a = hash b → a = b) →
      (AddWordPosition_all hash tab wps).isSome = true := by
  induction wps with
  | nil => intro tab seen _ _ _; rfl
  | cons wp rest ih =>
    intro tab seen hn hkeys hinj
    have hwmem : wp.1 ∈ seen ++ (wp :: rest).map Prod.fst := by simp
    have hstep : ∃ tab2, AddWordPosition hash tab wp.1 wp.2 = some tab2 ∧
        0 < tab2.buckets.length ∧
        ∀ kv ∈ tab2.buckets.flatten, kv.key = hash kv.value.word ∧
          kv.value.word ∈ seen ++ [wp.1] := by
      unfold AddWordPosition
      simp only []
      cases hf : HashTable_Find tab (hash wp.1) with
      | none =>
        obtain ⟨X, Y, h1, h2⟩ := HashTable_Insert_new tab ⟨hash wp.1, ⟨wp.1, [wp.2]⟩⟩ hn hf
        refine ⟨_, rfl, by rw [HashTable_Insert_buckets_length]; exact hn, ?_⟩
        intro kv hkv
        rw [h2] at hkv
        rcases List.mem_append.mp hkv with hkv | hkv
        · obtain ⟨a, b⟩ := hkeys kv (by rw [h1]; exact List.mem_append_left _ hkv)
          exact ⟨a, List.mem_append_left _ b⟩
        · rcases List.mem_cons.mp hkv with rfl | hkv
          · exact ⟨rfl, by simp⟩
          · obtain ⟨a, b⟩ := hkeys kv (by rw [h1]; exact List.mem_append_right _ hkv)
            exact ⟨a, List.mem_append_left _ b⟩
      | some old =>
        obtain ⟨hmem, hkey⟩ := HashTable_Find_mem tab _ old hn hf
        obtain ⟨hk1, hk2⟩ := hkeys old hmem
        have hword : old.value.word = wp.1 :=
          hinj _ (List.mem_append_left _ hk2) _ hwmem (by rw [← hk1, hkey])
        obtain ⟨X, Y, h1, h2⟩ := HashTable_Insert_old tab
          ⟨hash wp.1, ⟨old.value.word, old.value.positions ++ [wp.2]⟩⟩ old hn hf
        rw [hword] at h2
        refine ⟨(HashTable_Insert tab ⟨hash wp.1, ⟨wp.1, old.value.positions ++ [wp.2]⟩⟩).2,
          by simp only [hword, ne_eq, not_true_eq_false, if_false],
          by rw [HashTable_Insert_buckets_length]; exact hn, ?_⟩
        intro kv hkv
        rw [h2] at hkv
        rcases List.mem_append.mp hkv with hkv | hkv
        · obtain ⟨a, b⟩ := hkeys kv (by rw [h1]; exact List.mem_append_left _ hkv)
          exact ⟨a, List.mem_append_left _ b⟩
        · rcases List.mem_cons.mp hkv with rfl | hkv
          · exact ⟨rfl, by simp⟩
          · obtain ⟨a, b⟩ := hkeys kv (by rw [h1]; simp [hkv])
            exact ⟨a, List.mem_append_left _ b⟩
    obtain ⟨tab2, h2, hn2, hkeys2⟩ := hstep
    rw [AddWordPosition_all, h2]
    exact ih tab2 (seen ++ [wp.1]) hn2 hkeys2
      (fun a ha b hb => hinj a (by simp at ha ⊢; tauto) b (by simp at hb ⊢; tauto))

theorem fseek_of_bytes {f g : FILE} (h : f.bytes = g.bytes) (off : Nat) :
    fseek f off = fseek g off := by
  unfold fseek
  split
  · rw [h]
  · rfl

theorem fseek_bytes {f f1 : FILE} {off : Nat} (h : fseek f off = some f1) :
    f1.bytes = f.bytes := by
  unfold fseek at h
  split at h
  · cases h; rfl
  · cases h

theorem fread_bytes {f f1 : FILE} {n : Nat} {buf : List Nat} (h : fread f n = some (buf, f1)) :
    f1.bytes = f.bytes := by
  unfold fread at h
  split at h
  · cases h; rfl
  · cases h

theorem LookupElementPositions_loop_bytes (position : Nat) :
    ∀ (n i : Nat) (f f1 : FILE) (acc l : List Nat),
      LookupElementPositions_loop position n i f acc = some (l, f1) → f1.bytes = f.bytes := by
  intro n
  induction n with
  | zero =>
    intro i f f1 acc l h
    simp only [LookupElementPositions_loop, Option.some.injEq, Prod.mk.injEq] at h
    rw [h.2]
  | succ n ih =>
    intro i f f1 acc l h
    simp only [LookupElementPositions_loop] at h
    cases h1 : fseek f (toUInt64 (position + i * sizeofElementPositionRecord)) with
    | none => simp [h1] at h
    | some g1 =>
      simp only [h1] at h
      cases h2 : fread g1 sizeofElementPositionRecord with
      | none => simp [h2] at h
      | some bg =>
        obtain ⟨buf, g2⟩ := bg
        simp only [h2] at h
        rw [ih _ _ _ _ _ h, fread_bytes h2, fseek_bytes h1]

theorem LookupElementPositions_of_bytes (r r' : HashTableReader) (hash_key : Nat)
    (h : r.rewind = r'.rewind) :
    r.LookupElementPositions hash_key = r'.LookupElementPositions hash_key := by
  have hb : r.file_.bytes = r'.file_.bytes := congrArg (fun x => x.file_.bytes) h
  have ho : r.offset_ = r'.offset_ := congrArg (fun x => x.offset_) h
  have hh : r.header_ = r'.header_ := congrArg (fun x => x.header_) h
  unfold HashTableReader.LookupElementPositions HashTableReader.bucket_rec_offset
  simp only [ho, hh, fseek_of_bytes hb]

theorem LookupElementPositions_rewind {r r1 : HashTableReader} {hash_key : Nat} {l : List Nat}
    (h : r.LookupElementPositions hash_key = some (l, r1)) : r1.rewind = r.rewind := by
  unfold HashTableReader.LookupElementPositions at h
  split at h
  · cases h
  cases h1 : fseek r.file_ (r.bucket_rec_offset hash_key) with
  | none => simp [h1] at h
  | some g1 =>
    simp only [h1] at h
    cases h2 : fread g1 sizeofBucketRecord with
    | none => simp [h2] at h
    | some bg =>
      obtain ⟨buf, g2⟩ := bg
      simp only [h2] at h
      cases h3 : LookupElementPositions_loop (BucketRecord.ToHostFormat buf).position
          (BucketRecord.ToHostFormat buf).chain_num_elements.toNat 0 g2 [] with
      | none => simp [h3] at h
      | some lg =>
        obtain ⟨l3, g3⟩ := lg
        simp only [h3, Option.some.injEq, Prod.mk.injEq] at h
        obtain ⟨_, rfl⟩ := h
        have := LookupElementPositions_loop_bytes _ _ _ _ _ _ _ h3
        simp only [HashTableReader.rewind, this, fread_bytes h2, fseek_bytes h1]

theorem LookupWord_loop_bytes (word : List Nat) :
    ∀ (elements : List Nat) (f f1 : FILE) (res : Option HashTableReader),
      LookupWord_loop word elements f = some (res, f1) → f1.bytes = f.bytes := by
  intro elements
  induction elements with
  | nil =>
    intro f f1 res h
    simp only [LookupWord_loop, Option.some.injEq, Prod.mk.injEq] at h
    rw [h.2]
  | cons curr rest ih =>
    intro f f1 res h
    simp only [LookupWord_loop] at h
    cases h1 : fseek f curr with
    | none => simp [h1] at h
    | some g1 =>
      simp only [h1] at h
      cases h2 : fread g1 sizeofWordPostingsHeader with
      | none => simp [h2] at h
      | some bg =>
        obtain ⟨buf, g2⟩ := bg
        simp only [h2] at h
        cases h3 : fread g2 (toInt16 (fromBE (buf.take 2))).toNat with
        | none => simp [h3] at h
        | some sg =>
          obtain ⟨stored, g3⟩ := sg
          simp only [h3] at h
          have hb3 : g3.bytes = f.bytes := by rw [fread_bytes h3, fread_bytes h2, fseek_bytes h1]
          split at h
          · split at h
            · cases h
            · simp only [Option.some.injEq, Prod.mk.injEq] at h
              rw [← h.2]; exact hb3
          · rw [ih _ _ _ h, hb3]

theorem DocTable_LookupDocID_loop_bytes (doc_id : Nat) :
    ∀ (elements : List Nat) (f f1 : FILE) (res : Option (List Nat)),
      DocTable_LookupDocID_loop doc_id elements f = some (res, f1) → f1.bytes = f.bytes := by
  intro elements
  induction elements with
  | nil =>
    intro f f1 res h
    simp only [DocTable_LookupDocID_loop, Option.some.injEq, Prod.mk.injEq] at h
    rw [h.2]
  | cons curr rest ih =>
    intro f f1 res h
    simp only [DocTable_LookupDocID_loop] at h
    cases h1 : fseek f curr with
    | none => simp [h1] at h
    | some g1 =>
      simp only [h1] at h
      cases h2 : fread g1 sizeofDoctableElementHeader with
      | none => simp [h2] at h
      | some bg =>
        obtain ⟨buf, g2⟩ := bg
        simp only [h2] at h
        have hb2 : g2.bytes = f.bytes := by rw [fread_bytes h2, fseek_bytes h1]
        split at h
        · cases h3 : fread g2 (toInt16 (fromBE ((buf.drop 8).take 2))).toNat with
          | none => simp [h3] at h
          | some sg =>
            obtain ⟨name, g3⟩ := sg
            simp only [h3, Option.some.injEq, Prod.mk.injEq] at h
            rw [← h.2, fread_bytes h3, hb2]
        · rw [ih _ _ _ h, hb2]

theorem LookupWord_of_bytes (hash : List Nat → Nat) (r r' : HashTableReader) (word : List Nat)
    (h : r.rewind = r'.rewind) :
    IndexTableReader.LookupWord hash r word = IndexTableReader.LookupWord hash r' word := by
  unfold IndexTableReader.LookupWord
  rw [LookupElementPositions_of_bytes r r' _ h]

theorem LookupWord_rewind {hash : List Nat → Nat} {r r1 : HashTableReader} {word : List Nat}
    {res : Option HashTableReader}
    (h : IndexTableReader.LookupWord hash r word = some (res, r1)) : r1.rewind = r.rewind := by
  unfold IndexTableReader.LookupWord at h
  cases h1 : r.LookupElementPositions (hash word) with
  | none => simp [h1] at h
  | some lr =>
    obtain ⟨elements, r2⟩ := lr
    simp only [h1] at h
    cases h2 : LookupWord_loop word elements r2.file_ with
    | none => simp [h2] at h
    | some rf =>
      obtain ⟨res2, f2⟩ := rf
      simp only [h2, Option.some.injEq, Prod.mk.injEq] at h
      obtain ⟨_, rfl⟩ := h
      rw [← LookupElementPositions_rewind h1]
      simp only [HashTableReader.rewind, LookupWord_loop_bytes _ _ _ _ _ h2]

theorem DocTableReader_LookupDocID_of_bytes (r r' : HashTableReader) (doc_id : Nat)
    (h : r.rewind = r'.rewind) :
    DocTableReader.LookupDocID r doc_id = DocTableReader.LookupDocID r' doc_id := by
  unfold DocTableReader.LookupDocID
  rw [LookupElementPositions_of_bytes r r' _ h]

theorem DocTableReader_LookupDocID_rewind {r r1 : HashTableReader} {doc_id : Nat}
    {res : Option (List Nat)}
    (h : DocTableReader.LookupDocID r doc_id = some (res, r1)) : r1.rewind = r.rewind := by
  unfold DocTableReader.LookupDocID at h
  cases h1 : r.LookupElementPositions doc_id with
  | none => simp [h1] at h
  | some lr =>
    obtain ⟨elements, r2⟩ := lr
    simp only [h1] at h
    cases h2 : DocTable_LookupDocID_loop doc_id elements r2.file_ with
    | none => simp [h2] at h
    | some rf =>
      obtain ⟨res2, f2⟩ := rf
      simp only [h2, Option.some.injEq, Prod.mk.injEq] at h
      obtain ⟨_, rfl⟩ := h
      rw [← LookupElementPositions_rewind h1]
      simp only [HashTableReader.rewind, DocTable_LookupDocID_loop_bytes _ _ _ _ _ h2]

theorem termPostings_of_bytes (hash : List Nat → Nat) (r r' : HashTableReader) (word : List Nat)
    (h : r.rewind = r'.rewind) : termPostings hash r word = termPostings hash r' word := by
  unfold termPostings
  rw [LookupWord_of_bytes hash r r' word h]

theorem docName_of_bytes (r r' : HashTableReader) (doc_id : Nat) (h : r.rewind = r'.rewind) :
    docName r doc_id = docName r' doc_id := by
  unfold docName
  rw [DocTableReader_LookupDocID_of_bytes r r' doc_id h]

theorem termsResult_of_bytes (hash : List Nat → Nat) (r r' : HashTableReader)
    (h : r.rewind = r'.rewind) (rest : List (List Nat)) :
    ∀ result, termsResult hash r rest result = termsResult hash r' rest result := by
  induction rest with
  | nil => intro _; rfl
  | cons w rest ih =>
    intro result
    simp only [termsResult, termPostings_of_bytes hash r r' w h, ih]

theorem resolveEntry_of_bytes (r r' : HashTableReader) (h : r.rewind = r'.rewind) :
    resolveEntry r = resolveEntry r' := by
  funext e
  simp only [resolveEntry, docName_of_bytes r r' _ h]

theorem fileResults_of_bytes (hash : List Nat → Nat) (dtr dtr' itr itr' : HashTableReader)
    (hd : dtr.rewind = dtr'.rewind) (hi : itr.rewind = itr'.rewind) (q0 : List Nat)
    (qrest : List (List Nat)) :
    fileResults hash dtr itr q0 qrest = fileResults hash dtr' itr' q0 qrest := by
  simp only [fileResults, survivors, termPostings_of_bytes hash itr itr' q0 hi,
    termsResult_of_bytes hash itr itr' hi, resolveEntry_of_bytes dtr dtr' hd,
    docName_of_bytes dtr dtr' _ hd]

theorem ProcessQuery_terms_eq (hash : List Nat → Nat) (rest : List (List Nat)) :
    ∀ (itr : HashTableReader) (result : List DocIDElementHeader),
      (ProcessQuery_terms hash rest itr result).map Prod.fst = termsResult hash itr rest result ∧
      ∀ l itr1, ProcessQuery_terms hash rest itr result = some (l, itr1) →
        itr1.rewind = itr.rewind := by
  induction rest with
  | nil =>
    intro itr result
    refine ⟨rfl, fun l itr1 h => ?_⟩
    simp only [ProcessQuery_terms, Option.some.injEq, Prod.mk.injEq] at h
    rw [h.2]
  | cons w rest ih =>
    intro itr result
    simp only [ProcessQuery_terms, termsResult, termPostings]
    cases h1 : IndexTableReader.LookupWord hash itr w with
    | none => exact ⟨rfl, fun l itr1 h => by cases h⟩
    | some ri =>
      obtain ⟨res, itr1⟩ := ri
      have hrw := LookupWord_rewind h1
      cases res with
      | none =>
        refine ⟨rfl, fun l itr2 h => ?_⟩
        simp only [Option.some.injEq, Prod.mk.injEq] at h
        rw [← h.2]; exact hrw
      | some ditrj =>
        simp only []
        cases h2 : DocIDTableReader.GetDocIDList ditrj with
        | none => exact ⟨rfl, fun l itr2 h => by cases h⟩
        | some nr =>
          obtain ⟨next, r2⟩ := nr
          simp only []
          obtain ⟨ih1, ih2⟩ := ih itr1 (intersect result next)
          rw [termsResult_of_bytes hash itr1 itr hrw] at ih1
          exact ⟨ih1, fun l itr2 h => by rw [ih2 l itr2 h, hrw]⟩

theorem ProcessQuery_names_eq (result : List DocIDElementHeader) :
    ∀ (dtr : HashTableReader) (fr : List QueryResult),
      (ProcessQuery_names result dtr fr).map Prod.fst =
          (if ∀ e ∈ result, docName dtr e.doc_id ≠ none then
            some (fr ++ result.filterMap (resolveEntry dtr)) else none) ∧
      ∀ fr1 dtr1, ProcessQuery_names result dtr fr = some (fr1, dtr1) →
        dtr1.rewind = dtr.rewind := by
  induction result with
  | nil =>
    intro dtr fr
    refine ⟨by simp [ProcessQuery_names], fun fr1 dtr1 h => ?_⟩
    simp only [ProcessQuery_names, Option.some.injEq, Prod.mk.injEq] at h
    rw [h.2]
  | cons e rest ih =>
    intro dtr fr
    simp only [ProcessQuery_names]
    cases h1 : DocTableReader.LookupDocID dtr e.doc_id with
    | none =>
      have hd : docName dtr e.doc_id = none := by simp only [docName, h1]
      refine ⟨?_, fun fr1 dtr1 h => by cases h⟩
      rw [if_neg (fun hall => hall e (List.mem_cons_self _ _) hd)]
      rfl
    | some rd =>
      obtain ⟨res, dtr1⟩ := rd
      have hrw := DocTableReader_LookupDocID_rewind h1
      have hd : docName dtr e.doc_id = some res := by simp only [docName, h1]
      have hall : (∀ x ∈ e :: rest, docName dtr x.doc_id ≠ none) ↔
          (∀ x ∈ rest, docName dtr1 x.doc_id ≠ none) := by
        simp only [List.mem_cons, forall_eq_or_imp, hd, ne_eq, not_false_eq_true, true_and,
          reduceCtorEq]
        constructor
        · intro h x hx; rw [docName_of_bytes dtr1 dtr _ hrw]; exact h x hx
        · intro h x hx; rw [← docName_of_bytes dtr1 dtr _ hrw]; exact h x hx
      cases res with
      | none =>
        simp only []
        obtain ⟨ih1, ih2⟩ := ih dtr1 fr
        refine ⟨?_, fun fr1 dtr2 h => by rw [ih2 fr1 dtr2 h, hrw]⟩
        rw [ih1]
        have hre : resolveEntry dtr e = none := by simp only [resolveEntry, hd]
        simp only [hall, List.filterMap_cons, hre, resolveEntry_of_bytes dtr1 dtr hrw]
      | some docname =>
        simp only []
        obtain ⟨ih1, ih2⟩ := ih dtr1 (fr ++ [⟨docname, e.num_positions⟩])
        refine ⟨?_, fun fr1 dtr2 h => by rw [ih2 fr1 dtr2 h, hrw]⟩
        rw [ih1]
        have hre : resolveEntry dtr e = some ⟨docname, e.num_positions⟩ := by
          simp only [resolveEntry, hd]
        simp only [hall, List.filterMap_cons, hre, resolveEntry_of_bytes dtr1 dtr hrw,
          List.append_assoc, List.singleton_append]

theorem ProcessQuery_file_eq (hash : List Nat → Nat) (q0 : List Nat) (qrest : List (List Nat))
    (dtr itr : HashTableReader) (fr : List QueryResult) :
    (ProcessQuery_file hash q0 qrest dtr itr fr).map (fun r => r.1) =
        (fileResults hash dtr itr q0 qrest).map (fr ++ ·) ∧
      ∀ fr1 dtr1 itr1, ProcessQuery_file hash q0 qrest dtr itr fr = some (fr1, dtr1, itr1) →
        dtr1.rewind = dtr.rewind ∧ itr1.rewind = itr.rewind := by
  simp only [ProcessQuery_file, fileResults, survivors, termPostings]
  cases h1 : IndexTableReader.LookupWord hash itr q0 with
  | none => exact ⟨rfl, fun _ _ _ h => by cases h⟩
  | some ri =>
    obtain ⟨res, itr1⟩ := ri
    have hrw := LookupWord_rewind h1
    cases res with
    | none =>
      refine ⟨by simp, fun fr1 dtr1 itr2 h => ?_⟩
      simp only [Option.some.injEq, Prod.mk.injEq] at h
      rw [← h.2.1, ← h.2.2]
      exact ⟨rfl, hrw⟩
    | some ditr =>
      simp only []
      cases h2 : DocIDTableReader.GetDocIDList ditr with
      | none => exact ⟨rfl, fun _ _ _ h => by cases h⟩
      | some nr =>
        obtain ⟨result, r2⟩ := nr
        simp only []
        obtain ⟨t1, t2⟩ := ProcessQuery_terms_eq hash qrest itr1 result
        rw [termsResult_of_bytes hash itr1 itr hrw] at t1
        cases h3 : ProcessQuery_terms hash qrest itr1 result with
        | none =>
          rw [h3] at t1
          simp only [Option.map_none'] at t1
          rw [← t1]
          exact ⟨rfl, fun _ _ _ h => by cases h⟩
        | some lr =>
          obtain ⟨result1, itr2⟩ := lr
          rw [h3] at t1
          simp only [Option.map_some'] at t1
          rw [← t1]
          simp only []
          obtain ⟨n1, n2⟩ := ProcessQuery_names_eq result1 dtr fr
          cases h4 : ProcessQuery_names result1 dtr fr with
          | none =>
            rw [h4] at n1
            simp only [Option.map_none'] at n1
            refine ⟨?_, fun _ _ _ h => by cases h⟩
            split at n1
            · cases n1
            · rename_i hne
              rw [if_neg hne]
              rfl
          | some fd =>
            obtain ⟨fr1, dtr1⟩ := fd
            rw [h4] at n1
            simp only [Option.map_some'] at n1
            refine ⟨?_, fun fr2 dtr2 itr3 h => ?_⟩
            · split at n1
              · rename_i hall
                rw [if_pos hall]
                simp only [Option.some.injEq] at n1
                simp only [Option.map_some', n1]
              · cases n1
            · simp only [Option.some.injEq, Prod.mk.injEq] at h
              rw [← h.2.1, ← h.2.2]
              exact ⟨n2 fr1 dtr1 h4, by rw [t2 result1 itr2 h3, hrw]⟩

theorem ProcessQuery_loop_eq (hash : List Nat → Nat) (q0 : List Nat) (qrest : List (List Nat))
    (readers : List (HashTableReader × HashTableReader)) :
    ∀ fr : List QueryResult,
      (ProcessQuery_loop hash q0 qrest readers fr).map Prod.fst =
          (poolResults hash q0 qrest readers).map (fr ++ ·) ∧
      ∀ fr1 rs1, ProcessQuery_loop hash q0 qrest readers fr = some (fr1, rs1) →
        rs1.map (fun p => (p.1.rewind, p.2.rewind)) =
          readers.map (fun p => (p.1.rewind, p.2.rewind)) := by
  induction readers with
  | nil =>
    intro fr
    refine ⟨by simp [ProcessQuery_loop, poolResults], fun fr1 rs1 h => ?_⟩
    simp only [ProcessQuery_loop, Option.some.injEq, Prod.mk.injEq] at h
    rw [← h.2]
  | cons p rest ih =>
    intro fr
    obtain ⟨dtr, itr⟩ := p
    simp only [ProcessQuery_loop, poolResults]
    obtain ⟨f1, f2⟩ := ProcessQuery_file_eq hash q0 qrest dtr itr fr
    cases h1 : ProcessQuery_file hash q0 qrest dtr itr fr with
    | none =>
      rw [h1] at f1
      cases h2 : fileResults hash dtr itr q0 qrest with
      | none => exact ⟨rfl, fun _ _ h => by cases h⟩
      | some l => rw [h2] at f1; cases f1
    | some r1 =>
      obtain ⟨fr1, dtr1, itr1⟩ := r1
      rw [h1] at f1
      cases h2 : fileResults hash dtr itr q0 qrest with
      | none => rw [h2] at f1; cases f1
      | some l =>
        rw [h2] at f1
        simp only [Option.map_some', Option.some.injEq] at f1
        simp only []
        obtain ⟨i1, i2⟩ := ih fr1
        cases h3 : ProcessQuery_loop hash q0 qrest rest fr1 with
        | none =>
          rw [h3] at i1
          cases h4 : poolResults hash q0 qrest rest with
          | none => exact ⟨rfl, fun _ _ h => by cases h⟩
          | some pool => rw [h4] at i1; cases i1
        | some r2 =>
          obtain ⟨fr2, rs2⟩ := r2
          rw [h3] at i1
          cases h4 : poolResults hash q0 qrest rest with
          | none => rw [h4] at i1; cases i1
          | some pool =>
            rw [h4] at i1
            simp only [Option.map_some', Option.some.injEq] at i1
            refine ⟨?_, fun fr3 rs3 h => ?_⟩
            · simp only [Option.map_some', i1, f1, List.append_assoc]
            · simp only [Option.some.injEq, Prod.mk.injEq] at h
              rw [← h.2, List.map_cons, List.map_cons, i2 fr2 rs2 h3,
                (f2 fr1 dtr1 itr1 h1).1, (f2 fr1 dtr1 itr1 h1).2]

theorem poolResults_of_bytes (hash : List Nat → Nat) (q0 : List Nat) (qrest : List (List Nat)) :
    ∀ (readers readers' : List (HashTableReader × HashTableReader)),
      readers.map (fun p => (p.1.rewind, p.2.rewind)) =
        readers'.map (fun p => (p.1.rewind, p.2.rewind)) →
      poolResults hash q0 qrest readers = poolResults hash q0 qrest readers' := by
  intro readers
  induction readers with
  | nil =>
    intro readers' h
    cases readers' with
    | nil => rfl
    | cons _ _ => cases h
  | cons p rest ih =>
    intro readers' h
    cases readers' with
    | nil => cases h
    | cons p' rest' =>
      simp only [List.map_cons, List.cons.injEq, Prod.mk.injEq] at h
      obtain ⟨dtr, itr⟩ := p
      obtain ⟨dtr', itr'⟩ := p'
      simp only [poolResults, fileResults_of_bytes hash dtr dtr' itr itr' h.1.1 h.1.2,
        ih rest' h.2]

/-- `ProcessQuery` in terms of the posting lists and names of the files. -/
theorem ProcessQuery_eq (hash : List Nat → Nat) (qp : QueryProcessor) (q0 : List Nat)
    (qrest : List (List Nat)) :
    (QueryProcessor.ProcessQuery hash qp (q0 :: qrest)).map Prod.fst =
        (poolResults hash q0 qrest qp.readers).map sort ∧
      ∀ out qp1, QueryProcessor.ProcessQuery hash qp (q0 :: qrest) = some (out, qp1) →
        qp1.readers.map (fun p => (p.1.rewind, p.2.rewind)) =
          qp.readers.map (fun p => (p.1.rewind, p.2.rewind)) := by
  obtain ⟨l1, l2⟩ := ProcessQuery_loop_eq hash q0 qrest qp.readers []
  simp only [QueryProcessor.ProcessQuery]
  cases h1 : ProcessQuery_loop hash q0 qrest qp.readers [] with
  | none =>
    rw [h1] at l1
    cases h2 : poolResults hash q0 qrest qp.readers with
    | none => exact ⟨rfl, fun _ _ h => by cases h⟩
    | some pool => rw [h2] at l1; cases l1
  | some r1 =>
    obtain ⟨fr1, rs1⟩ := r1
    rw [h1] at l1
    cases h2 : poolResults hash q0 qrest qp.readers with
    | none => rw [h2] at l1; cases l1
    | some pool =>
      rw [h2] at l1
      simp only [Option.map_some', Option.some.injEq, List.nil_append] at l1
      refine ⟨by simp only [Option.map_some', l1], fun out qp1 h => ?_⟩
      simp only [Option.some.injEq, Prod.mk.injEq] at h
      rw [← h.2]
      exact l2 fr1 rs1 h1

theorem sampleIndexFile_bytes :
    sampleIndexFile = some (indexFileBytes sampleMagic sampleMemIndex sampleDocTable) := by
  rw [sampleIndexFile, WriteIndex_bytes _ _ _ _ _ (by decide!) (by decide!)]

theorem some_getD_of_isSome {A : Type} (o : Option A) (d : A) (h : o.isSome = true) :
    o = some (o.getD d) := by
  cases o with
  | none => cases h
  | some a => rfl

set_option maxRecDepth 100000 in
theorem sampleQueryProcessor_construct :
    QueryProcessor.construct sampleMagic
      [some (indexFileBytes sampleMagic sampleMemIndex sampleDocTable)] false =
        some sampleQueryProcessor :=
  some_getD_of_isSome _ _ (by decide!)

set_option maxRecDepth 100000 in
theorem sampleQueryProcessor_apple :
    (QueryProcessor.ProcessQuery sampleHash sampleQueryProcessor [wordApple]).map Prod.fst =
      some [⟨[65], 2⟩] := by
  decide!

set_option maxRecDepth 100000 in
theorem sampleQueryProcessor_banana :
    (QueryProcessor.ProcessQuery sampleHash sampleQueryProcessor [wordBanana]).map Prod.fst =
      some [⟨[65], 1⟩, ⟨[66], 1⟩] := by
  decide!

set_option maxRecDepth 100000 in
theorem sampleQueryProcessor_apple_cherry :
    (QueryProcessor.ProcessQuery sampleHash sampleQueryProcessor [wordApple, wordCherry]).map
      Prod.fst = some [] := by
  decide!

set_option maxRecDepth 100000 in
theorem sampleMemIndex_positions :
    ∀ w ∈ [wordApple, wordBanana, wordCherry],
      MemIndex_positions sampleHash sampleMemIndex w 1 = wordPositions sampleDocument w ∧
        MemIndex_positions sampleHash sampleMemIndex w 2 = wordPositions sampleDocumentB w := by
  decide!

/-- C6: the sample corpus is document A = "apple banana apple" (docID 1) and document
B = "banana cherry" (docID 2); the positions the sample index holds for each word
and document are the ones `InsertContent` records; the sample index file is what
`WriteIndex` writes for it; and on the query processor opened on that one file,
`ProcessQuery(["apple"])` is `[(A, 2)]`, `ProcessQuery(["banana"])` is
`[(A, 1), (B, 1)]` in that order and `ProcessQuery(["apple", "cherry"])` is empty. -/
theorem ProcessQuery_sample_corpus :
    (∀ w ∈ [wordApple, wordBanana, wordCherry],
      MemIndex_positions sampleHash sampleMemIndex w 1 = wordPositions sampleDocument w ∧
        MemIndex_positions sampleHash sampleMemIndex w 2 = wordPositions sampleDocumentB w) ∧
    QueryProcessor.construct sampleMagic [sampleIndexFile] false = some sampleQueryProcessor ∧
    (QueryProcessor.ProcessQuery sampleHash sampleQueryProcessor [wordApple]).map Prod.fst =
      some [⟨[65], 2⟩] ∧
    (QueryProcessor.ProcessQuery sampleHash sampleQueryProcessor [wordBanana]).map Prod.fst =
      some [⟨[65], 1⟩, ⟨[66], 1⟩] ∧
    (QueryProcessor.ProcessQuery sampleHash sampleQueryProcessor [wordApple, wordCherry]).map
      Prod.fst = some [] :=
  ⟨sampleMemIndex_positions, by rw [sampleIndexFile_bytes]; exact sampleQueryProcessor_construct,
    sampleQueryProcessor_apple, sampleQueryProcessor_banana, sampleQueryProcessor_apple_cherry⟩

theorem mem_intersect {result next : List DocIDElementHeader} {e : DocIDElementHeader}
    (h : e ∈ intersect result next) :
    ∃ x ∈ result, x.doc_id = e.doc_id ∧ (∃ y ∈ next, y.doc_id = e.doc_id) ∧
      e.num_positions = toInt32 (x.num_positions + postingCount next e.doc_id) := by
  rw [intersect_eq_filterMap, List.mem_filterMap] at h
  obtain ⟨x, hx, hxe⟩ := h
  cases hf : next.find? fun y => decide (x.doc_id = y.doc_id) with
  | none => rw [hf] at hxe; cases hxe
  | some y =>
    rw [hf] at hxe
    simp only [Option.map_some', Option.some.injEq] at hxe
    subst hxe
    have hy : x.doc_id = y.doc_id := by simpa using List.find?_some hf
    refine ⟨x, hx, rfl, ⟨y, List.mem_of_find?_eq_some hf, hy.symm⟩, ?_⟩
    simp only [postingCount, hf]

theorem intersect_doc_ids_sublist (result next : List DocIDElementHeader) :
    ((intersect result next).map fun e => e.doc_id).Sublist (result.map fun e => e.doc_id) := by
  rw [intersect_eq_filterMap]
  induction result with
  | nil => exact List.Sublist.refl _
  | cons x xs ih =>
    rw [List.filterMap_cons]
    cases hf : next.find? fun y => decide (x.doc_id = y.doc_id) with
    | none =>
      simp only [Option.map_none']
      exact List.Sublist.cons _ ih
    | some y =>
      simp only [Option.map_some', List.map_cons]
      exact List.Sublist.cons₂ _ ih

theorem mem_intersect_of_mem {result next : List DocIDElementHeader} {id : Nat}
    (h1 : id ∈ result.map fun e => e.doc_id) (h2 : id ∈ next.map fun e => e.doc_id) :
    id ∈ (intersect result next).map fun e => e.doc_id := by
  obtain ⟨x, hx, rfl⟩ := List.mem_map.mp h1
  obtain ⟨y, hy, hyx⟩ := List.mem_map.mp h2
  have hsome : (next.find? fun z => decide (x.doc_id = z.doc_id)).isSome = true := by
    rw [List.find?_isSome]
    exact ⟨y, hy, by simpa using hyx.symm⟩
  obtain ⟨z, hz⟩ := Option.isSome_iff_exists.mp hsome
  rw [intersect_eq_filterMap, List.mem_map]
  refine ⟨⟨x.doc_id, toInt32 (x.num_positions + z.num_positions)⟩, ?_, rfl⟩
  rw [List.mem_filterMap]
  exact ⟨x, hx, by rw [hz]; rfl⟩

/-- The posting lists of the terms, one per term, when every term has one. -/
theorem termsResult_of_lists (hash : List Nat → Nat) (itr : HashTableReader)
    (rest : List (List Nat)) :
    ∀ (ls : List (List DocIDElementHeader)) (result : List DocIDElementHeader),
      List.Forall₂ (fun t l => termPostings hash itr t = some (some l)) rest ls →
      termsResult hash itr rest result = some (ls.foldl intersect result) := by
  induction rest with
  | nil =>
    intro ls result h
    cases h
    rfl
  | cons t rest ih =>
    intro ls result h
    cases h with
    | cons h1 h2 =>
      simp only [termsResult, h1, List.foldl_cons]
      exact ih _ _ h2

theorem termsResult_cases (hash : List Nat → Nat) (itr : HashTableReader)
    (rest : List (List Nat)) :
    ∀ (result S : List DocIDElementHeader), termsResult hash itr rest result = some S →
      S = [] ∨ ∃ ls, List.Forall₂ (fun t l => termPostings hash itr t = some (some l)) rest ls ∧
        S = ls.foldl intersect result := by
  induction rest with
  | nil =>
    intro result S h
    simp only [termsResult, Option.some.injEq] at h
    exact Or.inr ⟨[], List.Forall₂.nil, h.symm⟩
  | cons t rest ih =>
    intro result S h
    simp only [termsResult] at h
    cases h1 : termPostings hash itr t with
    | none => simp [h1] at h
    | some o =>
      cases o with
      | none =>
        simp only [h1, Option.some.injEq] at h
        exact Or.inl h.symm
      | some next =>
        simp only [h1] at h
        rcases ih _ S h with h2 | ⟨ls, h2, h3⟩
        · exact Or.inl h2
        · exact Or.inr ⟨next :: ls, List.Forall₂.cons h1 h2, h3⟩

theorem survivors_cases (hash : List Nat → Nat) (itr : HashTableReader) (q0 : List Nat)
    (qrest : List (List Nat)) (S : List DocIDElementHeader)
    (h : survivors hash itr q0 qrest = some S) :
    S = [] ∨ ∃ l1 ls, List.Forall₂ (fun t l => termPostings hash itr t = some (some l))
        (q0 :: qrest) (l1 :: ls) ∧ S = ls.foldl intersect l1 := by
  simp only [survivors] at h
  cases h1 : termPostings hash itr q0 with
  | none => simp [h1] at h
  | some o =>
    cases o with
    | none =>
      simp only [h1, Option.some.injEq] at h
      exact Or.inl h.symm
    | some l1 =>
      simp only [h1] at h
      rcases termsResult_cases hash itr qrest l1 S h with h2 | ⟨ls, h2, h3⟩
      · exact Or.inl h2
      · exact Or.inr ⟨l1, ls, List.Forall₂.cons h1 h2, h3⟩

/-- An entry that survives all posting lists: its docID is in each of them and its
count is the sum, in `int` arithmetic, of the counts stored for its docID. -/
theorem mem_foldl_intersect (ls : List (List DocIDElementHeader)) :
    ∀ (l1 : List DocIDElementHeader) (e : DocIDElementHeader), e ∈ ls.foldl intersect l1 →
      ∃ x ∈ l1, x.doc_id = e.doc_id ∧ (∀ l ∈ ls, ∃ y ∈ l, y.doc_id = e.doc_id) ∧
        e.num_positions = rankAfter e.doc_id x.num_positions ls := by
  induction ls with
  | nil =>
    intro l1 e h
    exact ⟨e, h, rfl, fun l hl => absurd hl (List.not_mem_nil _), rfl⟩
  | cons l ls ih =>
    intro l1 e h
    rw [List.foldl_cons] at h
    obtain ⟨x, hx, hxe, hall, hrank⟩ := ih _ e h
    obtain ⟨x0, hx0, hx0e, hy, hnum⟩ := mem_intersect hx
    refine ⟨x0, hx0, by rw [hx0e, hxe], ?_, ?_⟩
    · intro l' hl'
      rcases List.mem_cons.mp hl' with rfl | hl'
      · obtain ⟨y, hy1, hy2⟩ := hy
        exact ⟨y, hy1, by rw [hy2, hxe]⟩
      · exact hall l' hl'
    · rw [hrank, rankAfter, rankAfter, List.foldl_cons, hnum, hxe]

theorem foldl_intersect_nodup (ls : List (List DocIDElementHeader)) :
    ∀ (l1 : List DocIDElementHeader), (l1.map fun e => e.doc_id).Nodup →
      ((ls.foldl intersect l1).map fun e => e.doc_id).Nodup := by
  induction ls with
  | nil => intro l1 h; exact h
  | cons l ls ih =>
    intro l1 h
    rw [List.foldl_cons]
    exact ih _ (List.Nodup.sublist (intersect_doc_ids_sublist l1 l) h)

theorem mem_foldl_intersect_of_mem (ls : List (List DocIDElementHeader)) (id : Nat) :
    ∀ (l1 : List DocIDElementHeader), id ∈ l1.map (fun e => e.doc_id) →
      (∀ l ∈ ls, id ∈ l.map fun e => e.doc_id) →
      id ∈ (ls.foldl intersect l1).map fun e => e.doc_id := by
  induction ls with
  | nil => intro l1 h _; exact h
  | cons l ls ih =>
    intro l1 h1 hall
    rw [List.foldl_cons]
    exact ih _ (mem_intersect_of_mem h1 (hall l (List.mem_cons_self _ _)))
      (fun l' hl' => hall l' (List.mem_cons_of_mem _ hl'))

theorem rankAfter_eq_sum (id : Nat) (ls : List (List DocIDElementHeader)) :
    ∀ start : Int, 0 ≤ start → (∀ l ∈ ls, 0 ≤ postingCount l id) →
      start + (ls.map fun l => postingCount l id).sum < 2147483648 →
      rankAfter id start ls = start + (ls.map fun l => postingCount l id).sum := by
  induction ls with
  | nil => intro start _ _ _; simp [rankAfter]
  | cons l ls ih =>
    intro start h0 hall hsum
    simp only [List.map_cons, List.sum_cons] at hsum ⊢
    have hl := hall l (List.mem_cons_self _ _)
    have hrest : 0 ≤ (ls.map fun l => postingCount l id).sum :=
      List.sum_nonneg (fun x hx => by
        obtain ⟨l', hl', rfl⟩ := List.mem_map.mp hx
        exact hall l' (List.mem_cons_of_mem _ hl'))
    have h1 : toInt32 (start + postingCount l id) = start + postingCount l id :=
      toInt32_of_range _ (by omega) (by omega)
    rw [rankAfter, List.foldl_cons, h1]
    have := ih (start + postingCount l id) (by omega)
      (fun l' hl' => hall l' (List.mem_cons_of_mem _ hl')) (by omega)
    rw [rankAfter] at this
    rw [this]
    omega

theorem stringLt_irrefl (a : List Nat) : stringLt a a = false := by
  induction a with
  | nil => rfl
  | cons x xs ih => simp [stringLt, ih]

theorem stringLt_trichotomy (a : List Nat) :
    ∀ b : List Nat, stringLt a b = true ∨ a = b ∨ stringLt b a = true := by
  induction a with
  | nil =>
    intro b
    cases b with
    | nil => exact Or.inr (Or.inl rfl)
    | cons y ys => exact Or.inl rfl
  | cons x xs ih =>
    intro b
    cases b with
    | nil => exact Or.inr (Or.inr rfl)
    | cons y ys =>
      simp only [stringLt, Bool.or_eq_true, Bool.and_eq_true, decide_eq_true_eq, List.cons.injEq]
      rcases Nat.lt_trichotomy x y with h | h | h
      · exact Or.inl (Or.inl h)
      · rcases ih ys with h1 | h1 | h1
        · exact Or.inl (Or.inr ⟨h, h1⟩)
        · exact Or.inr (Or.inl ⟨h, h1⟩)
        · exact Or.inr (Or.inr (Or.inr ⟨h.symm, h1⟩))
      · exact Or.inr (Or.inr (Or.inl h))

theorem stringLt_trans (a : List Nat) :
    ∀ b c : List Nat, stringLt a b = true → stringLt b c = true → stringLt a c = true := by
  induction a with
  | nil =>
    intro b c h1 h2
    cases b with
    | nil => cases h1
    | cons y ys =>
      cases c with
      | nil => cases h2
      | cons z zs => rfl
  | cons x xs ih =>
    intro b c h1 h2
    cases b with
    | nil => cases h1
    | cons y ys =>
      cases c with
      | nil => cases h2
      | cons z zs =>
        simp only [stringLt, Bool.or_eq_true, Bool.and_eq_true, decide_eq_true_eq] at h1 h2 ⊢
        rcases h1 with h1 | ⟨h1, h1'⟩
        · rcases h2 with h2 | ⟨h2, _⟩
          · exact Or.inl (by omega)
          · exact Or.inl (by omega)
        · rcases h2 with h2 | ⟨h2, h2'⟩
          · exact Or.inl (by omega)
          · exact Or.inr ⟨by omega, ih ys zs h1' h2'⟩

theorem stringLt_asymm (a b : List Nat) (h : stringLt a b = true) : stringLt b a = false := by
  cases hb : stringLt b a with
  | false => rfl
  | true =>
    have := stringLt_trans a b a h hb
    rw [stringLt_irrefl] at this
    cases this

/-- `operator<` is false from `b` to `a` exactly when `a` comes first by name, or
the names are equal and the rank of `a` is not above that of `b`. -/
theorem QueryResult_not_lt (a b : QueryResult) :
    QueryResult.lt b a = false ↔
      (stringLt a.document_name b.document_name = true ∨
        (a.document_name = b.document_name ∧ a.rank ≤ b.rank)) := by
  simp only [QueryResult.lt, Bool.or_eq_false_iff, Bool.and_eq_false_imp, decide_eq_true_eq,
    decide_eq_false_iff_not, Int.not_lt]
  constructor
  · rintro ⟨h1, h2⟩
    rcases stringLt_trichotomy a.document_name b.document_name with h | h | h
    · exact Or.inl h
    · exact Or.inr ⟨h, h2 h.symm⟩
    · rw [h] at h1; cases h1
  · rintro (h | ⟨h1, h2⟩)
    · refine ⟨stringLt_asymm _ _ h, fun heq => ?_⟩
      rw [heq, stringLt_irrefl] at h
      cases h
    · exact ⟨by rw [h1]; exact stringLt_irrefl _, fun _ => h2⟩

theorem QueryResult_order_trans (a b c : QueryResult)
    (h1 : stringLt a.document_name b.document_name = true ∨
      (a.document_name = b.document_name ∧ a.rank ≤ b.rank))
    (h2 : stringLt b.document_name c.document_name = true ∨
      (b.document_name = c.document_name ∧ b.rank ≤ c.rank)) :
    stringLt a.document_name c.document_name = true ∨
      (a.document_name = c.document_name ∧ a.rank ≤ c.rank) := by
  rcases h1 with h1 | ⟨h1, h1'⟩
  · rcases h2 with h2 | ⟨h2, _⟩
    · exact Or.inl (stringLt_trans _ _ _ h1 h2)
    · exact Or.inl (by rw [← h2]; exact h1)
  · rcases h2 with h2 | ⟨h2, h2'⟩
    · exact Or.inl (by rw [h1]; exact h2)
    · exact Or.inr ⟨h1.trans h2, by omega⟩

theorem sort_insert_perm (x : QueryResult) (l : List QueryResult) :
    (sort_insert x l).Perm (x :: l) := by
  induction l with
  | nil => exact List.Perm.refl _
  | cons y ys ih =>
    simp only [sort_insert]
    split
    · exact (List.Perm.cons y ih).trans (List.Perm.swap x y ys)
    · exact List.Perm.refl _

theorem sort_perm (l : List QueryResult) : (sort l).Perm l := by
  induction l with
  | nil => exact List.Perm.refl _
  | cons x xs ih =>
    rw [sort, List.foldr_cons]
    exact (sort_insert_perm x _).trans (List.Perm.cons x ih)

theorem sort_insert_sorted (x : QueryResult) (l : List QueryResult)
    (h : l.Pairwise fun a b => stringLt a.document_name b.document_name = true ∨
      (a.document_name = b.document_name ∧ a.rank ≤ b.rank)) :
    (sort_insert x l).Pairwise fun a b => stringLt a.document_name b.document_name = true ∨
      (a.document_name = b.document_name ∧ a.rank ≤ b.rank) := by
  induction l with
  | nil => exact List.pairwise_singleton _ _
  | cons y ys ih =>
    rw [List.pairwise_cons] at h
    simp only [sort_insert]
    by_cases hlt : QueryResult.lt y x = true
    · rw [if_pos hlt, List.pairwise_cons]
      refine ⟨fun z hz => ?_, ih h.2⟩
      rcases List.mem_cons.mp ((sort_insert_perm x ys).subset hz) with rfl | hz
      · have hxy : QueryResult.lt z y = false := by
          cases hzy : QueryResult.lt z y with
          | false => rfl
          | true =>
            exfalso
            simp only [QueryResult.lt, Bool.or_eq_true, Bool.and_eq_true,
              decide_eq_true_eq] at hlt hzy
            rcases hlt with h1 | ⟨h1, h1'⟩
            · rcases hzy with h2 | ⟨h2, _⟩
              · have := stringLt_trans _ _ _ h1 h2
                rw [stringLt_irrefl] at this; cases this
              · rw [h2, stringLt_irrefl] at h1; cases h1
            · rcases hzy with h2 | ⟨_, h2'⟩
              · rw [h1, stringLt_irrefl] at h2; cases h2
              · omega
        exact (QueryResult_not_lt y z).mp hxy
      · exact h.1 z hz
    · have hlt' : QueryResult.lt y x = false := by simpa using hlt
      have hxy := (QueryResult_not_lt x y).mp hlt'
      rw [if_neg hlt, List.pairwise_cons]
      refine ⟨fun z hz => ?_, List.pairwise_cons.mpr h⟩
      rcases List.mem_cons.mp hz with rfl | hz
      · exact hxy
      · exact QueryResult_order_trans _ _ _ hxy (h.1 z hz)

theorem sort_sorted (l : List QueryResult) :
    (sort l).Pairwise fun a b => stringLt a.document_name b.document_name = true ∨
      (a.document_name = b.document_name ∧ a.rank ≤ b.rank) := by
  induction l with
  | nil => exact List.Pairwise.nil
  | cons x xs ih =>
    rw [sort, List.foldr_cons]
    exact sort_insert_sorted x _ ih

theorem resolveEntry_some {dtr : HashTableReader} {e : DocIDElementHeader} {res : QueryResult}
    (h : resolveEntry dtr e = some res) :
    docName dtr e.doc_id = some (some res.document_name) ∧ res.rank = e.num_positions := by
  unfold resolveEntry at h
  split at h
  · rename_i n hn
    simp only [Option.some.injEq] at h
    subst h
    exact ⟨hn, rfl⟩
  · cases h

theorem fileResults_some {hash : List Nat → Nat} {dtr itr : HashTableReader} {q0 : List Nat}
    {qrest : List (List Nat)} {l : List QueryResult}
    (h : fileResults hash dtr itr q0 qrest = some l) :
    ∃ S, survivors hash itr q0 qrest = some S ∧ l = S.filterMap (resolveEntry dtr) := by
  unfold fileResults at h
  cases hs : survivors hash itr q0 qrest with
  | none => simp [hs] at h
  | some S =>
    simp only [hs] at h
    split at h
    · simp only [Option.some.injEq] at h
      exact ⟨S, rfl, h.symm⟩
    · cases h

theorem mem_poolResults (hash : List Nat → Nat) (q0 : List Nat) (qrest : List (List Nat))
    (readers : List (HashTableReader × HashTableReader)) :
    ∀ pool, poolResults hash q0 qrest readers = some pool →
      ∃ perFile : List (List QueryResult),
        List.Forall₂ (fun p l => fileResults hash p.1 p.2 q0 qrest = some l) readers perFile ∧
        pool = perFile.flatten := by
  induction readers with
  | nil =>
    intro pool h
    simp only [poolResults, Option.some.injEq] at h
    exact ⟨[], List.Forall₂.nil, h.symm⟩
  | cons p rest ih =>
    intro pool h
    obtain ⟨dtr, itr⟩ := p
    simp only [poolResults] at h
    cases h1 : fileResults hash dtr itr q0 qrest with
    | none => simp [h1] at h
    | some l =>
      simp only [h1] at h
      cases h2 : poolResults hash q0 qrest rest with
      | none => simp [h2] at h
      | some pool2 =>
        simp only [h2, Option.some.injEq] at h
        obtain ⟨perFile, hf, hp⟩ := ih pool2 h2
        exact ⟨l :: perFile, List.Forall₂.cons h1 hf, by rw [← h, hp]; rfl⟩

theorem ProcessQuery_some {hash : List Nat → Nat} {qp : QueryProcessor} {q0 : List Nat}
    {qrest : List (List Nat)} {r : List QueryResult × QueryProcessor}
    (h : QueryProcessor.ProcessQuery hash qp (q0 :: qrest) = some r) :
    ∃ pool, poolResults hash q0 qrest qp.readers = some pool ∧ r.1 = sort pool := by
  have h1 := (ProcessQuery_eq hash qp q0 qrest).1
  rw [h] at h1
  cases hp : poolResults hash q0 qrest qp.readers with
  | none => rw [hp] at h1; cases h1
  | some pool =>
    rw [hp] at h1
    simp only [Option.map_some', Option.some.injEq] at h1
    exact ⟨pool, rfl, h1⟩

/-- Every result of a query comes from a surviving entry of one of the files. -/
theorem ProcessQuery_mem {hash : List Nat → Nat} {qp : QueryProcessor} {q0 : List Nat}
    {qrest : List (List Nat)} {r : List QueryResult × QueryProcessor}
    (h : QueryProcessor.ProcessQuery hash qp (q0 :: qrest) = some r) :
    ∀ res ∈ r.1, ∃ p ∈ qp.readers, ∃ S e, survivors hash p.2 q0 qrest = some S ∧ e ∈ S ∧
      resolveEntry p.1 e = some res := by
  obtain ⟨pool, hp, hr⟩ := ProcessQuery_some h
  obtain ⟨perFile, hf, hflat⟩ := mem_poolResults hash q0 qrest qp.readers pool hp
  intro res hres
  rw [hr] at hres
  have hmem : res ∈ perFile.flatten := by
    rw [← hflat]; exact (sort_perm pool).subset hres
  obtain ⟨l, hl, hresl⟩ := List.mem_flatten.mp hmem
  obtain ⟨i, hi, rfl⟩ := List.getElem_of_mem hl
  have hlen := hf.length_eq
  have hpi : fileResults hash (qp.readers[i]).1 (qp.readers[i]).2 q0 qrest = some perFile[i] :=
    List.Forall₂.get hf (by omega) hi
  obtain ⟨S, hS, hl2⟩ := fileResults_some hpi
  rw [hl2, List.mem_filterMap] at hresl
  obtain ⟨e, he, hre⟩ := hresl
  exact ⟨qp.readers[i], List.getElem_mem _, S, e, hS, he, hre⟩

theorem survivors_mem {hash : List Nat → Nat} {itr : HashTableReader} {q0 : List Nat}
    {qrest : List (List Nat)} {S : List DocIDElementHeader} {e : DocIDElementHeader}
    (hS : survivors hash itr q0 qrest = some S) (he : e ∈ S) :
    ∃ l1 ls x, List.Forall₂ (fun t l => termPostings hash itr t = some (some l))
        (q0 :: qrest) (l1 :: ls) ∧
      x ∈ l1 ∧ x.doc_id = e.doc_id ∧ (∀ l ∈ ls, ∃ y ∈ l, y.doc_id = e.doc_id) ∧
      e.num_positions = rankAfter e.doc_id x.num_positions ls := by
  rcases survivors_cases hash itr q0 qrest S hS with h | ⟨l1, ls, hl, hfold⟩
  · rw [h] at he; cases he
  · rw [hfold] at he
    obtain ⟨x, hx, hxe, hall, hrank⟩ := mem_foldl_intersect ls l1 e he
    exact ⟨l1, ls, x, hl, hx, hxe, hall, hrank⟩

theorem isSome_of_map_eq_some {A B : Type} {o : Option A} {f : A → B} {b : B}
    (h : o.map f = some b) : o.isSome = true := by
  cases o with
  | none => cases h
  | some a => rfl

theorem forall₂_mem_left {A B : Type} {R : A → B → Prop} {l1 : List A} {l2 : List B}
    (h : List.Forall₂ R l1 l2) : ∀ a ∈ l1, ∃ b ∈ l2, R a b := by
  induction h with
  | nil => intro a ha; cases ha
  | cons hab _ ih =>
    intro a ha
    rcases List.mem_cons.mp ha with rfl | ha
    · exact ⟨_, List.mem_cons_self _ _, hab⟩
    · obtain ⟨b, hb, hr⟩ := ih a ha
      exact ⟨b, List.mem_cons_of_mem _ hb, hr⟩

/-- C2: when `ProcessQuery` returns for a non-empty query, every (name, rank) it
returns is the name that the `DocTableReader` of one of the opened files gives for
a docID which occurs in the posting list of every term of the query in that same
file; a docID that is missing from the posting list of a term in a file gives no
result for that file. -/
theorem ProcessQuery_results_in_every_posting_list (FNVHash64 : List Nat → Nat)
    (qp : QueryProcessor) (q0 : List Nat) (qrest : List (List Nat))
    (r : List QueryResult × QueryProcessor)
    (h : QueryProcessor.ProcessQuery FNVHash64 qp (q0 :: qrest) = some r) :
    ∀ res ∈ r.1, ∃ p ∈ qp.readers, ∃ doc_id,
      docName p.1 doc_id = some (some res.document_name) ∧
      ∀ t ∈ q0 :: qrest, ∃ l, termPostings FNVHash64 p.2 t = some (some l) ∧
        doc_id ∈ l.map fun e => e.doc_id := by
  intro res hres
  obtain ⟨p, hp, S, e, hS, he, hre⟩ := ProcessQuery_mem h res hres
  obtain ⟨l1, ls, x, hl, hx, hxe, hall, _⟩ := survivors_mem hS he
  refine ⟨p, hp, e.doc_id, (resolveEntry_some hre).1, fun t ht => ?_⟩
  obtain ⟨l, hlmem, hlt⟩ := forall₂_mem_left hl t ht
  refine ⟨l, hlt, ?_⟩
  rcases List.mem_cons.mp hlmem with rfl | hlmem
  · exact List.mem_map.mpr ⟨x, hx, hxe⟩
  · obtain ⟨y, hy, hye⟩ := hall l hlmem
    exact List.mem_map.mpr ⟨y, hy, hye⟩

theorem getD_fst_of_map {A B : Type} {o : Option (A × B)} {a : A}
    (h : o.map Prod.fst = some a) (d : A × B) : (o.getD d).1 = a := by
  cases o with
  | none => cases h
  | some x =>
    simp only [Option.map_some', Option.some.injEq] at h
    exact h

/-- The statement of C2 at the sample index, the query "banana" and the result
(B, 1). -/
theorem ProcessQuery_results_in_every_posting_list_witness :
    ∃ p ∈ sampleQueryProcessor.readers, ∃ doc_id,
      docName p.1 doc_id = some (some [66]) ∧
      ∀ t ∈ [wordBanana], ∃ l, termPostings sampleHash p.2 t = some (some l) ∧
        doc_id ∈ l.map fun e => e.doc_id :=
  ProcessQuery_results_in_every_posting_list sampleHash sampleQueryProcessor wordBanana []
    ((QueryProcessor.ProcessQuery sampleHash sampleQueryProcessor [wordBanana]).getD ([], ⟨[]⟩))
    (some_getD_of_isSome _ _ (isSome_of_map_eq_some sampleQueryProcessor_banana))
    ⟨[66], 1⟩
    (by
      rw [getD_fst_of_map sampleQueryProcessor_banana]
      exact List.mem_cons_of_mem _ (List.mem_singleton.2 rfl))

theorem postingCount_of_nodup {l : List DocIDElementHeader} {x : DocIDElementHeader}
    (hx : x ∈ l) (hnd : (l.map fun e => e.doc_id).Nodup) :
    postingCount l x.doc_id = x.num_positions := by
  induction l with
  | nil => cases hx
  | cons y ys ih =>
    rw [List.map_cons, List.nodup_cons] at hnd
    rcases List.mem_cons.mp hx with rfl | hx
    · simp [postingCount]
    · have hne : x.doc_id ≠ y.doc_id := by
        intro heq
        exact hnd.1 (List.mem_map.mpr ⟨x, hx, heq⟩)
      have := ih hx hnd.2
      simp only [postingCount, List.find?_cons, hne, decide_False] at this ⊢
      exact this

/-- C3: when `ProcessQuery` returns for the query t1..tn, every (name, rank) it
returns comes from a docID of one of the files for which every term has a posting
list `l1, ..., ln` in that file with an entry for the docID, and the rank is the
count of an entry `x` of `l1` for the docID to which the counts that `l2, ..., ln`
store for the docID are added one after the other in `int` arithmetic, once per
query position; the count of `x` is the count `l1` stores for the docID when `l1`
has no repeated docID, and the rank is the plain sum when the counts are not
negative and the sum is below `2^31`. -/
theorem ProcessQuery_rank_is_sum_of_counts (FNVHash64 : List Nat → Nat)
    (qp : QueryProcessor) (q0 : List Nat) (qrest : List (List Nat))
    (r : List QueryResult × QueryProcessor)
    (h : QueryProcessor.ProcessQuery FNVHash64 qp (q0 :: qrest) = some r) :
    ∀ res ∈ r.1, ∃ p ∈ qp.readers, ∃ doc_id l1 ls x,
      docName p.1 doc_id = some (some res.document_name) ∧
      List.Forall₂ (fun t l => termPostings FNVHash64 p.2 t = some (some l))
        (q0 :: qrest) (l1 :: ls) ∧
      x ∈ l1 ∧ x.doc_id = doc_id ∧ (∀ l ∈ ls, ∃ y ∈ l, y.doc_id = doc_id) ∧
      res.rank = rankAfter doc_id x.num_positions ls ∧
      ((l1.map fun e => e.doc_id).Nodup → x.num_positions = postingCount l1 doc_id) ∧
      (0 ≤ x.num_positions → (∀ l ∈ ls, 0 ≤ postingCount l doc_id) →
        x.num_positions + (ls.map fun l => postingCount l doc_id).sum < 2147483648 →
        res.rank = x.num_positions + (ls.map fun l => postingCount l doc_id).sum) := by
  intro res hres
  obtain ⟨p, hp, S, e, hS, he, hre⟩ := ProcessQuery_mem h res hres
  obtain ⟨l1, ls, x, hl, hx, hxe, hall, hrank⟩ := survivors_mem hS he
  obtain ⟨hname, hr⟩ := resolveEntry_some hre
  refine ⟨p, hp, e.doc_id, l1, ls, x, hname, hl, hx, hxe, hall, by rw [hr, hrank], ?_, ?_⟩
  · intro hnd
    rw [← hxe, postingCount_of_nodup hx hnd]
  · intro h0 hnn hsum
    rw [hr, hrank, rankAfter_eq_sum e.doc_id ls x.num_positions h0 hnn hsum]

set_option maxRecDepth 100000 in
theorem sampleQueryProcessor_banana_twice :
    (QueryProcessor.ProcessQuery sampleHash sampleQueryProcessor
      [wordBanana, wordBanana]).map Prod.fst = some [⟨[65], 2⟩, ⟨[66], 2⟩] := by
  decide!

/-- The statement of C3 at the sample index, the query "banana", "banana" and the
result (A, 2). -/
theorem ProcessQuery_rank_is_sum_of_counts_witness :
    ∃ p ∈ sampleQueryProcessor.readers, ∃ doc_id l1 ls x,
      docName p.1 doc_id = some (some [65]) ∧
      List.Forall₂ (fun t l => termPostings sampleHash p.2 t = some (some l))
        [wordBanana, wordBanana] (l1 :: ls) ∧
      x ∈ l1 ∧ x.doc_id = doc_id ∧ (∀ l ∈ ls, ∃ y ∈ l, y.doc_id = doc_id) ∧
      (2 : Int) = rankAfter doc_id x.num_positions ls ∧
      ((l1.map fun e => e.doc_id).Nodup → x.num_positions = postingCount l1 doc_id) ∧
      (0 ≤ x.num_positions → (∀ l ∈ ls, 0 ≤ postingCount l doc_id) →
        x.num_positions + (ls.map fun l => postingCount l doc_id).sum < 2147483648 →
        (2 : Int) = x.num_positions + (ls.map fun l => postingCount l doc_id).sum) :=
  ProcessQuery_rank_is_sum_of_counts sampleHash sampleQueryProcessor wordBanana [wordBanana]
    ((QueryProcessor.ProcessQuery sampleHash sampleQueryProcessor
      [wordBanana, wordBanana]).getD ([], ⟨[]⟩))
    (some_getD_of_isSome _ _ (isSome_of_map_eq_some sampleQueryProcessor_banana_twice))
    ⟨[65], 2⟩
    (by
      rw [getD_fst_of_map sampleQueryProcessor_banana_twice]
      exact List.mem_cons_self _ _)

theorem termsResult_absent (hash : List Nat → Nat) (itr : HashTableReader)
    (pre : List (List Nat)) (t : List Nat) (post : List (List Nat))
    (ht : termPostings hash itr t = some none) :
    ∀ result, (∀ u ∈ pre, ∃ l, termPostings hash itr u = some (some l)) →
      termsResult hash itr (pre ++ t :: post) result = some [] := by
  induction pre with
  | nil =>
    intro result _
    simp only [List.nil_append, termsResult, ht]
  | cons u pre ih =>
    intro result hpre
    obtain ⟨l, hl⟩ := hpre u (List.mem_cons_self _ _)
    simp only [List.cons_append, termsResult, hl]
    exact ih _ (fun v hv => hpre v (List.mem_cons_of_mem _ hv))

theorem survivors_absent (hash : List Nat → Nat) (itr : HashTableReader)
    (q0 : List Nat) (qrest pre : List (List Nat)) (t : List Nat) (post : List (List Nat))
    (hq : q0 :: qrest = pre ++ t :: post) (ht : termPostings hash itr t = some none)
    (hpre : ∀ u ∈ pre, ∃ l, termPostings hash itr u = some (some l)) :
    survivors hash itr q0 qrest = some [] := by
  cases pre with
  | nil =>
    simp only [List.nil_append, List.cons.injEq] at hq
    rw [survivors, hq.1, ht]
  | cons u pre =>
    simp only [List.cons_append, List.cons.injEq] at hq
    obtain ⟨l, hl⟩ := hpre u (List.mem_cons_self _ _)
    rw [survivors, hq.1, hl, hq.2]
    exact termsResult_absent hash itr pre t post ht l
      (fun v hv => hpre v (List.mem_cons_of_mem _ hv))

/-- C8: after a call of `ProcessQuery` that returned, every query gives on the
processor the call left behind the result it gives on the processor before the
call, and the same query gives the same result again; the result of a query is the
same on two processors whose readers differ in nothing but their stream cursors. -/
theorem ProcessQuery_repeatable (FNVHash64 : List Nat → Nat) (qp : QueryProcessor)
    (query : List (List Nat)) (r : List QueryResult × QueryProcessor)
    (h : QueryProcessor.ProcessQuery FNVHash64 qp query = some r) :
    (∀ query2, (QueryProcessor.ProcessQuery FNVHash64 r.2 query2).map Prod.fst =
        (QueryProcessor.ProcessQuery FNVHash64 qp query2).map Prod.fst) ∧
      (QueryProcessor.ProcessQuery FNVHash64 r.2 query).map Prod.fst = some r.1 ∧
      (∀ qp' : QueryProcessor,
        qp'.readers.map (fun p => (p.1.rewind, p.2.rewind)) =
          qp.readers.map (fun p => (p.1.rewind, p.2.rewind)) →
        ∀ query2, (QueryProcessor.ProcessQuery FNVHash64 qp' query2).map Prod.fst =
          (QueryProcessor.ProcessQuery FNVHash64 qp query2).map Prod.fst) := by
  have hsame : ∀ qp' : QueryProcessor,
      qp'.readers.map (fun p => (p.1.rewind, p.2.rewind)) =
        qp.readers.map (fun p => (p.1.rewind, p.2.rewind)) →
      ∀ query2, (QueryProcessor.ProcessQuery FNVHash64 qp' query2).map Prod.fst =
        (QueryProcessor.ProcessQuery FNVHash64 qp query2).map Prod.fst := by
    intro qp' hrw query2
    cases query2 with
    | nil => rfl
    | cons q0 qrest =>
      rw [(ProcessQuery_eq FNVHash64 qp' q0 qrest).1, (ProcessQuery_eq FNVHash64 qp q0 qrest).1,
        poolResults_of_bytes FNVHash64 q0 qrest _ _ hrw]
  have hr : r.2.readers.map (fun p => (p.1.rewind, p.2.rewind)) =
      qp.readers.map (fun p => (p.1.rewind, p.2.rewind)) := by
    cases query with
    | nil => cases h
    | cons q0 qrest => exact (ProcessQuery_eq FNVHash64 qp q0 qrest).2 r.1 r.2 h
  refine ⟨hsame r.2 hr, ?_, hsame⟩
  rw [hsame r.2 hr query, h]
  rfl

/-- The statement of C8 at the sample index: the query "banana" after the query
"apple". -/
theorem ProcessQuery_repeatable_witness :
    (QueryProcessor.ProcessQuery sampleHash
        ((QueryProcessor.ProcessQuery sampleHash sampleQueryProcessor [wordApple]).getD
          ([], ⟨[]⟩)).2 [wordBanana]).map Prod.fst =
      (QueryProcessor.ProcessQuery sampleHash sampleQueryProcessor [wordBanana]).map Prod.fst :=
  (ProcessQuery_repeatable sampleHash sampleQueryProcessor [wordApple]
    ((QueryProcessor.ProcessQuery sampleHash sampleQueryProcessor [wordApple]).getD ([], ⟨[]⟩))
    (some_getD_of_isSome _ _ (isSome_of_map_eq_some sampleQueryProcessor_apple))).1 [wordBanana]

set_option maxRecDepth 100000 in
theorem sampleQueryProcessor_lists :
    List.Forall₂ (fun t l => termPostings sampleHash
        sampleReaders.2 t = some (some l))
      [wordBanana, wordCherry] [[⟨2, 1⟩, ⟨1, 1⟩], [⟨2, 1⟩]] ∧
    docName sampleReaders.1 2 = some (some [66]) ∧
    (ProcessQuery_file sampleHash wordBanana [wordCherry]
      sampleReaders.1
      sampleReaders.2 []).isSome = true := by
  refine ⟨List.Forall₂.cons (by decide!) (List.Forall₂.cons (by decide!) List.Forall₂.nil),
    by decide!, by decide!⟩

theorem first_absent (hash : List Nat → Nat) (itr : HashTableReader) (t : List Nat)
    (ht : termPostings hash itr t = some none) :
    ∀ terms : List (List Nat), t ∈ terms → (∀ u ∈ terms, termPostings hash itr u ≠ none) →
      ∃ pre t1 post, terms = pre ++ t1 :: post ∧ termPostings hash itr t1 = some none ∧
        ∀ u ∈ pre, ∃ l, termPostings hash itr u = some (some l) := by
  intro terms
  induction terms with
  | nil => intro hm; cases hm
  | cons u rest ih =>
    intro hm hno
    cases hu : termPostings hash itr u with
    | none => exact absurd hu (hno u (List.mem_cons_self _ _))
    | some o =>
      cases o with
      | none => exact ⟨[], u, rest, rfl, hu, fun v hv => by cases hv⟩
      | some l =>
        have hne : t ≠ u := by
          intro e
          rw [e, hu] at ht
          cases ht
        have hm2 : t ∈ rest := by
          rcases List.mem_cons.1 hm with e | e
          · exact absurd e hne
          · exact e
        obtain ⟨pre, t1, post, he, h1, hpre⟩ :=
          ih hm2 (fun v hv => hno v (List.mem_cons_of_mem _ hv))
        refine ⟨u :: pre, t1, post, by rw [he]; rfl, h1, ?_⟩
        intro v hv
        rcases List.mem_cons.1 hv with e | e
        · exact ⟨l, by rw [e, hu]⟩
        · exact hpre v e

theorem ProcessQuery_file_absent (hash : List Nat → Nat) (q0 : List Nat)
    (qrest pre : List (List Nat)) (t : List Nat) (post : List (List Nat))
    (dtr itr : HashTableReader) (final_result : List QueryResult)
    (hq : q0 :: qrest = pre ++ t :: post)
    (ht : termPostings hash itr t = some none)
    (hpre : ∀ u ∈ pre, ∃ l, termPostings hash itr u = some (some l)) :
    ∃ dtr1 itr1, ProcessQuery_file hash q0 qrest dtr itr final_result =
      some (final_result, dtr1, itr1) := by
  have hs := survivors_absent hash itr q0 qrest pre t post hq ht hpre
  have hf : fileResults hash dtr itr q0 qrest = some [] := by
    simp [fileResults, hs]
  have h1 := (ProcessQuery_file_eq hash q0 qrest dtr itr final_result).1
  rw [hf] at h1
  cases hp : ProcessQuery_file hash q0 qrest dtr itr final_result with
  | none => rw [hp] at h1; cases h1
  | some r =>
    obtain ⟨fr1, dtr1, itr1⟩ := r
    rw [hp] at h1
    simp only [Option.map_some', List.append_nil, Option.some.injEq] at h1
    exact ⟨dtr1, itr1, by rw [h1]⟩

/-- C4: if a term of the query, the first or a later one, is absent from the word
table of an index file and no lookup of a query term in that file stops on a failed
`Verify333`, the body of `ProcessQuery`'s loop for that file returns and appends
nothing to `final_result`, whatever the posting lists of the other terms hold. The
terms after the first absent one are not looked up: the same holds when only the
terms before it have posting lists. -/
theorem ProcessQuery_file_missing_term (FNVHash64 : List Nat → Nat) (q0 : List Nat)
    (qrest : List (List Nat)) (t : List Nat)
    (dtr itr : HashTableReader) (final_result : List QueryResult)
    (ht : termPostings FNVHash64 itr t = some none) :
    (t ∈ q0 :: qrest → (∀ u ∈ q0 :: qrest, termPostings FNVHash64 itr u ≠ none) →
      ∃ dtr1 itr1, ProcessQuery_file FNVHash64 q0 qrest dtr itr final_result =
        some (final_result, dtr1, itr1)) ∧
    ∀ pre post, q0 :: qrest = pre ++ t :: post →
      (∀ u ∈ pre, ∃ l, termPostings FNVHash64 itr u = some (some l)) →
      ∃ dtr1 itr1, ProcessQuery_file FNVHash64 q0 qrest dtr itr final_result =
        some (final_result, dtr1, itr1) := by
  constructor
  · intro hm hno
    obtain ⟨pre, t1, post, he, h1, hpre⟩ := first_absent FNVHash64 itr t ht _ hm hno
    exact ProcessQuery_file_absent FNVHash64 q0 qrest pre t1 post dtr itr final_result he h1 hpre
  · intro pre post hq hpre
    exact ProcessQuery_file_absent FNVHash64 q0 qrest pre t post dtr itr final_result hq ht hpre

set_option maxRecDepth 100000 in
theorem sampleQueryProcessor_terms :
    termPostings sampleHash sampleReaders.2 [122] = some none ∧
      termPostings sampleHash sampleReaders.2 wordApple = some (some [⟨1, 2⟩]) ∧
      termPostings sampleHash sampleReaders.2 wordBanana = some (some [⟨2, 1⟩, ⟨1, 1⟩]) := by
  refine ⟨by decide!, by decide!, by decide!⟩

/-- The statement of C4 at the sample index and the query "apple", "z", "banana". -/
theorem ProcessQuery_file_missing_term_witness :
    ∃ dtr1 itr1, ProcessQuery_file sampleHash wordApple [[122], wordBanana]
      sampleReaders.1 sampleReaders.2 [⟨[90], 5⟩] = some ([⟨[90], 5⟩], dtr1, itr1) :=
  (ProcessQuery_file_missing_term sampleHash wordApple [[122], wordBanana] [122]
    sampleReaders.1 sampleReaders.2 [⟨[90], 5⟩] sampleQueryProcessor_terms.1).1
    (by decide)
    (fun u hu => by
      simp only [List.mem_cons, List.mem_singleton, List.not_mem_nil, or_false] at hu
      rcases hu with e | e | e
      · rw [e, sampleQueryProcessor_terms.2.1]; exact fun h => by cases h
      · rw [e, sampleQueryProcessor_terms.1]; exact fun h => by cases h
      · rw [e, sampleQueryProcessor_terms.2.2]; exact fun h => by cases h)

set_option maxRecDepth 100000 in
theorem sampleQueryProcessor2_banana :
    (QueryProcessor.ProcessQuery sampleHash sampleQueryProcessor2 [wordBanana]).map Prod.fst =
      some [⟨[65], 1⟩, ⟨[65], 1⟩, ⟨[66], 1⟩, ⟨[66], 1⟩] := by
  decide!

theorem poolResults_of_forall₂ (hash : List Nat → Nat) (q0 : List Nat) (qrest : List (List Nat)) :
    ∀ (readers : List (HashTableReader × HashTableReader)) (perFile : List (List QueryResult)),
      List.Forall₂ (fun p l => fileResults hash p.1 p.2 q0 qrest = some l) readers perFile →
      poolResults hash q0 qrest readers = some perFile.flatten := by
  intro readers
  induction readers with
  | nil =>
    intro perFile h
    cases h
    rfl
  | cons p rs ih =>
    intro perFile h
    cases h with
    | cons h1 h2 =>
      obtain ⟨dtr, itr⟩ := p
      rw [poolResults, h1]
      simp only [ih _ h2, List.flatten_cons]

theorem ProcessQuery_of_pool {hash : List Nat → Nat} {qp : QueryProcessor} {q0 : List Nat}
    {qrest : List (List Nat)} {pool : List QueryResult}
    (h : poolResults hash q0 qrest qp.readers = some pool) :
    ∃ r, QueryProcessor.ProcessQuery hash qp (q0 :: qrest) = some r ∧ r.1 = sort pool := by
  have h1 := (ProcessQuery_eq hash qp q0 qrest).1
  rw [h] at h1
  cases hp : QueryProcessor.ProcessQuery hash qp (q0 :: qrest) with
  | none => rw [hp] at h1; cases h1
  | some r =>
    rw [hp] at h1
    simp only [Option.map_some', Option.some.injEq] at h1
    exact ⟨r, rfl, h1⟩

theorem poolResults_append (hash : List Nat → Nat) (q0 : List Nat) (qrest : List (List Nat))
    (a b : List (HashTableReader × HashTableReader)) (pool : List QueryResult)
    (h : poolResults hash q0 qrest (a ++ b) = some pool) :
    ∃ la lb, poolResults hash q0 qrest a = some la ∧ poolResults hash q0 qrest b = some lb ∧
      pool = la ++ lb := by
  induction a generalizing pool with
  | nil => exact ⟨[], pool, rfl, h, rfl⟩
  | cons p a ih =>
    obtain ⟨dtr, itr⟩ := p
    change (match fileResults hash dtr itr q0 qrest with
      | none => none
      | some l =>
        match poolResults hash q0 qrest (a ++ b) with
        | none => none
        | some pool => some (l ++ pool)) = some pool at h
    cases hf : fileResults hash dtr itr q0 qrest with
    | none => rw [hf] at h; cases h
    | some l =>
      rw [hf] at h
      cases hr : poolResults hash q0 qrest (a ++ b) with
      | none => rw [hr] at h; cases h
      | some rest =>
        rw [hr] at h
        simp only [Option.some.injEq] at h
        obtain ⟨la, lb, h1, h2, h3⟩ := ih rest hr
        refine ⟨l ++ la, lb, ?_, h2, ?_⟩
        · simp only [poolResults, hf, h1]
        · rw [← h, h3, List.append_assoc]

theorem count_names_of_filterMap (dtr : HashTableReader) (doc_id : Nat) (docname : List Nat)
    (S : List DocIDElementHeader)
    (hiff : ∀ e ∈ S, docName dtr e.doc_id = some (some docname) ↔ e.doc_id = doc_id) :
    ((S.filterMap (resolveEntry dtr)).map fun res => res.document_name).count docname =
      (S.map fun e => e.doc_id).count doc_id := by
  induction S with
  | nil => rfl
  | cons e S ih =>
    have ih' := ih (fun x hx => hiff x (List.mem_cons_of_mem _ hx))
    have he := hiff e (List.mem_cons_self _ _)
    rw [List.map_cons, List.count_cons, List.filterMap_cons]
    cases hr : resolveEntry dtr e with
    | none =>
      have hne : e.doc_id ≠ doc_id := by
        intro hd
        have := he.mpr hd
        simp only [resolveEntry, this] at hr
        cases hr
      simp only [ih', beq_iff_eq, hne, if_false, Nat.add_zero]
    | some res =>
      obtain ⟨h1, _⟩ := resolveEntry_some hr
      simp only [List.map_cons, List.count_cons, ih', beq_iff_eq]
      by_cases hd : e.doc_id = doc_id
      · have h2 := he.mpr hd
        rw [h1] at h2
        simp only [Option.some.injEq] at h2
        simp only [hd, h2, if_true]
      · have hn : res.document_name ≠ docname := by
          intro hn
          rw [hn] at h1
          exact hd (he.mp h1)
        simp only [hd, hn, if_false]

/-- C5: the output of `ProcessQuery` is the pool of the results of the index files,
sorted.  The results of one file are the (name, rank) pairs its readers give: the
entries that survive the intersection of the posting lists of the terms, each with
the name its docID resolves to (`fileResults`).  Whenever `ProcessQuery` returns,
every file has such results and the output is a permutation of their
concatenation, nothing added or lost, in ascending order of (name, rank): of two
results the earlier has the smaller document name, or the same name and a rank not
greater.  Whenever every file has results, `ProcessQuery` returns, with such an
output. -/
theorem ProcessQuery_pools_and_sorts (FNVHash64 : List Nat → Nat) (qp : QueryProcessor)
    (q0 : List Nat) (qrest : List (List Nat)) :
    (∀ r, QueryProcessor.ProcessQuery FNVHash64 qp (q0 :: qrest) = some r →
      ∃ perFile : List (List QueryResult),
        List.Forall₂ (fun p l => fileResults FNVHash64 p.1 p.2 q0 qrest = some l)
          qp.readers perFile ∧
        r.1.Perm perFile.flatten ∧
        r.1.Pairwise (fun a b => stringLt a.document_name b.document_name = true ∨
          (a.document_name = b.document_name ∧ a.rank ≤ b.rank))) ∧
    (∀ perFile : List (List QueryResult),
      List.Forall₂ (fun p l => fileResults FNVHash64 p.1 p.2 q0 qrest = some l)
        qp.readers perFile →
      ∃ r, QueryProcessor.ProcessQuery FNVHash64 qp (q0 :: qrest) = some r ∧
        r.1.Perm perFile.flatten ∧
        r.1.Pairwise (fun a b => stringLt a.document_name b.document_name = true ∨
          (a.document_name = b.document_name ∧ a.rank ≤ b.rank))) := by
  constructor
  · intro r h
    obtain ⟨pool, hp, hr⟩ := ProcessQuery_some h
    obtain ⟨perFile, hall, hpool⟩ := mem_poolResults FNVHash64 q0 qrest qp.readers pool hp
    refine ⟨perFile, hall, ?_, ?_⟩
    · rw [hr, ← hpool]; exact sort_perm pool
    · rw [hr]; exact sort_sorted pool
  · intro perFile hall
    obtain ⟨r, hr, hs⟩ := ProcessQuery_of_pool
      (poolResults_of_forall₂ FNVHash64 q0 qrest qp.readers perFile hall)
    refine ⟨r, hr, ?_, ?_⟩
    · rw [hs]; exact sort_perm _
    · rw [hs]; exact sort_sorted _

set_option maxRecDepth 100000 in
theorem sampleQueryProcessor2_files :
    List.Forall₂ (fun p l => fileResults sampleHash p.1 p.2 wordBanana [] = some l)
      sampleQueryProcessor2.readers [[⟨[66], 1⟩, ⟨[65], 1⟩], [⟨[66], 1⟩, ⟨[65], 1⟩]] := by
  decide!

/-- The statement of C5 at two index files that both hold the sample index and the
query "banana": each file gives (B, 1), (A, 1), and the output is a sorted
permutation of the four results. -/
theorem ProcessQuery_pools_and_sorts_witness :
    ∃ r, QueryProcessor.ProcessQuery sampleHash sampleQueryProcessor2 [wordBanana] = some r ∧
      r.1.Perm [⟨[66], 1⟩, ⟨[65], 1⟩, ⟨[66], 1⟩, ⟨[65], 1⟩] ∧
      r.1.Pairwise (fun a b => stringLt a.document_name b.document_name = true ∨
        (a.document_name = b.document_name ∧ a.rank ≤ b.rank)) :=
  (ProcessQuery_pools_and_sorts sampleHash sampleQueryProcessor2 wordBanana []).2
    [[⟨[66], 1⟩, ⟨[65], 1⟩], [⟨[66], 1⟩, ⟨[65], 1⟩]] sampleQueryProcessor2_files

/-- C31: when `ProcessQuery` returns, for an index file of the processor in which
every term of the query has a posting list, the list of the first term without a
repeated docID: a docID that occurs in the posting list of every term in that file
and resolves to a name through the file's `DocTableReader` occurs exactly once
among the entries that survive in that file, its entry yields the name with the
entry's rank, the output of `ProcessQuery` is a permutation of the results of the
files before, the results of this file (one per surviving entry that resolves) and
the results of the files after, and so holds that (name, rank); when no other
surviving docID of the file resolves to the same name, exactly one of the file's
results has the name. -/
theorem ProcessQuery_complete (FNVHash64 : List Nat → Nat) (qp : QueryProcessor)
    (q0 : List Nat) (qrest : List (List Nat)) (r : List QueryResult × QueryProcessor)
    (h : QueryProcessor.ProcessQuery FNVHash64 qp (q0 :: qrest) = some r)
    (before after : List (HashTableReader × HashTableReader))
    (p : HashTableReader × HashTableReader) (hreaders : qp.readers = before ++ p :: after)
    (l1 : List DocIDElementHeader) (ls : List (List DocIDElementHeader))
    (hlists : List.Forall₂ (fun t l => termPostings FNVHash64 p.2 t = some (some l))
      (q0 :: qrest) (l1 :: ls))
    (hnodup : (l1.map fun e => e.doc_id).Nodup)
    (doc_id : Nat) (hall : ∀ l ∈ l1 :: ls, doc_id ∈ l.map fun e => e.doc_id)
    (docname : List Nat) (hname : docName p.1 doc_id = some (some docname)) :
    ∃ (S : List DocIDElementHeader) (lbefore lafter : List QueryResult),
      survivors FNVHash64 p.2 q0 qrest = some S ∧
      poolResults FNVHash64 q0 qrest before = some lbefore ∧
      poolResults FNVHash64 q0 qrest after = some lafter ∧
      r.1.Perm (lbefore ++ S.filterMap (resolveEntry p.1) ++ lafter) ∧
      (S.map fun e => e.doc_id).count doc_id = 1 ∧
      (∀ e ∈ S, e.doc_id = doc_id → resolveEntry p.1 e = some ⟨docname, e.num_positions⟩) ∧
      (∃ e ∈ S, e.doc_id = doc_id ∧ (⟨docname, e.num_positions⟩ : QueryResult) ∈ r.1) ∧
      ((∀ e ∈ S, docName p.1 e.doc_id = some (some docname) → e.doc_id = doc_id) →
        ((S.filterMap (resolveEntry p.1)).map fun res => res.document_name).count docname =
          1) := by
  obtain ⟨dtr, itr⟩ := p
  obtain ⟨pool, hp, hr⟩ := ProcessQuery_some h
  rw [hreaders] at hp
  obtain ⟨lbefore, lrest, hb, hrest, hpool⟩ := poolResults_append FNVHash64 q0 qrest _ _ pool hp
  have hsplit := poolResults_append FNVHash64 q0 qrest [(dtr, itr)] after lrest hrest
  obtain ⟨lfile, lafter, hfile, hafter, hlrest⟩ := hsplit
  have hfr : fileResults FNVHash64 dtr itr q0 qrest = some lfile := by
    simp only [poolResults] at hfile
    cases hf : fileResults FNVHash64 dtr itr q0 qrest with
    | none => rw [hf] at hfile; cases hfile
    | some l =>
      rw [hf] at hfile
      simp only [List.append_nil, Option.some.injEq] at hfile
      rw [hfile]
  obtain ⟨S, hS, hl⟩ := fileResults_some hfr
  have hS2 : survivors FNVHash64 itr q0 qrest = some (ls.foldl intersect l1) := by
    cases hlists with
    | cons h1 h2 =>
      rw [survivors, h1]
      exact termsResult_of_lists FNVHash64 itr qrest ls l1 h2
  rw [hS] at hS2
  simp only [Option.some.injEq] at hS2
  have hcount : (S.map fun e => e.doc_id).count doc_id = 1 := by
    rw [hS2]
    apply List.count_eq_one_of_mem (foldl_intersect_nodup ls l1 hnodup)
    exact mem_foldl_intersect_of_mem ls doc_id l1 (hall l1 (List.mem_cons_self _ _))
      (fun l' hl' => hall l' (List.mem_cons_of_mem _ hl'))
  have hres : ∀ e ∈ S, e.doc_id = doc_id →
      resolveEntry dtr e = some ⟨docname, e.num_positions⟩ := by
    intro e _ he
    simp only [resolveEntry, he, hname]
  have hperm : r.1.Perm (lbefore ++ S.filterMap (resolveEntry dtr) ++ lafter) := by
    rw [hr, ← hl, List.append_assoc, ← hlrest, ← hpool]
    exact sort_perm pool
  refine ⟨S, lbefore, lafter, hS, hb, hafter, hperm, hcount, hres, ?_, ?_⟩
  · have hmem : doc_id ∈ S.map fun e => e.doc_id := by
      rw [← List.count_pos_iff, hcount]; exact Nat.one_pos
    obtain ⟨e, he, hed⟩ := List.mem_map.mp hmem
    refine ⟨e, he, hed, ?_⟩
    apply hperm.symm.subset
    apply List.mem_append_left
    apply List.mem_append_right
    exact List.mem_filterMap.mpr ⟨e, he, hres e he hed⟩
  · intro huniq
    rw [count_names_of_filterMap dtr doc_id docname S, hcount]
    intro e he
    constructor
    · exact huniq e he
    · intro hd
      rw [hd]; exact hname

theorem eq_singleton_of_length {A : Type} (l : List A) (d : A) (h : l.length = 1) :
    l = [] ++ l.getD 0 d :: [] := by
  match l, h with
  | [a], _ => rfl

set_option maxRecDepth 100000 in
theorem sampleQueryProcessor_banana_cherry :
    (QueryProcessor.ProcessQuery sampleHash sampleQueryProcessor
      [wordBanana, wordCherry]).map Prod.fst = some [⟨[66], 2⟩] ∧
    sampleQueryProcessor.readers = [] ++ sampleReaders :: [] := by
  refine ⟨by decide!, ?_⟩
  unfold sampleReaders
  exact eq_singleton_of_length _ _ (by decide!)

/-- The statement of C31 at the sample index, the query "banana", "cherry" and
docID 2 (document B): the output holds (B, 2). -/
theorem ProcessQuery_complete_witness :
    ∃ (S : List DocIDElementHeader) (lbefore lafter : List QueryResult),
      survivors sampleHash sampleReaders.2 wordBanana [wordCherry] = some S ∧
      poolResults sampleHash wordBanana [wordCherry] [] = some lbefore ∧
      poolResults sampleHash wordBanana [wordCherry] [] = some lafter ∧
      ((QueryProcessor.ProcessQuery sampleHash sampleQueryProcessor
          [wordBanana, wordCherry]).getD ([], ⟨[]⟩)).1.Perm
        (lbefore ++ S.filterMap (resolveEntry sampleReaders.1) ++ lafter) ∧
      (S.map fun e => e.doc_id).count 2 = 1 ∧
      (∀ e ∈ S, e.doc_id = 2 →
        resolveEntry sampleReaders.1 e = some ⟨[66], e.num_positions⟩) ∧
      (∃ e ∈ S, e.doc_id = 2 ∧ (⟨[66], e.num_positions⟩ : QueryResult) ∈
        ((QueryProcessor.ProcessQuery sampleHash sampleQueryProcessor
          [wordBanana, wordCherry]).getD ([], ⟨[]⟩)).1) ∧
      ((∀ e ∈ S, docName sampleReaders.1 e.doc_id = some (some [66]) → e.doc_id = 2) →
        ((S.filterMap (resolveEntry sampleReaders.1)).map
          fun res => res.document_name).count [66] = 1) :=
  ProcessQuery_complete sampleHash sampleQueryProcessor wordBanana [wordCherry] _
    (some_getD_of_isSome _ _ (isSome_of_map_eq_some sampleQueryProcessor_banana_cherry.1))
    [] [] sampleReaders sampleQueryProcessor_banana_cherry.2
    [⟨2, 1⟩, ⟨1, 1⟩] [[⟨2, 1⟩]] sampleQueryProcessor_lists.1 (by decide) 2 (by decide) [66]
    sampleQueryProcessor_lists.2.1

/-- The table after the calls of `AddWordPosition`, when no two different words
share a hash: every word seen so far is found under its hash, with the positions
of its calls in the order of the calls. -/
theorem AddWordPosition_all_find (hash : List Nat → Nat) (wps : List (List Nat × Nat)) :
    ∀ (tab : HashTable WordPositions) (done : List (List Nat × Nat)),
      0 < tab.buckets.length →
      (∀ a ∈ (done ++ wps).map Prod.fst, ∀ b ∈ (done ++ wps).map Prod.fst,
        hash a = hash b → a = b) →
      (∀ w ∈ done.map Prod.fst, HashTable_Find tab (hash w) =
        some ⟨hash w, ⟨w, (done.filter fun wp => wp.1 = w).map Prod.snd⟩⟩) →
      (∀ k, k ∉ (done.map Prod.fst).map hash → HashTable_Find tab k = none) →
      ∃ tab1, AddWordPosition_all hash tab wps = some tab1 ∧ 0 < tab1.buckets.length ∧
        ∀ w ∈ (done ++ wps).map Prod.fst, HashTable_Find tab1 (hash w) =
          some ⟨hash w, ⟨w, ((done ++ wps).filter fun wp => wp.1 = w).map Prod.snd⟩⟩ := by
  induction wps with
  | nil =>
    intro tab done hn _ hfind _
    exact ⟨tab, rfl, hn, by simpa using hfind⟩
  | cons wp rest ih =>
    intro tab done hn hinj hfind hnone
    have hwmem : wp.1 ∈ (done ++ wp :: rest).map Prod.fst := by simp
    have hstep : ∃ tab2, AddWordPosition hash tab wp.1 wp.2 = some tab2 ∧
        0 < tab2.buckets.length ∧
        (∀ w ∈ (done ++ [wp]).map Prod.fst, HashTable_Find tab2 (hash w) =
          some ⟨hash w, ⟨w, ((done ++ [wp]).filter fun x => x.1 = w).map Prod.snd⟩⟩) ∧
        (∀ k, k ∉ ((done ++ [wp]).map Prod.fst).map hash → HashTable_Find tab2 k = none) := by
      by_cases hd : wp.1 ∈ done.map Prod.fst
      · have hf := hfind wp.1 hd
        refine ⟨(HashTable_Insert tab ⟨hash wp.1, ⟨wp.1,
          (done.filter fun x => x.1 = wp.1).map Prod.snd ++ [wp.2]⟩⟩).2, ?_,
          by rw [HashTable_Insert_buckets_length]; exact hn, ?_, ?_⟩
        · unfold AddWordPosition
          simp only [hf, ne_eq, not_true_eq_false, if_false]
        · intro w hw
          rw [HashTable_Find_Insert _ _ _ hn]
          have hw' : w ∈ (done ++ wp :: rest).map Prod.fst := by
            simp only [List.map_append, List.mem_append, List.map_cons, List.mem_cons,
              List.map_nil, List.not_mem_nil, or_false] at hw ⊢
            tauto
          by_cases hk : hash w = hash wp.1
          · have hww : w = wp.1 := hinj w hw' wp.1 hwmem hk
            subst hww
            simp only [if_true, List.filter_append, List.map_append, List.filter_cons,
              List.filter_nil, decide_True, List.map_cons, List.map_nil]
          · have hne : wp.1 ≠ w := fun e => hk (by rw [e])
            have hwd : w ∈ done.map Prod.fst := by
              simp only [List.map_append, List.mem_append, List.map_cons, List.mem_cons,
                List.map_nil, List.not_mem_nil, or_false] at hw
              rcases hw with hw | hw
              · exact hw
              · exact absurd hw.symm hne
            simp only [hk, if_false, hfind w hwd, List.filter_append, List.filter_cons,
              List.filter_nil, hne, decide_False, List.append_nil]
            simp
        · intro k hk
          rw [HashTable_Find_Insert _ _ _ hn]
          have hk1 : k ≠ hash wp.1 := by
            intro e
            apply hk
            rw [e]
            simp
          have hk2 : k ∉ (done.map Prod.fst).map hash := by
            intro hm
            apply hk
            simp only [List.map_append, List.mem_append, List.map_map] at hm ⊢
            exact Or.inl (by simpa using hm)
          simp only [hk1, if_false]
          exact hnone k hk2
      · have hk : hash wp.1 ∉ (done.map Prod.fst).map hash := by
          intro hm
          obtain ⟨a, ha, hh⟩ := List.mem_map.mp hm
          have ha' : a ∈ (done ++ wp :: rest).map Prod.fst := by
            simp only [List.map_append, List.mem_append]
            exact Or.inl ha
          have := hinj a ha' wp.1 hwmem hh
          exact hd (this ▸ ha)
        have hf := hnone _ hk
        refine ⟨(HashTable_Insert tab ⟨hash wp.1, ⟨wp.1, [wp.2]⟩⟩).2, ?_,
          by rw [HashTable_Insert_buckets_length]; exact hn, ?_, ?_⟩
        · unfold AddWordPosition
          simp only [hf]
        · intro w hw
          rw [HashTable_Find_Insert _ _ _ hn]
          have hw' : w ∈ (done ++ wp :: rest).map Prod.fst := by
            simp only [List.map_append, List.mem_append, List.map_cons, List.mem_cons,
              List.map_nil, List.not_mem_nil, or_false] at hw ⊢
            tauto
          by_cases hkw : hash w = hash wp.1
          · have hww : w = wp.1 := hinj w hw' wp.1 hwmem hkw
            subst hww
            have hnil : (done.filter fun x => decide (x.1 = wp.1)) = [] := by
              rw [List.filter_eq_nil_iff]
              intro x hx hxe
              exact hd (List.mem_map.mpr ⟨x, hx, by simpa using hxe⟩)
            simp only [if_true, List.filter_append, hnil, List.nil_append, List.filter_cons,
              List.filter_nil, decide_True, List.map_cons, List.map_nil]
          · have hne : wp.1 ≠ w := fun e => hkw (by rw [e])
            have hwd : w ∈ done.map Prod.fst := by
              simp only [List.map_append, List.mem_append, List.map_cons, List.mem_cons,
                List.map_nil, List.not_mem_nil, or_false] at hw
              rcases hw with hw | hw
              · exact hw
              · exact absurd hw.symm hne
            simp only [hkw, if_false, hfind w hwd, List.filter_append, List.filter_cons,
              List.filter_nil, hne, decide_False, List.append_nil]
            simp
        · intro k hk'
          rw [HashTable_Find_Insert _ _ _ hn]
          have hk1 : k ≠ hash wp.1 := by
            intro e
            apply hk'
            rw [e]
            simp
          have hk2 : k ∉ (done.map Prod.fst).map hash := by
            intro hm
            apply hk'
            simp only [List.map_append, List.mem_append, List.map_map] at hm ⊢
            exact Or.inl (by simpa using hm)
          simp only [hk1, if_false]
          exact hnone k hk2
    obtain ⟨tab2, h2, hn2, hfind2, hnone2⟩ := hstep
    obtain ⟨tab1, h1, hn1, hres⟩ := ih tab2 (done ++ [wp]) hn2
      (by simpa [List.append_assoc] using hinj) hfind2 hnone2
    refine ⟨tab1, ?_, hn1, ?_⟩
    · rw [AddWordPosition_all, h2]
      exact h1
    · simpa [List.append_assoc] using hres

theorem length_le_sum_of_pos {A : Type} (l : List A) (f : A → Nat) (h : ∀ a ∈ l, 0 < f a) :
    l.length ≤ (l.map f).sum := by
  induction l with
  | nil => simp
  | cons a l ih =>
    have h1 := h a (List.mem_cons_self _ _)
    have h2 := ih (fun b hb => h b (List.mem_cons_of_mem _ hb))
    simp only [List.length_cons, List.map_cons, List.sum_cons]
    omega

/-- C35: for every document text shorter than 2 GiB: in a table that
`ParseIntoWordPositionsTable` returns, every word has a position list that is not
empty and strictly increasing, and the position lists together hold as many
positions as the text has words (maximal runs of letters).  The function does
return a table when the text holds a word, its bytes are ASCII and not NUL, and no
two different words of the text have the same hash: in it every word of the text is
found under its hash, with the positions of its occurrences in the order of the
text. -/
theorem ParseIntoWordPositionsTable_positions (FNVHash64 : List Nat → Nat) (content : List Nat)
    (hlen : content.length < 2147483648) :
    (∀ tab, ParseIntoWordPositionsTable FNVHash64 content = some (some tab) →
      (∀ kv ∈ tab.buckets.flatten, kv.value.positions ≠ [] ∧
        kv.value.positions.Pairwise (· < ·)) ∧
      (tab.buckets.flatten.map fun kv => kv.value.positions.length).sum =
        ((List.range content.length).filter (isRunStart content)).length) ∧
    ((∀ a ∈ (InsertContent content).map Prod.fst, ∀ b ∈ (InsertContent content).map Prod.fst,
        FNVHash64 a = FNVHash64 b → a = b) →
      (∀ c ∈ content, c ≠ 0 ∧ c ≤ 127) →
      (List.range content.length).filter (isRunStart content) ≠ [] →
      ∃ tab, ParseIntoWordPositionsTable FNVHash64 content = some (some tab) ∧
        ∀ w ∈ (InsertContent content).map Prod.fst,
          HashTable_Find tab (FNVHash64 w) =
            some ⟨FNVHash64 w, ⟨w, wordPositions content w⟩⟩) := by
  constructor
  · intro tab h
    unfold ParseIntoWordPositionsTable at h
    simp only [] at h
    split at h
    · exact absurd h (by simp)
    split at h
    · exact absurd h (by simp)
    cases hall : AddWordPosition_all FNVHash64 (HashTable_Allocate 2) (InsertContent content) with
    | none => simp [hall] at h
    | some tab1 =>
      simp only [hall] at h
      split at h
      · exact absurd h (by simp)
      simp only [Option.some.injEq] at h
      subst h
      obtain ⟨h1, h2⟩ := AddWordPosition_all_spec FNVHash64 (InsertContent content)
        (HashTable_Allocate 2) tab1 0 (by decide) hall
        (fun kv hkv => by simp [HashTable_Allocate] at hkv)
        (fun q _ => Nat.zero_le _) (InsertContent_positions_sorted content hlen)
      refine ⟨h1, ?_⟩
      rw [h2, InsertContent_eq_runs content hlen, List.length_map]
      simp [HashTable_Allocate]
  · intro hinj hascii hword
    obtain ⟨tab1, hall, hn1, hfind⟩ := AddWordPosition_all_find FNVHash64 (InsertContent content)
      (HashTable_Allocate 2) [] (by decide) (by simpa using hinj)
      (fun w hw => by simp at hw) (fun k _ => HashTable_Find_Allocate 2 k)
    simp only [List.nil_append] at hfind
    obtain ⟨h1, h2⟩ := AddWordPosition_all_spec FNVHash64 (InsertContent content)
      (HashTable_Allocate 2) tab1 0 (by decide) hall
      (fun kv hkv => by simp [HashTable_Allocate] at hkv)
      (fun q _ => Nat.zero_le _) (InsertContent_positions_sorted content hlen)
    have hruns := InsertContent_eq_runs content hlen
    have hne : InsertContent content ≠ [] := by
      rw [hruns]
      intro hm
      exact hword (List.map_eq_nil_iff.mp hm)
    have hcl : 0 < content.length := by
      rcases Nat.eq_zero_or_pos content.length with h0 | h0
      · rw [h0] at hword
        exact absurd rfl hword
      · exact h0
    have hwl : (InsertContent content).length ≤ content.length := by
      rw [hruns, List.length_map]
      exact (List.length_filter_le _ _).trans (by rw [List.length_range])
    have hflat : tab1.buckets.flatten.length ≤ content.length := by
      have := length_le_sum_of_pos tab1.buckets.flatten (fun kv => kv.value.positions.length)
        (fun kv hkv => List.length_pos.mpr (h1 kv hkv).1)
      rw [h2] at this
      simp only [HashTable_Allocate, List.flatten_replicate_nil, List.map_nil, List.sum_nil,
        Nat.zero_add] at this
      omega
    have hpos : 0 < tab1.buckets.flatten.length := by
      cases hw : InsertContent content with
      | nil => exact absurd hw hne
      | cons wp rest =>
        have := hfind wp.1 (by rw [hw]; simp)
        exact List.length_pos_of_mem (HashTable_Find_mem tab1 _ _ hn1 this).1
    refine ⟨tab1, ?_, fun w hw => hfind w hw⟩
    unfold ParseIntoWordPositionsTable
    simp only []
    have hfl : toInt32 (content.length : Int) = (content.length : Int) :=
      toInt32_of_range _ (by omega) (by omega)
    have hany : ((content.take (toInt32 (content.length : Int)).toNat).any
        fun c => c == 0 || decide (c > 127)) = false := by
      rw [List.any_eq_false]
      intro c hc
      have := hascii c (List.mem_of_mem_take hc)
      simp only [beq_iff_eq, Bool.or_eq_true, decide_eq_true_eq, not_or, not_lt]
      exact ⟨this.1, this.2⟩
    have hnum : HashTable_NumElements tab1 ≠ 0 := by
      unfold HashTable_NumElements
      rw [toInt32_of_range _ (by omega) (by omega)]
      omega
    rw [if_neg (by rw [hfl]; omega), hany]
    simp only [hall, Bool.false_eq_true, if_false, hnum]

theorem firstNames_length (hash : List Nat → Nat) (names : List (List Nat)) :
    ∀ seen, (firstNames hash seen names).length ≤ seen.length + names.length := by
  induction names with
  | nil => intro seen; simp [firstNames]
  | cons n rest ih =>
    intro seen
    rw [firstNames]
    split
    · have := ih seen
      simp only [List.length_cons]; omega
    · have := ih (seen ++ [n])
      simp only [List.length_append, List.length_singleton, List.length_cons,
        List.length_nil] at this ⊢
      omega

theorem firstNames_eq_distinctNames (hash : List Nat → Nat) (names : List (List Nat)) :
    ∀ seen, (∀ a ∈ seen ++ names, ∀ b ∈ seen ++ names, hash a = hash b → a = b) →
      firstNames hash seen names = distinctNames seen names := by
  induction names with
  | nil => intro seen _; rfl
  | cons n rest ih =>
    intro seen hinj
    have hnmem : n ∈ seen ++ n :: rest := by simp
    have hiff : hash n ∈ seen.map hash ↔ n ∈ seen := by
      constructor
      · intro hm
        obtain ⟨a, ha, hh⟩ := List.mem_map.mp hm
        have := hinj a (List.mem_append_left _ ha) n hnmem hh
        exact this ▸ ha
      · exact fun h => List.mem_map_of_mem _ h
    rw [firstNames, distinctNames]
    by_cases hn : n ∈ seen
    · rw [if_pos (hiff.mpr hn), if_pos hn]
      exact ih seen (fun a ha b hb => hinj a (by simp at ha ⊢; tauto) b (by simp at hb ⊢; tauto))
    · rw [if_neg (fun h => hn (hiff.mp h)), if_neg hn]
      exact ih _ (fun a ha b hb => hinj a (by simp at ha ⊢; tauto) b (by simp at hb ⊢; tauto))

theorem WriteHTBucket_loop_congr {V : Type} (dev : Device) (fn fn' : WriteElementFn V)
    (offset : Nat) :
    ∀ (li li' : List (HTKeyValue_t V)),
      List.Forall₂ (fun kv kv' => ∀ f off, fn f off kv = fn' f off kv') li li' →
      ∀ f rp ep, WriteHTBucket_loop dev fn offset li f rp ep =
        WriteHTBucket_loop dev fn' offset li' f rp ep := by
  intro li
  induction li with
  | nil =>
    intro li' h f rp ep
    cases h
    rfl
  | cons kv rest ih =>
    intro li' h f rp ep
    cases h with
    | cons h1 h2 =>
      rw [WriteHTBucket_loop, WriteHTBucket_loop]
      cases dev.fseek f rp with
      | none => rfl
      | some f1 =>
        simp only []
        cases dev.fwrite f1 (ElementPositionRecord.ToDiskFormat ep) with
        | none => rfl
        | some f2 =>
          simp only [h1 f2 ep]
          split
          · rfl
          · exact ih _ h2 _ _ _

theorem WriteHTBucket_congr {V : Type} (dev : Device) (fn fn' : WriteElementFn V)
    (li li' : List (HTKeyValue_t V))
    (h : List.Forall₂ (fun kv kv' => ∀ f off, fn f off kv = fn' f off kv') li li')
    (f : FILE) (offset : Nat) :
    WriteHTBucket dev f offset li fn = WriteHTBucket dev f offset li' fn' := by
  have hl : li.length = li'.length := h.length_eq
  unfold WriteHTBucket LinkedList_NumElements
  simp only [hl]
  split
  · rfl
  · exact WriteHTBucket_loop_congr dev fn fn' offset _ _ (List.forall₂_take _ h) _ _ _

theorem WriteHashTable_loop_congr {V : Type} (dev : Device) (fn fn' : WriteElementFn V)
    (offset : Nat) :
    ∀ (bs bs' : List (List (HTKeyValue_t V))),
      List.Forall₂ (List.Forall₂ (fun kv kv' => ∀ f off, fn f off kv = fn' f off kv')) bs bs' →
      ∀ f rp bp, WriteHashTable_loop dev fn offset bs f rp bp =
        WriteHashTable_loop dev fn' offset bs' f rp bp := by
  intro bs
  induction bs with
  | nil =>
    intro bs' h f rp bp
    cases h
    rfl
  | cons li rest ih =>
    intro bs' h f rp bp
    cases h with
    | cons h1 h2 =>
      rename_i li' rest'
      have hl : li.length = li'.length := h1.length_eq
      rw [WriteHashTable_loop, WriteHashTable_loop]
      simp only [LinkedList_NumElements, hl, WriteHTBucket_congr dev fn fn' li li' h1,
        ih _ h2]

/-- `WriteHashTable` gives the same result on two tables whose elements are written
alike by the two element writers. -/
theorem WriteHashTable_congr {V : Type} (dev : Device) (fn fn' : WriteElementFn V)
    (ht ht' : HashTable V)
    (h : List.Forall₂ (List.Forall₂ (fun kv kv' => ∀ f off, fn f off kv = fn' f off kv'))
      ht.buckets ht'.buckets)
    (f : FILE) (offset : Nat) :
    WriteHashTable dev f offset ht fn = WriteHashTable dev f offset ht' fn' := by
  have hl : ht.buckets.length = ht'.buckets.length := h.length_eq
  unfold WriteHashTable HashTable.num_buckets
  simp only [hl]
  cases dev.fseek f offset with
  | none => rfl
  | some f1 =>
    simp only []
    cases dev.fwrite f1 (BucketListHeader.ToDiskFormat (toInt32 ↑ht'.buckets.length)) with
    | none => rfl
    | some f2 =>
      exact WriteHashTable_loop_congr dev fn fn' offset _ _ (List.forall₂_take _ h) _ _ _

/-- `WriteWordToPostingsFn` uses the word only through its length cast to `int16_t`
and through that many of its first bytes. -/
theorem WriteWordToPostingsFn_congr (dev : Device) (k k' : Nat) (w w' : List Nat)
    (P : HashTable (List Nat))
    (h16 : toInt16 ((w.length : Nat) : Int) = toInt16 ((w'.length : Nat) : Int))
    (htake : w.take (toInt16 ((w.length : Nat) : Int)).toNat =
      w'.take (toInt16 ((w'.length : Nat) : Int)).toNat)
    (f : FILE) (off : Nat) :
    WriteWordToPostingsFn dev f off ⟨k, ⟨w, P⟩⟩ = WriteWordToPostingsFn dev f off ⟨k', ⟨w', P⟩⟩ := by
  rw [h16] at htake
  simp only [WriteWordToPostingsFn, fwriteString, h16, htake]

theorem longWord_cast : toInt16 ((longWord.length : Nat) : Int) = 1 ∧
    longWord.take 1 = [97] := by
  refine ⟨?_, ?_⟩
  · rw [longWord, List.length_replicate]
    unfold toInt16; simp only []; decide
  · rw [longWord, List.take_replicate]; rfl

theorem longWordNeg_cast : toInt16 ((longWordNeg.length : Nat) : Int) = -112 := by
  rw [longWordNeg, List.length_replicate]
  unfold toInt16; simp only []; decide

theorem WriteWordToPostingsFn_longWord (dev : Device) (k k' : Nat) (P : HashTable (List Nat))
    (f : FILE) (off : Nat) :
    WriteWordToPostingsFn dev f off ⟨k, ⟨longWord, P⟩⟩ =
      WriteWordToPostingsFn dev f off ⟨k', ⟨[97], P⟩⟩ := by
  apply WriteWordToPostingsFn_congr
  · rw [longWord_cast.1]; decide!
  · rw [longWord_cast.1]
    have : toInt16 (((([97] : List Nat).length : Nat)) : Int) = 1 := by decide!
    rw [this]
    exact longWord_cast.2

theorem WriteIndex_congr (kMagicNumber : Nat) (dev : Device) (mi mi' : MemIndex) (dt : DocTable)
    (old : Option (List Nat))
    (h : List.Forall₂ (List.Forall₂ (fun kv kv' =>
      ∀ f off, WriteWordToPostingsFn dev f off kv = WriteWordToPostingsFn dev f off kv'))
      mi.buckets mi'.buckets) :
    WriteIndex kMagicNumber dev mi dt old = WriteIndex kMagicNumber dev mi' dt old := by
  unfold WriteIndex WriteMemIndex
  simp only [WriteHashTable_congr dev _ _ mi mi' h]

theorem LookupElementPositions_one_bucket (r : HashTableReader) (h : r.header_ = 1) (k : Nat) :
    r.LookupElementPositions k = r.LookupElementPositions 0 := by
  simp only [HashTableReader.LookupElementPositions, HashTableReader.bucket_rec_offset, h,
    Nat.mod_one]

theorem LookupWord_one_bucket (hash : List Nat → Nat) (r : HashTableReader) (h : r.header_ = 1)
    (word : List Nat) :
    IndexTableReader.LookupWord hash r word = IndexTableReader.LookupWord (fun _ => 0) r word := by
  unfold IndexTableReader.LookupWord
  rw [LookupElementPositions_one_bucket r h (hash word)]

theorem WriteIndex_longWord (dev : Device) (old : Option (List Nat)) :
    WriteIndex sampleMagic dev (longWordIndex longWord) sampleDocTable old =
      WriteIndex sampleMagic dev (longWordIndex [97]) sampleDocTable old :=
  WriteIndex_congr sampleMagic dev _ _ sampleDocTable old
    (List.Forall₂.cons
      (List.Forall₂.cons (fun f off => WriteWordToPostingsFn_longWord dev _ _ _ f off)
        List.Forall₂.nil)
      List.Forall₂.nil)

set_option maxRecDepth 100000 in
theorem WriteIndex_short_word :
    WriteIndex sampleMagic Device.reliable (longWordIndex [97]) sampleDocTable none =
      (165, some (indexFileBytes sampleMagic (longWordIndex [97]) sampleDocTable)) := by
  have h := WriteIndex_bytes sampleMagic Device.reliable (longWordIndex [97]) sampleDocTable none
    (by decide!) (by decide!)
  rw [h]
  have hs : indexFileSize (longWordIndex [97]) sampleDocTable = 165 := by decide!
  rw [hs]
  rfl

set_option maxRecDepth 100000 in
theorem longWordReader_opened :
    (FileIndexReader.construct sampleMagic
        (some (indexFileBytes sampleMagic (longWordIndex [97]) sampleDocTable)) false).bind
      FileIndexReader.NewIndexTableReader = some longWordReader ∧
    longWordReader.header_ = 1 := by
  have hr : longWordReader = ((FileIndexReader.construct sampleMagic
      (some (indexFileBytes sampleMagic (longWordIndex [97]) sampleDocTable)) false).bind
      FileIndexReader.NewIndexTableReader).getD ⟨⟨[], 0⟩, 0, 0⟩ := by
    unfold longWordReader
    rw [WriteIndex_short_word]
  refine ⟨?_, ?_⟩
  · rw [hr]
    exact some_getD_of_isSome _ _ (by decide!)
  · rw [hr]
    decide!

set_option maxRecDepth 100000 in
theorem longWordReader_lookups :
    (IndexTableReader.LookupWord sampleHash longWordReader longWord).map Prod.fst = some none ∧
    (termPostings sampleHash longWordReader [97]) = some (some [⟨1, 1⟩]) := by
  have h1 := longWordReader_opened.2
  have hr : longWordReader = ((FileIndexReader.construct sampleMagic
      (some (indexFileBytes sampleMagic (longWordIndex [97]) sampleDocTable)) false).bind
      FileIndexReader.NewIndexTableReader).getD ⟨⟨[], 0⟩, 0, 0⟩ := by
    unfold longWordReader
    rw [WriteIndex_short_word]
  refine ⟨?_, ?_⟩
  · rw [LookupWord_one_bucket _ _ h1, hr]
    decide!
  · rw [hr]
    decide!

theorem HashTable_Find_longWordIndex (w : List Nat) :
    HashTable_Find (longWordIndex w) (sampleHash w) =
      some ⟨sampleHash w, ⟨w, longWordPostings⟩⟩ := by
  simp [HashTable_Find, longWordIndex, Nat.mod_one]

theorem MemIndex_positions_longWordIndex (w : List Nat) :
    MemIndex_positions sampleHash (longWordIndex w) w 1 = [0] := by
  rw [MemIndex_positions, HashTable_Find_longWordIndex]
  rfl

theorem longWordIndex_words (w : List Nat) :
    ∀ kv ∈ (longWordIndex w).buckets.flatten, kv.value.word = w := by
  intro kv hkv
  simp only [longWordIndex, List.flatten_cons, List.flatten_nil, List.append_nil,
    List.mem_singleton] at hkv
  rw [hkv]

theorem longWord_ne : longWord ≠ [97] := by
  intro h
  have := congrArg List.length h
  rw [longWord, List.length_replicate] at this
  exact absurd this (by decide)

theorem WriteIndex_longWord_file :
    WriteIndex sampleMagic Device.reliable (longWordIndex longWord) sampleDocTable none =
      (165, some (indexFileBytes sampleMagic (longWordIndex [97]) sampleDocTable)) := by
  rw [WriteIndex_longWord, WriteIndex_short_word]

theorem longWordReader_of_written :
    (FileIndexReader.construct sampleMagic
        (WriteIndex sampleMagic Device.reliable (longWordIndex longWord) sampleDocTable none).2
        false).bind FileIndexReader.NewIndexTableReader = some longWordReader := by
  rw [WriteIndex_longWord_file]
  exact longWordReader_opened.1

theorem termPostings_of_LookupWord_none (hash : List Nat → Nat) (r : HashTableReader)
    (w : List Nat) (hl : (IndexTableReader.LookupWord hash r w).map Prod.fst = some none) :
    termPostings hash r w = some none := by
  unfold termPostings
  cases hq : IndexTableReader.LookupWord hash r w with
  | none => rw [hq] at hl; cases hl
  | some p =>
    rw [hq] at hl
    obtain ⟨a, b⟩ := p
    simp only [Option.map_some', Option.some.injEq] at hl
    subst hl
    rfl

theorem termPostings_longWord : termPostings sampleHash longWordReader longWord = some none :=
  termPostings_of_LookupWord_none _ _ _ longWordReader_lookups.1

/-- C1 fails on the code: the index of document 1 whose text starts with a word of
65537 letters "a" holds the triple (that word, docID 1, position 0); `WriteIndex`
succeeds on it and leaves the very file it leaves for the index of the one-letter
word "a", because the word length is cast to `int16_t`; `LookupWord` of the
65537-letter term in the written file returns the null pointer, so the term's
postings region is not located and the triple is not read back, while `LookupWord`
of "a", a word the source index does not hold, finds a posting for docID 1. -/
theorem WriteIndex_long_term_not_found :
    MemIndex_positions sampleHash (longWordIndex longWord) longWord 1 = [0] ∧
      WriteIndex sampleMagic Device.reliable (longWordIndex longWord) sampleDocTable none =
        (165, some (indexFileBytes sampleMagic (longWordIndex [97]) sampleDocTable)) ∧
      (FileIndexReader.construct sampleMagic
          (WriteIndex sampleMagic Device.reliable (longWordIndex longWord) sampleDocTable none).2
          false).bind FileIndexReader.NewIndexTableReader = some longWordReader ∧
      (IndexTableReader.LookupWord sampleHash longWordReader longWord).map Prod.fst =
        some none ∧
      termPostings sampleHash longWordReader longWord = some none ∧
      (∀ kv ∈ (longWordIndex longWord).buckets.flatten, kv.value.word ≠ [97]) ∧
      termPostings sampleHash longWordReader [97] = some (some [⟨1, 1⟩]) :=
  ⟨MemIndex_positions_longWordIndex longWord, WriteIndex_longWord_file,
    longWordReader_of_written, longWordReader_lookups.1, termPostings_longWord,
    fun kv hkv => by rw [longWordIndex_words longWord kv hkv]; exact longWord_ne,
    longWordReader_lookups.2⟩

set_option maxRecDepth 100000 in
theorem WriteWordToPostingsFn_short_word :
    (WriteWordToPostingsFn Device.reliable ⟨[], 0⟩ 16 ⟨0, ⟨[97], longWordPostings⟩⟩).1 = 59 ∧
      (WriteWordToPostingsFn Device.reliable ⟨[], 0⟩ 16
        ⟨0, ⟨[97], longWordPostings⟩⟩).2.bytes.length = 75 ∧
      ((WriteWordToPostingsFn Device.reliable ⟨[], 0⟩ 16
        ⟨0, ⟨[97], longWordPostings⟩⟩).2.bytes.drop 16).take 6 =
          WordPostingsHeader.ToDiskFormat 1 52 ∧
      ((WriteWordToPostingsFn Device.reliable ⟨[], 0⟩ 16
        ⟨0, ⟨[97], longWordPostings⟩⟩).2.bytes.drop 22).take 1 = [97] ∧
      (WriteWordToPostingsFn Device.reliable ⟨[], 0⟩ 16
        ⟨0, ⟨[97], longWordPostings⟩⟩).2.bytes.drop 23 =
          tableBytes (fun _ => postingBytes) postingSize 23 longWordPostings ∧
      tableSize postingSize longWordPostings = 52 := by
  refine ⟨by decide!, by decide!, by decide!, by decide!, by decide!, by decide!⟩

/-- C21 fails on the code, by the defect of C27: for the entry of a word of 65537
letters, written at offset 16 of an empty file on a reliable device, the cast of
the word length to `int16_t` is 1.  The nested postings region, 52 bytes long, is
written at offset 16 + 6 + 1 = 23, not at 16 + 6 + 65537; the header stores the word
length 1; one byte of the word follows it; the file ends where the nested region
ends, at 75; and the function returns 6 + 1 + 52 = 59, not 6 + 65537 + 52. -/
theorem WriteWordToPostingsFn_long_word_nesting :
    longWord.length = 65537 ∧
      tableSize postingSize longWordPostings = 52 ∧
      (WriteWordToPostingsFn Device.reliable ⟨[], 0⟩ 16
        ⟨sampleHash longWord, ⟨longWord, longWordPostings⟩⟩).1 = 6 + 1 + 52 ∧
      (WriteWordToPostingsFn Device.reliable ⟨[], 0⟩ 16
        ⟨sampleHash longWord, ⟨longWord, longWordPostings⟩⟩).2.bytes.length = 75 ∧
      ((WriteWordToPostingsFn Device.reliable ⟨[], 0⟩ 16
        ⟨sampleHash longWord, ⟨longWord, longWordPostings⟩⟩).2.bytes.drop 16).take 6 =
          WordPostingsHeader.ToDiskFormat 1 52 ∧
      ((WriteWordToPostingsFn Device.reliable ⟨[], 0⟩ 16
        ⟨sampleHash longWord, ⟨longWord, longWordPostings⟩⟩).2.bytes.drop 22).take 1 = [97] ∧
      (WriteWordToPostingsFn Device.reliable ⟨[], 0⟩ 16
        ⟨sampleHash longWord, ⟨longWord, longWordPostings⟩⟩).2.bytes.drop 23 =
          tableBytes (fun _ => postingBytes) postingSize 23 longWordPostings := by
  have hl : longWord.length = 65537 := by rw [longWord, List.length_replicate]
  rw [WriteWordToPostingsFn_longWord Device.reliable (sampleHash longWord) 0]
  obtain ⟨h1, h2, h3, h4, h5, h6⟩ := WriteWordToPostingsFn_short_word
  exact ⟨hl, h6, h1, h2, h3, h4, h5⟩

theorem WriteMemIndex_negative_cast (w : List Nat)
    (h16 : toInt16 ((w.length : Nat) : Int) = -112) (f : FILE) (offset : Nat) :
    WriteMemIndex Device.reliable f (longWordIndex w) offset =
      WriteHashTable Device.reliable f offset (longWordIndex w)
        (fun f off kv =>
          if (WriteHashTable Device.reliable f
              (toUInt64 ((off : Int) + (sizeofWordPostingsHeader : Int) + (-112)))
              kv.value.postings (WriteDocIDToPositionListFn Device.reliable)).1 = kFailedWrite
          then (kFailedWrite, (WriteHashTable Device.reliable f
              (toUInt64 ((off : Int) + (sizeofWordPostingsHeader : Int) + (-112)))
              kv.value.postings (WriteDocIDToPositionListFn Device.reliable)).2)
          else
            match Device.reliable.fseek (WriteHashTable Device.reliable f
              (toUInt64 ((off : Int) + (sizeofWordPostingsHeader : Int) + (-112)))
              kv.value.postings (WriteDocIDToPositionListFn Device.reliable)).2 off with
            | none => (kFailedWrite, (WriteHashTable Device.reliable f
                (toUInt64 ((off : Int) + (sizeofWordPostingsHeader : Int) + (-112)))
                kv.value.postings (WriteDocIDToPositionListFn Device.reliable)).2)
            | some f1 =>
              match Device.reliable.fwrite f1 (WordPostingsHeader.ToDiskFormat (-112)
                  (WriteHashTable Device.reliable f
                    (toUInt64 ((off : Int) + (sizeofWordPostingsHeader : Int) + (-112)))
                    kv.value.postings (WriteDocIDToPositionListFn Device.reliable)).1) with
              | none => (kFailedWrite, f1)
              | some f2 => (kFailedWrite, f2)) := by
  unfold WriteMemIndex
  apply WriteHashTable_congr
  refine List.Forall₂.cons (List.Forall₂.cons (fun f off => ?_) List.Forall₂.nil)
    List.Forall₂.nil
  simp only [WriteWordToPostingsFn, fwriteString, h16]
  generalize WriteHashTable Device.reliable f
    (toUInt64 ((off : Int) + (sizeofWordPostingsHeader : Int) + -112)) longWordPostings
    (WriteDocIDToPositionListFn Device.reliable) = r
  by_cases hr : r.1 = kFailedWrite
  · simp only [hr, if_true]
  · simp only [hr, if_false]
    cases Device.reliable.fseek r.2 off with
    | none => rfl
    | some f1 =>
      simp only []
      cases Device.reliable.fwrite f1 (WordPostingsHeader.ToDiskFormat (-112) r.1) with
      | none => rfl
      | some f2 => simp

set_option maxRecDepth 100000 in
theorem WriteMemIndex_longWordNeg_eval :
    (WriteDocTable Device.reliable ⟨[], 0⟩ sampleDocTable sizeofIndexFileHeader).1 = 66 ∧
      (WriteDocTable Device.reliable ⟨[], 0⟩ sampleDocTable sizeofIndexFileHeader).2.bytes.take
        16 = List.replicate 16 0 ∧
      (WriteMemIndex Device.reliable
        (WriteDocTable Device.reliable ⟨[], 0⟩ sampleDocTable sizeofIndexFileHeader).2
        (longWordIndex longWordNeg) 82).1 = kFailedWrite ∧
      (WriteMemIndex Device.reliable
        (WriteDocTable Device.reliable ⟨[], 0⟩ sampleDocTable sizeofIndexFileHeader).2
        (longWordIndex longWordNeg) 82).2.bytes.take 16 =
          [0, 0, 0, 2, 0, 0, 0, 0, 0, 0, 0, 0, 0, 0, 0, 28] ∧
      ¬ Untouched sizeofIndexFileHeader
        (WriteDocTable Device.reliable ⟨[], 0⟩ sampleDocTable sizeofIndexFileHeader).2.bytes
        (WriteMemIndex Device.reliable
          (WriteDocTable Device.reliable ⟨[], 0⟩ sampleDocTable sizeofIndexFileHeader).2
          (longWordIndex longWordNeg) 82).2.bytes := by
  rw [WriteMemIndex_negative_cast longWordNeg longWordNeg_cast]
  refine ⟨by decide!, by decide!, by decide!, by decide!, ?_⟩
  unfold Untouched
  decide!

theorem longWordNeg_length : longWordNeg.length = 65424 := by
  rw [longWordNeg, List.length_replicate]

set_option maxRecDepth 100000 in
theorem WriteIndex_longWordNeg :
    WriteIndex sampleMagic Device.reliable (longWordIndex longWordNeg) sampleDocTable none =
      (kFailedWrite, none) := by
  unfold WriteIndex
  simp only [WriteMemIndex_negative_cast longWordNeg longWordNeg_cast]
  decide!

/-- C15 fails on the code, by the defect of C27: in `WriteIndex` of the sample
document table and the index of a word of 65424 letters, on a reliable device, the
document-table writer returns 66 and leaves the sixteen bytes of the header area
zero; the index writer, called at offset 16 + 66 = 82, puts the word's entry at
offset 106 and, the word length being cast to the `int16_t` -112, writes the nested
postings table at offset 106 + 6 - 112 = 0: the magic-number field then holds the
table's bucket count 2 and the header area its first bucket record.  The write of
the word then fails, the index writer returns `kFailedWrite` and so does
`WriteIndex`. -/
theorem WriteMemIndex_long_word_writes_header :
    longWordNeg.length = 65424 ∧
      (WriteDocTable Device.reliable ⟨[], 0⟩ sampleDocTable sizeofIndexFileHeader).1 = 66 ∧
      (WriteDocTable Device.reliable ⟨[], 0⟩ sampleDocTable sizeofIndexFileHeader).2.bytes.take
        16 = List.replicate 16 0 ∧
      (WriteMemIndex Device.reliable
        (WriteDocTable Device.reliable ⟨[], 0⟩ sampleDocTable sizeofIndexFileHeader).2
        (longWordIndex longWordNeg) 82).1 = kFailedWrite ∧
      (WriteMemIndex Device.reliable
        (WriteDocTable Device.reliable ⟨[], 0⟩ sampleDocTable sizeofIndexFileHeader).2
        (longWordIndex longWordNeg) 82).2.bytes.take 16 =
          [0, 0, 0, 2, 0, 0, 0, 0, 0, 0, 0, 0, 0, 0, 0, 28] ∧
      ¬ Untouched sizeofIndexFileHeader
        (WriteDocTable Device.reliable ⟨[], 0⟩ sampleDocTable sizeofIndexFileHeader).2.bytes
        (WriteMemIndex Device.reliable
          (WriteDocTable Device.reliable ⟨[], 0⟩ sampleDocTable sizeofIndexFileHeader).2
          (longWordIndex longWordNeg) 82).2.bytes ∧
      WriteIndex sampleMagic Device.reliable (longWordIndex longWordNeg) sampleDocTable none =
        (kFailedWrite, none) := by
  obtain ⟨h1, h2, h3, h4, h5⟩ := WriteMemIndex_longWordNeg_eval
  exact ⟨longWordNeg_length, h1, h2, h3, h4, h5, WriteIndex_longWordNeg⟩

theorem loopState_append {A S : Type} (next : A → S → Option S) (pre rest : List A) :
    ∀ s s1, loopState next pre s = some s1 →
      loopState next (pre ++ rest) s = loopState next rest s1 := by
  induction pre with
  | nil =>
    intro s s1 h
    simp only [loopState, Option.some.injEq] at h
    rw [h]; rfl
  | cons a pre ih =>
    intro s s1 h
    rw [loopState] at h
    rw [List.cons_append, loopState]
    cases hn : next a s with
    | none => rw [hn] at h; cases h
    | some s2 =>
      rw [hn] at h
      exact ih s2 s1 h

theorem WriteHTBucket_loop_step {V : Type} (dev : Device) (fn : WriteElementFn V) (offset : Nat)
    (kv : HTKeyValue_t V) (rest : List (HTKeyValue_t V)) (s : FILE × Nat × Nat) :
    (∀ s1, WriteHTBucket_next dev fn kv s = some s1 →
      WriteHTBucket_loop dev fn offset (kv :: rest) s.1 s.2.1 s.2.2 =
        WriteHTBucket_loop dev fn offset rest s1.1 s1.2.1 s1.2.2) ∧
    (WriteHTBucket_next dev fn kv s = none →
      (WriteHTBucket_loop dev fn offset (kv :: rest) s.1 s.2.1 s.2.2).1 = kFailedWrite) := by
  unfold WriteHTBucket_next
  rw [WriteHTBucket_loop]
  cases dev.fseek s.1 s.2.1 with
  | none => exact ⟨fun s1 h => (by cases h), fun _ => rfl⟩
  | some f1 =>
    simp only []
    cases dev.fwrite f1 (ElementPositionRecord.ToDiskFormat s.2.2) with
    | none => exact ⟨fun s1 h => (by cases h), fun _ => rfl⟩
    | some f2 =>
      simp only []
      by_cases hr : (fn f2 s.2.2 kv).1 = kFailedWrite
      · simp only [hr, if_true]
        exact ⟨fun s1 h => (by cases h), fun _ => trivial⟩
      · simp only [hr, if_false]
        refine ⟨fun s1 h => ?_, fun h => by cases h⟩
        simp only [Option.some.injEq] at h
        rw [← h]

/-- The element loop of `WriteHTBucket` after iterations that succeed continues from
the state they reach; an iteration that fails makes the loop return `kFailedWrite`. -/
theorem WriteHTBucket_loop_state {V : Type} (dev : Device) (fn : WriteElementFn V)
    (offset : Nat) (pre : List (HTKeyValue_t V)) :
    ∀ (rest : List (HTKeyValue_t V)) (s : FILE × Nat × Nat),
      (∀ s1, loopState (WriteHTBucket_next dev fn) pre s = some s1 →
        WriteHTBucket_loop dev fn offset (pre ++ rest) s.1 s.2.1 s.2.2 =
          WriteHTBucket_loop dev fn offset rest s1.1 s1.2.1 s1.2.2) ∧
      (loopState (WriteHTBucket_next dev fn) pre s = none →
        (WriteHTBucket_loop dev fn offset (pre ++ rest) s.1 s.2.1 s.2.2).1 = kFailedWrite) := by
  induction pre with
  | nil =>
    intro rest s
    refine ⟨fun s1 h => ?_, fun h => by cases h⟩
    simp only [loopState, Option.some.injEq] at h
    rw [← h]; rfl
  | cons kv pre ih =>
    intro rest s
    obtain ⟨h1, h2⟩ := WriteHTBucket_loop_step dev fn offset kv (pre ++ rest) s
    rw [List.cons_append]
    cases hn : WriteHTBucket_next dev fn kv s with
    | none =>
      refine ⟨fun s1 h => ?_, fun _ => h2 hn⟩
      rw [loopState, hn] at h
      cases h
    | some s2 =>
      obtain ⟨i1, i2⟩ := ih rest s2
      rw [h1 s2 hn]
      refine ⟨fun s1 h => ?_, fun h => ?_⟩
      · rw [loopState, hn] at h
        exact i1 s1 h
      · rw [loopState, hn] at h
        exact i2 h

theorem WriteHashTable_loop_step {V : Type} (dev : Device) (fn : WriteElementFn V) (offset : Nat)
    (li : List (HTKeyValue_t V)) (rest : List (List (HTKeyValue_t V))) (s : FILE × Nat × Nat) :
    (∀ s1, WriteHashTable_next dev fn li s = some s1 →
      WriteHashTable_loop dev fn offset (li :: rest) s.1 s.2.1 s.2.2 =
        WriteHashTable_loop dev fn offset rest s1.1 s1.2.1 s1.2.2) ∧
    (WriteHashTable_next dev fn li s = none →
      (WriteHashTable_loop dev fn offset (li :: rest) s.1 s.2.1 s.2.2).1 = kFailedWrite) := by
  unfold WriteHashTable_next
  rw [WriteHashTable_loop]
  simp only []
  by_cases hr1 : (WriteHTBucketRecord dev s.1 s.2.1 (LinkedList_NumElements li) s.2.2).1 =
      kFailedWrite
  · simp only [hr1, if_true]
    exact ⟨fun s1 h => (by cases h), fun _ => trivial⟩
  · simp only [hr1, if_false]
    by_cases hr2 : (if LinkedList_NumElements li > 0 then
        WriteHTBucket dev (WriteHTBucketRecord dev s.1 s.2.1 (LinkedList_NumElements li) s.2.2).2
          s.2.2 li fn
        else (0, (WriteHTBucketRecord dev s.1 s.2.1 (LinkedList_NumElements li) s.2.2).2)).1 =
        kFailedWrite
    · simp only [hr2, if_true]
      exact ⟨fun s1 h => (by cases h), fun _ => trivial⟩
    · simp only [hr2, if_false]
      refine ⟨fun s1 h => ?_, fun h => by cases h⟩
      simp only [Option.some.injEq] at h
      rw [← h]

/-- The bucket loop of `WriteHashTable` after iterations that succeed continues from
the state they reach; an iteration that fails makes the loop return `kFailedWrite`. -/
theorem WriteHashTable_loop_state {V : Type} (dev : Device) (fn : WriteElementFn V)
    (offset : Nat) (pre : List (List (HTKeyValue_t V))) :
    ∀ (rest : List (List (HTKeyValue_t V))) (s : FILE × Nat × Nat),
      (∀ s1, loopState (WriteHashTable_next dev fn) pre s = some s1 →
        WriteHashTable_loop dev fn offset (pre ++ rest) s.1 s.2.1 s.2.2 =
          WriteHashTable_loop dev fn offset rest s1.1 s1.2.1 s1.2.2) ∧
      (loopState (WriteHashTable_next dev fn) pre s = none →
        (WriteHashTable_loop dev fn offset (pre ++ rest) s.1 s.2.1 s.2.2).1 = kFailedWrite) := by
  induction pre with
  | nil =>
    intro rest s
    refine ⟨fun s1 h => ?_, fun h => by cases h⟩
    simp only [loopState, Option.some.injEq] at h
    rw [← h]; rfl
  | cons li pre ih =>
    intro rest s
    obtain ⟨h1, h2⟩ := WriteHashTable_loop_step dev fn offset li (pre ++ rest) s
    rw [List.cons_append]
    cases hn : WriteHashTable_next dev fn li s with
    | none =>
      refine ⟨fun s1 h => ?_, fun _ => h2 hn⟩
      rw [loopState, hn] at h
      cases h
    | some s2 =>
      obtain ⟨i1, i2⟩ := ih rest s2
      rw [h1 s2 hn]
      refine ⟨fun s1 h => ?_, fun h => ?_⟩
      · rw [loopState, hn] at h
        exact i1 s1 h
      · rw [loopState, hn] at h
        exact i2 h

/-- The position loop of `WriteDocIDToPositionListFn` after writes that succeed
continues from the file they leave; a write that fails makes the loop return
`kFailedWrite` with the file as it is. -/
theorem WriteDocIDToPositionListFn_loop_state (dev : Device) (n : Int) (pre : List Nat) :
    ∀ (rest : List Nat) (f : FILE),
      (∀ f1, loopState (WriteDocIDToPositionListFn_next dev) pre f = some f1 →
        WriteDocIDToPositionListFn_loop dev n (pre ++ rest) f =
          WriteDocIDToPositionListFn_loop dev n rest f1) ∧
      (loopState (WriteDocIDToPositionListFn_next dev) pre f = none →
        (WriteDocIDToPositionListFn_loop dev n (pre ++ rest) f).1 = kFailedWrite) := by
  induction pre with
  | nil =>
    intro rest f
    refine ⟨fun f1 h => ?_, fun h => by cases h⟩
    simp only [loopState, Option.some.injEq] at h
    rw [← h]; rfl
  | cons p pre ih =>
    intro rest f
    rw [List.cons_append, WriteDocIDToPositionListFn_loop]
    simp only [loopState, WriteDocIDToPositionListFn_next]
    cases dev.fwrite f (DocIDElementPosition.ToDiskFormat (p % 4294967296)) with
    | none => exact ⟨fun f1 h => (by cases h), fun _ => rfl⟩
    | some f2 => exact ih rest f2

theorem WriteHTBucket_of_element_failure {V : Type} (dev : Device) (fn : WriteElementFn V)
    (offset : Nat) (pre : List (HTKeyValue_t V)) (kv : HTKeyValue_t V)
    (post : List (HTKeyValue_t V)) (s s1 : FILE × Nat × Nat)
    (h : loopState (WriteHTBucket_next dev fn) pre s = some s1) :
    (dev.fseek s1.1 s1.2.1 = none →
      WriteHTBucket_loop dev fn offset (pre ++ kv :: post) s.1 s.2.1 s.2.2 =
        (kFailedWrite, s1.1)) ∧
    (∀ f1, dev.fseek s1.1 s1.2.1 = some f1 →
      dev.fwrite f1 (ElementPositionRecord.ToDiskFormat s1.2.2) = none →
      WriteHTBucket_loop dev fn offset (pre ++ kv :: post) s.1 s.2.1 s.2.2 =
        (kFailedWrite, f1)) ∧
    (∀ f1 f2, dev.fseek s1.1 s1.2.1 = some f1 →
      dev.fwrite f1 (ElementPositionRecord.ToDiskFormat s1.2.2) = some f2 →
      (fn f2 s1.2.2 kv).1 = kFailedWrite →
      WriteHTBucket_loop dev fn offset (pre ++ kv :: post) s.1 s.2.1 s.2.2 =
        (kFailedWrite, (fn f2 s1.2.2 kv).2)) := by
  rw [(WriteHTBucket_loop_state dev fn offset pre (kv :: post) s).1 s1 h]
  refine ⟨?_, ?_, ?_⟩
  · intro h1; rw [WriteHTBucket_loop]; simp only [h1]
  · intro f1 h1 h2; rw [WriteHTBucket_loop]; simp only [h1, h2]
  · intro f1 f2 h1 h2 h3; rw [WriteHTBucket_loop]; simp only [h1, h2, h3, if_true]

theorem WriteHashTable_of_bucket_failure {V : Type} (dev : Device) (fn : WriteElementFn V)
    (offset : Nat) (pre : List (List (HTKeyValue_t V))) (li : List (HTKeyValue_t V))
    (post : List (List (HTKeyValue_t V))) (s s1 : FILE × Nat × Nat)
    (h : loopState (WriteHashTable_next dev fn) pre s = some s1) :
    ((WriteHTBucketRecord dev s1.1 s1.2.1 (LinkedList_NumElements li) s1.2.2).1 = kFailedWrite →
      WriteHashTable_loop dev fn offset (pre ++ li :: post) s.1 s.2.1 s.2.2 =
        (kFailedWrite,
          (WriteHTBucketRecord dev s1.1 s1.2.1 (LinkedList_NumElements li) s1.2.2).2)) ∧
    ((WriteHTBucketRecord dev s1.1 s1.2.1 (LinkedList_NumElements li) s1.2.2).1 ≠ kFailedWrite →
      LinkedList_NumElements li > 0 →
      (WriteHTBucket dev
        (WriteHTBucketRecord dev s1.1 s1.2.1 (LinkedList_NumElements li) s1.2.2).2
        s1.2.2 li fn).1 = kFailedWrite →
      WriteHashTable_loop dev fn offset (pre ++ li :: post) s.1 s.2.1 s.2.2 =
        (kFailedWrite, (WriteHTBucket dev
          (WriteHTBucketRecord dev s1.1 s1.2.1 (LinkedList_NumElements li) s1.2.2).2
          s1.2.2 li fn).2)) := by
  rw [(WriteHashTable_loop_state dev fn offset pre (li :: post) s).1 s1 h]
  refine ⟨?_, ?_⟩
  · intro h1; rw [WriteHashTable_loop]; simp only [h1, if_true]
  · intro h1 h2 h3; rw [WriteHashTable_loop]; simp only [h1, h2, h3, if_true, if_false]

theorem WriteHTBucket_eq_loop {V : Type} (dev : Device) (fn : WriteElementFn V) (f : FILE)
    (offset : Nat) (li : List (HTKeyValue_t V)) (h : LinkedList_NumElements li ≠ 0) :
    WriteHTBucket dev f offset li fn =
      WriteHTBucket_loop dev fn offset (li.take (LinkedList_NumElements li).toNat) f offset
        (toUInt64 (offset + sizeofElementPositionRecord * LinkedList_NumElements li)) := by
  simp only [WriteHTBucket, h, if_false]

/-- A failure of the nested `WriteHashTable` of a word makes the enclosing
`WriteHashTable` of the index return `kFailedWrite`, with the file as the nested call
left it. -/
theorem WriteMemIndex_of_nested_failure (dev : Device) (f : FILE) (offset : Nat) (mi : MemIndex)
    (bpre : List (List (HTKeyValue_t WordPostings))) (li : List (HTKeyValue_t WordPostings))
    (bpost : List (List (HTKeyValue_t WordPostings)))
    (lpre : List (HTKeyValue_t WordPostings)) (kv : HTKeyValue_t WordPostings)
    (lpost : List (HTKeyValue_t WordPostings)) (f1 f2 g1 g2 : FILE) (s1 s2 : FILE × Nat × Nat)
    (h1 : dev.fseek f offset = some f1)
    (h2 : dev.fwrite f1 (BucketListHeader.ToDiskFormat mi.num_buckets) = some f2)
    (h3 : mi.buckets.take mi.num_buckets.toNat = bpre ++ li :: bpost)
    (h4 : loopState (WriteHashTable_next dev (WriteWordToPostingsFn dev)) bpre
      (f2, toUInt64 (offset + sizeofBucketListHeader),
        toUInt64 (offset + sizeofBucketListHeader + mi.num_buckets * sizeofBucketRecord)) =
      some s1)
    (h5 : (WriteHTBucketRecord dev s1.1 s1.2.1 (LinkedList_NumElements li) s1.2.2).1 ≠
      kFailedWrite)
    (h6 : LinkedList_NumElements li > 0)
    (h7 : li.take (LinkedList_NumElements li).toNat = lpre ++ kv :: lpost)
    (h8 : loopState (WriteHTBucket_next dev (WriteWordToPostingsFn dev)) lpre
      ((WriteHTBucketRecord dev s1.1 s1.2.1 (LinkedList_NumElements li) s1.2.2).2, s1.2.2,
        toUInt64 (s1.2.2 + sizeofElementPositionRecord * LinkedList_NumElements li)) = some s2)
    (h9 : dev.fseek s2.1 s2.2.1 = some g1)
    (h10 : dev.fwrite g1 (ElementPositionRecord.ToDiskFormat s2.2.2) = some g2)
    (h11 : (WriteHashTable dev g2
      (toUInt64 (s2.2.2 + sizeofWordPostingsHeader + toInt16 kv.value.word.length))
      kv.value.postings (WriteDocIDToPositionListFn dev)).1 = kFailedWrite) :
    WriteMemIndex dev f mi offset =
      (kFailedWrite, (WriteHashTable dev g2
        (toUInt64 (s2.2.2 + sizeofWordPostingsHeader + toInt16 kv.value.word.length))
        kv.value.postings (WriteDocIDToPositionListFn dev)).2) := by
  have hfn : WriteWordToPostingsFn dev g2 s2.2.2 kv =
      (kFailedWrite, (WriteHashTable dev g2
        (toUInt64 (s2.2.2 + sizeofWordPostingsHeader + toInt16 kv.value.word.length))
        kv.value.postings (WriteDocIDToPositionListFn dev)).2) := by
    simp only [WriteWordToPostingsFn, h11, if_true]
  have hne : LinkedList_NumElements li ≠ 0 := fun e => by rw [e] at h6; exact absurd h6 (by decide)
  have hb : WriteHTBucket dev
      (WriteHTBucketRecord dev s1.1 s1.2.1 (LinkedList_NumElements li) s1.2.2).2 s1.2.2 li
      (WriteWordToPostingsFn dev) =
      (kFailedWrite, (WriteHashTable dev g2
        (toUInt64 (s2.2.2 + sizeofWordPostingsHeader + toInt16 kv.value.word.length))
        kv.value.postings (WriteDocIDToPositionListFn dev)).2) := by
    rw [WriteHTBucket_eq_loop dev _ _ _ li hne, h7]
    have := (WriteHTBucket_of_element_failure dev (WriteWordToPostingsFn dev) s1.2.2 lpre kv
      lpost _ s2 h8).2.2 g1 g2 h9 h10 (by rw [hfn])
    rw [hfn] at this
    exact this
  unfold WriteMemIndex
  rw [WriteHashTable]
  simp only [h1, h2, h3]
  have := (WriteHashTable_of_bucket_failure dev (WriteWordToPostingsFn dev) offset bpre li bpost
    _ s1 h4).2 h5 h6 (by rw [hb])
  rw [hb] at this
  exact this

theorem WriteDocIDToPositionListFn_of_failure (dev : Device) (f : FILE) (offset : Nat)
    (kv : HTKeyValue_t (List Nat)) :
    (dev.fseek f offset = none →
      WriteDocIDToPositionListFn dev f offset kv = (kFailedWrite, f)) ∧
    (∀ f1, dev.fseek f offset = some f1 →
      dev.fwrite f1 (DocIDElementHeader.ToDiskFormat kv.key (LinkedList_NumElements kv.value)) =
        none →
      WriteDocIDToPositionListFn dev f offset kv = (kFailedWrite, f1)) ∧
    (∀ f1 f2 f3 pre p post, dev.fseek f offset = some f1 →
      dev.fwrite f1 (DocIDElementHeader.ToDiskFormat kv.key (LinkedList_NumElements kv.value)) =
        some f2 →
      kv.value.take (LinkedList_NumElements kv.value).toNat = pre ++ p :: post →
      loopState (WriteDocIDToPositionListFn_next dev) pre f2 = some f3 →
      dev.fwrite f3 (DocIDElementPosition.ToDiskFormat (p % 4294967296)) = none →
      WriteDocIDToPositionListFn dev f offset kv = (kFailedWrite, f3)) := by
  refine ⟨?_, ?_, ?_⟩
  · intro h; simp only [WriteDocIDToPositionListFn, h]
  · intro f1 h1 h2; simp only [WriteDocIDToPositionListFn, h1, h2]
  · intro f1 f2 f3 pre p post h1 h2 h3 h4 h5
    simp only [WriteDocIDToPositionListFn, h1, h2, h3]
    rw [(WriteDocIDToPositionListFn_loop_state dev _ pre (p :: post) f2).1 f3 h4,
      WriteDocIDToPositionListFn_loop]
    simp only [h5]

theorem WriteDocidToDocnameFn_of_failure (dev : Device) (f : FILE) (offset : Nat)
    (kv : HTKeyValue_t (List Nat)) :
    (dev.fseek f offset = none → WriteDocidToDocnameFn dev f offset kv = (kFailedWrite, f)) ∧
    (∀ f1, dev.fseek f offset = some f1 →
      dev.fwrite f1 (DoctableElementHeader.ToDiskFormat kv.key (toInt16 kv.value.length)) = none →
      WriteDocidToDocnameFn dev f offset kv = (kFailedWrite, f1)) ∧
    (∀ f1 f2, dev.fseek f offset = some f1 →
      dev.fwrite f1 (DoctableElementHeader.ToDiskFormat kv.key (toInt16 kv.value.length)) =
        some f2 →
      fwriteString dev f2 kv.value (toInt16 kv.value.length) = none →
      WriteDocidToDocnameFn dev f offset kv = (kFailedWrite, f2)) := by
  refine ⟨?_, ?_, ?_⟩
  · intro h; simp only [WriteDocidToDocnameFn, h]
  · intro f1 h1 h2; simp only [WriteDocidToDocnameFn, h1, h2]
  · intro f1 f2 h1 h2 h3; simp only [WriteDocidToDocnameFn, h1, h2, h3]

theorem WriteWordToPostingsFn_of_failure (dev : Device) (f : FILE) (offset : Nat)
    (kv : HTKeyValue_t WordPostings) :
    ((WriteHashTable dev f
        (toUInt64 (offset + sizeofWordPostingsHeader + toInt16 kv.value.word.length))
        kv.value.postings (WriteDocIDToPositionListFn dev)).1 = kFailedWrite →
      WriteWordToPostingsFn dev f offset kv =
        (kFailedWrite, (WriteHashTable dev f
          (toUInt64 (offset + sizeofWordPostingsHeader + toInt16 kv.value.word.length))
          kv.value.postings (WriteDocIDToPositionListFn dev)).2)) ∧
    (∀ r, WriteHashTable dev f
        (toUInt64 (offset + sizeofWordPostingsHeader + toInt16 kv.value.word.length))
        kv.value.postings (WriteDocIDToPositionListFn dev) = r → r.1 ≠ kFailedWrite →
      (dev.fseek r.2 offset = none → WriteWordToPostingsFn dev f offset kv = (kFailedWrite, r.2)) ∧
      (∀ f1, dev.fseek r.2 offset = some f1 →
        dev.fwrite f1 (WordPostingsHeader.ToDiskFormat (toInt16 kv.value.word.length) r.1) =
          none →
        WriteWordToPostingsFn dev f offset kv = (kFailedWrite, f1)) ∧
      (∀ f1 f2, dev.fseek r.2 offset = some f1 →
        dev.fwrite f1 (WordPostingsHeader.ToDiskFormat (toInt16 kv.value.word.length) r.1) =
          some f2 →
        fwriteString dev f2 kv.value.word (toInt16 kv.value.word.length) = none →
        WriteWordToPostingsFn dev f offset kv = (kFailedWrite, f2))) := by
  refine ⟨?_, ?_⟩
  · intro h; simp only [WriteWordToPostingsFn, h, if_true]
  · intro r hr hok
    refine ⟨?_, ?_, ?_⟩
    · intro h; simp only [WriteWordToPostingsFn, hr, hok, if_false, h]
    · intro f1 h1 h2; simp only [WriteWordToPostingsFn, hr, hok, if_false, h1, h2]
    · intro f1 f2 h1 h2 h3; simp only [WriteWordToPostingsFn, hr, hok, if_false, h1, h2, h3]

set_option maxRecDepth 100000 in
theorem sampleFullDevice_run :
    sampleFullDevice.fseek ⟨[], 0⟩ 0 = some ⟨[], 0⟩ ∧
    sampleFullDevice.fwrite ⟨[], 0⟩ (BucketListHeader.ToDiskFormat sampleMemIndex.num_buckets) =
      some ⟨[0, 0, 0, 2], 4⟩ ∧
    sampleMemIndex.buckets.take sampleMemIndex.num_buckets.toNat =
      [] ++ sampleMemIndex.buckets.getD 0 [] :: [sampleMemIndex.buckets.getD 1 []] ∧
    (WriteHTBucketRecord sampleFullDevice ⟨[0, 0, 0, 2], 4⟩
      (toUInt64 (((0 : Nat) : Int) + sizeofBucketListHeader))
      (LinkedList_NumElements (sampleMemIndex.buckets.getD 0 []))
      (toUInt64 (((0 : Nat) : Int) + sizeofBucketListHeader +
        sampleMemIndex.num_buckets * sizeofBucketRecord))).1 ≠ kFailedWrite ∧
    LinkedList_NumElements (sampleMemIndex.buckets.getD 0 []) > 0 ∧
    (sampleMemIndex.buckets.getD 0 []).take
        (LinkedList_NumElements (sampleMemIndex.buckets.getD 0 [])).toNat =
      [] ++ ⟨sampleHash wordBanana, ⟨wordBanana, ⟨[[⟨2, [0]⟩], [⟨1, [6]⟩]]⟩⟩⟩ ::
        [⟨sampleHash wordCherry, ⟨wordCherry, ⟨[[⟨2, [7]⟩], []]⟩⟩⟩] ∧
    sampleFullDevice.fseek
      (WriteHTBucketRecord sampleFullDevice ⟨[0, 0, 0, 2], 4⟩
        (toUInt64 (((0 : Nat) : Int) + sizeofBucketListHeader))
        (LinkedList_NumElements (sampleMemIndex.buckets.getD 0 []))
        (toUInt64 (((0 : Nat) : Int) + sizeofBucketListHeader +
          sampleMemIndex.num_buckets * sizeofBucketRecord))).2
      (toUInt64 (((0 : Nat) : Int) + sizeofBucketListHeader +
        sampleMemIndex.num_buckets * sizeofBucketRecord)) =
      some ⟨[0, 0, 0, 2, 0, 0, 0, 2, 0, 0, 0, 0, 0, 0, 0, 28], 28⟩ ∧
    sampleFullDevice.fwrite ⟨[0, 0, 0, 2, 0, 0, 0, 2, 0, 0, 0, 0, 0, 0, 0, 28], 28⟩
      (ElementPositionRecord.ToDiskFormat
        (toUInt64 (((toUInt64 (((0 : Nat) : Int) + sizeofBucketListHeader +
          sampleMemIndex.num_buckets * sizeofBucketRecord) : Nat) : Int) +
          sizeofElementPositionRecord *
            LinkedList_NumElements (sampleMemIndex.buckets.getD 0 [])))) =
      some ⟨[0, 0, 0, 2, 0, 0, 0, 2, 0, 0, 0, 0, 0, 0, 0, 28, 0, 0, 0, 0, 0, 0, 0, 0, 0, 0, 0,
        0, 0, 0, 0, 0, 0, 0, 0, 44], 36⟩ ∧
    (WriteHashTable sampleFullDevice
      ⟨[0, 0, 0, 2, 0, 0, 0, 2, 0, 0, 0, 0, 0, 0, 0, 28, 0, 0, 0, 0, 0, 0, 0, 0, 0, 0, 0,
        0, 0, 0, 0, 0, 0, 0, 0, 44], 36⟩
      (toUInt64 (((toUInt64 (((toUInt64 (((0 : Nat) : Int) + sizeofBucketListHeader +
          sampleMemIndex.num_buckets * sizeofBucketRecord) : Nat) : Int) +
          sizeofElementPositionRecord *
            LinkedList_NumElements (sampleMemIndex.buckets.getD 0 [])) : Nat) : Int) +
        sizeofWordPostingsHeader + toInt16 ((wordBanana.length : Nat) : Int)))
      (⟨[[⟨2, [0]⟩], [⟨1, [6]⟩]]⟩ : HashTable (List Nat))
      (WriteDocIDToPositionListFn sampleFullDevice)).1 = kFailedWrite := by
  refine ⟨by decide!, by decide!, by decide!, by decide!, by decide!, by decide!, by decide!,
    by decide!, by decide!⟩

/-- C9 fails on the code: the sixteen-byte file `sampleWrappedFile` has the sample
magic number and both length fields `0x80000000`, so header size + doctable_bytes +
index_bytes is 4294967312 and not the file's length 16; the constructor compares the
length with that sum cast to a 32-bit unsigned, which is 16, and opens the file, with
validate off and also with validate on (the signed byte count is 0 and the checksum
field holds the CRC32 of no bytes). -/
theorem FileIndexReader_opens_wrapped_file :
    sampleWrappedFile.length = 16 ∧
    (IndexFileHeader.ToHostFormat (sampleWrappedFile.take sizeofIndexFileHeader)).magic_number =
      sampleMagic ∧
    (IndexFileHeader.ToHostFormat (sampleWrappedFile.take sizeofIndexFileHeader)).doctable_bytes =
      2147483648 ∧
    (IndexFileHeader.ToHostFormat (sampleWrappedFile.take sizeofIndexFileHeader)).index_bytes =
      2147483648 ∧
    sizeofIndexFileHeader +
      (IndexFileHeader.ToHostFormat (sampleWrappedFile.take sizeofIndexFileHeader)).doctable_bytes +
      (IndexFileHeader.ToHostFormat (sampleWrappedFile.take sizeofIndexFileHeader)).index_bytes =
      4294967312 ∧
    (FileIndexReader.construct sampleMagic (some sampleWrappedFile) false).isSome = true ∧
    (FileIndexReader.construct sampleMagic (some sampleWrappedFile) true).isSome = true := by
  refine ⟨by decide, by decide!, by decide!, by decide!, by decide!, by decide!, by decide!⟩

theorem WriteMemIndex_of_refused_write (dev : Device) (f : FILE) (offset : Nat) (mi : MemIndex)
    (bpre : List (List (HTKeyValue_t WordPostings))) (li : List (HTKeyValue_t WordPostings))
    (bpost : List (List (HTKeyValue_t WordPostings)))
    (lpre : List (HTKeyValue_t WordPostings)) (kv : HTKeyValue_t WordPostings)
    (lpost : List (HTKeyValue_t WordPostings)) (f1 f2 g1 g2 : FILE) (s1 s2 : FILE × Nat × Nat)
    (h1 : dev.fseek f offset = some f1)
    (h2 : dev.fwrite f1 (BucketListHeader.ToDiskFormat mi.num_buckets) = some f2)
    (h3 : mi.buckets.take mi.num_buckets.toNat = bpre ++ li :: bpost)
    (h4 : loopState (WriteHashTable_next dev (WriteWordToPostingsFn dev)) bpre
      (f2, toUInt64 (offset + sizeofBucketListHeader),
        toUInt64 (offset + sizeofBucketListHeader + mi.num_buckets * sizeofBucketRecord)) =
      some s1)
    (h5 : (WriteHTBucketRecord dev s1.1 s1.2.1 (LinkedList_NumElements li) s1.2.2).1 ≠
      kFailedWrite)
    (h6 : LinkedList_NumElements li > 0)
    (h7 : li.take (LinkedList_NumElements li).toNat = lpre ++ kv :: lpost)
    (h8 : loopState (WriteHTBucket_next dev (WriteWordToPostingsFn dev)) lpre
      ((WriteHTBucketRecord dev s1.1 s1.2.1 (LinkedList_NumElements li) s1.2.2).2, s1.2.2,
        toUInt64 (s1.2.2 + sizeofElementPositionRecord * LinkedList_NumElements li)) = some s2)
    (h9 : dev.fseek s2.1 s2.2.1 = some g1)
    (h10 : dev.fwrite g1 (ElementPositionRecord.ToDiskFormat s2.2.2) = some g2) :
    (dev.fseek g2
        (toUInt64 (s2.2.2 + sizeofWordPostingsHeader + toInt16 kv.value.word.length)) = none →
      WriteMemIndex dev f mi offset = (kFailedWrite, g2)) ∧
    (∀ g3, dev.fseek g2
        (toUInt64 (s2.2.2 + sizeofWordPostingsHeader + toInt16 kv.value.word.length)) =
        some g3 →
      dev.fwrite g3 (BucketListHeader.ToDiskFormat kv.value.postings.num_buckets) = none →
      WriteMemIndex dev f mi offset = (kFailedWrite, g3)) := by
  refine ⟨?_, ?_⟩
  · intro hs
    have hn : WriteHashTable dev g2
        (toUInt64 (s2.2.2 + sizeofWordPostingsHeader + toInt16 kv.value.word.length))
        kv.value.postings (WriteDocIDToPositionListFn dev) = (kFailedWrite, g2) := by
      simp only [WriteHashTable, hs]
    have := WriteMemIndex_of_nested_failure dev f offset mi bpre li bpost lpre kv lpost f1 f2 g1
      g2 s1 s2 h1 h2 h3 h4 h5 h6 h7 h8 h9 h10 (by rw [hn])
    rw [hn] at this
    exact this
  · intro g3 hs hw
    have hn : WriteHashTable dev g2
        (toUInt64 (s2.2.2 + sizeofWordPostingsHeader + toInt16 kv.value.word.length))
        kv.value.postings (WriteDocIDToPositionListFn dev) = (kFailedWrite, g3) := by
      simp only [WriteHashTable, hs, hw]
    have := WriteMemIndex_of_nested_failure dev f offset mi bpre li bpost lpre kv lpost f1 f2 g1
      g2 s1 s2 h1 h2 h3 h4 h5 h6 h7 h8 h9 h10 (by rw [hn])
    rw [hn] at this
    exact this

/-- C29: a failing step ends the region write with the failure value and nothing is
written after it.  `WriteHTBucketRecord` returns `kFailedWrite` when its seek or its
write is refused.  In `WriteHTBucket`, when the iterations for the elements before
`kv` have succeeded and reached the state `s1`, a refused seek, a refused write of
the element-position record or a failed element encoder call for `kv` makes the
function return `kFailedWrite` with the file as the failing step left it, whatever
elements follow; and whenever some iteration fails, `WriteHTBucket` returns
`kFailedWrite`.  The same holds for the bucket loop of `WriteHashTable` (a failed
`WriteHTBucketRecord`, a failed `WriteHTBucket`) and for its header.  The three
element encoders return `kFailedWrite` when one of their seeks or writes is refused,
the position of any index included, and `WriteWordToPostingsFn` when its nested
`WriteHashTable` fails; and a failure of the nested `WriteHashTable` of a word that
the index writer reaches makes the enclosing `WriteHashTable` return `kFailedWrite`
with the file as the nested call left it; so does, in particular, a refused seek or
a refused write of the header of that nested table, and the file is then as the
refused step found it. -/
theorem WriteHashTable_failure_aborts {V : Type} (dev : Device) (fn : WriteElementFn V)
    (offset : Nat) :
    (∀ (f : FILE) (off : Nat) (n : Int) (bo : Nat),
      (dev.fseek f off = none → WriteHTBucketRecord dev f off n bo = (kFailedWrite, f)) ∧
      (∀ f1, dev.fseek f off = some f1 →
        dev.fwrite f1 (BucketRecord.ToDiskFormat n bo) = none →
        WriteHTBucketRecord dev f off n bo = (kFailedWrite, f1))) ∧
    (∀ (pre : List (HTKeyValue_t V)) (kv : HTKeyValue_t V) (post : List (HTKeyValue_t V))
        (s s1 : FILE × Nat × Nat),
      loopState (WriteHTBucket_next dev fn) pre s = some s1 →
      (dev.fseek s1.1 s1.2.1 = none →
        WriteHTBucket_loop dev fn offset (pre ++ kv :: post) s.1 s.2.1 s.2.2 =
          (kFailedWrite, s1.1)) ∧
      (∀ f1, dev.fseek s1.1 s1.2.1 = some f1 →
        dev.fwrite f1 (ElementPositionRecord.ToDiskFormat s1.2.2) = none →
        WriteHTBucket_loop dev fn offset (pre ++ kv :: post) s.1 s.2.1 s.2.2 =
          (kFailedWrite, f1)) ∧
      (∀ f1 f2, dev.fseek s1.1 s1.2.1 = some f1 →
        dev.fwrite f1 (ElementPositionRecord.ToDiskFormat s1.2.2) = some f2 →
        (fn f2 s1.2.2 kv).1 = kFailedWrite →
        WriteHTBucket_loop dev fn offset (pre ++ kv :: post) s.1 s.2.1 s.2.2 =
          (kFailedWrite, (fn f2 s1.2.2 kv).2))) ∧
    (∀ (f : FILE) (li : List (HTKeyValue_t V)), LinkedList_NumElements li ≠ 0 →
      loopState (WriteHTBucket_next dev fn) (li.take (LinkedList_NumElements li).toNat)
        (f, offset, toUInt64 (offset + sizeofElementPositionRecord * LinkedList_NumElements li)) =
        none →
      (WriteHTBucket dev f offset li fn).1 = kFailedWrite) ∧
    (∀ (pre : List (List (HTKeyValue_t V))) (li : List (HTKeyValue_t V))
        (post : List (List (HTKeyValue_t V))) (s s1 : FILE × Nat × Nat),
      loopState (WriteHashTable_next dev fn) pre s = some s1 →
      ((WriteHTBucketRecord dev s1.1 s1.2.1 (LinkedList_NumElements li) s1.2.2).1 =
          kFailedWrite →
        WriteHashTable_loop dev fn offset (pre ++ li :: post) s.1 s.2.1 s.2.2 =
          (kFailedWrite,
            (WriteHTBucketRecord dev s1.1 s1.2.1 (LinkedList_NumElements li) s1.2.2).2)) ∧
      ((WriteHTBucketRecord dev s1.1 s1.2.1 (LinkedList_NumElements li) s1.2.2).1 ≠
          kFailedWrite →
        LinkedList_NumElements li > 0 →
        (WriteHTBucket dev
          (WriteHTBucketRecord dev s1.1 s1.2.1 (LinkedList_NumElements li) s1.2.2).2
          s1.2.2 li fn).1 = kFailedWrite →
        WriteHashTable_loop dev fn offset (pre ++ li :: post) s.1 s.2.1 s.2.2 =
          (kFailedWrite, (WriteHTBucket dev
            (WriteHTBucketRecord dev s1.1 s1.2.1 (LinkedList_NumElements li) s1.2.2).2
            s1.2.2 li fn).2))) ∧
    (∀ (f : FILE) (ht : HashTable V),
      (dev.fseek f offset = none → WriteHashTable dev f offset ht fn = (kFailedWrite, f)) ∧
      (∀ f1, dev.fseek f offset = some f1 →
        dev.fwrite f1 (BucketListHeader.ToDiskFormat ht.num_buckets) = none →
        WriteHashTable dev f offset ht fn = (kFailedWrite, f1)) ∧
      (∀ f1 f2, dev.fseek f offset = some f1 →
        dev.fwrite f1 (BucketListHeader.ToDiskFormat ht.num_buckets) = some f2 →
        loopState (WriteHashTable_next dev fn) (ht.buckets.take ht.num_buckets.toNat)
          (f2, toUInt64 (offset + sizeofBucketListHeader),
            toUInt64 (offset + sizeofBucketListHeader + ht.num_buckets * sizeofBucketRecord)) =
          none →
        (WriteHashTable dev f offset ht fn).1 = kFailedWrite)) ∧
    (∀ (f : FILE) (kv : HTKeyValue_t (List Nat)),
      (dev.fseek f offset = none →
        WriteDocIDToPositionListFn dev f offset kv = (kFailedWrite, f)) ∧
      (∀ f1, dev.fseek f offset = some f1 →
        dev.fwrite f1
          (DocIDElementHeader.ToDiskFormat kv.key (LinkedList_NumElements kv.value)) = none →
        WriteDocIDToPositionListFn dev f offset kv = (kFailedWrite, f1)) ∧
      (∀ f1 f2 f3 pre p post, dev.fseek f offset = some f1 →
        dev.fwrite f1
          (DocIDElementHeader.ToDiskFormat kv.key (LinkedList_NumElements kv.value)) = some f2 →
        kv.value.take (LinkedList_NumElements kv.value).toNat = pre ++ p :: post →
        loopState (WriteDocIDToPositionListFn_next dev) pre f2 = some f3 →
        dev.fwrite f3 (DocIDElementPosition.ToDiskFormat (p % 4294967296)) = none →
        WriteDocIDToPositionListFn dev f offset kv = (kFailedWrite, f3))) ∧
    (∀ (f : FILE) (kv : HTKeyValue_t (List Nat)),
      (dev.fseek f offset = none → WriteDocidToDocnameFn dev f offset kv = (kFailedWrite, f)) ∧
      (∀ f1, dev.fseek f offset = some f1 →
        dev.fwrite f1 (DoctableElementHeader.ToDiskFormat kv.key (toInt16 kv.value.length)) =
          none →
        WriteDocidToDocnameFn dev f offset kv = (kFailedWrite, f1)) ∧
      (∀ f1 f2, dev.fseek f offset = some f1 →
        dev.fwrite f1 (DoctableElementHeader.ToDiskFormat kv.key (toInt16 kv.value.length)) =
          some f2 →
        fwriteString dev f2 kv.value (toInt16 kv.value.length) = none →
        WriteDocidToDocnameFn dev f offset kv = (kFailedWrite, f2))) ∧
    (∀ (f : FILE) (kv : HTKeyValue_t WordPostings),
      ((WriteHashTable dev f
          (toUInt64 (offset + sizeofWordPostingsHeader + toInt16 kv.value.word.length))
          kv.value.postings (WriteDocIDToPositionListFn dev)).1 = kFailedWrite →
        WriteWordToPostingsFn dev f offset kv =
          (kFailedWrite, (WriteHashTable dev f
            (toUInt64 (offset + sizeofWordPostingsHeader + toInt16 kv.value.word.length))
            kv.value.postings (WriteDocIDToPositionListFn dev)).2)) ∧
      (∀ r, WriteHashTable dev f
          (toUInt64 (offset + sizeofWordPostingsHeader + toInt16 kv.value.word.length))
          kv.value.postings (WriteDocIDToPositionListFn dev) = r → r.1 ≠ kFailedWrite →
        (dev.fseek r.2 offset = none →
          WriteWordToPostingsFn dev f offset kv = (kFailedWrite, r.2)) ∧
        (∀ f1, dev.fseek r.2 offset = some f1 →
          dev.fwrite f1 (WordPostingsHeader.ToDiskFormat (toInt16 kv.value.word.length) r.1) =
            none →
          WriteWordToPostingsFn dev f offset kv = (kFailedWrite, f1)) ∧
        (∀ f1 f2, dev.fseek r.2 offset = some f1 →
          dev.fwrite f1 (WordPostingsHeader.ToDiskFormat (toInt16 kv.value.word.length) r.1) =
            some f2 →
          fwriteString dev f2 kv.value.word (toInt16 kv.value.word.length) = none →
          WriteWordToPostingsFn dev f offset kv = (kFailedWrite, f2)))) ∧
    (∀ (f : FILE) (mi : MemIndex) (bpre : List (List (HTKeyValue_t WordPostings)))
        (li : List (HTKeyValue_t WordPostings)) (bpost : List (List (HTKeyValue_t WordPostings)))
        (lpre : List (HTKeyValue_t WordPostings)) (kv : HTKeyValue_t WordPostings)
        (lpost : List (HTKeyValue_t WordPostings)) (f1 f2 g1 g2 : FILE)
        (s1 s2 : FILE × Nat × Nat),
      dev.fseek f offset = some f1 →
      dev.fwrite f1 (BucketListHeader.ToDiskFormat mi.num_buckets) = some f2 →
      mi.buckets.take mi.num_buckets.toNat = bpre ++ li :: bpost →
      loopState (WriteHashTable_next dev (WriteWordToPostingsFn dev)) bpre
        (f2, toUInt64 (offset + sizeofBucketListHeader),
          toUInt64 (offset + sizeofBucketListHeader + mi.num_buckets * sizeofBucketRecord)) =
        some s1 →
      (WriteHTBucketRecord dev s1.1 s1.2.1 (LinkedList_NumElements li) s1.2.2).1 ≠
        kFailedWrite →
      LinkedList_NumElements li > 0 →
      li.take (LinkedList_NumElements li).toNat = lpre ++ kv :: lpost →
      loopState (WriteHTBucket_next dev (WriteWordToPostingsFn dev)) lpre
        ((WriteHTBucketRecord dev s1.1 s1.2.1 (LinkedList_NumElements li) s1.2.2).2, s1.2.2,
          toUInt64 (s1.2.2 + sizeofElementPositionRecord * LinkedList_NumElements li)) =
        some s2 →
      dev.fseek s2.1 s2.2.1 = some g1 →
      dev.fwrite g1 (ElementPositionRecord.ToDiskFormat s2.2.2) = some g2 →
      (WriteHashTable dev g2
        (toUInt64 (s2.2.2 + sizeofWordPostingsHeader + toInt16 kv.value.word.length))
        kv.value.postings (WriteDocIDToPositionListFn dev)).1 = kFailedWrite →
      WriteMemIndex dev f mi offset =
        (kFailedWrite, (WriteHashTable dev g2
          (toUInt64 (s2.2.2 + sizeofWordPostingsHeader + toInt16 kv.value.word.length))
          kv.value.postings (WriteDocIDToPositionListFn dev)).2)) ∧
    (∀ (f : FILE) (mi : MemIndex) (bpre : List (List (HTKeyValue_t WordPostings)))
        (li : List (HTKeyValue_t WordPostings)) (bpost : List (List (HTKeyValue_t WordPostings)))
        (lpre : List (HTKeyValue_t WordPostings)) (kv : HTKeyValue_t WordPostings)
        (lpost : List (HTKeyValue_t WordPostings)) (f1 f2 g1 g2 : FILE)
        (s1 s2 : FILE × Nat × Nat),
      dev.fseek f offset = some f1 →
      dev.fwrite f1 (BucketListHeader.ToDiskFormat mi.num_buckets) = some f2 →
      mi.buckets.take mi.num_buckets.toNat = bpre ++ li :: bpost →
      loopState (WriteHashTable_next dev (WriteWordToPostingsFn dev)) bpre
        (f2, toUInt64 (offset + sizeofBucketListHeader),
          toUInt64 (offset + sizeofBucketListHeader + mi.num_buckets * sizeofBucketRecord)) =
        some s1 →
      (WriteHTBucketRecord dev s1.1 s1.2.1 (LinkedList_NumElements li) s1.2.2).1 ≠
        kFailedWrite →
      LinkedList_NumElements li > 0 →
      li.take (LinkedList_NumElements li).toNat = lpre ++ kv :: lpost →
      loopState (WriteHTBucket_next dev (WriteWordToPostingsFn dev)) lpre
        ((WriteHTBucketRecord dev s1.1 s1.2.1 (LinkedList_NumElements li) s1.2.2).2, s1.2.2,
          toUInt64 (s1.2.2 + sizeofElementPositionRecord * LinkedList_NumElements li)) =
        some s2 →
      dev.fseek s2.1 s2.2.1 = some g1 →
      dev.fwrite g1 (ElementPositionRecord.ToDiskFormat s2.2.2) = some g2 →
      (dev.fseek g2
          (toUInt64 (s2.2.2 + sizeofWordPostingsHeader + toInt16 kv.value.word.length)) = none →
        WriteMemIndex dev f mi offset = (kFailedWrite, g2)) ∧
      (∀ g3, dev.fseek g2
          (toUInt64 (s2.2.2 + sizeofWordPostingsHeader + toInt16 kv.value.word.length)) =
          some g3 →
        dev.fwrite g3 (BucketListHeader.ToDiskFormat kv.value.postings.num_buckets) = none →
        WriteMemIndex dev f mi offset = (kFailedWrite, g3))) := by
  refine ⟨?_, ?_, ?_, ?_, ?_, ?_, ?_, ?_, ?_, ?_⟩
  · intro f off n bo
    refine ⟨?_, ?_⟩
    · intro h; simp only [WriteHTBucketRecord, h]
    · intro f1 h1 h2; simp only [WriteHTBucketRecord, h1, h2]
  · intro pre kv post s s1 h
    exact WriteHTBucket_of_element_failure dev fn offset pre kv post s s1 h
  · intro f li hne h
    rw [WriteHTBucket_eq_loop dev fn f offset li hne]
    have := (WriteHTBucket_loop_state dev fn offset _ [] _).2 h
    rw [List.append_nil] at this
    exact this
  · intro pre li post s s1 h
    exact WriteHashTable_of_bucket_failure dev fn offset pre li post s s1 h
  · intro f ht
    refine ⟨?_, ?_, ?_⟩
    · intro h; simp only [WriteHashTable, h]
    · intro f1 h1 h2; simp only [WriteHashTable, h1, h2]
    · intro f1 f2 h1 h2 h3
      simp only [WriteHashTable, h1, h2]
      have := (WriteHashTable_loop_state dev fn offset _ [] _).2 h3
      rw [List.append_nil] at this
      exact this
  · exact fun f kv => WriteDocIDToPositionListFn_of_failure dev f offset kv
  · exact fun f kv => WriteDocidToDocnameFn_of_failure dev f offset kv
  · exact fun f kv => WriteWordToPostingsFn_of_failure dev f offset kv
  · intro f mi bpre li bpost lpre kv lpost f1 f2 g1 g2 s1 s2 h1 h2 h3 h4 h5 h6 h7 h8 h9 h10 h11
    exact WriteMemIndex_of_nested_failure dev f offset mi bpre li bpost lpre kv lpost f1 f2 g1 g2
      s1 s2 h1 h2 h3 h4 h5 h6 h7 h8 h9 h10 h11
  · intro f mi bpre li bpost lpre kv lpost f1 f2 g1 g2 s1 s2 h1 h2 h3 h4 h5 h6 h7 h8 h9 h10
    exact WriteMemIndex_of_refused_write dev f offset mi bpre li bpost lpre kv lpost f1 f2 g1 g2
      s1 s2 h1 h2 h3 h4 h5 h6 h7 h8 h9 h10

set_option maxRecDepth 100000 in
theorem sampleFullDevice_refuses :
    sampleFullDevice.fseek
      ⟨[0, 0, 0, 2, 0, 0, 0, 2, 0, 0, 0, 0, 0, 0, 0, 28, 0, 0, 0, 0, 0, 0, 0, 0, 0, 0, 0,
        0, 0, 0, 0, 0, 0, 0, 0, 44], 36⟩
      (toUInt64 (((toUInt64 (((toUInt64 (((0 : Nat) : Int) + sizeofBucketListHeader +
          sampleMemIndex.num_buckets * sizeofBucketRecord) : Nat) : Int) +
          sizeofElementPositionRecord *
            LinkedList_NumElements (sampleMemIndex.buckets.getD 0 [])) : Nat) : Int) +
        sizeofWordPostingsHeader + toInt16 ((wordBanana.length : Nat) : Int))) =
      some ⟨[0, 0, 0, 2, 0, 0, 0, 2, 0, 0, 0, 0, 0, 0, 0, 28, 0, 0, 0, 0, 0, 0, 0, 0, 0, 0, 0,
        0, 0, 0, 0, 0, 0, 0, 0, 44], 56⟩ ∧
    sampleFullDevice.fwrite
      ⟨[0, 0, 0, 2, 0, 0, 0, 2, 0, 0, 0, 0, 0, 0, 0, 28, 0, 0, 0, 0, 0, 0, 0, 0, 0, 0, 0,
        0, 0, 0, 0, 0, 0, 0, 0, 44], 56⟩
      (BucketListHeader.ToDiskFormat
        (⟨[[⟨2, [0]⟩], [⟨1, [6]⟩]]⟩ : HashTable (List Nat)).num_buckets) = none := by
  refine ⟨by decide!, by decide!⟩

/-- The statement of C29 on the device that is full after 40 bytes, for the sample
index written from offset 0: the header, the record of bucket 0 and the
element-position record of its first entry are written (36 bytes); the nested table
of that entry, "banana", starts at offset 56 and the write of its header is refused,
so the index writer returns `kFailedWrite` and the file holds those 36 bytes and
nothing of the entry "cherry" or of bucket 1. -/
theorem WriteHashTable_failure_aborts_witness :
    WriteMemIndex sampleFullDevice ⟨[], 0⟩ sampleMemIndex 0 =
      (kFailedWrite,
        ⟨[0, 0, 0, 2, 0, 0, 0, 2, 0, 0, 0, 0, 0, 0, 0, 28, 0, 0, 0, 0, 0, 0, 0, 0, 0, 0, 0,
        0, 0, 0, 0, 0, 0, 0, 0, 44], 56⟩) :=
  ((WriteHashTable_failure_aborts sampleFullDevice (WriteWordToPostingsFn sampleFullDevice)
    0).2.2.2.2.2.2.2.2.2 ⟨[], 0⟩ sampleMemIndex [] (sampleMemIndex.buckets.getD 0 [])
    [sampleMemIndex.buckets.getD 1 []] []
    ⟨sampleHash wordBanana, ⟨wordBanana, ⟨[[⟨2, [0]⟩], [⟨1, [6]⟩]]⟩⟩⟩
    [⟨sampleHash wordCherry, ⟨wordCherry, ⟨[[⟨2, [7]⟩], []]⟩⟩⟩]
    ⟨[], 0⟩ ⟨[0, 0, 0, 2], 4⟩
    ⟨[0, 0, 0, 2, 0, 0, 0, 2, 0, 0, 0, 0, 0, 0, 0, 28], 28⟩
    ⟨[0, 0, 0, 2, 0, 0, 0, 2, 0, 0, 0, 0, 0, 0, 0, 28, 0, 0, 0, 0, 0, 0, 0, 0, 0, 0, 0,
        0, 0, 0, 0, 0, 0, 0, 0, 44], 36⟩
    _ _
    sampleFullDevice_run.1 sampleFullDevice_run.2.1 sampleFullDevice_run.2.2.1 rfl
    sampleFullDevice_run.2.2.2.1 sampleFullDevice_run.2.2.2.2.1
    sampleFullDevice_run.2.2.2.2.2.1 rfl
    sampleFullDevice_run.2.2.2.2.2.2.1 sampleFullDevice_run.2.2.2.2.2.2.2.1).2
    _ sampleFullDevice_refuses.1 sampleFullDevice_refuses.2

set_option maxRecDepth 100000 in
theorem sampleDocument_words :
    wordApple ∈ (InsertContent sampleDocument).map Prod.fst ∧
      wordBanana ∈ (InsertContent sampleDocument).map Prod.fst ∧
      wordPositions sampleDocument wordApple = [0, 13] ∧
      wordPositions sampleDocument wordBanana = [6] := by
  refine ⟨by decide!, by decide!, by decide!, by decide!⟩

/-- The statement of C35 at the document "apple banana apple": a table is
returned; in it "apple" is found with the positions 0 and 13 and "banana" with the
position 6, and its position lists hold the three positions of the three words. -/
theorem ParseIntoWordPositionsTable_positions_witness :
    ∃ tab, ParseIntoWordPositionsTable sampleHash sampleDocument = some (some tab) ∧
      HashTable_Find tab (sampleHash wordApple) =
        some ⟨sampleHash wordApple, ⟨wordApple, [0, 13]⟩⟩ ∧
      HashTable_Find tab (sampleHash wordBanana) =
        some ⟨sampleHash wordBanana, ⟨wordBanana, [6]⟩⟩ ∧
      (tab.buckets.flatten.map fun kv => kv.value.positions.length).sum =
        ((List.range sampleDocument.length).filter (isRunStart sampleDocument)).length :=
  let ⟨tab, h1, h2⟩ :=
    (ParseIntoWordPositionsTable_positions sampleHash sampleDocument (by decide)).2
      (by decide!) (by decide) (by decide)
  ⟨tab, h1, sampleDocument_words.2.2.1 ▸ h2 wordApple sampleDocument_words.1,
    sampleDocument_words.2.2.2 ▸ h2 wordBanana sampleDocument_words.2.1,
    ((ParseIntoWordPositionsTable_positions sampleHash sampleDocument (by decide)).1 tab h1).2⟩

end hw3
